import Mathlib

/-!
# rvmparser: the REV text reader (`src/parserREV.cpp`)

A shallow embedding of the recursive-descent reader `parseREV` and of the
functions it is built from, followed by theorems about them.

Conventions of the embedding.

* The byte span `[p, end)` is the list of the bytes that remain; the cursor
  `p` advancing is that list getting shorter, `p < end` is the list being
  non-empty.
* A function with an out-parameter returns `Option`: `none` is the C++
  `return false` (the out-parameter is then untouched), `some (v, p)` is
  `return true` with the value written and the new cursor.
* A pointer to a node or geometry is its index in the arena of the `Store`.
* The C library calls (`strtoul`, `strtof`, `isspace`, `vsnprintf`) and the
  parts of the repository that are declared outside `src/` (`Store.h`,
  `LinAlgOps.h`) are described by `Host` or by definitions marked as modelled.
-/

namespace RvmParser

/-- The bytes that remain between the cursor `p` and `end`. -/
abbrev Buf := List Char

/-! ## Lexical layer -/

/-- C `isspace` in the "C" locale: space, `\t`, `\n`, `\v`, `\f`, `\r`. -/
def isspace (c : Char) : Bool :=
  c = ' ' || c = '\t' || c = '\n' || c = '\x0b' || c = '\x0c' || c = '\r'

/-- Source `skip_ws`: advance the cursor over white space. -/
def skip_ws : Buf → Buf
  | [] => []
  | c :: cs => if isspace c then skip_ws cs else c :: cs

/-- Value of a decimal digit. -/
def digitVal (c : Char) : Option Nat :=
  if '0' ≤ c ∧ c ≤ '9' then some (c.toNat - '0'.toNat) else none

/-- The longest run of decimal digits at the cursor: the value accumulated so
far, the number of digits seen, and the first byte that is no digit. -/
def scanDigits : Nat → Nat → Buf → Nat × Nat × Buf
  | acc, n, [] => (acc, n, [])
  | acc, n, c :: cs =>
    match digitVal c with
    | some d => scanDigits (acc * 10 + d) (n + 1) cs
    | none => (acc, n, c :: cs)

/-- The digits of `strtoul` after the optional sign. `none` is no conversion.
A magnitude above `ULONG_MAX` gives `ULONG_MAX`; after a `-` the value is
negated in `unsigned long`. -/
def strtoul_digits (ulongMax : Nat) (neg : Bool) (r : Buf) : Option (Nat × Buf) :=
  match scanDigits 0 0 r with
  | (_, 0, _) => none
  | (v, _ + 1, ep) =>
    if v > ulongMax then some (ulongMax, ep)
    else if neg then some ((ulongMax + 1 - v) % (ulongMax + 1), ep)
    else some (v, ep)

/-- C `strtoul(p, &ep, 10)` at a cursor that is not at white space (the caller
has skipped it): an optional sign, then decimal digits. `none` is `ep == p` (no
conversion). The scan stays inside `[p, end)`. -/
def strtoul (ulongMax : Nat) (p : Buf) : Option (Nat × Buf) :=
  match p with
  | '-' :: r => strtoul_digits ulongMax true r
  | '+' :: r => strtoul_digits ulongMax false r
  | r => strtoul_digits ulongMax false r

/-- What the program takes from outside `src/`: the C library of the target
and the collaborators declared in `Store.h` and `LinAlgOps.h`. `F` is the type
`float`. -/
structure Host (F : Type) where
  /-- `ULONG_MAX`: `2^64 - 1` on LP64 targets, `2^32 - 1` on LLP64 ones. -/
  ulongMax : Nat
  /-- C `strtof(p, &ep)` at a cursor that is not at white space: the value and
  the number of bytes converted, `none` when `ep == p`. -/
  strtof : Buf → Option (F × Nat)
  /-- A conversion consumes at least one byte and stays inside the span. -/
  strtof_consumed : ∀ p v n, strtof p = some (v, n) → 0 < n ∧ n ≤ p.length
  /-- The float product `x * 0.001f`. -/
  mul_milli : F → F
  /-- `transform(M_3x4, bbox)` of `LinAlgOps.h`: the box through the affine map.
  Arrays are lists of slots, `none` being a slot never written. -/
  transform : List (Option F) → List (Option F) → List (Option F)
  /-- The transparency `Store::newNode` leaves in the fresh node of the given
  handle (the format default). It is not taken to be the same for every node. -/
  defaultTransparency : Nat → Nat

variable {F : Type}

/-- Source `read_u32`, with the scan of `strtoul` ending at `end`; the scan on
the memory that holds the buffer is `read_u32_mem`. -/
def read_u32 (H : Host F) (p : Buf) : Option (Nat × Buf) :=
  match skip_ws p with
  | [] => none
  | q@(_ :: _) =>
    match strtoul H.ulongMax q with
    | none => none
    | some (v, ep) => if v > 0xFFFFFFFF then none else some (v, ep)

/-- Source `read_f32`. -/
def read_f32 (H : Host F) (p : Buf) : Option (F × Buf) :=
  match skip_ws p with
  | [] => none
  | q@(_ :: _) =>
    match H.strtof q with
    | none => none
    | some (v, n) => some (v, q.drop n)

/-- Source `read_line`: the line without its `\n` and without one trailing
`\r`, and the cursor after the `\n` (or at `end`). -/
def read_line (p : Buf) : Option (List Char × Buf) :=
  match p with
  | [] => none
  | _ :: _ =>
    let line := p.takeWhile (fun c => c != '\n')
    let rest := (p.dropWhile (fun c => c != '\n')).drop 1
    some (if line.getLast? = some '\r' then line.dropLast else line, rest)

/-- Source `to_string_trim`: drop leading, then trailing, spaces and tabs. -/
def to_string_trim (s : List Char) : List Char :=
  let isBlank := fun c : Char => c = ' ' || c = '\t'
  ((s.dropWhile isBlank).reverse.dropWhile isBlank).reverse

/-- The idiom `if (p < end && (*p == '\r' || *p == '\n')) read_line(ls, le, p, end);`
that follows most reads: the rest of the current line is skipped. -/
def consume_eol (p : Buf) : Buf :=
  match p with
  | c :: _ =>
    if c = '\r' ∨ c = '\n' then
      match read_line p with
      | some (_, q) => q
      | none => p
    else p
  | [] => []

/-- Source `read_chunk_header_txt`: the trimmed identifier and the cursor
after the two reserved integers and the line break. -/
def read_chunk_header_txt (H : Host F) (p : Buf) : Option (List Char × Buf) :=
  match read_line p with
  | none => none
  | some (line, p1) =>
    match read_u32 H p1 with
    | none => none
    | some (_, p2) =>
      match read_u32 H p2 with
      | none => none
      | some (_, p3) => some (to_string_trim line, consume_eol p3)

/-! ## Data model (`Store.h`, not under `src/`) -/

/-- A C array of floats: slot `i` is `none` until it is written. -/
abbrev Arr (F : Type) := List (Option F)

/-- `Node::Kind`. -/
inductive NodeKind
  | File | Model | Group
  deriving DecidableEq, Repr

/-- `Geometry::Type`. -/
inductive GeometryType
  | Primitive | Obstruction | Insulation
  deriving DecidableEq, Repr

/-- `Geometry::Kind`. -/
inductive GeometryKind
  | Pyramid | Box | RectangularTorus | CircularTorus | EllipticalDish
  | SphericalDish | Snout | Cylinder | Sphere | Line | FacetGroup
  deriving DecidableEq, Repr

/-- `node->file`. -/
structure FileData where
  info : List Char := []
  note : List Char := []
  date : List Char := []
  user : List Char := []
  encoding : List Char := []
  path : List Char := []
  deriving DecidableEq, Repr

/-- `node->model`. -/
structure ModelData where
  project : List Char := []
  name : List Char := []
  deriving DecidableEq, Repr

/-- `node->group`. -/
structure GroupData (F : Type) where
  name : List Char := []
  translation : Arr F := [none, none, none]
  material : Option Nat := none
  transparency : Nat
  deriving DecidableEq, Repr

/-- A `Node` of the Store: its kind, its parent (both fixed by `newNode`) and
the members of its union. -/
structure Node (F : Type) where
  kind : NodeKind
  parent : Option Nat
  file : FileData := {}
  model : ModelData := {}
  group : GroupData F
  deriving DecidableEq, Repr

/-- `geometry->pyramid`. -/
structure Pyramid (F : Type) where
  bottom : Arr F := [none, none]
  top : Arr F := [none, none]
  offset : Arr F := [none, none]
  height : Option F := none
  deriving DecidableEq, Repr

/-- `geometry->box`. -/
structure Box (F : Type) where
  lengths : Arr F := [none, none, none]
  deriving DecidableEq, Repr

/-- `geometry->rectangularTorus`. -/
structure RectangularTorus (F : Type) where
  inner_radius : Option F := none
  outer_radius : Option F := none
  height : Option F := none
  angle : Option F := none
  deriving DecidableEq, Repr

/-- `geometry->circularTorus`. -/
structure CircularTorus (F : Type) where
  offset : Option F := none
  radius : Option F := none
  angle : Option F := none
  deriving DecidableEq, Repr

/-- `geometry->ellipticalDish` and `geometry->sphericalDish`. -/
structure Dish (F : Type) where
  baseRadius : Option F := none
  height : Option F := none
  deriving DecidableEq, Repr

/-- `geometry->snout`. -/
structure Snout (F : Type) where
  radius_b : Option F := none
  radius_t : Option F := none
  height : Option F := none
  offset : Arr F := [none, none]
  bshear : Arr F := [none, none]
  tshear : Arr F := [none, none]
  deriving DecidableEq, Repr

/-- `geometry->cylinder`. -/
structure Cylinder (F : Type) where
  radius : Option F := none
  height : Option F := none
  deriving DecidableEq, Repr

/-- `geometry->line`. -/
structure Line (F : Type) where
  a : Option F := none
  b : Option F := none
  deriving DecidableEq, Repr

/-- `Contour`: `vertices_n` and the two arena arrays of `3 * vertices_n` floats. -/
structure Contour (F : Type) where
  vertices_n : Option Nat := none
  vertices : Arr F := []
  normals : Arr F := []
  deriving DecidableEq, Repr

/-- `Polygon`: `contours_n` and the arena array of contours. Entry `i` of
`contours` is the `i`-th contour; the entries the loop has not reached yet are
absent from the list. -/
structure Polygon (F : Type) where
  contours_n : Option Nat := none
  contours : List (Contour F) := []
  deriving DecidableEq, Repr

/-- `geometry->facetGroup`, with `polygons` as for `Polygon.contours`. -/
structure FacetGroup (F : Type) where
  polygons_n : Option Nat := none
  polygons : List (Polygon F) := []
  deriving DecidableEq, Repr

/-- The fields of a `Geometry` that `parse_prim_txt` writes. A field is `none`
(a slot of an array is `none`) until it is written. The members of the payload
union are kept side by side. -/
structure Geometry (F : Type) where
  type : Option GeometryType := none
  transparency : Option Nat := none
  M_3x4 : Arr F := List.replicate 12 none
  bboxLocal : Arr F := List.replicate 6 none
  bboxWorld : Arr F := List.replicate 6 none
  kind : Option GeometryKind := none
  pyramid : Pyramid F := {}
  box : Box F := {}
  rectangularTorus : RectangularTorus F := {}
  circularTorus : CircularTorus F := {}
  ellipticalDish : Dish F := {}
  sphericalDish : Dish F := {}
  snout : Snout F := {}
  cylinder : Cylinder F := {}
  line : Line F := {}
  facetGroup : FacetGroup F := {}
  deriving DecidableEq, Repr

/-- A Geometry in the arena together with the node it was created under. -/
structure GeometryNode (F : Type) where
  parent : Nat
  geo : Geometry F
  deriving DecidableEq, Repr

/-- Modelled from the spec: the `Store` (`Store.h` is not under `src/`). An
append-only arena of nodes and one of geometries, a handle being the index in
its arena; the error strings passed to `setErrorString`, oldest first; the
counts as of the last `updateCounts`. Interned strings are held by value. -/
structure Store (F : Type) where
  nodes : List (Node F) := []
  geometries : List (GeometryNode F) := []
  errors : List (List Char) := []
  counts : Option (Nat × Nat) := none
  deriving DecidableEq, Repr

namespace Store

/-- Modelled from the spec: `Store::newNode(parent, kind)` creates a node of
the given kind under the given parent (or none, for the File root) and returns
its handle. A fresh node carries the transparency the Store gives it, the
format default `H.defaultTransparency` of its handle. -/
def newNode (H : Host F) (s : Store F) (parent : Option Nat) (kind : NodeKind) :
    Store F × Nat :=
  ({ s with nodes := s.nodes ++
      [{ kind := kind, parent := parent, group := { transparency := H.defaultTransparency s.nodes.length } }] },
   s.nodes.length)

/-- Modelled from the spec: `Store::newGeometry(parent)` creates a Geometry
under the given node and returns its handle. -/
def newGeometry (s : Store F) (parent : Nat) : Store F × Nat :=
  ({ s with geometries := s.geometries ++ [{ parent := parent, geo := {} }] },
   s.geometries.length)

/-- Modelled from the spec: `Store::setErrorString`. -/
def setErrorString (s : Store F) (msg : List Char) : Store F :=
  { s with errors := s.errors ++ [msg] }

/-- Modelled from the spec: `Store::updateCounts` recomputes the aggregate
node and geometry counts. -/
def updateCounts (s : Store F) : Store F :=
  { s with counts := some (s.nodes.length, s.geometries.length) }

/-- The error string of the Store: the one set last. -/
def errorString (s : Store F) : Option (List Char) := s.errors.getLast?

/-- The read `node->kind`. -/
def kindOf (s : Store F) (h : Nat) : Option NodeKind := (s.nodes[h]?).map (·.kind)

/-- A write to a member of `node->file`. -/
def modifyFile (s : Store F) (h : Nat) (f : FileData → FileData) : Store F :=
  match s.nodes[h]? with
  | some n => { s with nodes := s.nodes.set h { n with file := f n.file } }
  | none => s

/-- A write to a member of `node->model`. -/
def modifyModel (s : Store F) (h : Nat) (f : ModelData → ModelData) : Store F :=
  match s.nodes[h]? with
  | some n => { s with nodes := s.nodes.set h { n with model := f n.model } }
  | none => s

/-- A write to a member of `node->group`. -/
def modifyGroup (s : Store F) (h : Nat) (f : GroupData F → GroupData F) : Store F :=
  match s.nodes[h]? with
  | some n => { s with nodes := s.nodes.set h { n with group := f n.group } }
  | none => s

/-- The writes `parse_prim_txt` made through `g->...`, put into the arena. -/
def setGeometry (s : Store F) (h : Nat) (g : Geometry F) : Store F :=
  match s.geometries[h]? with
  | some n => { s with geometries := s.geometries.set h { n with geo := g } }
  | none => s

end Store

/-- Source `Context`: the Store, the calls made to the logger (severity and
message, oldest first), the path label and the parent stack, its top first.
The error buffer is the fixed `char buf[1024]` of `parseREV`. -/
structure Context (F : Type) where
  store : Store F := {}
  logger : List (Nat × List Char) := []
  path : Option (List Char) := none
  stack : List Nat := []
  deriving DecidableEq, Repr

/-- The `%s` conversion of `vsnprintf` on `id.c_str()`: the bytes before the
first NUL. -/
def fmt_s (s : List Char) : List Char := s.takeWhile (fun c => c != '\x00')

/-- The `%u` and `%d` conversions of `vsnprintf` on a non-negative value. -/
def fmt_u (n : Nat) : List Char := (Nat.repr n).toList

/-- Source `set_error` with the message already formatted: `vsnprintf` keeps
at most `sizeof(buf) - 1 = 1023` bytes, which go to `setErrorString`. -/
def set_error (ctx : Context F) (msg : List Char) : Context F :=
  { ctx with store := ctx.store.setErrorString (msg.take 1023) }

/-- What a parse function leaves behind: its return value, the context and
the cursor (which the callers use only after `ok = true`). -/
structure Res (F : Type) where
  ok : Bool
  ctx : Context F
  p : Buf
  deriving DecidableEq, Repr

/-! ## Geometry decoders (`parse_prim_txt`) -/

/-- One link `!read_f32(slot, p, end)` of a chain joined by `||`: the slot is
written when the read succeeds; after a failed link (`none`) the later links
are not evaluated. -/
def f32_into {α : Type} (H : Host F) (set : F → α → α) : α × Option Buf → α × Option Buf
  | (a, none) => (a, none)
  | (a, some p) =>
    match read_f32 H p with
    | none => (a, none)
    | some (v, q) => (set v a, some q)

/-- One row `r[i][0..3]` of the matrix, a local array of `parse_prim_txt`. -/
structure Row (F : Type) where
  c0 : F
  c1 : F
  c2 : F
  c3 : F
  deriving DecidableEq, Repr

/-- The four reads `read_f32(r[i][0..3], p, end)` of one matrix row and the
line end after them. -/
def read_row (H : Host F) (p : Buf) : Option (Row F × Buf) :=
  match read_f32 H p with
  | none => none
  | some (a, p) =>
    match read_f32 H p with
    | none => none
    | some (b, p) =>
      match read_f32 H p with
      | none => none
      | some (c, p) =>
        match read_f32 H p with
        | none => none
        | some (d, p) => some (⟨a, b, c, d⟩, consume_eol p)

/-- The column-major fill of `M_3x4.data[0..11]` from the rows. -/
def fill_M_3x4 (r0 r1 r2 : Row F) : Arr F :=
  [some r0.c0, some r1.c0, some r2.c0,
   some r0.c1, some r1.c1, some r2.c1,
   some r0.c2, some r1.c2, some r2.c2,
   some r0.c3, some r1.c3, some r2.c3]

/-- The loop `for i < 3` over the matrix rows of `parse_prim_txt`: the three
rows and the cursor, or the index of the row that is missing. -/
def read_matrix (H : Host F) (p : Buf) : Except Nat ((Row F × Row F × Row F) × Buf) :=
  match read_row H p with
  | none => .error 0
  | some (r0, p) =>
    match read_row H p with
    | none => .error 1
    | some (r1, p) =>
      match read_row H p with
      | none => .error 2
      | some (r2, p) => .ok ((r0, r1, r2), p)

/-- A step between two links of a chain that only moves the cursor. -/
def eol_step {α : Type} : α × Option Buf → α × Option Buf
  | (a, none) => (a, none)
  | (a, some p) => (a, some (consume_eol p))

/-- The loop `for i < 6` over `g->bboxLocal.data[i]` of `parse_prim_txt`, with
the line end consumed after `i = 2` and `i = 5`. -/
def read_bbox (H : Host F) (g : Geometry F) (p : Buf) : Geometry F × Option Buf :=
  let wr := fun (i : Nat) (v : F) (g : Geometry F) =>
    { g with bboxLocal := g.bboxLocal.set i (some v) }
  (g, some p) |> f32_into H (wr 0) |> f32_into H (wr 1) |> f32_into H (wr 2) |> eol_step
    |> f32_into H (wr 3) |> f32_into H (wr 4) |> f32_into H (wr 5) |> eol_step

/-- The outcome of a part of `parse_prim_txt` working on the object `a`: it
goes on at cursor `p`, or it has called `set_error` with `msg` and returned
false. The writes made so far are in `a` either way. -/
inductive Step (α : Type) where
  | ok (a : α) (p : Buf)
  | err (a : α) (msg : List Char)
  deriving DecidableEq, Repr

/-- The loop `for vi < cont.vertices_n` of the FacetGroup case; `todo` is the
number of iterations left. The index `3 * vi + k` is computed in `uint32_t`
(`vi` is one), so modulo `2^32`. -/
def read_vertices (H : Host F) : (todo : Nat) → (vi : Nat) → Contour F → Buf → Step (Contour F)
  | 0, _, c, p => .ok c p
  | todo + 1, vi, c, p =>
    let wv := fun (k : Nat) (v : F) (c : Contour F) =>
      { c with vertices := c.vertices.set ((3 * vi + k) % 4294967296) (some v) }
    let wn := fun (k : Nat) (v : F) (c : Contour F) =>
      { c with normals := c.normals.set ((3 * vi + k) % 4294967296) (some v) }
    match (c, some p) |> f32_into H (wv 0) |> f32_into H (wv 1) |> f32_into H (wv 2) with
    | (c, none) => .err c "FacetGroup: bad vertex".toList
    | (c, some p) =>
      match (c, some (consume_eol p))
          |> f32_into H (wn 0) |> f32_into H (wn 1) |> f32_into H (wn 2) with
      | (c, none) => .err c "FacetGroup: bad normal".toList
      | (c, some p) => read_vertices H todo (vi + 1) c (consume_eol p)

/-- The loop `for ci < poly.contours_n` of the FacetGroup case. The contour
`poly.contours[ci]` joins the list once its `vertices_n` is written. -/
def read_contours (H : Host F) : (todo : Nat) → Polygon F → Buf → Step (Polygon F)
  | 0, poly, p => .ok poly p
  | todo + 1, poly, p =>
    match read_u32 H p with
    | none => .err poly "FacetGroup: missing vertices_n".toList
    | some (n, p) =>
      let cont : Contour F :=
        { vertices_n := some n
          vertices := List.replicate (3 * n) none
          normals := List.replicate (3 * n) none }
      match read_vertices H n 0 cont (consume_eol p) with
      | .err cont msg => .err { poly with contours := poly.contours ++ [cont] } msg
      | .ok cont p => read_contours H todo { poly with contours := poly.contours ++ [cont] } p

/-- The loop `for pi < g->facetGroup.polygons_n` of the FacetGroup case. The
polygon `polygons[pi]` joins the list once its `contours_n` is written. -/
def read_polygons (H : Host F) : (todo : Nat) → FacetGroup F → Buf → Step (FacetGroup F)
  | 0, fg, p => .ok fg p
  | todo + 1, fg, p =>
    match read_u32 H p with
    | none => .err fg "FacetGroup: missing contours_n".toList
    | some (n, p) =>
      match read_contours H n { contours_n := some n } (consume_eol p) with
      | .err poly msg => .err { fg with polygons := fg.polygons ++ [poly] } msg
      | .ok poly p => read_polygons H todo { fg with polygons := fg.polygons ++ [poly] } p

/-- The end of a chain of reads of one `if`: `msg` is the argument of
`set_error` in its body, the line end is consumed after it. -/
def chain_end {α : Type} (msg : String) : α × Option Buf → Step α
  | (a, none) => .err a msg.toList
  | (a, some p) => .ok a (consume_eol p)

/-- The second `if` of a case: evaluated only when the first one went on. -/
def Step.andThen {α : Type} (s : Step α) (f : α → Buf → Step α) : Step α :=
  match s with
  | .ok a p => f a p
  | .err a msg => .err a msg

/-- The `switch (kind)` of `parse_prim_txt`. -/
def switch_kind (H : Host F) (kind : Nat) (g : Geometry F) (p : Buf) : Step (Geometry F) :=
  match kind with
  | 1 =>
    let g := { g with kind := some .Pyramid }
    ((g, some p)
      |> f32_into H (fun v g => { g with pyramid := { g.pyramid with bottom := g.pyramid.bottom.set 0 (some v) } })
      |> f32_into H (fun v g => { g with pyramid := { g.pyramid with bottom := g.pyramid.bottom.set 1 (some v) } })
      |> f32_into H (fun v g => { g with pyramid := { g.pyramid with top := g.pyramid.top.set 0 (some v) } })
      |> f32_into H (fun v g => { g with pyramid := { g.pyramid with top := g.pyramid.top.set 1 (some v) } })
      |> chain_end "Pyramid: bad bottom/top").andThen fun g p =>
    (g, some p)
      |> f32_into H (fun v g => { g with pyramid := { g.pyramid with offset := g.pyramid.offset.set 0 (some v) } })
      |> f32_into H (fun v g => { g with pyramid := { g.pyramid with offset := g.pyramid.offset.set 1 (some v) } })
      |> f32_into H (fun v g => { g with pyramid := { g.pyramid with height := some v } })
      |> chain_end "Pyramid: bad offset/height"
  | 2 =>
    let g := { g with kind := some .Box }
    (g, some p)
      |> f32_into H (fun v g => { g with box := { g.box with lengths := g.box.lengths.set 0 (some v) } })
      |> f32_into H (fun v g => { g with box := { g.box with lengths := g.box.lengths.set 1 (some v) } })
      |> f32_into H (fun v g => { g with box := { g.box with lengths := g.box.lengths.set 2 (some v) } })
      |> chain_end "Box: bad lengths"
  | 3 =>
    let g := { g with kind := some .RectangularTorus }
    (g, some p)
      |> f32_into H (fun v g => { g with rectangularTorus := { g.rectangularTorus with inner_radius := some v } })
      |> f32_into H (fun v g => { g with rectangularTorus := { g.rectangularTorus with outer_radius := some v } })
      |> f32_into H (fun v g => { g with rectangularTorus := { g.rectangularTorus with height := some v } })
      |> f32_into H (fun v g => { g with rectangularTorus := { g.rectangularTorus with angle := some v } })
      |> chain_end "RectangularTorus: bad params"
  | 4 =>
    let g := { g with kind := some .CircularTorus }
    (g, some p)
      |> f32_into H (fun v g => { g with circularTorus := { g.circularTorus with offset := some v } })
      |> f32_into H (fun v g => { g with circularTorus := { g.circularTorus with radius := some v } })
      |> f32_into H (fun v g => { g with circularTorus := { g.circularTorus with angle := some v } })
      |> chain_end "CircularTorus: bad params"
  | 5 =>
    let g := { g with kind := some .EllipticalDish }
    (g, some p)
      |> f32_into H (fun v g => { g with ellipticalDish := { g.ellipticalDish with baseRadius := some v } })
      |> f32_into H (fun v g => { g with ellipticalDish := { g.ellipticalDish with height := some v } })
      |> chain_end "EllipticalDish: bad params"
  | 6 =>
    let g := { g with kind := some .SphericalDish }
    (g, some p)
      |> f32_into H (fun v g => { g with sphericalDish := { g.sphericalDish with baseRadius := some v } })
      |> f32_into H (fun v g => { g with sphericalDish := { g.sphericalDish with height := some v } })
      |> chain_end "SphericalDish: bad params"
  | 7 =>
    let g := { g with kind := some .Snout }
    ((g, some p)
      |> f32_into H (fun v g => { g with snout := { g.snout with radius_b := some v } })
      |> f32_into H (fun v g => { g with snout := { g.snout with radius_t := some v } })
      |> f32_into H (fun v g => { g with snout := { g.snout with height := some v } })
      |> f32_into H (fun v g => { g with snout := { g.snout with offset := g.snout.offset.set 0 (some v) } })
      |> f32_into H (fun v g => { g with snout := { g.snout with offset := g.snout.offset.set 1 (some v) } })
      |> chain_end "Snout: bad first line").andThen fun g p =>
    (g, some p)
      |> f32_into H (fun v g => { g with snout := { g.snout with bshear := g.snout.bshear.set 0 (some v) } })
      |> f32_into H (fun v g => { g with snout := { g.snout with bshear := g.snout.bshear.set 1 (some v) } })
      |> f32_into H (fun v g => { g with snout := { g.snout with tshear := g.snout.tshear.set 0 (some v) } })
      |> f32_into H (fun v g => { g with snout := { g.snout with tshear := g.snout.tshear.set 1 (some v) } })
      |> chain_end "Snout: bad shear"
  | 8 =>
    let g := { g with kind := some .Cylinder }
    (g, some p)
      |> f32_into H (fun v g => { g with cylinder := { g.cylinder with radius := some v } })
      |> f32_into H (fun v g => { g with cylinder := { g.cylinder with height := some v } })
      |> chain_end "Cylinder: bad params"
  | 9 => .err g "Sphere (kind=9) not supported in text format".toList
  | 10 =>
    let g := { g with kind := some .Line }
    (g, some p)
      |> f32_into H (fun v g => { g with line := { g.line with a := some v } })
      |> f32_into H (fun v g => { g with line := { g.line with b := some v } })
      |> chain_end "Line: bad params"
  | 11 =>
    let g := { g with kind := some .FacetGroup }
    match read_u32 H p with
    | none => .err g "FacetGroup: missing polygons_n".toList
    | some (n, p) =>
      match read_polygons H n { g.facetGroup with polygons_n := some n, polygons := [] }
          (consume_eol p) with
      | .err fg msg => .err { g with facetGroup := fg } msg
      | .ok fg p => .ok { g with facetGroup := fg } p
  | k => .err g ("Unknown primitive kind ".toList ++ fmt_u k)

/-- The type of a geometry from the chunk id (`parse_prim_txt`, "type from
chunk id"). -/
def type_of_id (id : List Char) : Option GeometryType :=
  if id = "PRIM".toList then some .Primitive
  else if id = "OBST".toList then some .Obstruction
  else if id = "INSU".toList then some .Insulation
  else none

/-- A `return` of `parse_prim_txt` once the geometry `h` exists: the writes
made through `g` are in the arena; on failure `set_error` has been called. -/
def prim_return (ctx : Context F) (h : Nat) (g : Geometry F) (err : Option (List Char))
    (p : Buf) : Res F :=
  let ctx := { ctx with store := ctx.store.setGeometry h g }
  match err with
  | some msg => ⟨false, set_error ctx msg, p⟩
  | none => ⟨true, ctx, p⟩

/-- Source `parse_prim_txt`. -/
def parse_prim_txt (H : Host F) (ctx : Context F) (id : List Char) (p : Buf) : Res F :=
  match ctx.stack with
  | [] => ⟨false, set_error ctx "PRIM/OBST/INSU outside of a CNTB group".toList, p⟩
  | top :: _ =>
    if ctx.store.kindOf top ≠ some .Group then
      ⟨false, set_error ctx "PRIM/OBST/INSU outside of a CNTB group".toList, p⟩
    else
      match read_u32 H p with
      | none => ⟨false, set_error ctx "PRIM: missing kind".toList, p⟩
      | some (kind, p) =>
        let sg := ctx.store.newGeometry top
        let ctx := { ctx with store := sg.1 }
        let h := sg.2
        let g : Geometry F := {}
        match type_of_id id with
        | none => prim_return ctx h g (some ("Unknown geometry chunk id '".toList ++ fmt_s id ++ "'".toList)) p
        | some t =>
          let g := { g with type := some t }
          let g := { g with transparency := (ctx.store.nodes[top]?).map (·.group.transparency) }
          match read_matrix H p with
          | .error i => prim_return ctx h g (some ("PRIM: missing matrix row ".toList ++ fmt_u i)) p
          | .ok ((r0, r1, r2), p) =>
            let g := { g with M_3x4 := fill_M_3x4 r0 r1 r2 }
            match read_bbox H g p with
            | (g, none) => prim_return ctx h g (some "PRIM: missing bboxLocal".toList) p
            | (g, some p) =>
              let g := { g with bboxWorld := H.transform g.M_3x4 g.bboxLocal }
              match switch_kind H kind g p with
              | .err g msg => prim_return ctx h g (some msg) p
              | .ok g p => prim_return ctx h g none p

/-! ## Structural parser -/

/-- The statement `t[i] *= 0.001f` on `g->group.translation`. -/
def scale_slot (H : Host F) (i : Nat) (d : GroupData F) : GroupData F :=
  { d with translation := d.translation.set i ((d.translation.getD i none).map H.mul_milli) }

/-- `ctx->stack.pop_back()`. -/
def pop_back (ctx : Context F) : Context F := { ctx with stack := ctx.stack.tail }

/-- `ctx->stack.push_back(n)`. -/
def push_back (ctx : Context F) (n : Nat) : Context F := { ctx with stack := n :: ctx.stack }

/-- A write to a member of `g->group` of the node `h`. -/
def Context.modifyGroup (ctx : Context F) (h : Nat) (f : GroupData F → GroupData F) :
    Context F :=
  { ctx with store := ctx.store.modifyGroup h f }

/-- The statement `if (parent->kind == Node::Kind::Group) g->group.transparency =
parent->group.transparency;` of `parse_cntb_txt`. -/
def inherit_transparency (ctx : Context F) (parent g : Nat) : Context F :=
  if ctx.store.kindOf parent = some .Group then
    match ctx.store.nodes[parent]? with
    | some pn => ctx.modifyGroup g fun d => { d with transparency := pn.group.transparency }
    | none => ctx
  else ctx

/-- Source `parse_cntb_txt` from its entry to `ctx->stack.push_back(g)`: the
Group node is created under the top of the stack and its name, translation
and material are read. -/
def cntb_open (H : Host F) (ctx : Context F) (p : Buf) : Res F :=
  match ctx.stack with
  | [] => ⟨false, set_error ctx "CNTB without valid parent (Model/Group)".toList, p⟩
  | parent :: _ =>
    if ctx.store.kindOf parent ≠ some .Model ∧ ctx.store.kindOf parent ≠ some .Group then
      ⟨false, set_error ctx "CNTB without valid parent (Model/Group)".toList, p⟩
    else
      let sn := ctx.store.newNode H (some parent) .Group
      let g := sn.2
      let ctx := inherit_transparency { ctx with store := sn.1 } parent g
      match read_line p with
      | none => ⟨false, set_error ctx "CNTB: missing name".toList, p⟩
      | some (line, p) =>
        let ctx := ctx.modifyGroup g fun d => { d with name := line }
        let wr := fun (i : Nat) (v : F) (c : Context F) =>
          c.modifyGroup g fun d => { d with translation := d.translation.set i (some v) }
        match (ctx, some p) |> f32_into H (wr 0) |> f32_into H (wr 1) |> f32_into H (wr 2) with
        | (ctx, none) => ⟨false, set_error ctx "CNTB: missing translation".toList, p⟩
        | (ctx, some p) =>
          let ctx := ctx.modifyGroup g (scale_slot H 0)
          let ctx := ctx.modifyGroup g (scale_slot H 1)
          let ctx := ctx.modifyGroup g (scale_slot H 2)
          let p := consume_eol p
          match read_u32 H p with
          | none => ⟨false, set_error ctx "CNTB: missing material".toList, p⟩
          | some (m, p) =>
            let ctx := ctx.modifyGroup g fun d => { d with material := some m }
            let p := consume_eol p
            ⟨true, push_back ctx g, p⟩

mutual

/-- Source `parse_cntb_txt`. `none` is the fuel running out; each call and
each iteration of the loop uses one unit. -/
def parse_cntb_txt (H : Host F) : Nat → Context F → Buf → Option (Res F)
  | 0, _, _ => none
  | fuel + 1, ctx, p =>
    let r := cntb_open H ctx p
    if r.ok then cntb_children H fuel r.ctx r.p else some r

/-- The loop `while (p < end)` over the children in `parse_cntb_txt`, and what
follows it: `ctx->stack.pop_back(); return true;`. -/
def cntb_children (H : Host F) : Nat → Context F → Buf → Option (Res F)
  | 0, _, _ => none
  | fuel + 1, ctx, p =>
    match p with
    | [] => some ⟨true, pop_back ctx, p⟩
    | _ :: _ =>
      match read_chunk_header_txt H p with
      | none =>
        some ⟨false, set_error ctx "CNTB: unexpected EOF while reading children".toList, p⟩
      | some (cid, p) =>
        if cid = "CNTE".toList then some ⟨true, pop_back ctx, p⟩
        else if cid = "CNTB".toList then
          match parse_cntb_txt H fuel ctx p with
          | none => none
          | some r => if r.ok then cntb_children H fuel r.ctx r.p else some r
        else if cid = "PRIM".toList ∨ cid = "OBST".toList ∨ cid = "INSU".toList then
          let r := parse_prim_txt H ctx cid p
          if r.ok then cntb_children H fuel r.ctx r.p else some r
        else
          some ⟨false, set_error ctx
            ("CNTB: unexpected chunk '".toList ++ fmt_s cid ++ "'".toList), p⟩

end

/-- A write to a member of `m->model` of the node `h`. -/
def Context.modifyModel (ctx : Context F) (h : Nat) (f : ModelData → ModelData) : Context F :=
  { ctx with store := ctx.store.modifyModel h f }

/-- A write to a member of `f->file` of the node `h`. -/
def Context.modifyFile (ctx : Context F) (h : Nat) (f : FileData → FileData) : Context F :=
  { ctx with store := ctx.store.modifyFile h f }

/-- Source `parse_modl_txt`. -/
def parse_modl_txt (H : Host F) (ctx : Context F) (p : Buf) : Res F :=
  match ctx.stack with
  | [] => ⟨false, set_error ctx "MODL without HEAD/File".toList, p⟩
  | top :: _ =>
    if ctx.store.kindOf top ≠ some .File then
      ⟨false, set_error ctx "MODL without HEAD/File".toList, p⟩
    else
      let ctx := if ctx.store.kindOf top = some .Model then pop_back ctx else ctx
      let sn := ctx.store.newNode H ctx.stack.head? .Model
      let m := sn.2
      let ctx := push_back { ctx with store := sn.1 } m
      match read_line p with
      | none => ⟨false, set_error ctx "MODL: missing project".toList, p⟩
      | some (line, p) =>
        let ctx := ctx.modifyModel m fun d => { d with project := line }
        match read_line p with
        | none => ⟨false, set_error ctx "MODL: missing name".toList, p⟩
        | some (line, p) =>
          let ctx := ctx.modifyModel m fun d => { d with name := line }
          ⟨true, ctx, p⟩

/-- Source `parse_head_txt`. -/
def parse_head_txt (H : Host F) (ctx : Context F) (p : Buf) : Res F :=
  match ctx.stack with
  | _ :: _ => ⟨false, set_error ctx "HEAD encountered but stack not empty".toList, p⟩
  | [] =>
    let sn := ctx.store.newNode H none .File
    let f := sn.2
    let ctx := push_back { ctx with store := sn.1 } f
    match read_line p with
    | none => ⟨false, set_error ctx "HEAD: missing info".toList, p⟩
    | some (line, p) =>
      let ctx := ctx.modifyFile f fun d => { d with info := line }
      match read_line p with
      | none => ⟨false, set_error ctx "HEAD: missing note".toList, p⟩
      | some (line, p) =>
        let ctx := ctx.modifyFile f fun d => { d with note := line }
        match read_line p with
        | none => ⟨false, set_error ctx "HEAD: missing date".toList, p⟩
        | some (line, p) =>
          let ctx := ctx.modifyFile f fun d => { d with date := line }
          match read_line p with
          | none => ⟨false, set_error ctx "HEAD: missing user".toList, p⟩
          | some (line, p) =>
            let ctx := ctx.modifyFile f fun d => { d with user := line }
            let ctx := ctx.modifyFile f fun d => { d with encoding := [] }
            let ctx := ctx.modifyFile f fun d => { d with path := ctx.path.getD [] }
            ⟨true, ctx, p⟩

/-- The statement `if (!stack.empty() && stack.back()->kind == k) stack.pop_back();`. -/
def pop_if_kind (ctx : Context F) (k : NodeKind) : Context F :=
  match ctx.stack with
  | top :: _ => if ctx.store.kindOf top = some k then pop_back ctx else ctx
  | [] => ctx

/-- The loop `while (p < end)` over the top-level chunks in `parseREV`; `ok`
with the context and cursor at which the loop is left, or the failure that
`parseREV` returns. `none` is the fuel running out. -/
def top_level (H : Host F) : Nat → Context F → Buf → Option (Res F)
  | 0, _, _ => none
  | fuel + 1, ctx, p =>
    match p with
    | [] => some ⟨true, ctx, p⟩
    | _ :: _ =>
      match read_chunk_header_txt H p with
      | none =>
        some ⟨false, set_error ctx "Unexpected EOF while reading top-level chunks".toList, p⟩
      | some (id, p) =>
        if id = "END:".toList then some ⟨true, pop_if_kind ctx .Model, p⟩
        else if id = "MODL".toList then
          let r := parse_modl_txt H ctx p
          if r.ok then top_level H fuel r.ctx r.p else some r
        else if id = "CNTB".toList then
          match parse_cntb_txt H fuel ctx p with
          | none => none
          | some r => if r.ok then top_level H fuel r.ctx r.p else some r
        else if id = "CNTE".toList then
          top_level H fuel
            { ctx with logger := ctx.logger ++
                [(1, "parseREV: Unexpected CNTE at root level, ignoring.".toList)] } p
        else if id = "PRIM".toList ∨ id = "OBST".toList ∨ id = "INSU".toList then
          some ⟨false, set_error ctx
            ("Geometry chunk '".toList ++ fmt_s id ++ "' outside of any group".toList), p⟩
        else
          some ⟨false, set_error ctx
            ("Unrecognized chunk '".toList ++ fmt_s id ++ "'".toList), p⟩

/-- The end of `parseREV` after the loop: the stack is cleaned, a stack that is
still not empty is reported to the logger, the counts are updated. -/
def finish (ctx : Context F) : Context F :=
  let ctx := pop_if_kind ctx .Model
  let ctx := pop_if_kind ctx .File
  let ctx :=
    match ctx.stack with
    | [] => ctx
    | _ :: _ =>
      { ctx with logger := ctx.logger ++
          [(1, "parseREV: non-empty stack at end (ignored)".toList)] }
  { ctx with store := ctx.store.updateCounts }

/-- Source `parseREV` with the fuel given to its loops. -/
def parseREV_fuel (H : Host F) (fuel : Nat) (store : Store F) (path : Option (List Char))
    (buf : Buf) : Option (Res F) :=
  let ctx : Context F := { store := store, path := path }
  match read_chunk_header_txt H buf with
  | none => some ⟨false, set_error ctx "Empty or invalid file".toList, buf⟩
  | some (id, p) =>
    if id ≠ "HEAD".toList then
      some ⟨false, set_error ctx ("Expected HEAD, got '".toList ++ fmt_s id ++ "'".toList), p⟩
    else
      let r := parse_head_txt H ctx p
      if r.ok then
        match top_level H fuel r.ctx r.p with
        | none => none
        | some r => if r.ok then some ⟨true, finish r.ctx, r.p⟩ else some r
      else some r

/-- Source `parseREV`: the Store to fill, the path label (`none` for a null
pointer) and the buffer. The fuel is twice the size of the buffer plus two,
which the loops never use up (`parseREV_returns`). -/
def parseREV (H : Host F) (store : Store F) (path : Option (List Char)) (buf : Buf) :
    Option (Res F) :=
  parseREV_fuel H (2 * buf.length + 2) store path buf

/-! ## Where the reader is in a document -/

/-- The two loops that read chunk headers: the one of `parseREV` over the
top-level chunks and the one of `parse_cntb_txt` over the children of a group. -/
inductive Level
  | root | group
  deriving DecidableEq, Repr

/-- The reader at the head of an iteration of one of the two loops. -/
structure Pos (F : Type) where
  level : Level
  ctx : Context F
  p : Buf

/-- The loop of a level, run from the head of an iteration. -/
def run (H : Host F) : Level → Nat → Context F → Buf → Option (Res F)
  | .root => top_level H
  | .group => cntb_children H

/-- One move of the reader from the head of an iteration to the next head it
comes to: past a chunk that was parsed with success (a `MODL`, a stray `CNTE`,
a whole `CNTB` group, a primitive), or into a group whose opening was parsed
with success, to the first iteration of the loop over its children. -/
inductive Next (H : Host F) : Pos F → Pos F → Prop
  | modl (ctx : Context F) (p p1 : Buf) :
      read_chunk_header_txt H p = some ("MODL".toList, p1) →
      (parse_modl_txt H ctx p1).ok = true →
      Next H ⟨.root, ctx, p⟩ ⟨.root, (parse_modl_txt H ctx p1).ctx, (parse_modl_txt H ctx p1).p⟩
  | stray_cnte (ctx : Context F) (p p1 : Buf) :
      read_chunk_header_txt H p = some ("CNTE".toList, p1) →
      Next H ⟨.root, ctx, p⟩
        ⟨.root, { ctx with logger := ctx.logger ++
            [(1, "parseREV: Unexpected CNTE at root level, ignoring.".toList)] }, p1⟩
  | group_done (l : Level) (ctx : Context F) (p p1 : Buf) (fuel : Nat) (r : Res F) :
      read_chunk_header_txt H p = some ("CNTB".toList, p1) →
      parse_cntb_txt H fuel ctx p1 = some r → r.ok = true →
      Next H ⟨l, ctx, p⟩ ⟨l, r.ctx, r.p⟩
  | group_enter (l : Level) (ctx : Context F) (p p1 : Buf) :
      read_chunk_header_txt H p = some ("CNTB".toList, p1) →
      (cntb_open H ctx p1).ok = true →
      Next H ⟨l, ctx, p⟩ ⟨.group, (cntb_open H ctx p1).ctx, (cntb_open H ctx p1).p⟩
  | prim_done (ctx : Context F) (p p1 : Buf) (id : List Char) :
      read_chunk_header_txt H p = some (id, p1) →
      (id = "PRIM".toList ∨ id = "OBST".toList ∨ id = "INSU".toList) →
      (parse_prim_txt H ctx id p1).ok = true →
      Next H ⟨.group, ctx, p⟩
        ⟨.group, (parse_prim_txt H ctx id p1).ctx, (parse_prim_txt H ctx id p1).p⟩

/-- The reader comes from one head of an iteration to another. -/
def Reaches (H : Host F) : Pos F → Pos F → Prop := Relation.ReflTransGen (Next H)

/-- `parseREV` on the buffer comes to the head `s` of an iteration: the first
chunk is a `HEAD` that is parsed with success, and the reader comes to `s` from
the first iteration of the top-level loop. -/
def Visits (H : Host F) (store : Store F) (path : Option (List Char)) (buf : Buf)
    (s : Pos F) : Prop :=
  ∃ p0, read_chunk_header_txt H buf = some ("HEAD".toList, p0) ∧
    (parse_head_txt H { store := store, path := path } p0).ok = true ∧
    Reaches H ⟨.root, (parse_head_txt H { store := store, path := path } p0).ctx,
      (parse_head_txt H { store := store, path := path } p0).p⟩ s

/-! ## The shape of the tree -/

/-- The object a part of `parse_prim_txt` was working on, with the writes made. -/
def Step.val {α : Type} : Step α → α
  | .ok a _ => a
  | .err a _ => a

/-- The fields of a Geometry that are written before the `switch (kind)`. -/
def Geometry.preamble (g : Geometry F) :
    Option GeometryType × Option Nat × Arr F × Arr F × Arr F :=
  (g.type, g.transparency, g.M_3x4, g.bboxLocal, g.bboxWorld)

/-- The part of a node that makes the shape of the tree: kind, parent and
transparency. -/
def Store.nodeShape (s : Store F) : List (NodeKind × Option Nat × Nat) :=
  s.nodes.map fun n => (n.kind, n.parent, n.group.transparency)

/-- The part of a geometry that makes the shape of the tree: parent and
transparency. -/
def Store.geoShape (s : Store F) : List (Nat × Option Nat) :=
  s.geometries.map fun g => (g.parent, g.geo.transparency)

/-- The shape is sound: a parent is created before its children, a Group under
a Group has the transparency of its parent, a Geometry is under a Group and
has its transparency. -/
def ShapeOK (ns : List (NodeKind × Option Nat × Nat)) (gs : List (Nat × Option Nat)) : Prop :=
  (∀ (h : Nat) (k : NodeKind) (ph t : Nat), ns[h]? = some (k, some ph, t) →
      ph < h ∧ (k = NodeKind.Group →
        ∀ pp pt, ns[ph]? = some (NodeKind.Group, pp, pt) → t = pt)) ∧
  (∀ g ∈ gs, ∃ pp pt, ns[g.1]? = some (NodeKind.Group, pp, pt) ∧ g.2 = some pt)

/-- The context `c` is `ctx` with one Group node added under `parent`, with
transparency `t`: what `parse_cntb_txt` has done when it is reading the fields
of the group. -/
def OpenedUnder (ctx : Context F) (parent t : Nat) (c : Context F) : Prop :=
  c.logger = ctx.logger ∧ c.store.geoShape = ctx.store.geoShape ∧ c.stack = ctx.stack ∧
  c.store.nodeShape = ctx.store.nodeShape ++ [(NodeKind.Group, some parent, t)]

/-- The Group `a` is the Group `h`, or an ancestor of it with only Groups on
the way: `h` is in the subtree of `a`. -/
inductive Store.GroupAncestor (s : Store F) : Nat → Nat → Prop
  | self (h : Nat) (n : Node F) :
      s.nodes[h]? = some n → n.kind = NodeKind.Group → GroupAncestor s h h
  | child (a ph h : Nat) (n : Node F) :
      GroupAncestor s a ph → s.nodes[h]? = some n → n.kind = NodeKind.Group →
      n.parent = some ph → GroupAncestor s a h

/-- The Store after some steps of the reader: the nodes there were are as they
were in kind, parent and transparency, and a sound shape is still sound. -/
def Store.Grows (s s' : Store F) : Prop :=
  (∃ ns, s'.nodeShape = s.nodeShape ++ ns) ∧
  (ShapeOK s.nodeShape s.geoShape → ShapeOK s'.nodeShape s'.geoShape)

/-! ## The stream of a primitive as the format describes it -/

/-- The stream at the cursor supplies `n` more floats: `n` successive calls of
`read_f32` succeed. `i` floats have been read before and `acc` holds them,
last first; after the floats whose count is in `breaks` the line end is
consumed. The floats in the order read, and the cursor after them. -/
def read_floats (H : Host F) (breaks : List Nat) :
    (n : Nat) → (i : Nat) → (acc : List F) → Buf → Option (List F × Buf)
  | 0, _, acc, p => some (acc.reverse, p)
  | n + 1, i, acc, p =>
    match read_f32 H p with
    | none => none
    | some (v, q) =>
      read_floats H breaks n (i + 1) (v :: acc)
        (if i + 1 ∈ breaks then consume_eol q else q)

/-- The kind dispatch table of the format, column "name": the kind of the
payload of kind integer `k`, for the kinds whose payload is a row of floats. -/
def kind_table_name : Nat → Option GeometryKind
  | 1 => some .Pyramid
  | 2 => some .Box
  | 3 => some .RectangularTorus
  | 4 => some .CircularTorus
  | 5 => some .EllipticalDish
  | 6 => some .SphericalDish
  | 7 => some .Snout
  | 8 => some .Cylinder
  | 10 => some .Line
  | _ => none

/-- The kind dispatch table of the format: the number `n_k` of floats of the
payload of kind integer `k`. -/
def kind_table_count : Nat → Nat
  | 1 => 7
  | 2 => 3
  | 3 => 4
  | 4 => 3
  | 5 => 2
  | 6 => 2
  | 7 => 9
  | 8 => 2
  | 10 => 2
  | _ => 0

/-- The counts of floats after which the payload of kind integer `k` has a line
end: Pyramid and Snout are written on two lines, the other kinds on one. A
line end that is not there is not missed (`consume_eol` leaves a cursor that
is not at `\r` or `\n` where it is), so the floats of a payload may as well be
all on one line. -/
def kind_table_breaks : Nat → List Nat
  | 1 => [4, 7]
  | 7 => [5, 9]
  | k => [kind_table_count k]

/-- The kind dispatch table of the format, column "payload": the payload
fields of kind integer `k` in the order of the table, read from a Geometry. -/
def kind_table_fields (k : Nat) (g : Geometry F) : List (Option F) :=
  match k with
  | 1 => [g.pyramid.bottom.getD 0 none, g.pyramid.bottom.getD 1 none,
          g.pyramid.top.getD 0 none, g.pyramid.top.getD 1 none,
          g.pyramid.offset.getD 0 none, g.pyramid.offset.getD 1 none, g.pyramid.height]
  | 2 => [g.box.lengths.getD 0 none, g.box.lengths.getD 1 none, g.box.lengths.getD 2 none]
  | 3 => [g.rectangularTorus.inner_radius, g.rectangularTorus.outer_radius,
          g.rectangularTorus.height, g.rectangularTorus.angle]
  | 4 => [g.circularTorus.offset, g.circularTorus.radius, g.circularTorus.angle]
  | 5 => [g.ellipticalDish.baseRadius, g.ellipticalDish.height]
  | 6 => [g.sphericalDish.baseRadius, g.sphericalDish.height]
  | 7 => [g.snout.radius_b, g.snout.radius_t, g.snout.height,
          g.snout.offset.getD 0 none, g.snout.offset.getD 1 none,
          g.snout.bshear.getD 0 none, g.snout.bshear.getD 1 none,
          g.snout.tshear.getD 0 none, g.snout.tshear.getD 1 none]
  | 8 => [g.cylinder.radius, g.cylinder.height]
  | 10 => [g.line.a, g.line.b]
  | _ => []

/-- The stream of one contour as the format gives it: `n` vertices, each the
three floats of its position on one line and the three floats of its normal on
the next. The floats in stream order, and the cursor after them. -/
def read_sextuples (H : Host F) : (n : Nat) → Buf → Option (List F × Buf)
  | 0, p => some ([], p)
  | n + 1, p =>
    match read_floats H [3, 6] 6 0 [] p with
    | none => none
    | some (fs, q) =>
      match read_sextuples H n q with
      | none => none
      | some (rest, r) => some (fs ++ rest, r)

/-- The contour holds the stream `s`: its `vertices_n` is the count of the
stream, the stream has six floats for each vertex, and, where the count is at
most 1431655765 (every index `3 * v + k` is below `2^32`), vertex `v` has the
floats `6 * v ..` as its position and the floats `6 * v + 3 ..` as its normal. -/
def Contour.Holds (c : Contour F) (s : Nat × List F) : Prop :=
  c.vertices_n = some s.1 ∧ s.2.length = 6 * s.1 ∧
  c.vertices.length = 3 * s.1 ∧ c.normals.length = 3 * s.1 ∧
  (s.1 ≤ 1431655765 → ∀ v k, v < s.1 → k < 3 →
    c.vertices[3 * v + k]? = some (s.2[6 * v + k]?) ∧
    c.normals[3 * v + k]? = some (s.2[6 * v + 3 + k]?))

/-- The polygon holds the streams of its contours, in stream order. -/
def Polygon.Holds (poly : Polygon F) (cs : List (Nat × List F)) : Prop :=
  poly.contours_n = some cs.length ∧ List.Forall₂ Contour.Holds poly.contours cs

/-- The FacetGroup holds the streams of its polygons, in stream order. -/
def FacetGroup.Holds (fg : FacetGroup F) (polys : List (List (Nat × List F))) : Prop :=
  fg.polygons_n = some polys.length ∧ List.Forall₂ Polygon.Holds fg.polygons polys

/-- The context `c` is `ctx` after writes to the arenas and calls of the logger
only: the path, the log of error strings and the counts are as they were, the
stack is any, and the logger calls, the nodes and the geometries there were are
still there, unchanged, the nodes and geometries at their handles. -/
def Writes (ctx c : Context F) : Prop :=
  ctx.logger <+: c.logger ∧ c.path = ctx.path ∧
  c.store.errors = ctx.store.errors ∧ c.store.counts = ctx.store.counts ∧
  ctx.store.nodes <+: c.store.nodes ∧ ctx.store.geometries <+: c.store.geometries

/-- What a parse function of a chunk leaves: on success the context after
writes to the arenas, on failure that context with one call of `set_error`. -/
def Res.Wrote (ctx : Context F) (r : Res F) : Prop :=
  ∃ c, Writes ctx c ∧
    ((r.ok = true ∧ r.ctx = c) ∨ (r.ok = false ∧ ∃ msg, r.ctx = set_error c msg))

/-- The context `c` is `ctx` with one node added, the node created last, and
written to: nothing else of the Store, the logger or the path has changed. -/
def AddsNode (ctx c : Context F) : Prop :=
  c.logger = ctx.logger ∧ c.path = ctx.path ∧
  c.store.errors = ctx.store.errors ∧ c.store.counts = ctx.store.counts ∧
  c.store.geometries = ctx.store.geometries ∧
  ∃ n, c.store.nodes = ctx.store.nodes ++ [n]

/-- The tree under one File root: node 0 is a File without parent and the only
File, every Model is under node 0, every Group is under a Model or a Group. -/
def TreeOK (ns : List (NodeKind × Option Nat × Nat)) : Prop :=
  (∃ t, ns[0]? = some (NodeKind.File, none, t)) ∧
  ∀ (i : Nat) (k : NodeKind) (ph : Option Nat) (t : Nat), ns[i]? = some (k, ph, t) →
    (k = NodeKind.File → i = 0) ∧
    (k = NodeKind.Model → ph = some 0) ∧
    (k = NodeKind.Group → ∃ (p : Nat) (pk : NodeKind) (pp : Option Nat) (pt : Nat),
      ph = some p ∧ ns[p]? = some (pk, pp, pt) ∧ (pk = NodeKind.Model ∨ pk = NodeKind.Group))

/-- The lines of a buffer as the format has them, with what is stored of each:
`LineAt p a q` says that the buffer `p` starts with a line of which `a` is
stored and after which `q` remains. A line runs to the next `\n`, or to the end
of the buffer when it is the last one and no `\n` ends it; stored are its bytes
without the terminator `\n` or `\r\n`, and of a last line that no `\n` ends
without one `\r` at its end. -/
inductive LineAt : Buf → List Char → Buf → Prop
  | lf (a q : Buf) : '\n' ∉ a → a.getLast? ≠ some '\r' → LineAt (a ++ '\n' :: q) a q
  | crlf (a q : Buf) : '\n' ∉ a → LineAt (a ++ '\r' :: '\n' :: q) a q
  | last (a : Buf) : a ≠ [] → '\n' ∉ a → a.getLast? ≠ some '\r' → LineAt a a []
  | last_cr (a : Buf) : '\n' ∉ a → LineAt (a ++ ['\r']) a []

/-! ## Two runs of the reader compared -/

/-- Two runs of the reader side by side, each on its own buffer: `R` says
which cursors of the two runs correspond, `P` that the cursor of the first run
has left the part of its buffer on which the runs correspond, `strong` that
the runs correspond in their failures as well, `L` which loggers correspond.
The other fields say what the readers of the lexical layer do at corresponding
cursors: a read of the first run that succeeds and stays in the part where the
runs correspond gives the same value in the second run and leaves
corresponding cursors; when the runs correspond in their failures, a read that
fails in the first run fails in the second. Where the second run is at the end
of its buffer and the first is not, every read of the first run from there
leaves the part on which the runs correspond. -/
structure CursorSim (H : Host F) where
  R : Buf → Buf → Prop
  P : Buf → Prop
  strong : Prop
  L : List (Nat × List Char) → List (Nat × List Char) → Prop
  P_mono : ∀ p q, P p → q.length ≤ p.length → P q
  P_strong : strong → ∀ q, ¬ P q
  L_snoc : ∀ l l' e, L l l' → L (l ++ [e]) (l' ++ [e])
  nil : ∀ p p', R p p' →
    (p = [] → p' = []) ∧ (p' = [] → p = [] ∨ ∀ q, q.length < p.length → P q)
  line : ∀ p p' a q, R p p' → read_line p = some (a, q) → ¬ P q →
    ∃ q', read_line p' = some (a, q') ∧ R q q'
  u32_none : ∀ p p', R p p' → strong → read_u32 H p = none → read_u32 H p' = none
  u32 : ∀ p p' v q, R p p' → read_u32 H p = some (v, q) → ¬ P q →
    ∃ q', read_u32 H p' = some (v, q') ∧ R q q'
  f32_none : ∀ p p', R p p' → strong → read_f32 H p = none → read_f32 H p' = none
  f32 : ∀ p p' v q, R p p' → read_f32 H p = some (v, q) → ¬ P q →
    ∃ q', read_f32 H p' = some (v, q') ∧ R q q'
  eol : ∀ p p', R p p' → ¬ P (consume_eol p) → R (consume_eol p) (consume_eol p')

/-- Corresponding contexts: the same Store, stack and path, and corresponding
loggers. -/
def CursorSim.Cx {H : Host F} (S : CursorSim H) (c c' : Context F) : Prop :=
  c'.store = c.store ∧ c'.stack = c.stack ∧ c'.path = c.path ∧ S.L c.logger c'.logger

/-- The state of a chain of reads in the first run is one at which the second
run is known to correspond. -/
def CursorSim.GoodChain {H : Host F} (S : CursorSim H) {α : Type} (x : α × Option Buf) :
    Prop :=
  (∀ q, x.2 = some q → ¬ S.P q) ∧ (x.2 = none → S.strong)

/-- Corresponding states of a chain of reads. -/
def CursorSim.RelChain {H : Host F} (S : CursorSim H) {α : Type} (x x' : α × Option Buf) :
    Prop :=
  x'.1 = x.1 ∧ (x.2 = none → x'.2 = none) ∧ (∀ q, x.2 = some q → ∃ q', x'.2 = some q' ∧ S.R q q')

/-- The outcome of a part of `parse_prim_txt` in the first run is one at which
the second run is known to correspond. -/
def CursorSim.GoodStep {H : Host F} (S : CursorSim H) {α : Type} : Step α → Prop
  | .ok _ p => ¬ S.P p
  | .err _ _ => S.strong

/-- Corresponding outcomes of a part of `parse_prim_txt`. -/
def CursorSim.RelStep {H : Host F} (S : CursorSim H) {α : Type} : Step α → Step α → Prop
  | .ok a p, .ok a' p' => a' = a ∧ S.R p p'
  | .err a m, .err a' m' => a' = a ∧ m' = m
  | _, _ => False

/-- The result of a parse function in the first run is one at which the second
run is known to correspond. -/
def CursorSim.GoodRes {H : Host F} (S : CursorSim H) (r : Res F) : Prop :=
  (r.ok = true → ¬ S.P r.p) ∧ (r.ok = false → S.strong)

/-- Corresponding results of a parse function: the same return value,
corresponding contexts and, after success, corresponding cursors. -/
def CursorSim.RelRes {H : Host F} (S : CursorSim H) (r r' : Res F) : Prop :=
  r'.ok = r.ok ∧ S.Cx r.ctx r'.ctx ∧ (r.ok = true → S.R r.p r'.p)

/-- The outcome of a reader in the first run is one at which the second run
is known to correspond. -/
def CursorSim.GoodRead {H : Host F} (S : CursorSim H) {α : Type} (o : Option (α × Buf)) :
    Prop :=
  (∀ a q, o = some (a, q) → ¬ S.P q) ∧ (o = none → S.strong)

/-- Corresponding outcomes of a reader. -/
def CursorSim.RelRead {H : Host F} (S : CursorSim H) {α : Type} (o o' : Option (α × Buf)) :
    Prop :=
  (o = none → o' = none) ∧ (∀ a q, o = some (a, q) → ∃ q', o' = some (a, q') ∧ S.R q q')

/-- The outcome of `read_matrix` in the first run is one at which the second
run is known to correspond. -/
def CursorSim.GoodExc {H : Host F} (S : CursorSim H) {α : Type} (e : Except Nat (α × Buf)) :
    Prop :=
  (∀ a q, e = .ok (a, q) → ¬ S.P q) ∧ (∀ i, e = .error i → S.strong)

/-- Corresponding outcomes of `read_matrix`. -/
def CursorSim.RelExc {H : Host F} (S : CursorSim H) {α : Type} (e e' : Except Nat (α × Buf)) :
    Prop :=
  (∀ i, e = .error i → e' = .error i) ∧
  (∀ a q, e = .ok (a, q) → ∃ q', e' = .ok (a, q') ∧ S.R q q')

/-- Results of a parse function on the same context, at corresponding
cursors. -/
def CursorSim.SameRes {H : Host F} (S : CursorSim H) (r r' : Res F) : Prop :=
  r'.ok = r.ok ∧ r'.ctx = r.ctx ∧ (r.ok = true → S.R r.p r'.p)

/-- The buffer with every `\n` replaced by `\r\n`. -/
def crlf : Buf → Buf
  | [] => []
  | c :: cs => if c = '\n' then '\r' :: '\n' :: crlf cs else c :: crlf cs

/-- What is assumed of `strtof` where the runs on two buffers are compared: a
conversion that starts at a byte that is no white space ends before the first
white-space byte at the latest, and it does not depend on the bytes from that
byte on. -/
def Host.strtof_stops (H : Host F) : Prop :=
  ∀ (b : Char) (w : Buf) (c c' : Char) (y y' : Buf),
    isspace b = false → isspace c = true → isspace c' = true →
    H.strtof (b :: w ++ c :: y) = H.strtof (b :: w ++ c' :: y') ∧
    ∀ v n, H.strtof (b :: w ++ c :: y) = some (v, n) → n ≤ (b :: w).length

/-- A reader of one token at a cursor that is no white space stops before the
first white-space byte at the latest and does not depend on the bytes from
there on: on two buffers that agree up to a white-space byte it fails on both,
or it gives the same value and leaves the cursor at the same place. -/
def StopsAt {V : Type} (rd : Buf → Option (V × Buf)) : Prop :=
  ∀ (b : Char) (w : Buf) (c c' : Char) (y y' : Buf),
    isspace b = false → isspace c = true → isspace c' = true →
    (rd (b :: w ++ c :: y) = none ∧ rd (b :: w ++ c' :: y') = none) ∨
    ∃ v k, k ≤ (b :: w).length ∧
      rd (b :: w ++ c :: y) = some (v, (b :: w).drop k ++ c :: y) ∧
      rd (b :: w ++ c' :: y') = some (v, (b :: w).drop k ++ c' :: y')

/-- The token reader of `read_f32`, after the white space is skipped. -/
def tok_f32 (H : Host F) (q : Buf) : Option (F × Buf) :=
  match H.strtof q with
  | none => none
  | some (v, n) => some (v, q.drop n)

/-- The token reader of `read_u32`, after the white space is skipped. -/
def tok_u32 (H : Host F) (q : Buf) : Option (Nat × Buf) :=
  match strtoul H.ulongMax q with
  | none => none
  | some (v, ep) => if v > 0xFFFFFFFF then none else some (v, ep)

/-- A reader made of `skip_ws` and a token reader. -/
def read_tok {V : Type} (rd : Buf → Option (V × Buf)) (p : Buf) : Option (V × Buf) :=
  match skip_ws p with
  | [] => none
  | q@(_ :: _) => rd q

/-- The loop at a head of an iteration returns `r`, given fuel enough. -/
def Result (H : Host F) (s : Pos F) (r : Res F) : Prop :=
  ∃ fuel, run H s.level fuel s.ctx s.p = some r

/-- Corresponding heads of an iteration in two runs: the same loop,
corresponding contexts and cursors. -/
def CursorSim.PosRel {H : Host F} (S : CursorSim H) (s s' : Pos F) : Prop :=
  s'.level = s.level ∧ S.Cx s.ctx s'.ctx ∧ S.R s.p s'.p

/-- Two runs that return the same at the heads `t` and `t'` return the same at
the heads `s` and `s'` they came from. -/
def BackEq (H : Host F) (s s' t t' : Pos F) : Prop :=
  ∀ r, Result H t r → Result H t' r → ∃ r0, Result H s r0 ∧ Result H s' r0

/-- Cursors of two runs on buffers that differ only after a line break: what
is before the line break is the same, `y1` comes after it in the first buffer
and `y2` in the second. With `bd` the cursors right after the line break
correspond too. -/
def TailR (y1 y2 : Buf) (bd : Prop) (p p' : Buf) : Prop :=
  (∃ u, p = u ++ '\n' :: y1 ∧ p' = u ++ '\n' :: y2) ∨ (bd ∧ p = y1 ∧ p' = y2)

/-- The cursor of the first run has come into `y1` (with `bd`: has gone on
inside `y1`). -/
def TailP (y1 : Buf) (bd : Prop) (q : Buf) : Prop :=
  q.length < y1.length ∨ (¬ bd ∧ q.length ≤ y1.length)

/-- The warning of the top-level loop of `parseREV` at a `CNTE` chunk. -/
def stray_cnte_warning : Nat × List Char :=
  (1, "parseREV: Unexpected CNTE at root level, ignoring.".toList)

/-- The second logger is the first with one more entry `w` somewhere. -/
def LogPlus (w : Nat × List Char) (l l' : List (Nat × List Char)) : Prop :=
  ∃ a b, l = a ++ b ∧ l' = a ++ w :: b

/-- The value of a string of decimal digits. -/
def decimalValue (d : List Char) : Nat :=
  d.foldl (fun acc c => acc * 10 + (c.toNat - '0'.toNat)) 0

/-- An unsigned decimal value that does not exceed `2^32 - 1`: a string of
decimal digits, not empty. -/
def IsU32 (d : List Char) : Prop :=
  d ≠ [] ∧ (∀ c ∈ d, '0' ≤ c ∧ c ≤ '9') ∧ decimalValue d ≤ 4294967295

/-- The text of a chunk header and what follows it: the identifier line `idl`,
its line break, the two integers `d1` and `d2`, each after the white space `w1`
and `w2`, and the rest of the buffer. -/
def header_text (idl w1 d1 w2 d2 rest : Buf) : Buf :=
  idl ++ '\n' :: (w1 ++ d1 ++ (w2 ++ d2 ++ rest))

/-! ## Floats of the binary32 format -/

/-- A value of the C type `float` on a target whose `float` is the IEEE 754
binary32 format: a finite value `(-1)^neg * m * 2^e`, an infinity or a NaN. A
finite value is kept with `m` odd, or with `m = 0` and `e = 0`, so that equal
values are equal terms. -/
inductive Binary32
  | finite (neg : Bool) (m : Nat) (e : Int)
  | inf (neg : Bool)
  | nan
  deriving DecidableEq, Repr

/-- The number of binary digits of `m`, counted with fuel. -/
def bitCount : Nat → Nat → Nat
  | 0, _ => 0
  | fuel + 1, m => if m = 0 then 0 else bitCount fuel (m / 2) + 1

/-- The number of binary digits of `m`. -/
def bitLength (m : Nat) : Nat := bitCount m m

/-- The value `m * 2^e` with the factors of two of `m` moved to the exponent. -/
def oddPart : Nat → Nat → Int → Nat × Int
  | 0, m, e => (m, e)
  | fuel + 1, m, e => if m ≠ 0 ∧ m % 2 = 0 then oddPart fuel (m / 2) (e + 1) else (m, e)

/-- The finite binary32 value `(-1)^neg * m * 2^e`, for `m * 2^e` a value of
the format. -/
def Binary32.pack (neg : Bool) (m : Nat) (e : Int) : Binary32 :=
  if m = 0 then .finite neg 0 0
  else .finite neg (oddPart m m e).1 (oddPart m m e).2

/-- The real number `(-1)^neg * m * 2^e` rounded to binary32, to nearest with
ties to even: 24 binary digits are kept, the last place being no finer than
`2^-149`, and a result of `2^128` or more is an infinity. -/
def Binary32.round (neg : Bool) (m : Nat) (e : Int) : Binary32 :=
  if m = 0 then .finite neg 0 0
  else
    let q : Int := max ((bitLength m : Int) + e - 24) (-149)
    let s : Nat := (q - e).toNat
    let hi := m / 2 ^ s
    let lo := m % 2 ^ s
    let up : Bool := decide (2 ^ s < 2 * lo) || (decide (2 * lo = 2 ^ s) && decide (hi % 2 = 1))
    let r := if up then hi + 1 else hi
    let e1 : Int := if q ≤ e then e else q
    if (bitLength r : Int) + e1 > 128 then .inf neg else Binary32.pack neg r e1

/-- The binary32 product `x * y`. -/
def Binary32.mul : Binary32 → Binary32 → Binary32
  | .nan, _ => .nan
  | _, .nan => .nan
  | .inf s, .inf t => .inf (xor s t)
  | .inf s, .finite t m _ => if m = 0 then .nan else .inf (xor s t)
  | .finite s m _, .inf t => if m = 0 then .nan else .inf (xor s t)
  | .finite s m e, .finite t n f => Binary32.round (xor s t) (m * n) (e + f)

/-- The float of a natural number. -/
def Binary32.ofNat (n : Nat) : Binary32 := Binary32.round false n 0

/-- The literal `0.001f`: the binary32 value nearest to `1/1000`, which is
`8589935 * 2^-33`. -/
def milli32 : Binary32 := .finite false 8589935 (-33)

/-- What is taken of `strtof` where the value of a translation matters: a
string of decimal digits followed by white space is converted to the float
nearest to the integer it denotes, and the conversion ends at the white
space. -/
def Host.reads_integers (H : Host Binary32) : Prop :=
  ∀ (d : List Char) (c : Char) (rest : Buf), d ≠ [] → (∀ x ∈ d, '0' ≤ x ∧ x ≤ '9') →
    isspace c = true →
    H.strtof (d ++ c :: rest) = some (Binary32.round false (decimalValue d) 0, d.length)

/-- A `strtof` restricted to an optional `-` and decimal digits, converted to
the binary32 value nearest to the integer they denote. -/
def strtof_b32 (p : Buf) : Option (Binary32 × Nat) :=
  match p with
  | '-' :: r =>
    match scanDigits 0 0 r with
    | (_, 0, _) => none
    | (v, n + 1, _) => some (Binary32.round true v 0, n + 2)
  | r =>
    match scanDigits 0 0 r with
    | (_, 0, _) => none
    | (v, n + 1, _) => some (Binary32.round false v 0, n + 1)

/-- A host with binary32 floats on which the opening of a group can be
evaluated: an LP64 target, `strtof` on integer literals, the binary32 product
by `0.001f`, and 0 as the default transparency. `transform` has no part in the
opening of a group and is not modelled on this host: it leaves the box as it
is, so the host is for documents without primitives. -/
def binary32Host : Host Binary32 where
  ulongMax := 2 ^ 64 - 1
  strtof := strtof_b32
  strtof_consumed := by
    have hc : ∀ (p : Buf) (acc n : Nat),
        (scanDigits acc n p).2.1 + (scanDigits acc n p).2.2.length = n + p.length := by
      intro p
      induction p with
      | nil => intro acc n; simp [scanDigits]
      | cons c cs ih =>
        intro acc n
        unfold scanDigits
        cases h : digitVal c with
        | none => simp
        | some d => simp only [ih, List.length_cons]; omega
    intro p v n h
    unfold strtof_b32 at h
    split at h
    · next r =>
      have hr := hc r 0 0
      split at h
      · simp at h
      · next heq =>
        simp only [Option.some.injEq, Prod.mk.injEq] at h
        rw [heq] at hr
        simp only [List.length_cons] at hr ⊢
        omega
    · have hr := hc p 0 0
      split at h
      · simp at h
      · next heq =>
        simp only [Option.some.injEq, Prod.mk.injEq] at h
        rw [heq] at hr
        simp only at hr
        omega
  mul_milli := fun x => x.mul milli32
  transform := fun _ b => b
  defaultTransparency := fun _ => 0

/-- The `unsigned long` that `strtoul` gives for the decimal magnitude `v`:
`ULONG_MAX` when `v` exceeds it, else `v`, negated in `unsigned long` after a
`-`. -/
def strtoul_value (ulongMax : Nat) (neg : Bool) (v : Nat) : Nat :=
  if v > ulongMax then ulongMax
  else if neg then (ulongMax + 1 - v) % (ulongMax + 1)
  else v

/-- Source `read_u32` with its reference parameters: the return value, and
`out` and `p` as the call leaves them. `out` is written on success only; `p`
is left after the white space on failure. -/
def read_u32_ref (H : Host F) (out : Nat) (p : Buf) : Bool × Nat × Buf :=
  match skip_ws p with
  | [] => (false, out, [])
  | q@(_ :: _) =>
    match strtoul H.ulongMax q with
    | none => (false, out, q)
    | some (v, ep) => if v > 0xFFFFFFFF then (false, out, q) else (true, v % 2 ^ 32, ep)

/-- The text that `read_u32` accepts at `p`, leaving `q`: white space `w`, an
optional sign `s`, the decimal digits `d`, not followed by a digit, with the
`unsigned long` of `strtoul` not above `2^32 - 1`. -/
def SignedText (ulongMax : Nat) (p w s d q : Buf) : Prop :=
  p = w ++ (s ++ (d ++ q)) ∧ (∀ c ∈ w, isspace c = true) ∧
    (s = [] ∨ s = ['+'] ∨ s = ['-']) ∧ d ≠ [] ∧ (∀ c ∈ d, '0' ≤ c ∧ c ≤ '9') ∧
    (∀ c r, q = c :: r → digitVal c = none) ∧
    strtoul_value ulongMax (s == ['-']) (decimalValue d) ≤ 4294967295

/-- The parent stack of the top-level loop, top first: the File, or a Model on
the File. -/
def RootStack (ctx : Context F) : Prop :=
  ∃ f, ctx.store.kindOf f = some NodeKind.File ∧
    (ctx.stack = [f] ∨ ∃ m, ctx.stack = [m, f] ∧ ctx.store.kindOf m = some NodeKind.Model)

/-- Source `read_u32` on the memory that holds the buffer: `inb` is the span
`[p, end)` and `beyond` are the bytes of the memory from `end` on. `skip_ws`
and the test `p >= end` look at the span; `strtoul(p, &ep, 10)` is not given
`end` and scans the memory from `p` on. The result is the value and the memory
from `ep` on: the cursor `p = ep` is past `end` when that is shorter than
`beyond`. -/
def read_u32_mem (H : Host F) (inb beyond : Buf) : Option (Nat × Buf) :=
  match skip_ws inb with
  | [] => none
  | q@(_ :: _) =>
    match strtoul H.ulongMax (q ++ beyond) with
    | none => none
    | some (v, ep) => if v > 0xFFFFFFFF then none else some (v, ep)

/-- A `strtof` restricted to what every C library converts alike: an optional
`-` and decimal digits, converted to the integer they denote. -/
def strtof_int (p : Buf) : Option (ℚ × Nat) :=
  match p with
  | '-' :: r =>
    match scanDigits 0 0 r with
    | (_, 0, _) => none
    | (v, n + 1, _) => some (-(v : ℚ), n + 2)
  | r =>
    match scanDigits 0 0 r with
    | (_, 0, _) => none
    | (v, n + 1, _) => some ((v : ℚ), n + 1)

/-- Modelled from the spec: the affine map of `LinAlgOps.h` on a point, the
3x3 block of the column-major `M_3x4` applied to it and the 4th column added. -/
def apply_M_3x4 (M : List ℚ) (x y z : ℚ) : List ℚ :=
  [M.getD 0 0 * x + M.getD 3 0 * y + M.getD 6 0 * z + M.getD 9 0,
   M.getD 1 0 * x + M.getD 4 0 * y + M.getD 7 0 * z + M.getD 10 0,
   M.getD 2 0 * x + M.getD 5 0 * y + M.getD 8 0 * z + M.getD 11 0]

/-- Modelled from the spec: `transform(M_3x4, bbox)` of `LinAlgOps.h`, the box
around the images of the eight corners of the local box. -/
def transform_bbox (M b : Arr ℚ) : Arr ℚ :=
  let m := M.map (fun o => o.getD 0)
  let c := b.map (fun o => o.getD 0)
  let xs := [c.getD 0 0, c.getD 3 0]
  let ys := [c.getD 1 0, c.getD 4 0]
  let zs := [c.getD 2 0, c.getD 5 0]
  let corners := xs.flatMap fun x => ys.flatMap fun y => zs.map fun z => apply_M_3x4 m x y z
  let lo := fun (i : Nat) =>
    corners.foldl (fun a q => min a (q.getD i 0)) ((corners.headD []).getD i 0)
  let hi := fun (i : Nat) =>
    corners.foldl (fun a q => max a (q.getD i 0)) ((corners.headD []).getD i 0)
  [some (lo 0), some (lo 1), some (lo 2), some (hi 0), some (hi 1), some (hi 2)]

/-- A host on which the reader can be evaluated: an LP64 target, floats as the
rationals they denote (no rounding), integer literals as the only float
syntax, and 0 as the default transparency. -/
def sampleHost : Host ℚ where
  ulongMax := 2 ^ 64 - 1
  strtof := strtof_int
  strtof_consumed := by
    have hc : ∀ (p : Buf) (acc n : Nat),
        (scanDigits acc n p).2.1 + (scanDigits acc n p).2.2.length = n + p.length := by
      intro p
      induction p with
      | nil => intro acc n; simp [scanDigits]
      | cons c cs ih =>
        intro acc n
        unfold scanDigits
        cases h : digitVal c with
        | none => simp
        | some d => simp only [ih, List.length_cons]; omega
    intro p v n h
    unfold strtof_int at h
    split at h
    · next r =>
      have hr := hc r 0 0
      split at h
      · simp at h
      · next heq =>
        simp only [Option.some.injEq, Prod.mk.injEq] at h
        rw [heq] at hr
        simp only [List.length_cons] at hr ⊢
        omega
    · have hr := hc p 0 0
      split at h
      · simp at h
      · next heq =>
        simp only [Option.some.injEq, Prod.mk.injEq] at h
        rw [heq] at hr
        simp only at hr
        omega
  mul_milli := fun x => x / 1000
  transform := transform_bbox
  defaultTransparency := fun _ => 0

/-- The host `sampleHost` with a Store that gives the fresh node of handle `i`
the transparency `100 + i`: no two nodes are created with the same. -/
def steppedHost : Host ℚ :=
  { sampleHost with defaultTransparency := fun i => 100 + i }

/-! ## Sample documents -/

/-- A document whose only group is opened and never closed: a `HEAD`, a `MODL`
and a `CNTB` with its name, translation and material, then the end of the
buffer. -/
def doc_unclosed_group : Buf :=
  "HEAD\n1 1\ninfo\nnote\ndate\nuser\nMODL\n1 1\nproject\nmodel\nCNTB\n1 1\ngroup\n0 0 0\n0\n".toList

/-- A document with two models, one after the other. -/
def doc_two_models : Buf :=
  "HEAD\n1 1\ninfo\nnote\ndate\nuser\nMODL\n1 1\nproject\nfirst\nMODL\n1 1\nproject\nsecond\n".toList

/-- A document with a primitive directly under the model. -/
def doc_prim_under_model : Buf :=
  "HEAD\n1 1\ninfo\nnote\ndate\nuser\nMODL\n1 1\nproject\nmodel\nPRIM\n1 1\n2\n".toList

/-- A document with a primitive of kind 9 in a group, complete with matrix,
bounding box and a payload line. -/
def doc_sphere : Buf :=
  "HEAD\n1 1\ninfo\nnote\ndate\nuser\nMODL\n1 1\nproject\nmodel\nCNTB\n1 1\ngroup\n0 0 0\n0\nPRIM\n1 1\n9\n1 0 0 0\n0 1 0 0\n0 0 1 0\n0 0 0\n1 1 1\n5\nCNTE\n1 1\nEND:\n1 1\n".toList

/-- A document with a Box in a group whose matrix has the rows `1 0 0 10`,
`0 1 0 20` and `0 0 1 30`. -/
def doc_translation : Buf :=
  "HEAD\n1 1\ninfo\nnote\ndate\nuser\nMODL\n1 1\nproject\nmodel\nCNTB\n1 1\ngroup\n0 0 0\n0\nPRIM\n1 1\n2\n1 0 0 10\n0 1 0 20\n0 0 1 30\n0 0 0\n1 1 1\n1 1 1\nCNTE\n1 1\nEND:\n1 1\n".toList

/-- A document with a Snout in a group, its nine floats on two lines. -/
def doc_snout : Buf :=
  "HEAD\n1 1\ninfo\nnote\ndate\nuser\nMODL\n1 1\nproject\nmodel\nCNTB\n1 1\ngroup\n0 0 0\n0\nPRIM\n1 1\n7\n1 0 0 0\n0 1 0 0\n0 0 1 0\n0 0 0\n1 1 1\n1 2 3 4 5\n6 7 8 9\nCNTE\n1 1\nEND:\n1 1\n".toList

/-- A document whose first chunk is a `MODL`. -/
def doc_no_head : Buf :=
  "MODL\n1 1\nproject\nmodel\nEND:\n1 1\n".toList

/-- A document with a second `HEAD` chunk after the first. -/
def doc_second_head : Buf :=
  "HEAD\n1 1\ninfo\nnote\ndate\nuser\nHEAD\n1 1\ninfo\nnote\ndate\nuser\n".toList

/-- A document with a chunk `JUNK` at top level. -/
def doc_junk_chunk : Buf :=
  "HEAD\n1 1\ninfo\nnote\ndate\nuser\nJUNK\n1 1\n".toList

/-- A document with a chunk at top level whose identifier has a NUL byte in
the middle. -/
def doc_nul_chunk : Buf :=
  "HEAD\n1 1\ninfo\nnote\ndate\nuser\nX\x00Y\n1 1\n".toList

/-- A document with a `HEAD` chunk whose fourth line ends the buffer with a
`\r` and no `\n`. -/
def doc_head_cr : Buf :=
  "HEAD\n1 1\ninfo\nnote\ndate\nuser\r".toList

/-- A document with a `HEAD` chunk that has two lines only. -/
def doc_head_short : Buf :=
  "HEAD\n1 1\ninfo\nnote\n".toList

/-- A document with a `HEAD` chunk whose lines have blanks at both ends and
end in `\r\n` or `\n`, and a Model. -/
def doc_head_blanks : Buf :=
  "HEAD\n1 1\n info \r\n\tnote\ndate \r\r\nuser\nMODL\n1 1\nproject\nmodel\n".toList

/-- A sample document: a `HEAD`, a `MODL` and the `END:` chunk. -/
def doc_model_end : Buf :=
  "HEAD\n1 1\ninfo\nnote\ndate\nuser\nMODL\n1 1\nproject\nmodel\nEND:\n1 1\n".toList

/-- A document with a `HEAD`, a `MODL`, a `CNTB` group that is closed, and the
`END:` chunk. -/
def doc_group_end : Buf :=
  "HEAD\n1 1\ninfo\nnote\ndate\nuser\nMODL\n1 1\nproject\nmodel\nCNTB\n1 1\ngroup\n0 0 0\n0\nCNTE\n1 1\nEND:\n1 1\n".toList

/-- The document `doc_group_end` with a `CNTE` chunk header between the `MODL`
chunk and the `CNTB` chunk. -/
def doc_group_end_stray : Buf :=
  "HEAD\n1 1\ninfo\nnote\ndate\nuser\nMODL\n1 1\nproject\nmodel\nCNTE\n1 1\nCNTB\n1 1\ngroup\n0 0 0\n0\nCNTE\n1 1\nEND:\n1 1\n".toList

/-- A document with one group whose translation line is `1000 2000 3000`. -/
def doc_millimetres : Buf :=
  "HEAD\n1 1\ninfo\nnote\ndate\nuser\nMODL\n1 1\nproject\nmodel\nCNTB\n1 1\ngroup\n1000 2000 3000\n0\nCNTE\n1 1\nEND:\n1 1\n".toList

/-- A document with an `OBST` chunk of kind 2 (a Box) in a group. -/
def doc_obstruction : Buf :=
  "HEAD\n1 1\ninfo\nnote\ndate\nuser\nMODL\n1 1\nproject\nmodel\nCNTB\n1 1\ngroup\n0 0 0\n0\nOBST\n1 1\n2\n1 0 0 0\n0 1 0 0\n0 0 1 0\n0 0 0\n1 1 1\n1 1 1\nCNTE\n1 1\nEND:\n1 1\n".toList

/-- A document with a `HEAD` chunk header and its four lines, and nothing
else. -/
def doc_head_only : Buf :=
  "HEAD\n1 1\ninfo\nnote\ndate\nuser\n".toList

/-- A sample document: a `HEAD` and a `MODL`, without an `END:` chunk. -/
def doc_model_no_end : Buf :=
  "HEAD\n1 1\ninfo\nnote\ndate\nuser\nMODL\n1 1\nproject\nmodel\n".toList

/-- A document whose first chunk is a `PRIM`. -/
def doc_prim_first : Buf :=
  "PRIM\n1 1\n2\n".toList

/-- A document with a group in a group and a Box in the inner group. -/
def doc_nested : Buf :=
  "HEAD\n1 1\ninfo\nnote\ndate\nuser\nMODL\n1 1\nproject\nmodel\nCNTB\n1 1\nouter\n0 0 0\n0\nCNTB\n1 1\ninner\n0 0 0\n0\nPRIM\n1 1\n2\n1 0 0 0\n0 1 0 0\n0 0 1 0\n0 0 0\n1 1 1\n1 1 1\nCNTE\n1 1\nCNTE\n1 1\nEND:\n1 1\n".toList

/-! ## The cursor only moves forward -/

/-- The digits counted by `scanDigits` are bytes of the span. -/
theorem scanDigits_count (acc n : Nat) (p : Buf) :
    (scanDigits acc n p).2.1 + (scanDigits acc n p).2.2.length = n + p.length := by
  induction p generalizing acc n with
  | nil => simp [scanDigits]
  | cons c cs ih =>
    unfold scanDigits
    cases h : digitVal c with
    | none => simp
    | some d => simp only [ih, List.length_cons]; omega

theorem skip_ws_length (p : Buf) : (skip_ws p).length ≤ p.length := by
  induction p with
  | nil => simp [skip_ws]
  | cons c cs ih =>
    unfold skip_ws
    split
    · simp only [List.length_cons]; omega
    · exact Nat.le_refl _

theorem strtoul_digits_length (u : Nat) (neg : Bool) (r : Buf) (v : Nat) (ep : Buf)
    (h : strtoul_digits u neg r = some (v, ep)) : ep.length < r.length := by
  unfold strtoul_digits at h
  have hc := scanDigits_count 0 0 r
  split at h
  · simp at h
  · next v' n' ep' heq =>
    rw [heq] at hc
    simp only at hc
    have hep : ep = ep' := by
      split at h
      · simp at h; exact h.2.symm
      · split at h <;> (simp at h; exact h.2.symm)
    subst hep
    omega

theorem strtoul_length (u : Nat) (p : Buf) (v : Nat) (ep : Buf)
    (h : strtoul u p = some (v, ep)) : ep.length < p.length := by
  unfold strtoul at h
  split at h
  · have := strtoul_digits_length _ _ _ _ _ h
    simp only [List.length_cons]; omega
  · have := strtoul_digits_length _ _ _ _ _ h
    simp only [List.length_cons]; omega
  · exact strtoul_digits_length _ _ _ _ _ h

theorem read_u32_length (H : Host F) (p : Buf) (v : Nat) (q : Buf)
    (h : read_u32 H p = some (v, q)) : q.length < p.length := by
  unfold read_u32 at h
  split at h
  · simp at h
  · next c cs heq =>
    have hs := skip_ws_length p
    rw [heq] at hs
    split at h
    · simp at h
    · next v' ep hst =>
      have := strtoul_length _ _ _ _ hst
      split at h
      · simp at h
      · simp at h
        rw [← h.2]
        omega

theorem read_f32_length (H : Host F) (p : Buf) (v : F) (q : Buf)
    (h : read_f32 H p = some (v, q)) : q.length < p.length := by
  unfold read_f32 at h
  split at h
  · simp at h
  · next c cs heq =>
    have hs := skip_ws_length p
    rw [heq] at hs
    split at h
    · simp at h
    · next v' n hst =>
      have hc := H.strtof_consumed _ _ _ hst
      simp at h
      rw [← h.2]
      simp only [List.length_drop, List.length_cons] at hc hs ⊢
      omega

theorem dropWhile_length_le {α : Type} (f : α → Bool) (l : List α) :
    (l.dropWhile f).length ≤ l.length := by
  induction l with
  | nil => simp
  | cons a as ih =>
    simp only [List.dropWhile_cons]
    split
    · simp only [List.length_cons]; omega
    · exact Nat.le_refl _

theorem read_line_length (p : Buf) (l : List Char) (q : Buf)
    (h : read_line p = some (l, q)) : q.length < p.length := by
  unfold read_line at h
  split at h
  · simp at h
  · next c cs =>
    simp only [Option.some.injEq, Prod.mk.injEq] at h
    rw [← h.2]
    simp only [List.length_drop, List.length_cons]
    have := dropWhile_length_le (fun c => c != '\n') (c :: cs)
    simp only [List.length_cons] at this
    omega

theorem consume_eol_length (p : Buf) : (consume_eol p).length ≤ p.length := by
  unfold consume_eol
  split
  · split
    · split
      · next heq => exact Nat.le_of_lt (read_line_length _ _ _ heq)
      · exact Nat.le_refl _
    · exact Nat.le_refl _
  · exact Nat.le_refl _

theorem read_chunk_header_txt_length (H : Host F) (p : Buf) (id : List Char) (q : Buf)
    (h : read_chunk_header_txt H p = some (id, q)) : q.length < p.length := by
  unfold read_chunk_header_txt at h
  split at h
  · simp at h
  · next line p1 h1 =>
    split at h
    · simp at h
    · next u0 p2 h2 =>
      split at h
      · simp at h
      · next u1 p3 h3 =>
        simp only [Option.some.injEq, Prod.mk.injEq] at h
        rw [← h.2]
        have a := read_line_length _ _ _ h1
        have b := read_u32_length _ _ _ _ h2
        have c := read_u32_length _ _ _ _ h3
        have d := consume_eol_length p3
        omega

theorem f32_into_bounded {α : Type} (H : Host F) (set : F → α → α) (n : Nat)
    (x : α × Option Buf) (hx : ∀ q, x.2 = some q → q.length ≤ n) :
    ∀ q, (f32_into H set x).2 = some q → q.length ≤ n := by
  rcases x with ⟨a, _ | p⟩
  · intro q hq
    simp [f32_into] at hq
  · intro q hq
    simp only [f32_into] at hq
    split at hq
    · simp at hq
    · next v q' hr =>
      simp at hq
      subst hq
      have := read_f32_length H p v _ hr
      have := hx p rfl
      omega

theorem eol_step_bounded {α : Type} (n : Nat)
    (x : α × Option Buf) (hx : ∀ q, x.2 = some q → q.length ≤ n) :
    ∀ q, (eol_step x).2 = some q → q.length ≤ n := by
  rcases x with ⟨a, _ | p⟩
  · intro q hq
    simp [eol_step] at hq
  · intro q hq
    simp only [eol_step, Option.some.injEq] at hq
    subst hq
    have := consume_eol_length p
    have := hx p rfl
    omega

theorem start_bounded {α : Type} (a : α) (p : Buf) (n : Nat) (h : p.length ≤ n) :
    ∀ q, ((a, some p) : α × Option Buf).2 = some q → q.length ≤ n := by
  intro q hq
  simp only [Option.some.injEq] at hq
  subst hq
  exact h

theorem bounded_elim {α : Type} {x : α × Option Buf} {a : α} {p1 : Buf} {n : Nat}
    (hx : x = (a, some p1)) (hb : ∀ q, x.2 = some q → q.length ≤ n) : p1.length ≤ n :=
  hb p1 (by rw [hx])

theorem chain_end_le {α : Type} (msg : String) (n : Nat)
    (x : α × Option Buf) (hx : ∀ q, x.2 = some q → q.length ≤ n) :
    ∀ a q, chain_end msg x = .ok a q → q.length ≤ n := by
  rcases x with ⟨a, _ | p⟩
  · intro a' q hq
    simp [chain_end] at hq
  · intro a' q hq
    simp only [chain_end, Step.ok.injEq] at hq
    rw [← hq.2]
    have := consume_eol_length p
    have := hx p rfl
    omega

theorem andThen_le {α : Type} (s : Step α) (f : α → Buf → Step α) (n : Nat)
    (hs : ∀ a q, s = .ok a q → q.length ≤ n)
    (hf : ∀ a p, p.length ≤ n → ∀ a' q, f a p = .ok a' q → q.length ≤ n) :
    ∀ a q, s.andThen f = .ok a q → q.length ≤ n := by
  intro a q h
  cases s with
  | ok a0 p0 => exact hf a0 p0 (hs a0 p0 rfl) a q h
  | err a0 m => simp [Step.andThen] at h

theorem read_row_length (H : Host F) (p : Buf) (r : Row F) (q : Buf)
    (h : read_row H p = some (r, q)) : q.length ≤ p.length := by
  unfold read_row at h
  split at h
  · simp at h
  · next a p1 h1 =>
    split at h
    · simp at h
    · next b p2 h2 =>
      split at h
      · simp at h
      · next c p3 h3 =>
        split at h
        · simp at h
        · next d p4 h4 =>
          simp only [Option.some.injEq, Prod.mk.injEq] at h
          rw [← h.2]
          have := read_f32_length _ _ _ _ h1
          have := read_f32_length _ _ _ _ h2
          have := read_f32_length _ _ _ _ h3
          have := read_f32_length _ _ _ _ h4
          have := consume_eol_length p4
          omega

theorem read_matrix_length (H : Host F) (p : Buf) (r : Row F × Row F × Row F) (q : Buf)
    (h : read_matrix H p = .ok (r, q)) : q.length ≤ p.length := by
  unfold read_matrix at h
  split at h
  · simp at h
  · next r0 p1 h1 =>
    split at h
    · simp at h
    · next r1 p2 h2 =>
      split at h
      · simp at h
      · next r2 p3 h3 =>
        simp only [Except.ok.injEq, Prod.mk.injEq] at h
        rw [← h.2]
        have := read_row_length _ _ _ _ h1
        have := read_row_length _ _ _ _ h2
        have := read_row_length _ _ _ _ h3
        omega

theorem read_bbox_length (H : Host F) (g : Geometry F) (p : Buf) :
    ∀ q, (read_bbox H g p).2 = some q → q.length ≤ p.length := by
  unfold read_bbox
  simp only
  repeat (first | apply eol_step_bounded | apply f32_into_bounded)
  exact start_bounded _ _ _ (Nat.le_refl _)

theorem read_vertices_length (H : Host F) (todo : Nat) :
    ∀ (vi : Nat) (c : Contour F) (p : Buf) (c' : Contour F) (q : Buf),
      read_vertices H todo vi c p = .ok c' q → q.length ≤ p.length := by
  induction todo with
  | zero =>
    intro vi c p c' q h
    simp only [read_vertices, Step.ok.injEq] at h
    rw [← h.2]
  | succ n ih =>
    intro vi c p c' q h
    unfold read_vertices at h
    simp only at h
    split at h
    · simp at h
    · next c1 p1 h1 =>
      have b1 : p1.length ≤ p.length := by
        refine bounded_elim h1 ?_
        repeat (first | apply eol_step_bounded | apply f32_into_bounded)
        exact start_bounded _ _ _ (Nat.le_refl _)
      split at h
      · simp at h
      · next c2 p2 h2 =>
        have b2 : p2.length ≤ p.length := by
          refine bounded_elim h2 ?_
          repeat (first | apply eol_step_bounded | apply f32_into_bounded)
          exact start_bounded _ _ _ (Nat.le_trans (consume_eol_length p1) b1)
        have := ih _ _ _ _ _ h
        have := consume_eol_length p2
        omega


theorem read_contours_length (H : Host F) (todo : Nat) :
    ∀ (poly : Polygon F) (p : Buf) (poly' : Polygon F) (q : Buf),
      read_contours H todo poly p = .ok poly' q → q.length ≤ p.length := by
  induction todo with
  | zero =>
    intro poly p poly' q h
    simp only [read_contours, Step.ok.injEq] at h
    rw [← h.2]
  | succ n ih =>
    intro poly p poly' q h
    unfold read_contours at h
    split at h
    · simp at h
    · next m p1 h1 =>
      simp only at h
      split at h
      · simp at h
      · next cont p2 h2 =>
        have := read_u32_length _ _ _ _ h1
        have := consume_eol_length p1
        have := read_vertices_length _ _ _ _ _ _ _ h2
        have := ih _ _ _ _ h
        omega

theorem read_polygons_length (H : Host F) (todo : Nat) :
    ∀ (fg : FacetGroup F) (p : Buf) (fg' : FacetGroup F) (q : Buf),
      read_polygons H todo fg p = .ok fg' q → q.length ≤ p.length := by
  induction todo with
  | zero =>
    intro fg p fg' q h
    simp only [read_polygons, Step.ok.injEq] at h
    rw [← h.2]
  | succ n ih =>
    intro fg p fg' q h
    unfold read_polygons at h
    split at h
    · simp at h
    · next m p1 h1 =>
      split at h
      · simp at h
      · next poly p2 h2 =>
        have := read_u32_length _ _ _ _ h1
        have := consume_eol_length p1
        have := read_contours_length _ _ _ _ _ _ h2
        have := ih _ _ _ _ h
        omega

theorem switch_kind_length (H : Host F) (kind : Nat) (g : Geometry F) (p : Buf) :
    ∀ g' q, switch_kind H kind g p = .ok g' q → q.length ≤ p.length := by
  unfold switch_kind
  split
  all_goals try simp only
  all_goals try (
    first
    | (apply chain_end_le
       repeat (first | apply eol_step_bounded | apply f32_into_bounded)
       exact start_bounded _ _ _ (Nat.le_refl _))
    | (apply andThen_le
       · apply chain_end_le
         repeat (first | apply eol_step_bounded | apply f32_into_bounded)
         exact start_bounded _ _ _ (Nat.le_refl _)
       · intro a p' hp'
         apply chain_end_le
         repeat (first | apply eol_step_bounded | apply f32_into_bounded)
         exact start_bounded _ _ _ hp'))
  · intro g' q h; simp at h
  · intro g' q h
    split at h
    · simp at h
    · next n p1 h1 =>
      split at h
      · simp at h
      · next fg p2 h2 =>
        simp only [Step.ok.injEq] at h
        rw [← h.2]
        have := read_u32_length _ _ _ _ h1
        have := consume_eol_length p1
        have := read_polygons_length _ _ _ _ _ _ h2
        omega
  · intro g' q h; simp at h

theorem parse_prim_txt_length (H : Host F) (ctx : Context F) (id : List Char) (p : Buf) :
    ∀ r, parse_prim_txt H ctx id p = r → r.ok = true → r.p.length ≤ p.length := by
  intro r hr hok
  unfold parse_prim_txt at hr
  split at hr
  · subst hr; simp at hok
  · split at hr
    · subst hr; simp at hok
    · split at hr
      · subst hr; simp at hok
      · next kind p1 h1 =>
        have := read_u32_length _ _ _ _ h1
        simp only at hr
        split at hr
        · subst hr; simp [prim_return, set_error] at hok
        · split at hr
          · subst hr; simp [prim_return, set_error] at hok
          · next r0 r1 r2 p2 h2 =>
            have := read_matrix_length _ _ _ _ h2
            try simp only at hr
            split at hr
            · subst hr; simp [prim_return, set_error] at hok
            · next g1 p3 h3 =>
              have := read_bbox_length H _ _ _ (by rw [h3])
              try simp only at hr
              split at hr
              · subst hr; simp [prim_return, set_error] at hok
              · next g2 p4 h4 =>
                have := switch_kind_length _ _ _ _ _ _ h4
                subst hr
                simp only [prim_return]
                omega

theorem cntb_open_length (H : Host F) (ctx : Context F) (p : Buf) :
    ∀ r, cntb_open H ctx p = r → r.ok = true → r.p.length ≤ p.length := by
  intro r hr hok
  unfold cntb_open at hr
  split at hr
  · subst hr; simp at hok
  · split at hr
    · subst hr; simp at hok
    · simp only at hr
      split at hr
      · subst hr; simp at hok
      · next line p1 h1 =>
        have := read_line_length _ _ _ h1
        split at hr
        · subst hr; simp at hok
        · next c2 p2 h2 =>
          have b2 : p2.length ≤ p1.length := by
            refine bounded_elim h2 ?_
            repeat (first | apply eol_step_bounded | apply f32_into_bounded)
            exact start_bounded _ _ _ (Nat.le_refl _)
          have := consume_eol_length p2
          split at hr
          · subst hr; simp at hok
          · next m p3 h3 =>
            have := read_u32_length _ _ _ _ h3
            have := consume_eol_length p3
            subst hr
            try simp only
            omega

theorem parse_modl_txt_length (H : Host F) (ctx : Context F) (p : Buf) :
    ∀ r, parse_modl_txt H ctx p = r → r.ok = true → r.p.length ≤ p.length := by
  intro r hr hok
  unfold parse_modl_txt at hr
  split at hr
  · subst hr; simp at hok
  · split at hr
    · subst hr; simp at hok
    · simp only at hr
      split at hr
      · subst hr; simp at hok
      · next l1 p1 h1 =>
        split at hr
        · subst hr; simp at hok
        · next l2 p2 h2 =>
          have := read_line_length _ _ _ h1
          have := read_line_length _ _ _ h2
          subst hr
          try simp only
          omega

theorem parse_head_txt_length (H : Host F) (ctx : Context F) (p : Buf) :
    ∀ r, parse_head_txt H ctx p = r → r.ok = true → r.p.length ≤ p.length := by
  intro r hr hok
  unfold parse_head_txt at hr
  split at hr
  · subst hr; simp at hok
  · simp only at hr
    split at hr
    · subst hr; simp at hok
    · next l1 p1 h1 =>
      split at hr
      · subst hr; simp at hok
      · next l2 p2 h2 =>
        split at hr
        · subst hr; simp at hok
        · next l3 p3 h3 =>
          split at hr
          · subst hr; simp at hok
          · next l4 p4 h4 =>
            have := read_line_length _ _ _ h1
            have := read_line_length _ _ _ h2
            have := read_line_length _ _ _ h3
            have := read_line_length _ _ _ h4
            subst hr
            try simp only
            omega

/-- A group that is parsed with success leaves the cursor where it was or further on. -/
theorem cntb_length (H : Host F) (fuel : Nat) :
    (∀ (ctx : Context F) (p : Buf) (r : Res F),
        parse_cntb_txt H fuel ctx p = some r → r.ok = true → r.p.length ≤ p.length) ∧
    (∀ (ctx : Context F) (p : Buf) (r : Res F),
        cntb_children H fuel ctx p = some r → r.ok = true → r.p.length ≤ p.length) := by
  induction fuel with
  | zero => constructor <;> (intro ctx p r h; simp [parse_cntb_txt, cntb_children] at h)
  | succ n ih =>
    obtain ⟨ih1, ih2⟩ := ih
    constructor
    · intro ctx p r h hok
      simp only [parse_cntb_txt] at h
      split at h
      · next ho =>
        have := cntb_open_length H ctx p _ rfl ho
        have := ih2 _ _ _ h hok
        omega
      · simp only [Option.some.injEq] at h
        subst h
        contradiction
    · intro ctx p r h hok
      simp only [cntb_children] at h
      split at h
      · simp only [Option.some.injEq] at h; subst h; simp
      · next c cs =>
        split at h
        · simp only [Option.some.injEq] at h; subst h; simp at hok
        · next cid p1 h1 =>
          have := read_chunk_header_txt_length _ _ _ _ h1
          split at h
          · simp only [Option.some.injEq] at h; subst h; simp only; omega
          · split at h
            · split at h
              · simp at h
              · next r1 hr1 =>
                split at h
                · next ho =>
                  have := ih1 _ _ _ hr1 ho
                  have := ih2 _ _ _ h hok
                  omega
                · simp only [Option.some.injEq] at h; subst h; contradiction
            · split at h
              · try simp only at h
                split at h
                · next ho =>
                  have := parse_prim_txt_length H ctx cid p1 _ rfl ho
                  have := ih2 _ _ _ h hok
                  omega
                · simp only [Option.some.injEq] at h; subst h; contradiction
              · simp only [Option.some.injEq] at h; subst h; simp at hok

/-- With fuel for twice the bytes that remain, a group is parsed to its end. -/
theorem cntb_total (H : Host F) (fuel : Nat) :
    (∀ (ctx : Context F) (p : Buf), 2 * p.length + 2 ≤ fuel →
        (parse_cntb_txt H fuel ctx p).isSome = true) ∧
    (∀ (ctx : Context F) (p : Buf), 2 * p.length + 1 ≤ fuel →
        (cntb_children H fuel ctx p).isSome = true) := by
  induction fuel with
  | zero => constructor <;> (intro ctx p h; omega)
  | succ n ih =>
    obtain ⟨ih1, ih2⟩ := ih
    constructor
    · intro ctx p hf
      simp only [parse_cntb_txt]
      split
      · next ho =>
        have := cntb_open_length H ctx p _ rfl ho
        exact ih2 _ _ (by omega)
      · rfl
    · intro ctx p hf
      simp only [cntb_children]
      split
      · rfl
      · next c cs =>
        split
        · rfl
        · next cid p1 h1 =>
          have := read_chunk_header_txt_length _ _ _ _ h1
          split
          · rfl
          · split
            · have hs := ih1 ctx p1 (by omega)
              split
              · next hn => rw [hn] at hs; simp at hs
              · next r1 hr1 =>
                split
                · next ho =>
                  have := (cntb_length H n).1 _ _ _ hr1 ho
                  exact ih2 _ _ (by omega)
                · rfl
            · split
              · try simp only
                split
                · next ho =>
                  have := parse_prim_txt_length H ctx cid p1 _ rfl ho
                  exact ih2 _ _ (by omega)
                · rfl
              · rfl

/-- More fuel does not change a result. -/
theorem cntb_fuel_succ (H : Host F) (fuel : Nat) :
    (∀ (ctx : Context F) (p : Buf) (r : Res F),
        parse_cntb_txt H fuel ctx p = some r → parse_cntb_txt H (fuel + 1) ctx p = some r) ∧
    (∀ (ctx : Context F) (p : Buf) (r : Res F),
        cntb_children H fuel ctx p = some r → cntb_children H (fuel + 1) ctx p = some r) := by
  induction fuel with
  | zero => constructor <;> (intro ctx p r h; simp [parse_cntb_txt, cntb_children] at h)
  | succ n ih =>
    obtain ⟨ih1, ih2⟩ := ih
    constructor
    · intro ctx p r h
      simp only [parse_cntb_txt] at h ⊢
      try simp only at h ⊢
      split
      · next ho => rw [if_pos ho] at h; exact ih2 _ _ _ h
      · next ho => rw [if_neg ho] at h; exact h
    · intro ctx p r h
      simp only [cntb_children] at h ⊢
      split
      · exact h
      · next c cs =>
        try simp only at h ⊢
        split
        · next h1 => rw [h1] at h; exact h
        · next cid p1 h1 =>
          rw [h1] at h
          try simp only at h ⊢
          split
          · next hc => rw [if_pos hc] at h; exact h
          · next hc =>
            rw [if_neg hc] at h
            split
            · next hb =>
              rw [if_pos hb] at h
              cases hr1 : parse_cntb_txt H n ctx p1 with
              | none => rw [hr1] at h; simp at h
              | some r1 =>
                rw [hr1] at h
                rw [ih1 _ _ _ hr1]
                try simp only at h ⊢
                split
                · next ho => rw [if_pos ho] at h; exact ih2 _ _ _ h
                · next ho => rw [if_neg ho] at h; exact h
            · next hb =>
              rw [if_neg hb] at h
              split
              · next hp =>
                rw [if_pos hp] at h
                try simp only at h ⊢
                split
                · next ho => rw [if_pos ho] at h; exact ih2 _ _ _ h
                · next ho => rw [if_neg ho] at h; exact h
              · next hp => rw [if_neg hp] at h; exact h

theorem cntb_fuel_le (H : Host F) (fuel fuel' : Nat) (hle : fuel ≤ fuel') :
    (∀ (ctx : Context F) (p : Buf) (r : Res F),
        parse_cntb_txt H fuel ctx p = some r → parse_cntb_txt H fuel' ctx p = some r) ∧
    (∀ (ctx : Context F) (p : Buf) (r : Res F),
        cntb_children H fuel ctx p = some r → cntb_children H fuel' ctx p = some r) := by
  induction hle with
  | refl => exact ⟨fun _ _ _ h => h, fun _ _ _ h => h⟩
  | step _ ih =>
    exact ⟨fun c p r h => (cntb_fuel_succ H _).1 c p r (ih.1 c p r h),
           fun c p r h => (cntb_fuel_succ H _).2 c p r (ih.2 c p r h)⟩

theorem top_level_total (H : Host F) (fuel : Nat) :
    ∀ (ctx : Context F) (p : Buf), 2 * p.length + 1 ≤ fuel →
      (top_level H fuel ctx p).isSome = true := by
  induction fuel with
  | zero => intro ctx p h; omega
  | succ n ih =>
    intro ctx p hf
    simp only [top_level]
    split
    · rfl
    · next c cs =>
      split
      · rfl
      · next id p1 h1 =>
        have := read_chunk_header_txt_length _ _ _ _ h1
        split
        · rfl
        · split
          · try simp only
            split
            · next ho =>
              have := parse_modl_txt_length H ctx p1 _ rfl ho
              exact ih _ _ (by omega)
            · rfl
          · split
            · have hs := (cntb_total H n).1 ctx p1 (by omega)
              split
              · next hn => rw [hn] at hs; simp at hs
              · next r1 hr1 =>
                split
                · next ho =>
                  have := (cntb_length H n).1 _ _ _ hr1 ho
                  exact ih _ _ (by omega)
                · rfl
            · split
              · exact ih _ _ (by omega)
              · split
                · rfl
                · rfl

theorem top_level_fuel_succ (H : Host F) (fuel : Nat) :
    ∀ (ctx : Context F) (p : Buf) (r : Res F),
      top_level H fuel ctx p = some r → top_level H (fuel + 1) ctx p = some r := by
  induction fuel with
  | zero => intro ctx p r h; simp [top_level] at h
  | succ n ih =>
    intro ctx p r h
    cases p with
    | nil => rw [top_level.eq_2] at h ⊢; exact h
    | cons c cs =>
      rw [top_level.eq_3] at h ⊢
      split
      · next h1 => rw [h1] at h; exact h
      · next id p1 h1 =>
        rw [h1] at h
        try simp only at h ⊢
        split
        · next hc => rw [if_pos hc] at h; exact h
        · next hc =>
          rw [if_neg hc] at h
          split
          · next hm =>
            rw [if_pos hm] at h
            try simp only at h ⊢
            split
            · next ho => rw [if_pos ho] at h; exact ih _ _ _ h
            · next ho => rw [if_neg ho] at h; exact h
          · next hm =>
            rw [if_neg hm] at h
            split
            · next hb =>
              rw [if_pos hb] at h
              cases hr1 : parse_cntb_txt H n ctx p1 with
              | none => rw [hr1] at h; simp at h
              | some r1 =>
                rw [hr1] at h
                rw [(cntb_fuel_succ H n).1 _ _ _ hr1]
                try simp only at h ⊢
                split
                · next ho => rw [if_pos ho] at h; exact ih _ _ _ h
                · next ho => rw [if_neg ho] at h; exact h
            · next hb =>
              rw [if_neg hb] at h
              split
              · next he => rw [if_pos he] at h; exact ih _ _ _ h
              · next he =>
                rw [if_neg he] at h
                exact h

theorem top_level_fuel_le (H : Host F) (fuel fuel' : Nat) (hle : fuel ≤ fuel')
    (ctx : Context F) (p : Buf) (r : Res F) (h : top_level H fuel ctx p = some r) :
    top_level H fuel' ctx p = some r := by
  induction hle with
  | refl => exact h
  | step _ ih => exact top_level_fuel_succ H _ _ _ _ ih

theorem run_fuel_le (H : Host F) (l : Level) (fuel fuel' : Nat) (hle : fuel ≤ fuel')
    (ctx : Context F) (p : Buf) (r : Res F) (h : run H l fuel ctx p = some r) :
    run H l fuel' ctx p = some r := by
  cases l with
  | root => exact top_level_fuel_le H _ _ hle _ _ _ h
  | group => exact (cntb_fuel_le H _ _ hle).2 _ _ _ h

/-- `parseREV` returns: the fuel it gives to its loops is never used up. -/
theorem parseREV_returns (H : Host F) (store : Store F) (path : Option (List Char))
    (buf : Buf) : ∃ r, parseREV H store path buf = some r := by
  unfold parseREV parseREV_fuel
  simp only
  split
  · exact ⟨_, rfl⟩
  · next id p0 h0 =>
    have := read_chunk_header_txt_length _ _ _ _ h0
    split
    · exact ⟨_, rfl⟩
    · split
      · next ho =>
        have := parse_head_txt_length H _ p0 _ rfl ho
        have hs := top_level_total H (2 * buf.length + 2)
          (parse_head_txt H { store := store, path := path } p0).ctx
          (parse_head_txt H { store := store, path := path } p0).p (by omega)
        split
        · next hn => rw [hn] at hs; simp at hs
        · split
          · exact ⟨_, rfl⟩
          · exact ⟨_, rfl⟩
      · exact ⟨_, rfl⟩

theorem header_ne_nil (H : Host F) (p : Buf) (id : List Char) (p1 : Buf)
    (h : read_chunk_header_txt H p = some (id, p1)) : ∃ c cs, p = c :: cs := by
  cases p with
  | nil => simp [read_chunk_header_txt, read_line] at h
  | cons c cs => exact ⟨c, cs, rfl⟩

/-- A failure at a head that the reader comes to in one move is the result at
the head it came from. -/
theorem next_fail (H : Host F) (s s' : Pos F) (hn : Next H s s') (fuel : Nat) (r : Res F)
    (hr : run H s'.level fuel s'.ctx s'.p = some r) (hok : r.ok = false) :
    ∃ fuel', run H s.level fuel' s.ctx s.p = some r := by
  cases hn with
  | modl ctx p p1 hh ho =>
    obtain ⟨c, cs, rfl⟩ := header_ne_nil H _ _ _ hh
    refine ⟨fuel + 1, ?_⟩
    simp only [run] at hr ⊢
    rw [top_level.eq_3]
    simp only [hh, ho, if_true]
    exact hr
  | stray_cnte ctx p p1 hh =>
    obtain ⟨c, cs, rfl⟩ := header_ne_nil H _ _ _ hh
    refine ⟨fuel + 1, ?_⟩
    simp only [run] at hr ⊢
    rw [top_level.eq_3]
    simp only [hh, if_true]
    exact hr
  | group_done l ctx p p1 f1 r1 hh hp ho =>
    obtain ⟨c, cs, rfl⟩ := header_ne_nil H _ _ _ hh
    refine ⟨max fuel f1 + 1, ?_⟩
    have hp' := (cntb_fuel_le H f1 (max fuel f1) (Nat.le_max_right _ _)).1 _ _ _ hp
    have hr' := run_fuel_le H l fuel (max fuel f1) (Nat.le_max_left _ _) _ _ _ hr
    cases l with
    | root =>
      simp only [run] at hr' ⊢
      rw [top_level.eq_3]
      simp only [hh, hp', ho, if_true]
      exact hr'
    | group =>
      simp only [run] at hr' ⊢
      rw [cntb_children.eq_3]
      simp only [hh, hp', ho, if_true]
      exact hr'
  | group_enter l ctx p p1 hh ho =>
    obtain ⟨c, cs, rfl⟩ := header_ne_nil H _ _ _ hh
    refine ⟨fuel + 2, ?_⟩
    simp only [run] at hr
    have hp : parse_cntb_txt H (fuel + 1) ctx p1 = some r := by
      simp only [parse_cntb_txt, ho, if_true]
      exact hr
    cases l with
    | root =>
      simp only [run]
      rw [top_level.eq_3]
      simp [hh, hp, hok]
    | group =>
      simp only [run]
      rw [cntb_children.eq_3]
      simp [hh, hp, hok]
  | prim_done ctx p p1 id hh hid ho =>
    obtain ⟨c, cs, rfl⟩ := header_ne_nil H _ _ _ hh
    refine ⟨fuel + 1, ?_⟩
    simp only [run] at hr ⊢
    rw [cntb_children.eq_3]
    have h1 : id ≠ "CNTE".toList := by rcases hid with h | h | h <;> (rw [h]; decide)
    have h2 : id ≠ "CNTB".toList := by rcases hid with h | h | h <;> (rw [h]; decide)
    simp only [hh]
    rw [if_neg h1, if_neg h2, if_pos hid]
    simp only [ho, if_true]
    exact hr

theorem reaches_fail (H : Host F) (s s' : Pos F) (hreach : Reaches H s s') :
    ∀ (fuel : Nat) (r : Res F), run H s'.level fuel s'.ctx s'.p = some r → r.ok = false →
      ∃ fuel', run H s.level fuel' s.ctx s.p = some r := by
  induction hreach with
  | refl => intro fuel r hr _; exact ⟨fuel, hr⟩
  | tail _ hn ih =>
    intro fuel r hr hok
    obtain ⟨f1, h1⟩ := next_fail H _ _ hn fuel r hr hok
    exact ih f1 r h1 hok

/-- A failure at a head that `parseREV` comes to is the result of `parseREV`. -/
theorem parseREV_fail_of_visits (H : Host F) (store : Store F) (path : Option (List Char))
    (buf : Buf) (s : Pos F) (hv : Visits H store path buf s) (fuel : Nat) (r : Res F)
    (hr : run H s.level fuel s.ctx s.p = some r) (hok : r.ok = false) :
    parseREV H store path buf = some r := by
  obtain ⟨p0, hh, ho, hreach⟩ := hv
  obtain ⟨f1, h1⟩ := reaches_fail H _ _ hreach fuel r hr hok
  simp only [run] at h1
  have hlen := read_chunk_header_txt_length _ _ _ _ hh
  have hlen2 := parse_head_txt_length H _ p0 _ rfl ho
  have hs := top_level_total H (2 * buf.length + 2)
    (parse_head_txt H { store := store, path := path } p0).ctx
    (parse_head_txt H { store := store, path := path } p0).p (by omega)
  obtain ⟨r2, hr2⟩ := Option.isSome_iff_exists.mp hs
  have e1 := top_level_fuel_le H _ _ (Nat.le_max_left _ f1) _ _ _ hr2
  have e2 := top_level_fuel_le H _ _ (Nat.le_max_right (2 * buf.length + 2) f1) _ _ _ h1
  rw [e1] at e2
  simp only [Option.some.injEq] at e2
  subst e2
  unfold parseREV parseREV_fuel
  simp only [hh]
  rw [if_neg (by simp)]
  simp only [ho, if_true, hr2, hok]
  simp

/-! ## The shape of the tree is kept sound -/

theorem Store.Grows.refl (s : Store F) : s.Grows s := ⟨⟨[], by simp⟩, id⟩

theorem Store.Grows.trans {s1 s2 s3 : Store F} (h12 : s1.Grows s2) (h23 : s2.Grows s3) :
    s1.Grows s3 := by
  obtain ⟨⟨a, ha⟩, ia⟩ := h12
  obtain ⟨⟨b, hb⟩, ib⟩ := h23
  exact ⟨⟨a ++ b, by rw [hb, ha, List.append_assoc]⟩, fun h => ib (ia h)⟩

theorem Store.Grows.of_shape_eq {s s' : Store F} (hn : s'.nodeShape = s.nodeShape)
    (hg : s'.geoShape = s.geoShape) : s.Grows s' :=
  ⟨⟨[], by simp [hn]⟩, fun h => by rw [hn, hg]; exact h⟩

theorem set_self_of_getElem? {α : Type} (l : List α) (i : Nat) (a : α) (h : l[i]? = some a) :
    l.set i a = l := by
  apply List.ext_getElem?
  intro j
  by_cases hij : i = j
  · subst hij
    rw [List.getElem?_set]
    simp only [if_true]
    have := List.getElem?_eq_some.mp h
    obtain ⟨hlt, _⟩ := this
    simp [hlt, h]
  · rw [List.getElem?_set_ne hij]

theorem nodeShape_modifyFile (s : Store F) (h : Nat) (f : FileData → FileData) :
    (s.modifyFile h f).nodeShape = s.nodeShape := by
  unfold Store.modifyFile
  split
  · next n hn =>
    simp only [Store.nodeShape, List.map_set]
    apply set_self_of_getElem?
    simp [hn]
  · rfl

theorem nodeShape_modifyModel (s : Store F) (h : Nat) (f : ModelData → ModelData) :
    (s.modifyModel h f).nodeShape = s.nodeShape := by
  unfold Store.modifyModel
  split
  · next n hn =>
    simp only [Store.nodeShape, List.map_set]
    apply set_self_of_getElem?
    simp [hn]
  · rfl

theorem nodeShape_modifyGroup (s : Store F) (h : Nat) (f : GroupData F → GroupData F)
    (hf : ∀ d, (f d).transparency = d.transparency) :
    (s.modifyGroup h f).nodeShape = s.nodeShape := by
  unfold Store.modifyGroup
  split
  · next n hn =>
    simp only [Store.nodeShape, List.map_set]
    apply set_self_of_getElem?
    simp [hn, hf]
  · rfl

theorem geoShape_modifyFile (s : Store F) (h : Nat) (f : FileData → FileData) :
    (s.modifyFile h f).geoShape = s.geoShape := by
  unfold Store.modifyFile
  split <;> rfl

theorem geoShape_modifyModel (s : Store F) (h : Nat) (f : ModelData → ModelData) :
    (s.modifyModel h f).geoShape = s.geoShape := by
  unfold Store.modifyModel
  split <;> rfl

theorem geoShape_modifyGroup (s : Store F) (h : Nat) (f : GroupData F → GroupData F) :
    (s.modifyGroup h f).geoShape = s.geoShape := by
  unfold Store.modifyGroup
  split <;> rfl

/-- Adding a node whose parent is there already, with the transparency of a
parent that is a Group, keeps the shape sound. -/
theorem ShapeOK.add_node {ns : List (NodeKind × Option Nat × Nat)} {gs : List (Nat × Option Nat)}
    (h : ShapeOK ns gs) (k : NodeKind) (par : Option Nat) (t : Nat)
    (hpar : ∀ ph, par = some ph → ph < ns.length ∧
      (k = .Group → ∀ pp pt, ns[ph]? = some (.Group, pp, pt) → t = pt)) :
    ShapeOK (ns ++ [(k, par, t)]) gs := by
  obtain ⟨h1, h2⟩ := h
  constructor
  · intro i k' ph t' hi
    by_cases hlt : i < ns.length
    · rw [List.getElem?_append_left hlt] at hi
      obtain ⟨a, b⟩ := h1 i k' ph t' hi
      refine ⟨a, fun hk pp pt hp => ?_⟩
      rw [List.getElem?_append_left (by omega)] at hp
      exact b hk pp pt hp
    · rw [List.getElem?_append_right (by omega)] at hi
      have hi0 : i - ns.length = 0 := by
        by_contra hne
        have : ([(k, par, t)] : List _)[i - ns.length]? = none := by
          apply List.getElem?_eq_none
          simp only [List.length_singleton]; omega
        rw [this] at hi; simp at hi
      rw [hi0] at hi
      simp only [List.getElem?_cons_zero, Option.some.injEq, Prod.mk.injEq] at hi
      obtain ⟨rfl, rfl, rfl⟩ := hi
      obtain ⟨a, b⟩ := hpar ph rfl
      refine ⟨by omega, fun hk pp pt hp => ?_⟩
      rw [List.getElem?_append_left a] at hp
      exact b hk pp pt hp
  · intro g hg
    obtain ⟨pp, pt, a, b⟩ := h2 g hg
    refine ⟨pp, pt, ?_, b⟩
    have hlt : g.1 < ns.length := (List.getElem?_eq_some.mp a).1
    rw [List.getElem?_append_left hlt]
    exact a

/-- Adding a geometry under a Group, with its transparency, keeps the shape
sound. -/
theorem ShapeOK.add_geo {ns : List (NodeKind × Option Nat × Nat)} {gs : List (Nat × Option Nat)}
    (h : ShapeOK ns gs) (top : Nat) (pp : Option Nat) (pt : Nat)
    (htop : ns[top]? = some (.Group, pp, pt)) :
    ShapeOK ns (gs ++ [(top, some pt)]) := by
  obtain ⟨h1, h2⟩ := h
  refine ⟨h1, fun g hg => ?_⟩
  rw [List.mem_append] at hg
  rcases hg with hg | hg
  · exact h2 g hg
  · simp only [List.mem_singleton] at hg
    subst hg
    exact ⟨pp, pt, htop, rfl⟩


theorem f32_into_preserves {α : Type} (P : α → Prop) (H : Host F) (set : F → α → α)
    (hset : ∀ v a, P a → P (set v a)) (x : α × Option Buf) (hx : P x.1) :
    P (f32_into H set x).1 := by
  rcases x with ⟨a, _ | p⟩
  · simpa [f32_into] using hx
  · simp only [f32_into]
    split
    · exact hx
    · exact hset _ _ hx

theorem eol_step_preserves {α : Type} (P : α → Prop) (x : α × Option Buf) (hx : P x.1) :
    P (eol_step x).1 := by
  rcases x with ⟨a, _ | p⟩ <;> simpa [eol_step] using hx

theorem chain_end_preserves {α : Type} (P : α → Prop) (msg : String) (x : α × Option Buf)
    (hx : P x.1) : P (chain_end msg x).val := by
  rcases x with ⟨a, _ | p⟩ <;> simpa [chain_end, Step.val] using hx

theorem andThen_preserves {α : Type} (P : α → Prop) (s : Step α) (f : α → Buf → Step α)
    (hs : P s.val) (hf : ∀ a p, P a → P (f a p).val) : P (s.andThen f).val := by
  cases s with
  | ok a p => exact hf a p hs
  | err a m => exact hs

/-- The `switch (kind)` writes to the kind and the payload only. -/
theorem switch_kind_preamble (H : Host F) (kind : Nat) (g : Geometry F) (p : Buf) :
    (switch_kind H kind g p).val.preamble = g.preamble := by
  unfold switch_kind
  split
  all_goals try simp only
  all_goals try (
    first
    | (apply chain_end_preserves (fun a : Geometry F => a.preamble = g.preamble)
       repeat (first
         | apply eol_step_preserves (fun a : Geometry F => a.preamble = g.preamble)
         | (refine f32_into_preserves (fun a : Geometry F => a.preamble = g.preamble) _ _
             (fun v a h => ?_) _ ?_
            · exact h))
       rfl)
    | (refine andThen_preserves (fun a : Geometry F => a.preamble = g.preamble) _ _ ?_ ?_
       · apply chain_end_preserves (fun a : Geometry F => a.preamble = g.preamble)
         repeat (first
           | apply eol_step_preserves (fun a : Geometry F => a.preamble = g.preamble)
           | (refine f32_into_preserves (fun a : Geometry F => a.preamble = g.preamble) _ _
               (fun v a h => ?_) _ ?_
              · exact h))
         rfl
       · intro a p' ha
         apply chain_end_preserves (fun a : Geometry F => a.preamble = g.preamble)
         repeat (first
           | apply eol_step_preserves (fun a : Geometry F => a.preamble = g.preamble)
           | (refine f32_into_preserves (fun a : Geometry F => a.preamble = g.preamble) _ _
               (fun v a h => ?_) _ ?_
              · exact h))
         exact ha))
  · rfl
  · split
    · rfl
    · split <;> rfl
  · rfl

/-- The loop over the bounding box writes to `bboxLocal` only. -/
theorem read_bbox_frame (H : Host F) (g : Geometry F) (p : Buf) :
    (read_bbox H g p).1 = { g with bboxLocal := (read_bbox H g p).1.bboxLocal } := by
  unfold read_bbox
  simp only
  repeat (first
    | apply eol_step_preserves (fun a : Geometry F => a = { g with bboxLocal := a.bboxLocal })
    | (refine f32_into_preserves (fun a : Geometry F => a = { g with bboxLocal := a.bboxLocal })
        _ _ (fun v a h => ?_) _ ?_
       · rw [h]))
  rfl


theorem read_bbox_transparency (H : Host F) (g : Geometry F) (p : Buf) (g1 : Geometry F)
    (o : Option Buf) (h : read_bbox H g p = (g1, o)) : g1.transparency = g.transparency := by
  have hf := read_bbox_frame H g p
  rw [h] at hf
  simp only at hf
  rw [hf]

theorem switch_kind_transparency (H : Host F) (kind : Nat) (g : Geometry F) (p : Buf)
    (s : Step (Geometry F)) (h : switch_kind H kind g p = s) :
    s.val.transparency = g.transparency := by
  have hp := switch_kind_preamble H kind g p
  rw [h] at hp
  simp only [Geometry.preamble, Prod.mk.injEq] at hp
  exact hp.2.1

theorem nodeShape_set_error (ctx : Context F) (msg : List Char) :
    (set_error ctx msg).store.nodeShape = ctx.store.nodeShape := rfl

theorem geoShape_set_error (ctx : Context F) (msg : List Char) :
    (set_error ctx msg).store.geoShape = ctx.store.geoShape := rfl

theorem kindOf_eq_shape (s : Store F) (h : Nat) :
    s.kindOf h = (s.nodeShape[h]?).map (·.1) := by
  simp only [Store.kindOf, Store.nodeShape, List.getElem?_map]
  cases s.nodes[h]? <;> rfl

/-- What `parse_prim_txt` does to the Store and the stack: the stack and the
nodes are as they were; no geometry is added, or one is, under the Group on
top of the stack and with its transparency. -/
theorem parse_prim_txt_effect (H : Host F) (ctx : Context F) (id : List Char) (p : Buf)
    (hid : type_of_id id ≠ none) :
    (parse_prim_txt H ctx id p).ctx.stack = ctx.stack ∧
    (parse_prim_txt H ctx id p).ctx.logger = ctx.logger ∧
    (parse_prim_txt H ctx id p).ctx.store.nodeShape = ctx.store.nodeShape ∧
    ((parse_prim_txt H ctx id p).ctx.store.geoShape = ctx.store.geoShape ∨
      ∃ top pp pt, ctx.store.nodeShape[top]? = some (NodeKind.Group, pp, pt) ∧
        (parse_prim_txt H ctx id p).ctx.store.geoShape = ctx.store.geoShape ++ [(top, some pt)]) := by
  have key : ∀ (top : Nat) (g : Geometry F) (err : Option (List Char)) (q : Buf),
      ctx.store.kindOf top = some NodeKind.Group →
      g.transparency = ((ctx.store.newGeometry top).1.nodes[top]?).map (·.group.transparency) →
      (prim_return { ctx with store := (ctx.store.newGeometry top).1 }
        (ctx.store.newGeometry top).2 g err q).ctx.stack = ctx.stack ∧
      (prim_return { ctx with store := (ctx.store.newGeometry top).1 }
        (ctx.store.newGeometry top).2 g err q).ctx.logger = ctx.logger ∧
      (prim_return { ctx with store := (ctx.store.newGeometry top).1 }
        (ctx.store.newGeometry top).2 g err q).ctx.store.nodeShape = ctx.store.nodeShape ∧
      ((prim_return { ctx with store := (ctx.store.newGeometry top).1 }
        (ctx.store.newGeometry top).2 g err q).ctx.store.geoShape = ctx.store.geoShape ∨
      ∃ top' pp pt, ctx.store.nodeShape[top']? = some (NodeKind.Group, pp, pt) ∧
        (prim_return { ctx with store := (ctx.store.newGeometry top).1 }
          (ctx.store.newGeometry top).2 g err q).ctx.store.geoShape
            = ctx.store.geoShape ++ [(top', some pt)]) := by
    intro top g err q hk hg
    have hg : g.transparency = (ctx.store.nodes[top]?).map (·.group.transparency) := hg
    have hn : ∃ n, ctx.store.nodes[top]? = some n ∧ n.kind = NodeKind.Group := by
      simp only [Store.kindOf, Option.map_eq_some'] at hk
      exact hk
    obtain ⟨n, hn, hnk⟩ := hn
    have hset : (Store.setGeometry (ctx.store.newGeometry top).1 (ctx.store.newGeometry top).2 g)
        = { ctx.store with geometries := ctx.store.geometries ++ [⟨top, g⟩] } := by
      simp [Store.setGeometry, Store.newGeometry]
    have hshape : ctx.store.nodeShape[top]? =
        some (NodeKind.Group, n.parent, n.group.transparency) := by
      simp [Store.nodeShape, hn, hnk]
    rw [hn] at hg
    simp only [Option.map_some'] at hg
    refine ⟨?_, ?_, ?_, Or.inr ⟨top, n.parent, n.group.transparency, hshape, ?_⟩⟩
    · cases err <;> rfl
    · cases err <;> rfl
    · cases err <;> simp [prim_return, hset, set_error, Store.setErrorString, Store.nodeShape]
    · cases err <;>
        simp [prim_return, hset, set_error, Store.setErrorString, Store.geoShape, hg]
  unfold parse_prim_txt
  split
  · exact ⟨rfl, rfl, rfl, Or.inl rfl⟩
  · next top rest hs =>
    split
    · exact ⟨rfl, rfl, rfl, Or.inl rfl⟩
    · next hk =>
      have hk' : ctx.store.kindOf top = some NodeKind.Group := by
        simpa using hk
      split
      · exact ⟨rfl, rfl, rfl, Or.inl rfl⟩
      · simp only
        split
        · next hnone => exact absurd hnone hid
        · next t ht =>
          split
          · refine key top _ _ _ hk' ?_
            rfl
          · split
            · next g1 hb =>
              exact key top g1 _ _ hk' ((read_bbox_transparency _ _ _ _ _ hb).trans rfl)
            · next g1 p3 hb =>
              have ht := read_bbox_transparency _ _ _ _ _ hb
              split
              · next g2 msg hsw =>
                have hp := switch_kind_transparency _ _ _ _ _ hsw
                exact key top g2 _ _ hk' (hp.trans (ht.trans rfl))
              · next g2 p4 hsw =>
                have hp := switch_kind_transparency _ _ _ _ _ hsw
                exact key top g2 _ _ hk' (hp.trans (ht.trans rfl))

theorem nodeShape_newNode (H : Host F) (s : Store F) (par : Option Nat) (k : NodeKind) :
    (s.newNode H par k).1.nodeShape
      = s.nodeShape ++ [(k, par, H.defaultTransparency s.nodes.length)] := by
  simp [Store.newNode, Store.nodeShape]

theorem nodeShape_length (s : Store F) : s.nodeShape.length = s.nodes.length := by
  simp [Store.nodeShape]

/-- The write of the inherited transparency to the node just created. -/
theorem nodeShape_inherit (H : Host F) (s : Store F) (par : Option Nat) (k : NodeKind)
    (t : Nat) :
    ((s.newNode H par k).1.modifyGroup (s.newNode H par k).2
        (fun d => { d with transparency := t })).nodeShape
      = s.nodeShape ++ [(k, par, t)] := by
  simp [Store.newNode, Store.modifyGroup, Store.nodeShape]

theorem OpenedUnder.modifyGroup {ctx c : Context F} {parent t : Nat}
    (h : OpenedUnder ctx parent t c) (g : Nat) (f : GroupData F → GroupData F)
    (hf : ∀ d, (f d).transparency = d.transparency) :
    OpenedUnder ctx parent t (c.modifyGroup g f) := by
  obtain ⟨a, b, d, e⟩ := h
  refine ⟨a, ?_, d, ?_⟩
  · simp only [Context.modifyGroup, geoShape_modifyGroup]; exact b
  · simp only [Context.modifyGroup, nodeShape_modifyGroup _ _ _ hf]; exact e

theorem OpenedUnder.set_error {ctx c : Context F} {parent t : Nat}
    (h : OpenedUnder ctx parent t c) (msg : List Char) :
    OpenedUnder ctx parent t (set_error c msg) := h

/-- The node created by `parse_cntb_txt` has the transparency of a parent that
is a Group. -/
theorem inherit_transparency_opened (H : Host F) (ctx : Context F) (parent : Nat)
    (pn : Node F) (hpn : ctx.store.nodes[parent]? = some pn) :
    ∃ t, (pn.kind = NodeKind.Group → t = pn.group.transparency) ∧
      OpenedUnder ctx parent t
        (inherit_transparency
          { ctx with store := (ctx.store.newNode H (some parent) NodeKind.Group).1 } parent
          (ctx.store.newNode H (some parent) NodeKind.Group).2) := by
  have hlt : parent < ctx.store.nodes.length := (List.getElem?_eq_some.mp hpn).1
  have hkind' : (ctx.store.newNode H (some parent) NodeKind.Group).1.kindOf parent
      = some pn.kind := by
    simp [Store.kindOf, Store.newNode, List.getElem?_append_left hlt, hpn]
  have hpn' : (ctx.store.newNode H (some parent) NodeKind.Group).1.nodes[parent]?
      = some pn := by
    simp [Store.newNode, List.getElem?_append_left hlt, hpn]
  unfold inherit_transparency
  simp only [hkind', hpn']
  by_cases hg : pn.kind = NodeKind.Group
  · refine ⟨pn.group.transparency, fun _ => rfl, ?_⟩
    rw [if_pos (by rw [hg])]
    refine ⟨rfl, ?_, rfl, nodeShape_inherit H ctx.store _ _ _⟩
    simp only [Context.modifyGroup, geoShape_modifyGroup]
    rfl
  · refine ⟨H.defaultTransparency ctx.store.nodes.length, fun h => absurd h hg, ?_⟩
    rw [if_neg (by simpa using hg)]
    exact ⟨rfl, rfl, rfl, nodeShape_newNode H ctx.store _ _⟩

theorem chain_fst {α : Type} {P : α → Prop} {x : α × Option Buf} {a : α} {o : Option Buf}
    (h : x = (a, o)) (hp : P x.1) : P a := by
  rw [h] at hp
  exact hp

/-- What `cntb_open` does to the Store and the stack: no geometry is touched;
without a Model or Group on top of the stack it fails and nothing else
changes; otherwise one Group node is added under the top of the stack, with
its transparency when that is a Group, and it is pushed when the opening
succeeds. -/
theorem cntb_open_effect (H : Host F) (ctx : Context F) (p : Buf) (r : Res F)
    (hr : cntb_open H ctx p = r) :
    r.ctx.logger = ctx.logger ∧
    r.ctx.store.geoShape = ctx.store.geoShape ∧
    ((r.ok = false ∧ r.ctx.stack = ctx.stack ∧
        r.ctx.store.nodeShape = ctx.store.nodeShape) ∨
      ∃ parent t k pp pt, ctx.stack.head? = some parent ∧
        ctx.store.nodeShape[parent]? = some (k, pp, pt) ∧
        (k = NodeKind.Group → t = pt) ∧
        r.ctx.store.nodeShape
          = ctx.store.nodeShape ++ [(NodeKind.Group, some parent, t)] ∧
        (r.ok = true → r.ctx.stack = ctx.store.nodes.length :: ctx.stack) ∧
        (r.ok = false → r.ctx.stack = ctx.stack)) := by
  unfold cntb_open at hr
  split at hr
  · subst hr; exact ⟨rfl, rfl, Or.inl ⟨rfl, rfl, rfl⟩⟩
  · next parent rest hs =>
    split at hr
    · subst hr; exact ⟨rfl, rfl, Or.inl ⟨rfl, rfl, rfl⟩⟩
    · next hk =>
      have hpn : ∃ pn, ctx.store.nodes[parent]? = some pn := by
        cases h : ctx.store.nodes[parent]? with
        | none => exact absurd (by simp [Store.kindOf, h]) hk
        | some pn => exact ⟨pn, rfl⟩
      obtain ⟨pn, hpn⟩ := hpn
      obtain ⟨t, ht, hQ1⟩ := inherit_transparency_opened H ctx parent pn hpn
      have hshape : ctx.store.nodeShape[parent]?
          = some (pn.kind, pn.parent, pn.group.transparency) := by
        simp [Store.nodeShape, hpn]
      have fail : ∀ (c : Context F) (q : Buf), OpenedUnder ctx parent t c →
          r = ⟨false, c, q⟩ →
          r.ctx.logger = ctx.logger ∧
          r.ctx.store.geoShape = ctx.store.geoShape ∧
          ((r.ok = false ∧ r.ctx.stack = ctx.stack ∧
              r.ctx.store.nodeShape = ctx.store.nodeShape) ∨
            ∃ parent t k pp pt, ctx.stack.head? = some parent ∧
              ctx.store.nodeShape[parent]? = some (k, pp, pt) ∧
              (k = NodeKind.Group → t = pt) ∧
              r.ctx.store.nodeShape
                = ctx.store.nodeShape ++ [(NodeKind.Group, some parent, t)] ∧
              (r.ok = true → r.ctx.stack = ctx.store.nodes.length :: ctx.stack) ∧
              (r.ok = false → r.ctx.stack = ctx.stack)) := by
        intro c q ⟨a, b, d, e⟩ hr
        subst hr
        exact ⟨a, b, Or.inr ⟨parent, t, pn.kind, pn.parent, pn.group.transparency,
          by rw [hs]; rfl, hshape, ht, e, fun h => by simp at h, fun _ => d⟩⟩
      simp only at hr
      split at hr
      · exact fail _ _ (hQ1.set_error _) hr.symm
      · next line p1 hl =>
        have hQ2 := hQ1.modifyGroup (ctx.store.newNode H (some parent) NodeKind.Group).2
          (fun d => { d with name := line }) (fun _ => rfl)
        split at hr
        · next c3 hc3 =>
          have hQ3 : OpenedUnder ctx parent t c3 := by
            refine chain_fst hc3 ?_
            repeat (
              refine f32_into_preserves (OpenedUnder ctx parent t) H _ (fun v a h => ?_) _ ?_
              · exact h.modifyGroup _ _ (fun _ => rfl))
            exact hQ2
          exact fail _ _ (hQ3.set_error _) hr.symm
        · next c3 p3 hc3 =>
          have hQ3 : OpenedUnder ctx parent t c3 := by
            refine chain_fst hc3 ?_
            repeat (
              refine f32_into_preserves (OpenedUnder ctx parent t) H _ (fun v a h => ?_) _ ?_
              · exact h.modifyGroup _ _ (fun _ => rfl))
            exact hQ2
          have hQ4 := ((hQ3.modifyGroup (ctx.store.newNode H (some parent) NodeKind.Group).2
            (scale_slot H 0) (fun _ => rfl)).modifyGroup
              (ctx.store.newNode H (some parent) NodeKind.Group).2
              (scale_slot H 1) (fun _ => rfl)).modifyGroup
                (ctx.store.newNode H (some parent) NodeKind.Group).2
                (scale_slot H 2) (fun _ => rfl)
          split at hr
          · exact fail _ _ (hQ4.set_error _) hr.symm
          · next m p4 hm =>
            have hQ5 := hQ4.modifyGroup (ctx.store.newNode H (some parent) NodeKind.Group).2
              (fun d => { d with material := some m }) (fun _ => rfl)
            obtain ⟨a, b, d, e⟩ := hQ5
            subst hr
            exact ⟨a, b, Or.inr ⟨parent, t, pn.kind, pn.parent, pn.group.transparency,
              by rw [hs]; rfl, hshape, ht, e,
              fun _ => by simp only [push_back, d]; rfl, fun h => by simp at h⟩⟩

/-- What `parse_modl_txt` does to the Store: no geometry is touched; it fails
with nothing changed, or one Model node is added under the File on top of the
stack. -/
theorem parse_modl_txt_effect (H : Host F) (ctx : Context F) (p : Buf) (r : Res F)
    (hr : parse_modl_txt H ctx p = r) :
    r.ctx.logger = ctx.logger ∧
    r.ctx.store.geoShape = ctx.store.geoShape ∧
    ((r.ok = false ∧ r.ctx.stack = ctx.stack ∧ r.ctx.store.nodeShape = ctx.store.nodeShape) ∨
      ∃ top, ctx.stack.head? = some top ∧ ctx.store.kindOf top = some NodeKind.File ∧
        r.ctx.store.nodeShape
          = ctx.store.nodeShape ++ [(NodeKind.Model, some top, H.defaultTransparency ctx.store.nodes.length)] ∧
        r.ctx.stack = ctx.store.nodes.length :: ctx.stack) := by
  unfold parse_modl_txt at hr
  split at hr
  · subst hr; exact ⟨rfl, rfl, Or.inl ⟨rfl, rfl, rfl⟩⟩
  · next top rest hs =>
    split at hr
    · subst hr; exact ⟨rfl, rfl, Or.inl ⟨rfl, rfl, rfl⟩⟩
    · next hk =>
      have hk' : ctx.store.kindOf top = some NodeKind.File := by simpa using hk
      have hne : ¬ ctx.store.kindOf top = some NodeKind.Model := by rw [hk']; decide
      simp only [if_neg hne, hs, List.head?_cons] at hr
      have base : (push_back { ctx with store := (ctx.store.newNode H (some top) NodeKind.Model).1 }
            (ctx.store.newNode H (some top) NodeKind.Model).2).store.nodeShape
          = ctx.store.nodeShape ++ [(NodeKind.Model, some top, H.defaultTransparency ctx.store.nodes.length)] :=
        nodeShape_newNode H ctx.store _ _
      split at hr
      · subst hr
        exact ⟨rfl, rfl, Or.inr ⟨top, by rw [hs]; rfl, hk', base, by simp [push_back, set_error, hs]; rfl⟩⟩
      · split at hr
        · subst hr
          refine ⟨rfl, ?_, Or.inr ⟨top, by rw [hs]; rfl, hk', ?_, ?_⟩⟩
          · simp only [set_error, Context.modifyModel, Store.setErrorString]
            exact geoShape_modifyModel _ _ _
          · simp only [set_error, Context.modifyModel, Store.setErrorString]
            exact (nodeShape_modifyModel _ _ _).trans base
          · simp [push_back, set_error, Context.modifyModel, hs]; rfl
        · subst hr
          refine ⟨rfl, ?_, Or.inr ⟨top, by rw [hs]; rfl, hk', ?_, ?_⟩⟩
          · simp only [Context.modifyModel, geoShape_modifyModel]
            rfl
          · simp only [Context.modifyModel, nodeShape_modifyModel]
            exact base
          · simp [push_back, Context.modifyModel, hs]; rfl

theorem ctx_modifyFile_nodeShape (c : Context F) (h : Nat) (f : FileData → FileData) :
    (c.modifyFile h f).store.nodeShape = c.store.nodeShape := nodeShape_modifyFile _ _ _

theorem ctx_modifyFile_geoShape (c : Context F) (h : Nat) (f : FileData → FileData) :
    (c.modifyFile h f).store.geoShape = c.store.geoShape := geoShape_modifyFile _ _ _

theorem ctx_modifyFile_stack (c : Context F) (h : Nat) (f : FileData → FileData) :
    (c.modifyFile h f).stack = c.stack := rfl

theorem ctx_modifyFile_logger (c : Context F) (h : Nat) (f : FileData → FileData) :
    (c.modifyFile h f).logger = c.logger := rfl

theorem set_error_stack (c : Context F) (msg : List Char) : (set_error c msg).stack = c.stack :=
  rfl

theorem set_error_logger (c : Context F) (msg : List Char) :
    (set_error c msg).logger = c.logger := rfl

/-- What `parse_head_txt` does to the Store: no geometry is touched; it fails
with nothing changed, or one File node without parent is added. -/
theorem parse_head_txt_effect (H : Host F) (ctx : Context F) (p : Buf) (r : Res F)
    (hr : parse_head_txt H ctx p = r) :
    r.ctx.logger = ctx.logger ∧
    r.ctx.store.geoShape = ctx.store.geoShape ∧
    ((r.ok = false ∧ r.ctx.stack = ctx.stack ∧ r.ctx.store.nodeShape = ctx.store.nodeShape) ∨
      (ctx.stack = [] ∧
        r.ctx.store.nodeShape
          = ctx.store.nodeShape ++ [(NodeKind.File, none, H.defaultTransparency ctx.store.nodes.length)] ∧
        r.ctx.stack = [ctx.store.nodes.length])) := by
  unfold parse_head_txt at hr
  have base : (push_back { ctx with store := (ctx.store.newNode H none NodeKind.File).1 }
        (ctx.store.newNode H none NodeKind.File).2).store.nodeShape
      = ctx.store.nodeShape ++ [(NodeKind.File, none, H.defaultTransparency ctx.store.nodes.length)] :=
    nodeShape_newNode H ctx.store _ _
  have bstack : ctx.stack = [] →
      (push_back { ctx with store := (ctx.store.newNode H none NodeKind.File).1 }
        (ctx.store.newNode H none NodeKind.File).2).stack = [ctx.store.nodes.length] := by
    intro h; simp [push_back, h]; rfl
  split at hr
  · subst hr; exact ⟨rfl, rfl, Or.inl ⟨rfl, rfl, rfl⟩⟩
  · next hs =>
    simp only at hr
    repeat' split at hr
    all_goals
      subst hr
      refine ⟨?_, ?_, Or.inr ⟨hs, ?_, ?_⟩⟩
    all_goals simp only [geoShape_set_error, nodeShape_set_error, set_error_stack,
      set_error_logger, ctx_modifyFile_geoShape, ctx_modifyFile_nodeShape, ctx_modifyFile_stack,
      ctx_modifyFile_logger]
    all_goals first | exact base | exact bstack hs | rfl

theorem Store.Grows.kindOf {s s' : Store F} (h : s.Grows s') (i : Nat) (k : NodeKind)
    (hk : s.kindOf i = some k) : s'.kindOf i = some k := by
  obtain ⟨⟨ns, hns⟩, _⟩ := h
  rw [kindOf_eq_shape] at hk ⊢
  rw [hns]
  have hlt : i < s.nodeShape.length := by
    cases hi : s.nodeShape[i]? with
    | none => rw [hi] at hk; simp at hk
    | some x => exact (List.getElem?_eq_some.mp hi).1
  rw [List.getElem?_append_left hlt]
  exact hk

theorem Store.Grows.of_add_node {s s' : Store F} (k : NodeKind) (par : Option Nat) (t : Nat)
    (hn : s'.nodeShape = s.nodeShape ++ [(k, par, t)])
    (hg : s'.geoShape = s.geoShape)
    (hpar : ∀ ph, par = some ph → ph < s.nodeShape.length ∧
      (k = NodeKind.Group → ∀ pp pt, s.nodeShape[ph]? = some (NodeKind.Group, pp, pt) → t = pt)) :
    s.Grows s' :=
  ⟨⟨_, hn⟩, fun h => by rw [hn, hg]; exact h.add_node k par t hpar⟩

theorem Store.Grows.of_add_geo {s s' : Store F} (top : Nat) (pp : Option Nat) (pt : Nat)
    (hn : s'.nodeShape = s.nodeShape)
    (hg : s'.geoShape = s.geoShape ++ [(top, some pt)])
    (htop : s.nodeShape[top]? = some (NodeKind.Group, pp, pt)) :
    s.Grows s' :=
  ⟨⟨[], by simp [hn]⟩, fun h => by rw [hn, hg]; exact h.add_geo top pp pt htop⟩

theorem type_of_id_prim (id : List Char)
    (hid : id = "PRIM".toList ∨ id = "OBST".toList ∨ id = "INSU".toList) :
    type_of_id id ≠ none := by
  rcases hid with h | h | h <;> (rw [h]; decide)

theorem parse_prim_txt_grows (H : Host F) (ctx : Context F) (id : List Char) (p : Buf)
    (hid : id = "PRIM".toList ∨ id = "OBST".toList ∨ id = "INSU".toList) :
    ctx.store.Grows (parse_prim_txt H ctx id p).ctx.store := by
  obtain ⟨_, _, hn, hg | ⟨top, pp, pt, htop, hg⟩⟩ :=
    parse_prim_txt_effect H ctx id p (type_of_id_prim id hid)
  · exact Store.Grows.of_shape_eq hn hg
  · exact Store.Grows.of_add_geo top pp pt hn hg htop

theorem cntb_open_grows (H : Host F) (ctx : Context F) (p : Buf) :
    ctx.store.Grows (cntb_open H ctx p).ctx.store := by
  obtain ⟨_, hg, ⟨_, _, hn⟩ | ⟨parent, t, k, pp, pt, _, hp, ht, hn, _⟩⟩ :=
    cntb_open_effect H ctx p _ rfl
  · exact Store.Grows.of_shape_eq hn hg
  · refine Store.Grows.of_add_node NodeKind.Group (some parent) t hn hg ?_
    intro ph hph
    simp only [Option.some.injEq] at hph
    subst hph
    refine ⟨(List.getElem?_eq_some.mp hp).1, fun _ pp' pt' h' => ?_⟩
    rw [hp] at h'
    simp only [Option.some.injEq, Prod.mk.injEq] at h'
    rw [← h'.2.2]
    exact ht h'.1

theorem parse_modl_txt_grows (H : Host F) (ctx : Context F) (p : Buf) :
    ctx.store.Grows (parse_modl_txt H ctx p).ctx.store := by
  obtain ⟨_, hg, ⟨_, _, hn⟩ | ⟨top, _, hk, hn, _⟩⟩ := parse_modl_txt_effect H ctx p _ rfl
  · exact Store.Grows.of_shape_eq hn hg
  · refine Store.Grows.of_add_node NodeKind.Model (some top) _ hn hg ?_
    intro ph hph
    simp only [Option.some.injEq] at hph
    subst hph
    refine ⟨?_, fun h => by cases h⟩
    rw [kindOf_eq_shape] at hk
    cases hi : ctx.store.nodeShape[top]? with
    | none => rw [hi] at hk; simp at hk
    | some x => exact (List.getElem?_eq_some.mp hi).1

theorem parse_head_txt_grows (H : Host F) (ctx : Context F) (p : Buf) :
    ctx.store.Grows (parse_head_txt H ctx p).ctx.store := by
  obtain ⟨_, hg, ⟨_, _, hn⟩ | ⟨_, hn, _⟩⟩ := parse_head_txt_effect H ctx p _ rfl
  · exact Store.Grows.of_shape_eq hn hg
  · exact Store.Grows.of_add_node NodeKind.File none _ hn hg (fun ph h => by cases h)

/-- A group parsed with success leaves the stack as it found it; whatever the
outcome, the Store has grown. -/
theorem cntb_grows (H : Host F) (fuel : Nat) :
    (∀ (ctx : Context F) (p : Buf) (r : Res F), parse_cntb_txt H fuel ctx p = some r →
        ctx.store.Grows r.ctx.store ∧ (r.ok = true → r.ctx.stack = ctx.stack)) ∧
    (∀ (ctx : Context F) (p : Buf) (r : Res F), cntb_children H fuel ctx p = some r →
        ctx.store.Grows r.ctx.store ∧ (r.ok = true → r.ctx.stack = ctx.stack.tail)) := by
  induction fuel with
  | zero => constructor <;> (intro ctx p r h; simp [parse_cntb_txt, cntb_children] at h)
  | succ n ih =>
    obtain ⟨ih1, ih2⟩ := ih
    constructor
    · intro ctx p r h
      simp only [parse_cntb_txt] at h
      split at h
      · next ho =>
        obtain ⟨g2, s2⟩ := ih2 _ _ _ h
        refine ⟨(cntb_open_grows H ctx p).trans g2, fun hok => ?_⟩
        rw [s2 hok]
        obtain ⟨_, _, ⟨hf, _, _⟩ | ⟨_, _, _, _, _, _, _, _, _, hs, _⟩⟩ :=
          cntb_open_effect H ctx p _ rfl
        · rw [ho] at hf; cases hf
        · rw [hs ho]; rfl
      · simp only [Option.some.injEq] at h
        subst h
        exact ⟨cntb_open_grows H ctx p, fun hok => by contradiction⟩
    · intro ctx p r h
      cases p with
      | nil =>
        rw [cntb_children.eq_2] at h
        simp only [Option.some.injEq] at h
        subst h
        exact ⟨Store.Grows.refl _, fun _ => rfl⟩
      | cons c cs =>
        rw [cntb_children.eq_3] at h
        split at h
        · simp only [Option.some.injEq] at h; subst h
          exact ⟨Store.Grows.refl _, fun hok => by simp at hok⟩
        · next cid p1 h1 =>
          try simp only at h
          split at h
          · simp only [Option.some.injEq] at h; subst h
            exact ⟨Store.Grows.refl _, fun _ => rfl⟩
          · split at h
            · split at h
              · simp at h
              · next r1 hr1 =>
                obtain ⟨g1, s1⟩ := ih1 _ _ _ hr1
                split at h
                · next ho =>
                  obtain ⟨g2, s2⟩ := ih2 _ _ _ h
                  exact ⟨g1.trans g2, fun hok => by rw [s2 hok, s1 ho]⟩
                · simp only [Option.some.injEq] at h; subst h
                  exact ⟨g1, fun hok => by contradiction⟩
            · split at h
              · next hid =>
                have g1 := parse_prim_txt_grows H ctx cid p1 hid
                have s1 := (parse_prim_txt_effect H ctx cid p1 (type_of_id_prim cid hid)).1
                try simp only at h
                split at h
                · next ho =>
                  obtain ⟨g2, s2⟩ := ih2 _ _ _ h
                  exact ⟨g1.trans g2, fun hok => by rw [s2 hok, s1]⟩
                · simp only [Option.some.injEq] at h; subst h
                  exact ⟨g1, fun hok => by contradiction⟩
              · simp only [Option.some.injEq] at h; subst h
                exact ⟨Store.Grows.refl _, fun hok => by simp at hok⟩

theorem top_level_grows (H : Host F) (fuel : Nat) :
    ∀ (ctx : Context F) (p : Buf) (r : Res F), top_level H fuel ctx p = some r →
      ctx.store.Grows r.ctx.store := by
  induction fuel with
  | zero => intro ctx p r h; simp [top_level] at h
  | succ n ih =>
    intro ctx p r h
    cases p with
    | nil =>
      rw [top_level.eq_2] at h
      simp only [Option.some.injEq] at h
      subst h
      exact Store.Grows.refl _
    | cons c cs =>
      rw [top_level.eq_3] at h
      split at h
      · simp only [Option.some.injEq] at h; subst h
        exact Store.Grows.refl _
      · next id p1 h1 =>
        try simp only at h
        split at h
        · simp only [Option.some.injEq] at h; subst h
          unfold pop_if_kind
          split
          · split <;> exact Store.Grows.refl _
          · exact Store.Grows.refl _
        · split at h
          · try simp only at h
            split at h
            · exact (parse_modl_txt_grows H ctx p1).trans (ih _ _ _ h)
            · simp only [Option.some.injEq] at h; subst h
              exact parse_modl_txt_grows H ctx p1
          · split at h
            · split at h
              · simp at h
              · next r1 hr1 =>
                have g1 := ((cntb_grows H n).1 _ _ _ hr1).1
                split at h
                · exact g1.trans (ih _ _ _ h)
                · simp only [Option.some.injEq] at h; subst h
                  exact g1
            · split at h
              · have g1 := ih _ _ _ h
                exact g1
              · split at h
                · simp only [Option.some.injEq] at h; subst h
                  exact Store.Grows.refl _
                · simp only [Option.some.injEq] at h; subst h
                  exact Store.Grows.refl _

theorem finish_shape (ctx : Context F) :
    (finish ctx).store.nodeShape = ctx.store.nodeShape ∧
    (finish ctx).store.geoShape = ctx.store.geoShape := by
  have h1 : ∀ (c : Context F) (k : NodeKind), (pop_if_kind c k).store = c.store := by
    intro c k
    unfold pop_if_kind
    split
    · split <;> rfl
    · rfl
  unfold finish
  simp only
  split
  · simp only [Store.updateCounts, Store.nodeShape, Store.geoShape, h1]
    exact ⟨trivial, trivial⟩
  · simp only [Store.updateCounts, Store.nodeShape, Store.geoShape, h1]
    exact ⟨trivial, trivial⟩

/-- Whatever `parseREV` returns, the Store it leaves has grown from the one it
was given. -/
theorem parseREV_grows (H : Host F) (store : Store F) (path : Option (List Char))
    (buf : Buf) (r : Res F) (h : parseREV H store path buf = some r) :
    store.Grows r.ctx.store := by
  unfold parseREV parseREV_fuel at h
  try simp only at h
  split at h
  · simp only [Option.some.injEq] at h; subst h
    exact Store.Grows.refl _
  · next id p0 h0 =>
    split at h
    · simp only [Option.some.injEq] at h; subst h
      exact Store.Grows.refl _
    · have g0 := parse_head_txt_grows H { store := store, path := path } p0
      split at h
      · split at h
        · simp at h
        · next r1 hr1 =>
          have g1 := top_level_grows H _ _ _ _ hr1
          split at h
          · simp only [Option.some.injEq] at h; subst h
            have hf := finish_shape r1.ctx
            exact (g0.trans g1).trans (Store.Grows.of_shape_eq hf.1 hf.2)
          · simp only [Option.some.injEq] at h; subst h
            exact g0.trans g1
      · simp only [Option.some.injEq] at h; subst h
        exact g0

theorem ShapeOK.empty : ShapeOK ({} : Store F).nodeShape ({} : Store F).geoShape := by
  constructor
  · intro h k ph t hh
    simp [Store.nodeShape] at hh
  · intro g hg
    simp [Store.geoShape] at hg

/-- The shape of the tree that `parseREV` leaves in a Store that was empty is
sound. -/
theorem parseREV_shape (H : Host F) (path : Option (List Char)) (buf : Buf) :
    ∃ r, parseREV H {} path buf = some r ∧
      ShapeOK r.ctx.store.nodeShape r.ctx.store.geoShape := by
  obtain ⟨r, hr⟩ := parseREV_returns H {} path buf
  exact ⟨r, hr, (parseREV_grows H {} path buf r hr).2 ShapeOK.empty⟩

theorem shape_group_parent (s : Store F) (h : ShapeOK s.nodeShape s.geoShape)
    (i ph : Nat) (n pn : Node F) (hn : s.nodes[i]? = some n) (hk : n.kind = NodeKind.Group)
    (hp : n.parent = some ph) (hpn : s.nodes[ph]? = some pn) (hpk : pn.kind = NodeKind.Group) :
    n.group.transparency = pn.group.transparency := by
  have h1 : s.nodeShape[i]? = some (NodeKind.Group, some ph, n.group.transparency) := by
    simp [Store.nodeShape, hn, hk, hp]
  have h2 : s.nodeShape[ph]? = some (NodeKind.Group, pn.parent, pn.group.transparency) := by
    simp [Store.nodeShape, hpn, hpk]
  exact (h.1 i _ ph _ h1).2 rfl _ _ h2

theorem shape_geometry_parent (s : Store F) (h : ShapeOK s.nodeShape s.geoShape)
    (gn : GeometryNode F) (hg : gn ∈ s.geometries) :
    ∃ pn, s.nodes[gn.parent]? = some pn ∧ pn.kind = NodeKind.Group ∧
      gn.geo.transparency = some pn.group.transparency := by
  have hmem : (gn.parent, gn.geo.transparency) ∈ s.geoShape :=
    List.mem_map_of_mem (fun g => (g.parent, g.geo.transparency)) hg
  obtain ⟨pp, pt, h1, h2⟩ := h.2 _ hmem
  simp only [Store.nodeShape, List.getElem?_map, Option.map_eq_some'] at h1
  obtain ⟨pn, hpn, heq⟩ := h1
  simp only [Prod.mk.injEq] at heq
  simp only at h2
  exact ⟨pn, hpn, heq.1, by rw [h2, heq.2.2]⟩

theorem groupAncestor_transparency (s : Store F) (h : ShapeOK s.nodeShape s.geoShape)
    (a i : Nat) (ha : s.GroupAncestor a i) :
    ∃ na ni, s.nodes[a]? = some na ∧ s.nodes[i]? = some ni ∧ ni.kind = NodeKind.Group ∧
      ni.group.transparency = na.group.transparency := by
  induction ha with
  | self n hn hk => exact ⟨n, n, hn, hn, hk, rfl⟩
  | child ph i n _ hn hk hp ih =>
    obtain ⟨na, nph, hna, hnph, hkph, ht⟩ := ih
    exact ⟨na, n, hna, hn, hk, (shape_group_parent s h i ph n nph hn hk hp hnph hkph).trans ht⟩

/-- In the loop over the children of a group the top of the parent stack is
a Group. -/
theorem visits_group_top (H : Host F) (store : Store F) (path : Option (List Char))
    (buf : Buf) (s : Pos F) (hv : Visits H store path buf s) (hl : s.level = Level.group) :
    ∃ top rest, s.ctx.stack = top :: rest ∧
      s.ctx.store.kindOf top = some NodeKind.Group := by
  obtain ⟨p0, _, _, hreach⟩ := hv
  revert hl
  induction hreach with
  | refl => intro hl; cases hl
  | tail _ hn ih =>
    intro hl
    cases hn with
    | modl ctx p p1 hh ho => cases hl
    | stray_cnte ctx p p1 hh => cases hl
    | group_done l ctx p p1 fuel r hh hp ho =>
      obtain ⟨top, rest, hs, hk⟩ := ih hl
      obtain ⟨g, st⟩ := (cntb_grows H fuel).1 _ _ _ hp
      exact ⟨top, rest, by rw [st ho]; exact hs, g.kindOf _ _ hk⟩
    | group_enter l ctx p p1 hh ho =>
      obtain ⟨_, _, ⟨hf, _, _⟩ | ⟨parent, t, k, pp, pt, _, _, _, hn, hs, _⟩⟩ :=
        cntb_open_effect H ctx p1 _ rfl
      · rw [ho] at hf; cases hf
      · refine ⟨ctx.store.nodes.length, ctx.stack, hs ho, ?_⟩
        rw [kindOf_eq_shape, hn, ← nodeShape_length, List.getElem?_concat_length]
        rfl
    | prim_done ctx p p1 id hh hid ho =>
      obtain ⟨top, rest, hs, hk⟩ := ih rfl
      obtain ⟨st, _, _, _⟩ := parse_prim_txt_effect H ctx id p1 (type_of_id_prim id hid)
      exact ⟨top, rest, by rw [st]; exact hs, (parse_prim_txt_grows H ctx id p1 hid).kindOf _ _ hk⟩

theorem errorString_set_error (ctx : Context F) (msg : List Char) (h : msg.length ≤ 1023) :
    (set_error ctx msg).store.errorString = some msg := by
  simp [set_error, Store.setErrorString, Store.errorString, List.take_of_length_le h]

theorem parse_prim_txt_not_group (H : Host F) (ctx : Context F) (id : List Char) (p : Buf)
    (htop : ctx.stack.head?.bind ctx.store.kindOf ≠ some .Group) :
    parse_prim_txt H ctx id p =
      ⟨false, set_error ctx "PRIM/OBST/INSU outside of a CNTB group".toList, p⟩ := by
  unfold parse_prim_txt
  split
  · rfl
  · next top rest hs =>
    rw [hs] at htop
    simp only [List.head?_cons, Option.some_bind] at htop
    rw [if_pos htop]

theorem prim_return_err_ok (ctx : Context F) (h : Nat) (g : Geometry F) (msg : List Char)
    (p : Buf) : (prim_return ctx h g (some msg) p).ok = false := rfl

/-- `parse_prim_txt` fails on kind 9 whatever follows the kind integer. -/
theorem parse_prim_txt_sphere (H : Host F) (ctx : Context F) (id : List Char) (p p2 : Buf)
    (hk : read_u32 H p = some (9, p2)) : (parse_prim_txt H ctx id p).ok = false := by
  unfold parse_prim_txt
  split
  · rfl
  · split
    · rfl
    · rw [hk]
      simp only
      split
      · rfl
      · split
        · rfl
        · split
          · rfl
          · simp only [switch_kind]
            rfl

/-- A failure of `parse_prim_txt` at a head that `parseREV` comes to, at either
level, makes `parseREV` fail. -/
theorem parseREV_fail_of_prim_fail (H : Host F) (store : Store F)
    (path : Option (List Char)) (buf : Buf) (s : Pos F) (id : List Char) (p1 : Buf)
    (hv : Visits H store path buf s)
    (hh : read_chunk_header_txt H s.p = some (id, p1))
    (hid : id = "PRIM".toList ∨ id = "OBST".toList ∨ id = "INSU".toList)
    (hf : (parse_prim_txt H s.ctx id p1).ok = false) :
    ∃ r, parseREV H store path buf = some r ∧ r.ok = false ∧
      (s.level = .group → r = parse_prim_txt H s.ctx id p1) := by
  obtain ⟨l, ctx, p⟩ := s
  simp only at hh hf ⊢
  obtain ⟨c, cs, rfl⟩ := header_ne_nil H _ _ _ hh
  have h1 : id ≠ "CNTE".toList := by rcases hid with h | h | h <;> (rw [h]; decide)
  have h2 : id ≠ "CNTB".toList := by rcases hid with h | h | h <;> (rw [h]; decide)
  have h3 : id ≠ "END:".toList := by rcases hid with h | h | h <;> (rw [h]; decide)
  have h4 : id ≠ "MODL".toList := by rcases hid with h | h | h <;> (rw [h]; decide)
  cases l with
  | root =>
    refine ⟨⟨false, set_error ctx
      ("Geometry chunk '".toList ++ fmt_s id ++ "' outside of any group".toList), p1⟩,
      ?_, rfl, ?_⟩
    · apply parseREV_fail_of_visits H store path buf _ hv 1 _ _ rfl
      simp only [run]
      rw [top_level.eq_3]
      simp only [hh]
      rw [if_neg h3, if_neg h4, if_neg h2, if_neg h1, if_pos hid]
    · intro h; cases h
  | group =>
    refine ⟨parse_prim_txt H ctx id p1, ?_, hf, fun _ => rfl⟩
    apply parseREV_fail_of_visits H store path buf _ hv 1 _ _ hf
    simp only [run]
    rw [cntb_children.eq_3]
    simp only [hh]
    rw [if_neg h1, if_neg h2, if_pos hid]
    simp only [hf]
    simp

theorem read_matrix_of_floats (H : Host F) (p q : Buf) (fs : List F)
    (hm : read_floats H [4, 8, 12] 12 0 [] p = some (fs, q)) :
    ∃ r0 r1 r2, read_matrix H p = .ok ((r0, r1, r2), q) ∧
      fs = [r0.c0, r0.c1, r0.c2, r0.c3, r1.c0, r1.c1, r1.c2, r1.c3,
            r2.c0, r2.c1, r2.c2, r2.c3] := by
  simp only [read_floats, Nat.zero_add, Nat.reduceAdd, List.mem_cons, List.mem_singleton,
    Nat.reduceEqDiff, or_false, or_true, false_or, true_or, if_true, if_false,
    List.not_mem_nil, List.reverse_cons, List.reverse_nil, List.nil_append,
    List.cons_append, List.singleton_append] at hm
  unfold read_matrix read_row
  iterate 12 (
    split at hm
    · simp at hm
    rename_i v q' h
    try simp only [h])
  simp only [Option.some.injEq, Prod.mk.injEq] at hm
  obtain ⟨rfl, rfl⟩ := hm
  exact ⟨_, _, _, rfl, rfl⟩

theorem read_bbox_of_floats (H : Host F) (g : Geometry F) (p q : Buf) (fs : List F)
    (hb : read_floats H [3, 6] 6 0 [] p = some (fs, q)) :
    (read_bbox H g p).2 = some q := by
  simp only [read_floats, Nat.zero_add, Nat.reduceAdd, List.mem_cons, List.mem_singleton,
    Nat.reduceEqDiff, or_false, or_true, false_or, true_or, if_true, if_false,
    List.not_mem_nil, List.reverse_cons, List.reverse_nil, List.nil_append,
    List.cons_append, List.singleton_append] at hb
  unfold read_bbox
  iterate 6 (
    split at hb
    · simp at hb
    rename_i v q' h
    try simp only [f32_into, eol_step, h])
  simp only [Option.some.injEq, Prod.mk.injEq] at hb
  rw [hb.2]

/-- The geometries after a `return` of `parse_prim_txt`: the one created is
the last, with the writes made. -/
theorem prim_return_geometries (ctx : Context F) (top : Nat) (g : Geometry F)
    (err : Option (List Char)) (q : Buf) :
    (prim_return { ctx with store := (ctx.store.newGeometry top).1 }
      (ctx.store.newGeometry top).2 g err q).ctx.store.geometries
      = ctx.store.geometries ++ [⟨top, g⟩] := by
  have hset : (Store.setGeometry (ctx.store.newGeometry top).1 (ctx.store.newGeometry top).2 g)
      = { ctx.store with geometries := ctx.store.geometries ++ [⟨top, g⟩] } := by
    simp [Store.setGeometry, Store.newGeometry]
  cases err <;> simp [prim_return, hset, set_error, Store.setErrorString]

/-- `parse_prim_txt` once the kind and the matrix are read: the rest of it. -/
theorem parse_prim_txt_after_matrix (H : Host F) (ctx : Context F) (id : List Char)
    (p p1 p2 : Buf) (k top : Nat) (rest : List Nat) (t : GeometryType) (r0 r1 r2 : Row F)
    (g0 : Geometry F)
    (hs : ctx.stack = top :: rest) (htop : ctx.store.kindOf top = some NodeKind.Group)
    (ht : type_of_id id = some t)
    (hk : read_u32 H p = some (k, p1))
    (hm : read_matrix H p1 = .ok ((r0, r1, r2), p2))
    (hg0 : g0 = { type := some t,
                  transparency := (ctx.store.nodes[top]?).map (·.group.transparency),
                  M_3x4 := fill_M_3x4 r0 r1 r2 }) :
    parse_prim_txt H ctx id p =
      match read_bbox H g0 p2 with
      | (g, none) =>
        prim_return { ctx with store := (ctx.store.newGeometry top).1 }
          (ctx.store.newGeometry top).2 g (some "PRIM: missing bboxLocal".toList) p2
      | (g, some p3) =>
        match switch_kind H k { g with bboxWorld := H.transform g.M_3x4 g.bboxLocal } p3 with
        | .err g msg =>
          prim_return { ctx with store := (ctx.store.newGeometry top).1 }
            (ctx.store.newGeometry top).2 g (some msg) p3
        | .ok g p4 =>
          prim_return { ctx with store := (ctx.store.newGeometry top).1 }
            (ctx.store.newGeometry top).2 g none p4 := by
  subst hg0
  unfold parse_prim_txt
  simp only [hs, htop, hk, ht, hm]
  simp only [ne_eq, not_true_eq_false, if_false]
  rfl

theorem fill_M_3x4_index (r0 r1 r2 : Row F) (r c : Nat) (hr : r < 3) (hc : c < 4) :
    (fill_M_3x4 r0 r1 r2)[3 * c + r]? =
      some ([r0.c0, r0.c1, r0.c2, r0.c3, r1.c0, r1.c1, r1.c2, r1.c3,
             r2.c0, r2.c1, r2.c2, r2.c3][4 * r + c]?) := by
  interval_cases r <;> interval_cases c <;> rfl

/-- The `switch (kind)` on a kind whose payload is a row of floats, the floats
being there: it goes on with the cursor after them, the kind set and the floats
in the payload fields. -/
theorem switch_kind_payload (H : Host F) (k : Nat) (g : Geometry F) (p q : Buf) (vs : List F)
    (hkind : k ∈ [1, 2, 3, 4, 5, 6, 7, 8, 10])
    (hpy : g.pyramid = {}) (hbox : g.box = {}) (hsn : g.snout = {})
    (hv : read_floats H (kind_table_breaks k) (kind_table_count k) 0 [] p = some (vs, q)) :
    ∃ g', switch_kind H k g p = .ok g' q ∧ g'.kind = kind_table_name k ∧
      kind_table_fields k g' = vs.map some ∧ vs.length = kind_table_count k := by
  simp only [List.mem_cons, List.mem_singleton, List.not_mem_nil, or_false] at hkind
  rcases hkind with rfl | rfl | rfl | rfl | rfl | rfl | rfl | rfl | rfl
  all_goals (
    simp only [kind_table_breaks, kind_table_count, read_floats, Nat.zero_add, Nat.reduceAdd,
      List.mem_cons, List.mem_singleton, Nat.reduceEqDiff, or_false, or_true, false_or, true_or,
      if_true, if_false, List.not_mem_nil, List.reverse_cons, List.reverse_nil, List.nil_append,
      List.cons_append, List.singleton_append] at hv
    simp only [switch_kind]
    repeat (
      split at hv
      · simp at hv
      rename_i v q' h
      try simp only [f32_into, chain_end, Step.andThen, h])
    simp only [Option.some.injEq, Prod.mk.injEq] at hv
    obtain ⟨rfl, rfl⟩ := hv
    refine ⟨_, rfl, rfl, ?_, rfl⟩
    simp [kind_table_fields, hpy, hbox, hsn])

theorem set3_index {α : Type} (l : List α) (i : Nat) (a b c : α) (h : i + 2 < l.length) :
    (((l.set (i + 0) a).set (i + 1) b).set (i + 2) c)[i + 0]? = some a ∧
    (((l.set (i + 0) a).set (i + 1) b).set (i + 2) c)[i + 1]? = some b ∧
    (((l.set (i + 0) a).set (i + 1) b).set (i + 2) c)[i + 2]? = some c := by
  refine ⟨?_, ?_, ?_⟩
  · rw [List.getElem?_set_ne (by omega), List.getElem?_set_ne (by omega),
      List.getElem?_set_self (by omega)]
  · rw [List.getElem?_set_ne (by omega),
      List.getElem?_set_self (by simp only [List.length_set]; omega)]
  · rw [List.getElem?_set_self (by simp only [List.length_set]; omega)]

theorem read_sextuples_step (H : Host F) (n : Nat) (p q : Buf) (fs : List F)
    (h : read_sextuples H (n + 1) p = some (fs, q)) :
    ∃ v0 v1 v2 v3 v4 v5 q0 q1 q2 q3 q4 q5 rest,
      read_f32 H p = some (v0, q0) ∧ read_f32 H q0 = some (v1, q1) ∧
      read_f32 H q1 = some (v2, q2) ∧ read_f32 H (consume_eol q2) = some (v3, q3) ∧
      read_f32 H q3 = some (v4, q4) ∧ read_f32 H q4 = some (v5, q5) ∧
      read_sextuples H n (consume_eol q5) = some (rest, q) ∧
      fs = [v0, v1, v2, v3, v4, v5] ++ rest := by
  simp only [read_sextuples, read_floats, Nat.zero_add, Nat.reduceAdd, List.mem_cons,
    List.mem_singleton, Nat.reduceEqDiff, or_false, or_true, false_or, true_or, if_true,
    if_false, List.not_mem_nil, List.reverse_cons, List.reverse_nil, List.nil_append,
    List.cons_append, List.singleton_append] at h
  split at h
  · simp at h
  rename_i f6 q6 hfl
  split at h
  · simp at h
  rename_i rest r hrest
  simp only [Option.some.injEq, Prod.mk.injEq] at h
  obtain ⟨rfl, rfl⟩ := h
  split at hfl
  · simp at hfl
  rename_i v0 q0 e0
  split at hfl
  · simp at hfl
  rename_i v1 q1 e1
  split at hfl
  · simp at hfl
  rename_i v2 q2 e2
  split at hfl
  · simp at hfl
  rename_i v3 q3 e3
  split at hfl
  · simp at hfl
  rename_i v4 q4 e4
  split at hfl
  · simp at hfl
  rename_i v5 q5 e5
  simp only [Option.some.injEq, Prod.mk.injEq] at hfl
  obtain ⟨rfl, rfl⟩ := hfl
  exact ⟨v0, v1, v2, v3, v4, v5, q0, q1, q2, q3, q4, q5, rest, e0, e1, e2, e3, e4, e5, hrest, rfl⟩

/-- The loop over the vertices on a stream of `todo` sextuples: it goes on
after them with the arrays as long as they were, and, where no index passes
`2^32`, the slots below `3 * vi` are as they were and vertex `vi + v` has the
floats of the sextuple `v`. -/
theorem read_vertices_of_stream (H : Host F) :
    ∀ (todo vi : Nat) (c : Contour F) (p q : Buf) (fs : List F),
      read_sextuples H todo p = some (fs, q) →
      ∃ c', read_vertices H todo vi c p = .ok c' q ∧ c'.vertices_n = c.vertices_n ∧
        c'.vertices.length = c.vertices.length ∧ c'.normals.length = c.normals.length ∧
        fs.length = 6 * todo ∧
        (3 * (vi + todo) ≤ 4294967296 →
          3 * (vi + todo) ≤ c.vertices.length → 3 * (vi + todo) ≤ c.normals.length →
          (∀ i, i < 3 * vi →
            c'.vertices[i]? = c.vertices[i]? ∧ c'.normals[i]? = c.normals[i]?) ∧
          (∀ v k, v < todo → k < 3 →
            c'.vertices[3 * (vi + v) + k]? = some (fs[6 * v + k]?) ∧
            c'.normals[3 * (vi + v) + k]? = some (fs[6 * v + 3 + k]?))) := by
  intro todo
  induction todo with
  | zero =>
    intro vi c p q fs h
    simp only [read_sextuples, Option.some.injEq, Prod.mk.injEq] at h
    obtain ⟨rfl, rfl⟩ := h
    refine ⟨c, rfl, rfl, rfl, rfl, rfl, fun _ _ _ => ⟨fun i _ => ⟨rfl, rfl⟩, fun v k hv _ => ?_⟩⟩
    omega
  | succ n ih =>
    intro vi c p q fs h
    obtain ⟨v0, v1, v2, v3, v4, v5, q0, q1, q2, q3, q4, q5, rest, e0, e1, e2, e3, e4, e5,
      hrest, rfl⟩ := read_sextuples_step H n p q fs h
    obtain ⟨c', hr, hn, hvl, hnl, hlen, hcond⟩ := ih (vi + 1)
      { c with
        vertices := ((c.vertices.set ((3 * vi + 0) % 4294967296) (some v0)).set
          ((3 * vi + 1) % 4294967296) (some v1)).set ((3 * vi + 2) % 4294967296) (some v2)
        normals := ((c.normals.set ((3 * vi + 0) % 4294967296) (some v3)).set
          ((3 * vi + 1) % 4294967296) (some v4)).set ((3 * vi + 2) % 4294967296) (some v5) }
      (consume_eol q5) q rest hrest
    refine ⟨c', ?_, hn, ?_, ?_, ?_, ?_⟩
    · rw [read_vertices]
      simp only [f32_into, e0, e1, e2, e3, e4, e5]
      exact hr
    · simpa only [List.length_set] using hvl
    · simpa only [List.length_set] using hnl
    · simp only [List.length_append, List.length_cons, List.length_nil, hlen]
      omega
    · intro hb hlv hln
      have m0 : (3 * vi + 0) % 4294967296 = 3 * vi + 0 := Nat.mod_eq_of_lt (by omega)
      have m1 : (3 * vi + 1) % 4294967296 = 3 * vi + 1 := Nat.mod_eq_of_lt (by omega)
      have m2 : (3 * vi + 2) % 4294967296 = 3 * vi + 2 := Nat.mod_eq_of_lt (by omega)
      rw [m0, m1, m2] at hcond
      obtain ⟨hframe, hval⟩ := hcond (by omega)
        (by simp only [List.length_set]; omega) (by simp only [List.length_set]; omega)
      constructor
      · intro i hi
        obtain ⟨h1, h2⟩ := hframe i (by omega)
        rw [h1, h2]
        simp only
        constructor
        · rw [List.getElem?_set_ne (by omega), List.getElem?_set_ne (by omega),
            List.getElem?_set_ne (by omega)]
        · rw [List.getElem?_set_ne (by omega), List.getElem?_set_ne (by omega),
            List.getElem?_set_ne (by omega)]
      · intro v k hv hk
        cases v with
        | zero =>
          obtain ⟨h1, h2⟩ := hframe (3 * vi + k) (by omega)
          simp only [Nat.add_zero, Nat.mul_zero, Nat.zero_add]
          rw [h1, h2]
          simp only
          obtain ⟨a0, a1, a2⟩ := set3_index c.vertices (3 * vi) (some v0) (some v1) (some v2)
            (by omega)
          obtain ⟨b0, b1, b2⟩ := set3_index c.normals (3 * vi) (some v3) (some v4) (some v5)
            (by omega)
          interval_cases k
          · exact ⟨a0.trans rfl, b0.trans rfl⟩
          · exact ⟨a1.trans rfl, b1.trans rfl⟩
          · exact ⟨a2.trans rfl, b2.trans (by simp)⟩
        | succ w =>
          obtain ⟨h1, h2⟩ := hval w k (by omega) hk
          have e1 : 3 * (vi + (w + 1)) + k = 3 * (vi + 1 + w) + k := by omega
          have e2 : ([v0, v1, v2, v3, v4, v5] ++ rest)[6 * (w + 1) + k]? = rest[6 * w + k]? := by
            rw [List.getElem?_append_right
              (by simp only [List.length_cons, List.length_nil]; omega)]
            congr 1
            simp only [List.length_cons, List.length_nil]
            omega
          have e3 : ([v0, v1, v2, v3, v4, v5] ++ rest)[6 * (w + 1) + 3 + k]?
              = rest[6 * w + 3 + k]? := by
            rw [List.getElem?_append_right
              (by simp only [List.length_cons, List.length_nil]; omega)]
            congr 1
            simp only [List.length_cons, List.length_nil]
            omega
          rw [e1, e2, e3]
          exact ⟨h1, h2⟩

/-- A call of `parse_prim_txt` under a Group, the kind integer and the twelve
floats of the matrix read: the Geometry it stores has the transpose of the rows
in `M_3x4`, whatever follows the matrix. -/
theorem parse_prim_txt_matrix (H : Host F) (ctx : Context F) (id : List Char)
    (p p1 p2 : Buf) (k top : Nat) (rest : List Nat) (fs : List F)
    (hs : ctx.stack = top :: rest) (htop : ctx.store.kindOf top = some NodeKind.Group)
    (hid : id = "PRIM".toList ∨ id = "OBST".toList ∨ id = "INSU".toList)
    (hk : read_u32 H p = some (k, p1))
    (hm : read_floats H [4, 8, 12] 12 0 [] p1 = some (fs, p2)) :
    ∃ gn, (parse_prim_txt H ctx id p).ctx.store.geometries[ctx.store.geometries.length]?
        = some gn ∧
      gn.parent = top ∧
      ∀ r c, r < 3 → c < 4 → gn.geo.M_3x4[3 * c + r]? = some (fs[4 * r + c]?) := by
  obtain ⟨t, ht⟩ := Option.ne_none_iff_exists'.mp (type_of_id_prim id hid)
  obtain ⟨r0, r1, r2, hmat, rfl⟩ := read_matrix_of_floats H p1 p2 fs hm
  obtain ⟨g0, hg0⟩ : ∃ g0 : Geometry F, g0 =
      { type := some t,
        transparency := (ctx.store.nodes[top]?).map (·.group.transparency),
        M_3x4 := fill_M_3x4 r0 r1 r2 } := ⟨_, rfl⟩
  have hg0m : g0.M_3x4 = fill_M_3x4 r0 r1 r2 := by rw [hg0]
  rw [parse_prim_txt_after_matrix H ctx id p p1 p2 k top rest t r0 r1 r2 g0 hs htop ht hk hmat
    hg0]
  clear hg0
  have key : ∀ (g : Geometry F) (err : Option (List Char)) (q : Buf),
      g.M_3x4 = fill_M_3x4 r0 r1 r2 →
      ∃ gn, (prim_return { ctx with store := (ctx.store.newGeometry top).1 }
          (ctx.store.newGeometry top).2 g err q).ctx.store.geometries[
            ctx.store.geometries.length]? = some gn ∧
        gn.parent = top ∧
        ∀ r c, r < 3 → c < 4 → gn.geo.M_3x4[3 * c + r]? =
          some ([r0.c0, r0.c1, r0.c2, r0.c3, r1.c0, r1.c1, r1.c2, r1.c3,
             r2.c0, r2.c1, r2.c2, r2.c3][4 * r + c]?) := by
    intro g err q hg
    refine ⟨⟨top, g⟩, ?_, rfl, fun r c hr hc => ?_⟩
    · rw [prim_return_geometries, List.getElem?_concat_length]
    · simp only [hg]
      exact fill_M_3x4_index r0 r1 r2 r c hr hc
  split
  · next g1 hb =>
    have hf := read_bbox_frame H g0 p2
    rw [hb] at hf
    exact key g1 _ _ ((congrArg Geometry.M_3x4 hf).trans hg0m)
  · next g1 p3 hb =>
    have hf := read_bbox_frame H g0 p2
    rw [hb] at hf
    have h1 : g1.M_3x4 = fill_M_3x4 r0 r1 r2 := (congrArg Geometry.M_3x4 hf).trans hg0m
    split
    · next g2 msg hsw =>
      have hp := switch_kind_preamble H k
        { g1 with bboxWorld := H.transform g1.M_3x4 g1.bboxLocal } p3
      rw [hsw] at hp
      simp only [Step.val, Geometry.preamble, Prod.mk.injEq] at hp
      exact key g2 _ _ (hp.2.2.1.trans h1)
    · next g2 p4 hsw =>
      have hp := switch_kind_preamble H k
        { g1 with bboxWorld := H.transform g1.M_3x4 g1.bboxLocal } p3
      rw [hsw] at hp
      simp only [Step.val, Geometry.preamble, Prod.mk.injEq] at hp
      exact key g2 _ _ (hp.2.2.1.trans h1)

/-- A call of `parse_prim_txt` under a Group on a well-formed preamble and the
payload floats of a kind of the table: it succeeds with the cursor after the
floats, and the Geometry it stores has the kind and the payload fields of the
table. -/
theorem parse_prim_txt_payload (H : Host F) (ctx : Context F) (id : List Char)
    (p p1 p2 p3 p4 : Buf) (k top : Nat) (rest : List Nat) (ms bs vs : List F)
    (hs : ctx.stack = top :: rest) (htop : ctx.store.kindOf top = some NodeKind.Group)
    (hid : id = "PRIM".toList ∨ id = "OBST".toList ∨ id = "INSU".toList)
    (hk : read_u32 H p = some (k, p1))
    (hm : read_floats H [4, 8, 12] 12 0 [] p1 = some (ms, p2))
    (hb : read_floats H [3, 6] 6 0 [] p2 = some (bs, p3))
    (hkind : k ∈ [1, 2, 3, 4, 5, 6, 7, 8, 10])
    (hv : read_floats H (kind_table_breaks k) (kind_table_count k) 0 [] p3 = some (vs, p4)) :
    (parse_prim_txt H ctx id p).ok = true ∧
    (parse_prim_txt H ctx id p).p = p4 ∧
    vs.length = kind_table_count k ∧
    ∃ gn, (parse_prim_txt H ctx id p).ctx.store.geometries[ctx.store.geometries.length]?
        = some gn ∧
      gn.parent = top ∧
      gn.geo.kind = kind_table_name k ∧
      kind_table_fields k gn.geo = vs.map some := by
  obtain ⟨t, ht⟩ := Option.ne_none_iff_exists'.mp (type_of_id_prim id hid)
  obtain ⟨r0, r1, r2, hmat, -⟩ := read_matrix_of_floats H p1 p2 ms hm
  obtain ⟨g0, hg0⟩ : ∃ g0 : Geometry F, g0 =
      { type := some t,
        transparency := (ctx.store.nodes[top]?).map (·.group.transparency),
        M_3x4 := fill_M_3x4 r0 r1 r2 } := ⟨_, rfl⟩
  have h1 : g0.pyramid = {} := by rw [hg0]
  have h2 : g0.box = {} := by rw [hg0]
  have h3 : g0.snout = {} := by rw [hg0]
  rw [parse_prim_txt_after_matrix H ctx id p p1 p2 k top rest t r0 r1 r2 g0 hs htop ht hk hmat
    hg0]
  clear hg0
  have hb2 := read_bbox_of_floats H g0 p2 p3 bs hb
  have hf := read_bbox_frame H g0 p2
  generalize read_bbox H g0 p2 = x at hb2 hf ⊢
  obtain ⟨g1, o⟩ := x
  simp only at hb2 hf
  subst hb2
  simp only
  obtain ⟨g2, hsw, hkd, hfl, hlen⟩ := switch_kind_payload H k
    { g1 with bboxWorld := H.transform g1.M_3x4 g1.bboxLocal } p3 p4 vs hkind
    ((congrArg Geometry.pyramid hf).trans h1) ((congrArg Geometry.box hf).trans h2)
    ((congrArg Geometry.snout hf).trans h3) hv
  rw [hsw]
  simp only
  refine ⟨rfl, rfl, hlen, ⟨top, g2⟩, ?_, rfl, hkd, hfl⟩
  rw [prim_return_geometries, List.getElem?_concat_length]

theorem modifyGroup_geometries (ctx : Context F) (g : Nat) (f : GroupData F → GroupData F) :
    (ctx.modifyGroup g f).store.geometries = ctx.store.geometries := by
  unfold Context.modifyGroup Store.modifyGroup
  simp only
  split <;> rfl

theorem modifyModel_geometries (ctx : Context F) (g : Nat) (f : ModelData → ModelData) :
    (ctx.modifyModel g f).store.geometries = ctx.store.geometries := by
  unfold Context.modifyModel Store.modifyModel
  simp only
  split <;> rfl

theorem modifyFile_geometries (ctx : Context F) (g : Nat) (f : FileData → FileData) :
    (ctx.modifyFile g f).store.geometries = ctx.store.geometries := by
  unfold Context.modifyFile Store.modifyFile
  simp only
  split <;> rfl

theorem inherit_transparency_geometries (ctx : Context F) (parent g : Nat) :
    (inherit_transparency ctx parent g).store.geometries = ctx.store.geometries := by
  unfold inherit_transparency
  split
  · split
    · exact modifyGroup_geometries _ _ _
    · rfl
  · rfl

/-- The opening of a group touches no geometry. -/
theorem cntb_open_geometries (H : Host F) (ctx : Context F) (p : Buf) (r : Res F)
    (hr : cntb_open H ctx p = r) : r.ctx.store.geometries = ctx.store.geometries := by
  unfold cntb_open at hr
  split at hr
  · subst hr; rfl
  · next parent rest hs =>
    split at hr
    · subst hr; rfl
    · have h1 : (inherit_transparency
          { ctx with store := (ctx.store.newNode H (some parent) NodeKind.Group).1 } parent
          (ctx.store.newNode H (some parent) NodeKind.Group).2).store.geometries
          = ctx.store.geometries := (inherit_transparency_geometries _ _ _).trans rfl
      simp only at hr
      split at hr
      · subst hr; exact h1
      · next line p1 hl =>
        have h2 := (modifyGroup_geometries (inherit_transparency
          { ctx with store := (ctx.store.newNode H (some parent) NodeKind.Group).1 } parent
          (ctx.store.newNode H (some parent) NodeKind.Group).2)
          (ctx.store.newNode H (some parent) NodeKind.Group).2
          (fun d => { d with name := line })).trans h1
        split at hr
        · next c3 hc3 =>
          have h3 : c3.store.geometries = ctx.store.geometries := by
            refine @chain_fst _ (fun c : Context F => c.store.geometries = ctx.store.geometries)
              _ _ _ hc3 ?_
            repeat (
              refine f32_into_preserves
                (fun c : Context F => c.store.geometries = ctx.store.geometries) H _
                (fun v a h => ?_) _ ?_
              · exact (modifyGroup_geometries _ _ _).trans h)
            exact h2
          subst hr; exact h3
        · next c3 p3 hc3 =>
          have h3 : c3.store.geometries = ctx.store.geometries := by
            refine @chain_fst _ (fun c : Context F => c.store.geometries = ctx.store.geometries)
              _ _ _ hc3 ?_
            repeat (
              refine f32_into_preserves
                (fun c : Context F => c.store.geometries = ctx.store.geometries) H _
                (fun v a h => ?_) _ ?_
              · exact (modifyGroup_geometries _ _ _).trans h)
            exact h2
          have h4 := (modifyGroup_geometries _ (ctx.store.newNode H (some parent) NodeKind.Group).2
            (scale_slot H 2)).trans ((modifyGroup_geometries _
              (ctx.store.newNode H (some parent) NodeKind.Group).2
              (scale_slot H 1)).trans ((modifyGroup_geometries c3
                (ctx.store.newNode H (some parent) NodeKind.Group).2
                (scale_slot H 0)).trans h3))
          split at hr
          · subst hr; exact h4
          · next m p4 hm =>
            subst hr
            exact (modifyGroup_geometries _ _ _).trans h4

/-- A `MODL` touches no geometry. -/
theorem parse_modl_txt_geometries (H : Host F) (ctx : Context F) (p : Buf) (r : Res F)
    (hr : parse_modl_txt H ctx p = r) : r.ctx.store.geometries = ctx.store.geometries := by
  unfold parse_modl_txt at hr
  split at hr
  · subst hr; rfl
  · split at hr
    · subst hr; rfl
    · simp only at hr
      split at hr
      · subst hr
        split <;> rfl
      · split at hr
        · subst hr
          refine (modifyModel_geometries _ _ _).trans ?_
          split <;> rfl
        · subst hr
          refine (modifyModel_geometries _ _ _).trans ?_
          refine (modifyModel_geometries _ _ _).trans ?_
          split <;> rfl

/-- The `HEAD` touches no geometry. -/
theorem parse_head_txt_geometries (H : Host F) (ctx : Context F) (p : Buf) (r : Res F)
    (hr : parse_head_txt H ctx p = r) : r.ctx.store.geometries = ctx.store.geometries := by
  unfold parse_head_txt at hr
  split at hr
  · subst hr; rfl
  · simp only at hr
    repeat' split at hr
    all_goals subst hr
    all_goals simp only [set_error, Store.setErrorString, modifyFile_geometries, push_back,
      Store.newNode]

/-- A primitive chunk appends at most one geometry and touches no other. -/
theorem parse_prim_txt_keeps (H : Host F) (ctx : Context F) (id : List Char) (p : Buf)
    (r : Res F) (hr : parse_prim_txt H ctx id p = r) :
    ctx.store.geometries <+: r.ctx.store.geometries := by
  unfold parse_prim_txt at hr
  repeat' split at hr
  all_goals subst hr
  all_goals try simp only
  all_goals repeat' split
  all_goals first
    | exact List.prefix_refl _
    | (rw [prim_return_geometries]; exact List.prefix_append _ _)

theorem cntb_open_keeps (H : Host F) (ctx : Context F) (p : Buf) :
    ctx.store.geometries <+: (cntb_open H ctx p).ctx.store.geometries := by
  rw [cntb_open_geometries H ctx p _ rfl]

theorem parse_modl_txt_keeps (H : Host F) (ctx : Context F) (p : Buf) :
    ctx.store.geometries <+: (parse_modl_txt H ctx p).ctx.store.geometries := by
  rw [parse_modl_txt_geometries H ctx p _ rfl]

/-- A group, and the loop over its children, only append geometries. -/
theorem cntb_keeps (H : Host F) (fuel : Nat) :
    (∀ (ctx : Context F) (p : Buf) (r : Res F), parse_cntb_txt H fuel ctx p = some r →
        ctx.store.geometries <+: r.ctx.store.geometries) ∧
    (∀ (ctx : Context F) (p : Buf) (r : Res F), cntb_children H fuel ctx p = some r →
        ctx.store.geometries <+: r.ctx.store.geometries) := by
  induction fuel with
  | zero => constructor <;> (intro ctx p r h; simp [parse_cntb_txt, cntb_children] at h)
  | succ n ih =>
    obtain ⟨ih1, ih2⟩ := ih
    constructor
    · intro ctx p r h
      simp only [parse_cntb_txt] at h
      split at h
      · exact (cntb_open_keeps H ctx p).trans (ih2 _ _ _ h)
      · simp only [Option.some.injEq] at h
        subst h
        exact cntb_open_keeps H ctx p
    · intro ctx p r h
      cases p with
      | nil =>
        rw [cntb_children.eq_2] at h
        simp only [Option.some.injEq] at h
        subst h
        exact List.prefix_refl _
      | cons c cs =>
        rw [cntb_children.eq_3] at h
        split at h
        · simp only [Option.some.injEq] at h; subst h
          exact List.prefix_refl _
        · next cid p1 h1 =>
          try simp only at h
          split at h
          · simp only [Option.some.injEq] at h; subst h
            exact List.prefix_refl _
          · split at h
            · split at h
              · simp at h
              · next r1 hr1 =>
                have g1 := ih1 _ _ _ hr1
                split at h
                · exact g1.trans (ih2 _ _ _ h)
                · simp only [Option.some.injEq] at h; subst h
                  exact g1
            · split at h
              · have g1 := parse_prim_txt_keeps H ctx cid p1 _ rfl
                try simp only at h
                split at h
                · exact g1.trans (ih2 _ _ _ h)
                · simp only [Option.some.injEq] at h; subst h
                  exact g1
              · simp only [Option.some.injEq] at h; subst h
                exact List.prefix_refl _

/-- The top-level loop only appends geometries. -/
theorem top_level_keeps (H : Host F) (fuel : Nat) :
    ∀ (ctx : Context F) (p : Buf) (r : Res F), top_level H fuel ctx p = some r →
      ctx.store.geometries <+: r.ctx.store.geometries := by
  induction fuel with
  | zero => intro ctx p r h; simp [top_level] at h
  | succ n ih =>
    intro ctx p r h
    cases p with
    | nil =>
      rw [top_level.eq_2] at h
      simp only [Option.some.injEq] at h
      subst h
      exact List.prefix_refl _
    | cons c cs =>
      rw [top_level.eq_3] at h
      split at h
      · simp only [Option.some.injEq] at h; subst h
        exact List.prefix_refl _
      · next id p1 h1 =>
        try simp only at h
        split at h
        · simp only [Option.some.injEq] at h; subst h
          unfold pop_if_kind
          split
          · split <;> exact List.prefix_refl _
          · exact List.prefix_refl _
        · split at h
          · try simp only at h
            split at h
            · exact (parse_modl_txt_keeps H ctx p1).trans (ih _ _ _ h)
            · simp only [Option.some.injEq] at h; subst h
              exact parse_modl_txt_keeps H ctx p1
          · split at h
            · split at h
              · simp at h
              · next r1 hr1 =>
                have g1 := (cntb_keeps H n).1 _ _ _ hr1
                split at h
                · exact g1.trans (ih _ _ _ h)
                · simp only [Option.some.injEq] at h; subst h
                  exact g1
            · split at h
              · have g1 := ih _ _ _ h
                exact g1
              · split at h
                · simp only [Option.some.injEq] at h; subst h
                  exact List.prefix_refl _
                · simp only [Option.some.injEq] at h; subst h
                  exact List.prefix_refl _

theorem run_keeps (H : Host F) (l : Level) (fuel : Nat) (ctx : Context F) (p : Buf) (r : Res F)
    (h : run H l fuel ctx p = some r) : ctx.store.geometries <+: r.ctx.store.geometries := by
  cases l with
  | root => exact top_level_keeps H fuel ctx p r h
  | group => exact (cntb_keeps H fuel).2 ctx p r h

/-- The result at a head that the reader comes to in one move is kept, as far
as the geometries go, in the result at the head it came from. -/
theorem next_keeps (H : Host F) (s s' : Pos F) (hn : Next H s s') (fuel : Nat) (r' : Res F)
    (hr : run H s'.level fuel s'.ctx s'.p = some r') :
    ∃ fuel' r, run H s.level fuel' s.ctx s.p = some r ∧
      r'.ctx.store.geometries <+: r.ctx.store.geometries := by
  cases hn with
  | modl ctx p p1 hh ho =>
    obtain ⟨c, cs, rfl⟩ := header_ne_nil H _ _ _ hh
    refine ⟨fuel + 1, r', ?_, List.prefix_refl _⟩
    simp only [run] at hr ⊢
    rw [top_level.eq_3]
    simp only [hh, ho, if_true]
    exact hr
  | stray_cnte ctx p p1 hh =>
    obtain ⟨c, cs, rfl⟩ := header_ne_nil H _ _ _ hh
    refine ⟨fuel + 1, r', ?_, List.prefix_refl _⟩
    simp only [run] at hr ⊢
    rw [top_level.eq_3]
    simp only [hh, if_true]
    exact hr
  | group_done l ctx p p1 f1 r1 hh hp ho =>
    obtain ⟨c, cs, rfl⟩ := header_ne_nil H _ _ _ hh
    refine ⟨max fuel f1 + 1, r', ?_, List.prefix_refl _⟩
    have hp' := (cntb_fuel_le H f1 (max fuel f1) (Nat.le_max_right _ _)).1 _ _ _ hp
    have hr' := run_fuel_le H l fuel (max fuel f1) (Nat.le_max_left _ _) _ _ _ hr
    cases l with
    | root =>
      simp only [run] at hr' ⊢
      rw [top_level.eq_3]
      simp only [hh, hp', ho, if_true]
      exact hr'
    | group =>
      simp only [run] at hr' ⊢
      rw [cntb_children.eq_3]
      simp only [hh, hp', ho, if_true]
      exact hr'
  | group_enter l ctx p p1 hh ho =>
    obtain ⟨c, cs, rfl⟩ := header_ne_nil H _ _ _ hh
    simp only [run] at hr
    have hp : parse_cntb_txt H (fuel + 1) ctx p1 = some r' := by
      simp only [parse_cntb_txt, ho, if_true]
      exact hr
    cases hok : r'.ok with
    | false =>
      refine ⟨fuel + 2, r', ?_, List.prefix_refl _⟩
      cases l with
      | root =>
        simp only [run]
        rw [top_level.eq_3]
        simp [hh, hp, hok]
      | group =>
        simp only [run]
        rw [cntb_children.eq_3]
        simp [hh, hp, hok]
    | true =>
      have htot : ∃ r2, run H l (2 * r'.p.length + 1) r'.ctx r'.p = some r2 := by
        cases l with
        | root =>
          exact Option.isSome_iff_exists.mp
            (top_level_total H _ r'.ctx r'.p (Nat.le_refl _))
        | group =>
          exact Option.isSome_iff_exists.mp
            ((cntb_total H _).2 r'.ctx r'.p (Nat.le_refl _))
      obtain ⟨r2, hr2⟩ := htot
      refine ⟨max (fuel + 1) (2 * r'.p.length + 1) + 1, r2, ?_, run_keeps H l _ _ _ _ hr2⟩
      have hp' := (cntb_fuel_le H (fuel + 1) (max (fuel + 1) (2 * r'.p.length + 1))
        (Nat.le_max_left _ _)).1 _ _ _ hp
      have hr2' := run_fuel_le H l _ (max (fuel + 1) (2 * r'.p.length + 1))
        (Nat.le_max_right _ _) _ _ _ hr2
      cases l with
      | root =>
        simp only [run] at hr2' ⊢
        rw [top_level.eq_3]
        simp only [hh, hp', hok, if_true]
        simpa using hr2'
      | group =>
        simp only [run] at hr2' ⊢
        rw [cntb_children.eq_3]
        simp only [hh, hp', hok, if_true]
        simpa using hr2'
  | prim_done ctx p p1 id hh hid ho =>
    obtain ⟨c, cs, rfl⟩ := header_ne_nil H _ _ _ hh
    refine ⟨fuel + 1, r', ?_, List.prefix_refl _⟩
    simp only [run] at hr ⊢
    rw [cntb_children.eq_3]
    have h1 : id ≠ "CNTE".toList := by rcases hid with h | h | h <;> (rw [h]; decide)
    have h2 : id ≠ "CNTB".toList := by rcases hid with h | h | h <;> (rw [h]; decide)
    simp only [hh]
    rw [if_neg h1, if_neg h2, if_pos hid]
    simp only [ho, if_true]
    exact hr

theorem reaches_keeps (H : Host F) (s s' : Pos F) (hreach : Reaches H s s') :
    ∀ (fuel : Nat) (r' : Res F), run H s'.level fuel s'.ctx s'.p = some r' →
      ∃ fuel' r, run H s.level fuel' s.ctx s.p = some r ∧
        r'.ctx.store.geometries <+: r.ctx.store.geometries := by
  induction hreach with
  | refl => intro fuel r hr; exact ⟨fuel, r, hr, List.prefix_refl _⟩
  | tail _ hn ih =>
    intro fuel r' hr
    obtain ⟨f1, r1, h1, g1⟩ := next_keeps H _ _ hn fuel r' hr
    obtain ⟨f2, r2, h2, g2⟩ := ih f1 r1 h1
    exact ⟨f2, r2, h2, g1.trans g2⟩

theorem finish_geometries (ctx : Context F) :
    (finish ctx).store.geometries = ctx.store.geometries := by
  have h1 : ∀ (c : Context F) (k : NodeKind), (pop_if_kind c k).store = c.store := by
    intro c k
    unfold pop_if_kind
    split
    · split <;> rfl
    · rfl
  unfold finish
  simp only
  split
  · simp only [Store.updateCounts, h1]
  · simp only [Store.updateCounts, h1]

/-- The geometries there are at a head that `parseREV` comes to are in the
Store that `parseREV` leaves, at the same handles and as they were. -/
theorem parseREV_keeps (H : Host F) (store : Store F) (path : Option (List Char))
    (buf : Buf) (s : Pos F) (hv : Visits H store path buf s) :
    ∃ r, parseREV H store path buf = some r ∧
      s.ctx.store.geometries <+: r.ctx.store.geometries := by
  obtain ⟨p0, hh, ho, hreach⟩ := hv
  have htot : ∃ r', run H s.level (2 * s.p.length + 1) s.ctx s.p = some r' := by
    obtain ⟨l, ctx, p⟩ := s
    cases l with
    | root => exact Option.isSome_iff_exists.mp (top_level_total H _ ctx p (Nat.le_refl _))
    | group => exact Option.isSome_iff_exists.mp ((cntb_total H _).2 ctx p (Nat.le_refl _))
  obtain ⟨r', hr'⟩ := htot
  have g0 := run_keeps H _ _ _ _ _ hr'
  obtain ⟨f1, r1, h1, g1⟩ := reaches_keeps H _ _ hreach _ r' hr'
  simp only [run] at h1
  have hlen := read_chunk_header_txt_length _ _ _ _ hh
  have hlen2 := parse_head_txt_length H _ p0 _ rfl ho
  have hs := top_level_total H (2 * buf.length + 2)
    (parse_head_txt H { store := store, path := path } p0).ctx
    (parse_head_txt H { store := store, path := path } p0).p (by omega)
  obtain ⟨r2, hr2⟩ := Option.isSome_iff_exists.mp hs
  have e1 := top_level_fuel_le H _ _ (Nat.le_max_left _ f1) _ _ _ hr2
  have e2 := top_level_fuel_le H _ _ (Nat.le_max_right (2 * buf.length + 2) f1) _ _ _ h1
  rw [e1] at e2
  simp only [Option.some.injEq] at e2
  subst e2
  unfold parseREV parseREV_fuel
  simp only [hh]
  rw [if_neg (by simp)]
  simp only [ho, if_true, hr2]
  cases hok : r2.ok with
  | false => exact ⟨r2, by simp, g0.trans g1⟩
  | true =>
    refine ⟨⟨true, finish r2.ctx, r2.p⟩, by simp, ?_⟩
    simp only [finish_geometries]
    exact g0.trans g1

/-- The Store after a primitive chunk at a head of the loop over the children
of a group is kept, as far as the geometries go, in the Store that `parseREV`
leaves. -/
theorem parseREV_keeps_prim (H : Host F) (store : Store F) (path : Option (List Char))
    (buf : Buf) (s : Pos F) (id : List Char) (p1 : Buf)
    (hv : Visits H store path buf s) (hl : s.level = Level.group)
    (hh : read_chunk_header_txt H s.p = some (id, p1))
    (hid : id = "PRIM".toList ∨ id = "OBST".toList ∨ id = "INSU".toList) :
    ∃ r, parseREV H store path buf = some r ∧
      (parse_prim_txt H s.ctx id p1).ctx.store.geometries <+: r.ctx.store.geometries := by
  cases hok : (parse_prim_txt H s.ctx id p1).ok with
  | false =>
    obtain ⟨r, hr, -, heq⟩ := parseREV_fail_of_prim_fail H store path buf s id p1 hv hh hid hok
    refine ⟨r, hr, ?_⟩
    rw [heq hl]
  | true =>
    obtain ⟨l, ctx, p⟩ := s
    simp only at hl hh hok ⊢
    subst hl
    obtain ⟨p0, h0, ho, hreach⟩ := hv
    exact parseREV_keeps H store path buf
      ⟨Level.group, (parse_prim_txt H ctx id p1).ctx, (parse_prim_txt H ctx id p1).p⟩
      ⟨p0, h0, ho, hreach.tail (Next.prim_done ctx p p1 id hh hid hok)⟩

theorem prefix_index {α : Type} {l l' : List α} (h : l <+: l') (i : Nat) (a : α)
    (hi : l[i]? = some a) : l'[i]? = some a := by
  obtain ⟨t, rfl⟩ := h
  rw [List.getElem?_append_left (List.getElem?_eq_some.mp hi).1]
  exact hi

/-- The reader goes on after a primitive chunk that is parsed with success. -/
theorem visits_after_prim (H : Host F) (store : Store F) (path : Option (List Char))
    (buf : Buf) (s : Pos F) (id : List Char) (p1 q : Buf)
    (hv : Visits H store path buf s) (hl : s.level = Level.group)
    (hh : read_chunk_header_txt H s.p = some (id, p1))
    (hid : id = "PRIM".toList ∨ id = "OBST".toList ∨ id = "INSU".toList)
    (hok : (parse_prim_txt H s.ctx id p1).ok = true)
    (hq : (parse_prim_txt H s.ctx id p1).p = q) :
    Visits H store path buf ⟨Level.group, (parse_prim_txt H s.ctx id p1).ctx, q⟩ := by
  obtain ⟨l, ctx, p⟩ := s
  simp only at hl hh hok hq ⊢
  subst hl
  subst hq
  obtain ⟨p0, h0, ho, hreach⟩ := hv
  exact ⟨p0, h0, ho, hreach.tail (Next.prim_done ctx p p1 id hh hid hok)⟩

theorem Writes.same (ctx : Context F) : Writes ctx ctx :=
  ⟨List.prefix_refl _, rfl, rfl, rfl, List.prefix_refl _, List.prefix_refl _⟩

theorem Writes.chain {a b c : Context F} (h1 : Writes a b) (h2 : Writes b c) : Writes a c := by
  obtain ⟨a1, a2, a3, a4, a5, a6⟩ := h1
  obtain ⟨b1, b2, b3, b4, b5, b6⟩ := h2
  exact ⟨a1.trans b1, b2.trans a2, b3.trans a3, b4.trans a4, a5.trans b5, a6.trans b6⟩

/-- A change of the stack apart, `Writes` looks at the Store and the logger. -/
theorem Writes.of_store {ctx c c' : Context F} (h : Writes ctx c) (hs : c'.store = c.store)
    (hl : c'.logger = c.logger) (hp : c'.path = c.path) : Writes ctx c' := by
  obtain ⟨a1, a2, a3, a4, a5, a6⟩ := h
  exact ⟨by rw [hl]; exact a1, hp.trans a2, by rw [hs]; exact a3, by rw [hs]; exact a4,
    by rw [hs]; exact a5, by rw [hs]; exact a6⟩

theorem Res.Wrote.ok (ctx c : Context F) (p : Buf) (h : Writes ctx c) :
    Res.Wrote ctx ⟨true, c, p⟩ := ⟨c, h, Or.inl ⟨rfl, rfl⟩⟩

theorem Res.Wrote.err (ctx c : Context F) (msg : List Char) (p : Buf) (h : Writes ctx c) :
    Res.Wrote ctx ⟨false, set_error c msg, p⟩ := ⟨c, h, Or.inr ⟨rfl, msg, rfl⟩⟩

theorem set_concat_length {α : Type} (N : List α) (n x : α) :
    (N ++ [n]).set N.length x = N ++ [x] := by
  induction N with
  | nil => rfl
  | cons a N ih => simp only [List.cons_append, List.length_cons, List.set_cons_succ, ih]

/-- A write to the group data of the node created last keeps the nodes before
it. -/
theorem modifyGroup_last (c : Context F) (N : List (Node F)) (n : Node F)
    (f : GroupData F → GroupData F) (h : c.store.nodes = N ++ [n]) :
    (c.modifyGroup N.length f).store.nodes = N ++ [{ n with group := f n.group }] := by
  simp only [Context.modifyGroup, Store.modifyGroup, h, List.getElem?_concat_length,
    set_concat_length]

theorem modifyModel_last (c : Context F) (N : List (Node F)) (n : Node F)
    (f : ModelData → ModelData) (h : c.store.nodes = N ++ [n]) :
    (c.modifyModel N.length f).store.nodes = N ++ [{ n with model := f n.model }] := by
  simp only [Context.modifyModel, Store.modifyModel, h, List.getElem?_concat_length,
    set_concat_length]

theorem modifyFile_last (c : Context F) (N : List (Node F)) (n : Node F)
    (f : FileData → FileData) (h : c.store.nodes = N ++ [n]) :
    (c.modifyFile N.length f).store.nodes = N ++ [{ n with file := f n.file }] := by
  simp only [Context.modifyFile, Store.modifyFile, h, List.getElem?_concat_length,
    set_concat_length]

theorem AddsNode.writes {ctx c : Context F} (h : AddsNode ctx c) : Writes ctx c := by
  obtain ⟨a1, a2, a3, a4, a5, n, a6⟩ := h
  exact ⟨by rw [a1], a2, a3, a4, ⟨[n], a6.symm⟩, by rw [a5]⟩

theorem AddsNode.newNode (H : Host F) (ctx : Context F) (parent : Option Nat) (k : NodeKind) :
    AddsNode ctx { ctx with store := (ctx.store.newNode H parent k).1 } :=
  ⟨rfl, rfl, rfl, rfl, rfl, _, rfl⟩

theorem AddsNode.push_back {ctx c : Context F} (h : AddsNode ctx c) (n : Nat) :
    AddsNode ctx (push_back c n) := h

theorem AddsNode.onGroup {ctx c : Context F} (h : AddsNode ctx c)
    (f : GroupData F → GroupData F) :
    AddsNode ctx (c.modifyGroup ctx.store.nodes.length f) := by
  obtain ⟨a1, a2, a3, a4, a5, n, a6⟩ := h
  refine ⟨a1, a2, ?_, ?_, ?_, _, modifyGroup_last c _ n f a6⟩
  · simp only [Context.modifyGroup, Store.modifyGroup]; split <;> exact a3
  · simp only [Context.modifyGroup, Store.modifyGroup]; split <;> exact a4
  · simp only [Context.modifyGroup, Store.modifyGroup]; split <;> exact a5

theorem AddsNode.onModel {ctx c : Context F} (h : AddsNode ctx c)
    (f : ModelData → ModelData) :
    AddsNode ctx (c.modifyModel ctx.store.nodes.length f) := by
  obtain ⟨a1, a2, a3, a4, a5, n, a6⟩ := h
  refine ⟨a1, a2, ?_, ?_, ?_, _, modifyModel_last c _ n f a6⟩
  · simp only [Context.modifyModel, Store.modifyModel]; split <;> exact a3
  · simp only [Context.modifyModel, Store.modifyModel]; split <;> exact a4
  · simp only [Context.modifyModel, Store.modifyModel]; split <;> exact a5

theorem AddsNode.onFile {ctx c : Context F} (h : AddsNode ctx c)
    (f : FileData → FileData) :
    AddsNode ctx (c.modifyFile ctx.store.nodes.length f) := by
  obtain ⟨a1, a2, a3, a4, a5, n, a6⟩ := h
  refine ⟨a1, a2, ?_, ?_, ?_, _, modifyFile_last c _ n f a6⟩
  · simp only [Context.modifyFile, Store.modifyFile]; split <;> exact a3
  · simp only [Context.modifyFile, Store.modifyFile]; split <;> exact a4
  · simp only [Context.modifyFile, Store.modifyFile]; split <;> exact a5

theorem AddsNode.inherit (H : Host F) (ctx : Context F) (parent : Nat) :
    AddsNode ctx (inherit_transparency
      { ctx with store := (ctx.store.newNode H (some parent) NodeKind.Group).1 } parent
      (ctx.store.newNode H (some parent) NodeKind.Group).2) := by
  unfold inherit_transparency
  split
  · split
    · exact (AddsNode.newNode H ctx (some parent) NodeKind.Group).onGroup _
    · exact AddsNode.newNode H ctx _ _
  · exact AddsNode.newNode H ctx _ _

/-- The form of what `cntb_open` leaves. -/
theorem cntb_open_wrote (H : Host F) (ctx : Context F) (p : Buf) (r : Res F)
    (hr : cntb_open H ctx p = r) : r.Wrote ctx := by
  unfold cntb_open at hr
  split at hr
  · subst hr; exact Res.Wrote.err _ _ _ _ (Writes.same _)
  · next parent rest hs =>
    split at hr
    · subst hr; exact Res.Wrote.err _ _ _ _ (Writes.same _)
    · have h1 := AddsNode.inherit H ctx parent
      simp only at hr
      split at hr
      · subst hr; exact Res.Wrote.err _ _ _ _ h1.writes
      · next line p1 hl =>
        have h2 := h1.onGroup (fun d => { d with name := line })
        split at hr
        · next c3 hc3 =>
          have h3 : AddsNode ctx c3 := by
            refine @chain_fst _ (AddsNode ctx) _ _ _ hc3 ?_
            repeat (
              refine f32_into_preserves (AddsNode ctx) H _ (fun v a h => ?_) _ ?_
              · exact h.onGroup _)
            exact h2
          subst hr; exact Res.Wrote.err _ _ _ _ h3.writes
        · next c3 p3 hc3 =>
          have h3 : AddsNode ctx c3 := by
            refine @chain_fst _ (AddsNode ctx) _ _ _ hc3 ?_
            repeat (
              refine f32_into_preserves (AddsNode ctx) H _ (fun v a h => ?_) _ ?_
              · exact h.onGroup _)
            exact h2
          have h4 := ((h3.onGroup (scale_slot H 0)).onGroup (scale_slot H 1)).onGroup
            (scale_slot H 2)
          split at hr
          · subst hr; exact Res.Wrote.err _ _ _ _ h4.writes
          · next m p4 hm =>
            subst hr
            exact Res.Wrote.ok _ _ _
              ((h4.onGroup (fun d => { d with material := some m })).push_back _).writes

/-- The form of what `parse_modl_txt` leaves. -/
theorem parse_modl_txt_wrote (H : Host F) (ctx : Context F) (p : Buf) (r : Res F)
    (hr : parse_modl_txt H ctx p = r) : r.Wrote ctx := by
  unfold parse_modl_txt at hr
  split at hr
  · subst hr; exact Res.Wrote.err _ _ _ _ (Writes.same _)
  · next top rest hs =>
    split at hr
    · subst hr; exact Res.Wrote.err _ _ _ _ (Writes.same _)
    · next hk =>
      have hk' : ctx.store.kindOf top = some NodeKind.File := by simpa using hk
      have hne : ¬ ctx.store.kindOf top = some NodeKind.Model := by rw [hk']; decide
      simp only [if_neg hne] at hr
      have h1 : AddsNode ctx (push_back
          { ctx with store := (ctx.store.newNode H ctx.stack.head? NodeKind.Model).1 }
          (ctx.store.newNode H ctx.stack.head? NodeKind.Model).2) :=
        (AddsNode.newNode H ctx _ _).push_back _
      split at hr
      · subst hr; exact Res.Wrote.err _ _ _ _ h1.writes
      · next line p1 hl =>
        have h2 := h1.onModel (fun d => { d with project := line })
        split at hr
        · subst hr; exact Res.Wrote.err _ _ _ _ h2.writes
        · next line2 p2 hl2 =>
          subst hr
          exact Res.Wrote.ok _ _ _ (h2.onModel (fun d => { d with name := line2 })).writes

/-- The form of what `parse_head_txt` leaves. -/
theorem parse_head_txt_wrote (H : Host F) (ctx : Context F) (p : Buf) (r : Res F)
    (hr : parse_head_txt H ctx p = r) : r.Wrote ctx := by
  unfold parse_head_txt at hr
  split at hr
  · subst hr; exact Res.Wrote.err _ _ _ _ (Writes.same _)
  · simp only at hr
    have h0 : AddsNode ctx (push_back
        { ctx with store := (ctx.store.newNode H none NodeKind.File).1 }
        (ctx.store.newNode H none NodeKind.File).2) :=
      (AddsNode.newNode H ctx _ _).push_back _
    split at hr
    · subst hr; exact Res.Wrote.err _ _ _ _ h0.writes
    · next l1 p1 e1 =>
      have h1 := h0.onFile (fun d => { d with info := l1 })
      split at hr
      · subst hr; exact Res.Wrote.err _ _ _ _ h1.writes
      · next l2 p2 e2 =>
        have h2 := h1.onFile (fun d => { d with note := l2 })
        split at hr
        · subst hr; exact Res.Wrote.err _ _ _ _ h2.writes
        · next l3 p3 e3 =>
          have h3 := h2.onFile (fun d => { d with date := l3 })
          split at hr
          · subst hr; exact Res.Wrote.err _ _ _ _ h3.writes
          · next l4 p4 e4 =>
            subst hr
            exact Res.Wrote.ok _ _ _
              (((h3.onFile (fun d => { d with user := l4 })).onFile
                (fun d => { d with encoding := [] })).onFile
                  (fun d => { d with path := ctx.path.getD [] })).writes

theorem prim_return_wrote (ctx : Context F) (top : Nat) (g : Geometry F)
    (err : Option (List Char)) (q : Buf) :
    (prim_return { ctx with store := (ctx.store.newGeometry top).1 }
      (ctx.store.newGeometry top).2 g err q).Wrote ctx := by
  have hset : (Store.setGeometry (ctx.store.newGeometry top).1 (ctx.store.newGeometry top).2 g)
      = { ctx.store with geometries := ctx.store.geometries ++ [⟨top, g⟩] } := by
    simp [Store.setGeometry, Store.newGeometry]
  have hw : Writes ctx
      { ctx with
        store := (ctx.store.newGeometry top).1.setGeometry (ctx.store.newGeometry top).2 g } := by
    refine ⟨List.prefix_refl _, rfl, ?_, ?_, ?_, ?_⟩
    · simp only [hset]
    · simp only [hset]
    · simp only [hset]; exact List.prefix_refl _
    · simp only [hset]; exact List.prefix_append _ _
  cases err with
  | none => exact Res.Wrote.ok _ _ _ hw
  | some msg => exact Res.Wrote.err _ _ _ _ hw

/-- The form of what `parse_prim_txt` leaves. -/
theorem parse_prim_txt_wrote (H : Host F) (ctx : Context F) (id : List Char) (p : Buf)
    (r : Res F) (hr : parse_prim_txt H ctx id p = r) : r.Wrote ctx := by
  unfold parse_prim_txt at hr
  repeat' split at hr
  all_goals subst hr
  all_goals try simp only
  all_goals repeat' split
  all_goals first
    | exact Res.Wrote.err _ _ _ _ (Writes.same _)
    | exact prim_return_wrote _ _ _ _ _

/-- Induction over the two loops of the reader: a relation between the context
at a point and a result that holds of the three chunk functions, of the ways
a loop is left, and composes along a success, holds of `parse_cntb_txt`, of
the loop over the children and of the top-level loop. -/
theorem loops_induct (H : Host F) (Q : Context F → Res F → Prop)
    (hopen : ∀ ctx p, Q ctx (cntb_open H ctx p))
    (hprim : ∀ ctx id p, (id = "PRIM".toList ∨ id = "OBST".toList ∨ id = "INSU".toList) →
      Q ctx (parse_prim_txt H ctx id p))
    (hmodl : ∀ ctx p, Q ctx (parse_modl_txt H ctx p))
    (hcomp : ∀ ctx r r2, Q ctx r → r.ok = true → Q r.ctx r2 → Q ctx r2)
    (hpop : ∀ ctx q, Q ctx ⟨true, pop_back ctx, q⟩)
    (herr : ∀ ctx msg q, Q ctx ⟨false, set_error ctx msg, q⟩)
    (hend : ∀ ctx q, Q ctx ⟨true, pop_if_kind ctx NodeKind.Model, q⟩)
    (hnil : ∀ ctx q, Q ctx ⟨true, ctx, q⟩)
    (hlog : ∀ ctx e r, Q { ctx with logger := ctx.logger ++ [e] } r → Q ctx r) (fuel : Nat) :
    (∀ ctx p r, parse_cntb_txt H fuel ctx p = some r → Q ctx r) ∧
    (∀ ctx p r, cntb_children H fuel ctx p = some r → Q ctx r) ∧
    (∀ ctx p r, top_level H fuel ctx p = some r → Q ctx r) := by
  induction fuel with
  | zero =>
    refine ⟨?_, ?_, ?_⟩ <;>
      (intro ctx p r h; simp [parse_cntb_txt, cntb_children, top_level] at h)
  | succ n ih =>
    obtain ⟨ih1, ih2, ih3⟩ := ih
    refine ⟨?_, ?_, ?_⟩
    · intro ctx p r h
      simp only [parse_cntb_txt] at h
      split at h
      · next ho => exact hcomp _ _ _ (hopen ctx p) ho (ih2 _ _ _ h)
      · simp only [Option.some.injEq] at h
        subst h
        exact hopen ctx p
    · intro ctx p r h
      cases p with
      | nil =>
        rw [cntb_children.eq_2] at h
        simp only [Option.some.injEq] at h
        subst h
        exact hpop _ _
      | cons c cs =>
        rw [cntb_children.eq_3] at h
        split at h
        · simp only [Option.some.injEq] at h; subst h
          exact herr _ _ _
        · next cid p1 h1 =>
          try simp only at h
          split at h
          · simp only [Option.some.injEq] at h; subst h
            exact hpop _ _
          · split at h
            · split at h
              · simp at h
              · next r1 hr1 =>
                have g1 := ih1 _ _ _ hr1
                split at h
                · next ho => exact hcomp _ _ _ g1 ho (ih2 _ _ _ h)
                · simp only [Option.some.injEq] at h; subst h
                  exact g1
            · split at h
              · next hid =>
                have g1 := hprim ctx cid p1 hid
                try simp only at h
                split at h
                · next ho => exact hcomp _ _ _ g1 ho (ih2 _ _ _ h)
                · simp only [Option.some.injEq] at h; subst h
                  exact g1
              · simp only [Option.some.injEq] at h; subst h
                exact herr _ _ _
    · intro ctx p r h
      cases p with
      | nil =>
        rw [top_level.eq_2] at h
        simp only [Option.some.injEq] at h
        subst h
        exact hnil _ _
      | cons c cs =>
        rw [top_level.eq_3] at h
        split at h
        · simp only [Option.some.injEq] at h; subst h
          exact herr _ _ _
        · next id p1 h1 =>
          try simp only at h
          split at h
          · simp only [Option.some.injEq] at h; subst h
            exact hend _ _
          · split at h
            · try simp only at h
              split at h
              · next ho => exact hcomp _ _ _ (hmodl ctx p1) ho (ih3 _ _ _ h)
              · simp only [Option.some.injEq] at h; subst h
                exact hmodl ctx p1
            · split at h
              · split at h
                · simp at h
                · next r1 hr1 =>
                  have g1 := ih1 _ _ _ hr1
                  split at h
                  · next ho => exact hcomp _ _ _ g1 ho (ih3 _ _ _ h)
                  · simp only [Option.some.injEq] at h; subst h
                    exact g1
              · split at h
                · exact hlog _ _ _ (ih3 _ _ _ h)
                · split at h
                  · simp only [Option.some.injEq] at h; subst h
                    exact herr _ _ _
                  · simp only [Option.some.injEq] at h; subst h
                    exact herr _ _ _

theorem Res.Wrote.comp {ctx : Context F} {r r2 : Res F} (h1 : r.Wrote ctx)
    (ho : r.ok = true) (h2 : r2.Wrote r.ctx) : r2.Wrote ctx := by
  obtain ⟨c, hc, ⟨_, e⟩ | ⟨hf, _⟩⟩ := h1
  · obtain ⟨c2, hc2, h⟩ := h2
    rw [e] at hc2
    exact ⟨c2, hc.chain hc2, h⟩
  · rw [ho] at hf; cases hf

/-- Whatever the loops of the reader return: on success the context after
writes to the arenas and calls of the logger, on failure that context with one
call of `set_error`. -/
theorem loops_wrote (H : Host F) (fuel : Nat) :
    (∀ ctx p r, parse_cntb_txt H fuel ctx p = some r → r.Wrote ctx) ∧
    (∀ ctx p r, cntb_children H fuel ctx p = some r → r.Wrote ctx) ∧
    (∀ ctx p r, top_level H fuel ctx p = some r → r.Wrote ctx) := by
  refine loops_induct H (fun ctx r => r.Wrote ctx)
    (fun ctx p => cntb_open_wrote H ctx p _ rfl)
    (fun ctx id p _ => parse_prim_txt_wrote H ctx id p _ rfl)
    (fun ctx p => parse_modl_txt_wrote H ctx p _ rfl)
    (fun ctx r r2 h1 ho h2 => h1.comp ho h2)
    (fun ctx q => Res.Wrote.ok _ _ _ ((Writes.same ctx).of_store rfl rfl rfl))
    (fun ctx msg q => Res.Wrote.err _ _ _ _ (Writes.same ctx))
    (fun ctx q => Res.Wrote.ok _ _ _ ?_)
    (fun ctx q => Res.Wrote.ok _ _ _ (Writes.same ctx))
    (fun ctx e r h => ?_) fuel
  · unfold pop_if_kind
    split
    · split
      · exact (Writes.same ctx).of_store rfl rfl rfl
      · exact Writes.same ctx
    · exact Writes.same ctx
  · obtain ⟨c, hc, h⟩ := h
    refine ⟨c, ?_, h⟩
    obtain ⟨a1, a2, a3, a4, a5, a6⟩ := hc
    exact ⟨(List.prefix_append _ _).trans a1, a2, a3, a4, a5, a6⟩

/-- What `parseREV` leaves: after writes to the arenas and calls of the logger,
on success the final clean-up, on failure one call of `set_error`. -/
theorem parseREV_wrote (H : Host F) (store : Store F) (path : Option (List Char))
    (buf : Buf) (r : Res F) (h : parseREV H store path buf = some r) :
    ∃ c, Writes { store := store, path := path } c ∧
      ((r.ok = true ∧ r.ctx = finish c) ∨ (r.ok = false ∧ ∃ msg, r.ctx = set_error c msg)) := by
  unfold parseREV parseREV_fuel at h
  try simp only at h
  split at h
  · simp only [Option.some.injEq] at h; subst h
    exact ⟨_, Writes.same _, Or.inr ⟨rfl, _, rfl⟩⟩
  · next id p0 h0 =>
    split at h
    · simp only [Option.some.injEq] at h; subst h
      exact ⟨_, Writes.same _, Or.inr ⟨rfl, _, rfl⟩⟩
    · have g0 := parse_head_txt_wrote H { store := store, path := path } p0 _ rfl
      split at h
      · next ho =>
        split at h
        · simp at h
        · next r1 hr1 =>
          have g1 := g0.comp ho ((loops_wrote H _).2.2 _ _ _ hr1)
          obtain ⟨c, hc, ⟨ho1, e⟩ | ⟨hf, msg, e⟩⟩ := g1
          · rw [if_pos ho1] at h
            simp only [Option.some.injEq] at h; subst h
            exact ⟨c, hc, Or.inl ⟨rfl, by rw [e]⟩⟩
          · rw [if_neg (by rw [hf]; simp)] at h
            simp only [Option.some.injEq] at h; subst h
            exact ⟨c, hc, Or.inr ⟨hf, msg, e⟩⟩
      · next ho =>
        simp only [Option.some.injEq] at h; subst h
        obtain ⟨c, hc, ⟨ho1, e⟩ | ⟨hf, msg, e⟩⟩ := g0
        · exact absurd ho1 ho
        · exact ⟨c, hc, Or.inr ⟨hf, msg, e⟩⟩

theorem finish_store (ctx : Context F) :
    (finish ctx).store = ctx.store.updateCounts := by
  have h1 : ∀ (c : Context F) (k : NodeKind), (pop_if_kind c k).store = c.store := by
    intro c k
    unfold pop_if_kind
    split
    · split <;> rfl
    · rfl
  unfold finish
  simp only
  split
  · simp only [h1]
  · simp only [h1]

/-- Without a Model or a Group on top of the stack `cntb_open` fails at once. -/
theorem cntb_open_guard (H : Host F) (ctx : Context F) (p : Buf)
    (h : ∀ parent, ctx.stack.head? = some parent →
      ctx.store.kindOf parent ≠ some NodeKind.Model ∧
      ctx.store.kindOf parent ≠ some NodeKind.Group) :
    cntb_open H ctx p
      = ⟨false, set_error ctx "CNTB without valid parent (Model/Group)".toList, p⟩ := by
  unfold cntb_open
  split
  · rfl
  · next parent rest hs =>
    rw [if_pos (h parent (by rw [hs]; rfl))]

theorem TreeOK.add {ns : List (NodeKind × Option Nat × Nat)} (h : TreeOK ns)
    (k : NodeKind) (ph : Option Nat) (t : Nat) (hk : k ≠ NodeKind.File)
    (hm : k = NodeKind.Model → ph = some 0)
    (hg : k = NodeKind.Group → ∃ (p : Nat) (pk : NodeKind) (pp : Option Nat) (pt : Nat),
      ph = some p ∧ ns[p]? = some (pk, pp, pt) ∧ (pk = NodeKind.Model ∨ pk = NodeKind.Group)) :
    TreeOK (ns ++ [(k, ph, t)]) := by
  obtain ⟨⟨t0, h0⟩, hall⟩ := h
  have hlen : 0 < ns.length := (List.getElem?_eq_some.mp h0).1
  have up : ∀ (j : Nat) (x : NodeKind × Option Nat × Nat), ns[j]? = some x →
      (ns ++ [(k, ph, t)])[j]? = some x := by
    intro j x hj
    rw [List.getElem?_append_left (List.getElem?_eq_some.mp hj).1]
    exact hj
  refine ⟨⟨t0, up _ _ h0⟩, ?_⟩
  intro i k' ph' t' hi
  by_cases hlt : i < ns.length
  · rw [List.getElem?_append_left hlt] at hi
    obtain ⟨a, b, c⟩ := hall i k' ph' t' hi
    refine ⟨a, b, fun hk' => ?_⟩
    obtain ⟨p, pk, pp, pt, e1, e2, e3⟩ := c hk'
    exact ⟨p, pk, pp, pt, e1, up _ _ e2, e3⟩
  · have hge : ns.length ≤ i := Nat.le_of_not_lt hlt
    rw [List.getElem?_append_right hge] at hi
    have hi0 : i - ns.length = 0 := by
      by_contra hne
      obtain ⟨m, hm'⟩ := Nat.exists_eq_succ_of_ne_zero hne
      rw [hm'] at hi
      simp at hi
    rw [hi0] at hi
    simp only [List.getElem?_cons_zero, Option.some.injEq, Prod.mk.injEq] at hi
    obtain ⟨rfl, rfl, rfl⟩ := hi
    refine ⟨fun hf => absurd hf hk, hm, fun hk' => ?_⟩
    obtain ⟨p, pk, pp, pt, e1, e2, e3⟩ := hg hk'
    exact ⟨p, pk, pp, pt, e1, up _ _ e2, e3⟩

theorem cntb_open_tree (H : Host F) (ctx : Context F) (p : Buf)
    (h : TreeOK ctx.store.nodeShape) : TreeOK (cntb_open H ctx p).ctx.store.nodeShape := by
  by_cases hg : ∀ parent, ctx.stack.head? = some parent →
      ctx.store.kindOf parent ≠ some NodeKind.Model ∧
      ctx.store.kindOf parent ≠ some NodeKind.Group
  · rw [cntb_open_guard H ctx p hg]
    exact h
  · obtain ⟨_, _, ⟨_, _, hn⟩ | ⟨parent, t, k, pp, pt, hhead, hpar, _, hn, _, _⟩⟩ :=
      cntb_open_effect H ctx p _ rfl
    · rw [hn]; exact h
    · rw [hn]
      refine h.add NodeKind.Group (some parent) t (by decide) (fun hk => (by cases hk))
        (fun _ => ⟨parent, k, pp, pt, rfl, hpar, ?_⟩)
      by_contra hk
      apply hg
      intro parent' hp'
      rw [hhead] at hp'
      simp only [Option.some.injEq] at hp'
      subst hp'
      rw [kindOf_eq_shape, hpar]
      simp only [Option.map_some', ne_eq, Option.some.injEq]
      exact ⟨fun e => hk (Or.inl e), fun e => hk (Or.inr e)⟩

theorem parse_modl_txt_tree (H : Host F) (ctx : Context F) (p : Buf)
    (h : TreeOK ctx.store.nodeShape) : TreeOK (parse_modl_txt H ctx p).ctx.store.nodeShape := by
  obtain ⟨_, _, ⟨_, _, hn⟩ | ⟨top, _, hk, hn, _⟩⟩ := parse_modl_txt_effect H ctx p _ rfl
  · rw [hn]; exact h
  · rw [hn]
    refine h.add NodeKind.Model (some top) _ (by decide) (fun _ => ?_) (fun hk' => (by cases hk'))
    rw [kindOf_eq_shape] at hk
    cases hs : ctx.store.nodeShape[top]? with
    | none => rw [hs] at hk; simp at hk
    | some x =>
      obtain ⟨k, ph, t⟩ := x
      rw [hs] at hk
      simp only [Option.map_some', Option.some.injEq] at hk
      subst hk
      rw [(h.2 top _ ph t hs).1 rfl]

/-- The loops of the reader keep the tree under one File root. -/
theorem loops_tree (H : Host F) (fuel : Nat) :
    (∀ ctx p r, parse_cntb_txt H fuel ctx p = some r →
      TreeOK ctx.store.nodeShape → TreeOK r.ctx.store.nodeShape) ∧
    (∀ ctx p r, cntb_children H fuel ctx p = some r →
      TreeOK ctx.store.nodeShape → TreeOK r.ctx.store.nodeShape) ∧
    (∀ ctx p r, top_level H fuel ctx p = some r →
      TreeOK ctx.store.nodeShape → TreeOK r.ctx.store.nodeShape) := by
  refine loops_induct H
    (fun ctx r => TreeOK ctx.store.nodeShape → TreeOK r.ctx.store.nodeShape)
    (fun ctx p => cntb_open_tree H ctx p)
    (fun ctx id p hid h => ?_)
    (fun ctx p => parse_modl_txt_tree H ctx p)
    (fun ctx r r2 h1 _ h2 h => h2 (h1 h))
    (fun ctx q h => h)
    (fun ctx msg q h => h)
    (fun ctx q h => ?_)
    (fun ctx q h => h)
    (fun ctx e r h => h) fuel
  · rw [(parse_prim_txt_effect H ctx id p (type_of_id_prim id hid)).2.2.1]
    exact h
  · have : (pop_if_kind ctx NodeKind.Model).store = ctx.store := by
      unfold pop_if_kind
      split
      · split <;> rfl
      · rfl
    simp only [this]
    exact h

/-- After a successful `parseREV` on an empty Store the tree is under one File
root. -/
theorem parseREV_tree (H : Host F) (path : Option (List Char)) (buf : Buf) (r : Res F)
    (h : parseREV H {} path buf = some r) (hok : r.ok = true) :
    TreeOK r.ctx.store.nodeShape := by
  unfold parseREV parseREV_fuel at h
  try simp only at h
  split at h
  · simp only [Option.some.injEq] at h; subst h; cases hok
  · next id p0 h0 =>
    split at h
    · simp only [Option.some.injEq] at h; subst h; cases hok
    · split at h
      · next ho =>
        have base : TreeOK (parse_head_txt H { store := {}, path := path } p0).ctx.store.nodeShape := by
          obtain ⟨_, _, ⟨hf, _, _⟩ | ⟨_, hn, _⟩⟩ :=
            parse_head_txt_effect H { store := {}, path := path } p0 _ rfl
          · rw [ho] at hf; cases hf
          · rw [hn]
            refine ⟨⟨_, rfl⟩, ?_⟩
            intro i k ph t hi
            cases i with
            | zero =>
              simp only [Store.nodeShape, List.map_nil, List.nil_append,
                List.getElem?_cons_zero, Option.some.injEq, Prod.mk.injEq] at hi
              obtain ⟨rfl, rfl, rfl⟩ := hi
              exact ⟨fun _ => rfl, fun hk => (by cases hk), fun hk => (by cases hk)⟩
            | succ j =>
              simp [Store.nodeShape] at hi
        split at h
        · simp at h
        · next r1 hr1 =>
          have g1 := (loops_tree H _).2.2 _ _ _ hr1 base
          split at h
          · simp only [Option.some.injEq] at h; subst h
            rw [(finish_shape r1.ctx).1]
            exact g1
          · simp only [Option.some.injEq] at h; subst h
            exact g1
      · next ho =>
        simp only [Option.some.injEq] at h; subst h
        exact absurd hok ho

/-- A chunk header that `parseREV` comes to with an identifier that the loop
of that level does not know makes `parseREV` fail, with the message of that
loop. -/
theorem parseREV_unknown_chunk (H : Host F) (store : Store F)
    (path : Option (List Char)) (buf : Buf) (s : Pos F) (id : List Char) (p1 : Buf)
    (hv : Visits H store path buf s)
    (hh : read_chunk_header_txt H s.p = some (id, p1))
    (hroot : s.level = Level.root → id ∉ ["END:".toList, "MODL".toList, "CNTB".toList,
      "CNTE".toList, "PRIM".toList, "OBST".toList, "INSU".toList])
    (hgroup : s.level = Level.group → id ∉ ["CNTE".toList, "CNTB".toList, "PRIM".toList,
      "OBST".toList, "INSU".toList]) :
    parseREV H store path buf = some ⟨false, set_error s.ctx
      ((match s.level with
        | .root => "Unrecognized chunk '".toList
        | .group => "CNTB: unexpected chunk '".toList) ++ fmt_s id ++ "'".toList), p1⟩ := by
  obtain ⟨l, ctx, p⟩ := s
  simp only at hh hroot hgroup ⊢
  obtain ⟨c, cs, rfl⟩ := header_ne_nil H _ _ _ hh
  cases l with
  | root =>
    have hn := hroot rfl
    simp only [List.mem_cons, List.mem_singleton, not_or, List.not_mem_nil, or_false] at hn
    obtain ⟨h1, h2, h3, h4, h5, h6, h7⟩ := hn
    apply parseREV_fail_of_visits H store path buf _ hv 1 _ _ rfl
    simp only [run]
    rw [top_level.eq_3]
    simp only [hh]
    rw [if_neg h1, if_neg h2, if_neg h3, if_neg h4, if_neg (fun h => h.elim h5 (fun h => h.elim h6 h7))]
  | group =>
    have hn := hgroup rfl
    simp only [List.mem_cons, List.mem_singleton, not_or, List.not_mem_nil, or_false] at hn
    obtain ⟨h1, h2, h5, h6, h7⟩ := hn
    apply parseREV_fail_of_visits H store path buf _ hv 1 _ _ rfl
    simp only [run]
    rw [cntb_children.eq_3]
    simp only [hh]
    rw [if_neg h1, if_neg h2, if_neg (fun h => h.elim h5 (fun h => h.elim h6 h7))]

theorem errors_set_error (ctx : Context F) (msg : List Char) :
    (set_error ctx msg).store.errors = ctx.store.errors ++ [msg.take 1023] ∧
    (set_error ctx msg).store.errorString = some (msg.take 1023) ∧
    (set_error ctx msg).store.nodes = ctx.store.nodes ∧
    (set_error ctx msg).store.geometries = ctx.store.geometries := by
  simp [set_error, Store.setErrorString, Store.errorString]

theorem fmt_s_no_nul (id : List Char) (h : '\x00' ∉ id) : fmt_s id = id := by
  unfold fmt_s
  rw [List.takeWhile_eq_self_iff]
  intro c hc
  simp only [bne_iff_ne, ne_eq]
  intro e
  exact h (e ▸ hc)

theorem infix_of_take (pre id post : List Char) (n : Nat) (h : pre.length + id.length ≤ n) :
    id <:+: (pre ++ id ++ post).take n := by
  rw [List.take_append_eq_append_take, List.take_of_length_le (by simpa using h)]
  exact ⟨pre, _, rfl⟩

theorem takeWhile_line (a q : Buf) (h : '\n' ∉ a) :
    (a ++ '\n' :: q).takeWhile (fun c => c != '\n') = a ∧
    (a ++ '\n' :: q).dropWhile (fun c => c != '\n') = '\n' :: q := by
  induction a with
  | nil => simp
  | cons c cs ih =>
    have hc : c ≠ '\n' := fun e => h (e ▸ List.mem_cons_self _ _)
    have hcs : '\n' ∉ cs := fun e => h (List.mem_cons_of_mem _ e)
    simp [List.takeWhile_cons, List.dropWhile_cons, hc, ih hcs]

theorem takeWhile_last (a : Buf) (h : '\n' ∉ a) :
    a.takeWhile (fun c => c != '\n') = a ∧ a.dropWhile (fun c => c != '\n') = [] := by
  induction a with
  | nil => simp
  | cons c cs ih =>
    have hc : c ≠ '\n' := fun e => h (e ▸ List.mem_cons_self _ _)
    have hcs : '\n' ∉ cs := fun e => h (List.mem_cons_of_mem _ e)
    simp [List.takeWhile_cons, List.dropWhile_cons, hc, ih hcs]

theorem read_line_of_parts (p l d : Buf) (hp : p ≠ [])
    (hl : p.takeWhile (fun c => c != '\n') = l) (hd : p.dropWhile (fun c => c != '\n') = d) :
    read_line p = some (if l.getLast? = some '\r' then l.dropLast else l, d.drop 1) := by
  cases p with
  | nil => exact absurd rfl hp
  | cons c cs =>
    unfold read_line
    simp only [hl, hd]

/-- What `read_line` stores of a line of the format. -/
theorem read_line_of_lineAt (p a q : Buf) (h : LineAt p a q) : read_line p = some (a, q) := by
  cases h with
  | lf a q hn hr =>
    obtain ⟨h1, h2⟩ := takeWhile_line a q hn
    rw [read_line_of_parts _ _ _ (by simp) h1 h2, if_neg hr]
    rfl
  | crlf a q hn =>
    have hn' : '\n' ∉ a ++ ['\r'] := by
      simp only [List.mem_append, List.mem_singleton, not_or]
      exact ⟨hn, by decide⟩
    obtain ⟨h1, h2⟩ := takeWhile_line (a ++ ['\r']) q hn'
    simp only [List.append_assoc, List.singleton_append] at h1 h2
    rw [read_line_of_parts _ _ _ (by simp) h1 h2, if_pos (by simp)]
    simp
  | last _ ha hn hr =>
    obtain ⟨h1, h2⟩ := takeWhile_last p hn
    rw [read_line_of_parts _ _ _ ha h1 h2, if_neg hr]
    rfl
  | last_cr a hn =>
    have hn' : '\n' ∉ a ++ ['\r'] := by
      simp only [List.mem_append, List.mem_singleton, not_or]
      exact ⟨hn, by decide⟩
    obtain ⟨h1, h2⟩ := takeWhile_last (a ++ ['\r']) hn'
    rw [read_line_of_parts _ _ _ (by simp) h1 h2, if_pos (by simp)]
    simp

theorem not_mem_takeWhile_line (p : Buf) : '\n' ∉ p.takeWhile (fun c => c != '\n') := by
  intro h
  have := List.mem_takeWhile_imp h
  simp at this

theorem dropWhile_line_head (p : Buf) :
    p.dropWhile (fun c => c != '\n') = [] ∨
    ∃ q, p.dropWhile (fun c => c != '\n') = '\n' :: q := by
  cases hd : p.dropWhile (fun c => c != '\n') with
  | nil => exact Or.inl rfl
  | cons c q =>
    right
    have := List.head_dropWhile_not (fun c => c != '\n') p (by rw [hd]; simp)
    simp only [hd, List.head_cons, bne_iff_ne, ne_eq, Bool.not_eq_true, decide_eq_false_iff_not,
      not_not] at this
    exact ⟨q, by simpa using this⟩

/-- What `read_line` reads is a line of the format. -/
theorem lineAt_of_read_line (p a q : Buf) (h : read_line p = some (a, q)) : LineAt p a q := by
  have hp : p ≠ [] := by
    intro e; subst e; simp [read_line] at h
  rw [read_line_of_parts p _ _ hp rfl rfl] at h
  simp only [Option.some.injEq, Prod.mk.injEq] at h
  obtain ⟨ha, hq⟩ := h
  have hsplit := List.takeWhile_append_dropWhile (fun c => c != '\n') p
  have hn := not_mem_takeWhile_line p
  generalize p.takeWhile (fun c => c != '\n') = l at ha hsplit hn
  rcases dropWhile_line_head p with hd | ⟨q', hd⟩
  · rw [hd] at hq hsplit
    simp only [List.append_nil] at hsplit
    simp only [List.drop_nil] at hq
    subst hsplit hq
    by_cases hr : l.getLast? = some '\r'
    · rw [if_pos hr] at ha
      subst ha
      have hl : l = l.dropLast ++ ['\r'] := by
        have := List.dropLast_append_getLast? '\r' (by simpa using hr)
        exact this.symm
      have hn2 : '\n' ∉ l.dropLast := fun e => hn (List.mem_of_mem_dropLast e)
      have := LineAt.last_cr l.dropLast hn2
      rw [← hl] at this
      exact this
    · rw [if_neg hr] at ha
      subst ha
      exact LineAt.last l hp hn hr
  · rw [hd] at hq hsplit
    simp only [List.drop_succ_cons, List.drop_zero] at hq
    subst hsplit hq
    by_cases hr : l.getLast? = some '\r'
    · rw [if_pos hr] at ha
      subst ha
      have hl : l = l.dropLast ++ ['\r'] := by
        have := List.dropLast_append_getLast? '\r' (by simpa using hr)
        exact this.symm
      have hn2 : '\n' ∉ l.dropLast := fun e => hn (List.mem_of_mem_dropLast e)
      have := LineAt.crlf l.dropLast q' hn2
      rw [show l.dropLast ++ '\r' :: '\n' :: q' = (l.dropLast ++ ['\r']) ++ '\n' :: q' by simp,
        ← hl] at this
      exact this
    · rw [if_neg hr] at ha
      subst ha
      exact LineAt.lf l q' hn hr

/-- `parse_head_txt` on four lines: the File node it creates and what it
writes there. -/
theorem parse_head_txt_lines (H : Host F) (ctx : Context F) (p p1 p2 p3 p4 : Buf)
    (a1 a2 a3 a4 : List Char) (hs : ctx.stack = [])
    (h1 : read_line p = some (a1, p1)) (h2 : read_line p1 = some (a2, p2))
    (h3 : read_line p2 = some (a3, p3)) (h4 : read_line p3 = some (a4, p4)) :
    (parse_head_txt H ctx p).ok = true ∧
    (parse_head_txt H ctx p).ctx.store.nodes = ctx.store.nodes ++
      [{ kind := NodeKind.File, parent := none,
         file := ⟨a1, a2, a3, a4, [], ctx.path.getD []⟩,
         group := { transparency := H.defaultTransparency ctx.store.nodes.length } }] := by
  unfold parse_head_txt
  rw [hs]
  simp only [h1, h2, h3, h4]
  refine ⟨by trivial, ?_⟩
  simp only [Context.modifyFile, Store.modifyFile, push_back, Store.newNode,
    List.getElem?_concat_length, set_concat_length]

/-- A `parse_head_txt` that succeeds has read four lines. -/
theorem parse_head_txt_ok_lines (H : Host F) (ctx : Context F) (p : Buf)
    (h : (parse_head_txt H ctx p).ok = true) :
    ∃ a1 a2 a3 a4 p1 p2 p3 p4, read_line p = some (a1, p1) ∧ read_line p1 = some (a2, p2) ∧
      read_line p2 = some (a3, p3) ∧ read_line p3 = some (a4, p4) := by
  unfold parse_head_txt at h
  split at h
  · cases h
  · simp only at h
    split at h
    · cases h
    · next a1 p1 e1 =>
      split at h
      · cases h
      · next a2 p2 e2 =>
        split at h
        · cases h
        · next a3 p3 e3 =>
          split at h
          · cases h
          · next a4 p4 e4 => exact ⟨a1, a2, a3, a4, p1, p2, p3, p4, e1, e2, e3, e4⟩

/-- The nodes that `parse_head_txt` leaves are in the Store that `parseREV`
leaves, whether it succeeds or fails. -/
theorem parseREV_keeps_head (H : Host F) (store : Store F) (path : Option (List Char))
    (buf p0 : Buf) (hh : read_chunk_header_txt H buf = some ("HEAD".toList, p0))
    (ho : (parse_head_txt H { store := store, path := path } p0).ok = true) :
    ∃ r, parseREV H store path buf = some r ∧
      (parse_head_txt H { store := store, path := path } p0).ctx.store.nodes
        <+: r.ctx.store.nodes := by
  obtain ⟨r, hr⟩ := parseREV_returns H store path buf
  refine ⟨r, hr, ?_⟩
  unfold parseREV parseREV_fuel at hr
  simp only [hh] at hr
  rw [if_neg (by simp)] at hr
  simp only [ho, if_true] at hr
  split at hr
  · cases hr
  · next r2 h2 =>
    have hpre : (parse_head_txt H { store := store, path := path } p0).ctx.store.nodes
        <+: r2.ctx.store.nodes := by
      obtain ⟨c, hc, ⟨_, e⟩ | ⟨_, msg, e⟩⟩ := (loops_wrote H _).2.2 _ _ _ h2
      · rw [e]; exact hc.2.2.2.2.1
      · rw [e]; exact hc.2.2.2.2.1
    split at hr
    · simp only [Option.some.injEq] at hr
      subst hr
      simp only [finish_store, Store.updateCounts]
      exact hpre
    · simp only [Option.some.injEq] at hr
      subst hr
      exact hpre

theorem CursorSim.not_past {H : Host F} (S : CursorSim H) {p q : Buf} (h : ¬ S.P q)
    (hl : q.length ≤ p.length) : ¬ S.P p :=
  fun hp => h (S.P_mono p q hp hl)

theorem CursorSim.line_none {H : Host F} (S : CursorSim H) (p p' : Buf) (hR : S.R p p')
    (h : read_line p = none) : read_line p' = none := by
  have hp : p = [] := by
    cases p with
    | nil => rfl
    | cons c cs => simp [read_line] at h
  rw [(S.nil p p' hR).1 hp]
  rfl

theorem CursorSim.start_chain {H : Host F} (S : CursorSim H) {α : Type} (a : α) (p p' : Buf)
    (hR : S.R p p') : S.GoodChain (a, some p) → S.RelChain (a, some p) (a, some p') :=
  fun _ => ⟨rfl, fun h => (by cases h), fun q hq => ⟨p', rfl, (by cases hq; exact hR)⟩⟩

theorem CursorSim.f32_into_sim {H : Host F} (S : CursorSim H) {α : Type} (set : F → α → α)
    (x x' : α × Option Buf) (h : S.GoodChain x → S.RelChain x x') :
    S.GoodChain (f32_into H set x) → S.RelChain (f32_into H set x) (f32_into H set x') := by
  obtain ⟨a, o⟩ := x
  obtain ⟨a', o'⟩ := x'
  cases o with
  | none =>
    intro hg
    obtain ⟨e1, e2, _⟩ := h ⟨fun q hq => (by cases hq), fun _ => hg.2 rfl⟩
    simp only at e1
    have e2' := e2 rfl
    simp only at e2'
    subst e1 e2'
    exact ⟨rfl, fun _ => rfl, fun q hq => (by cases hq)⟩
  | some p =>
    intro hg
    simp only [f32_into] at hg ⊢
    cases hr : read_f32 H p with
    | none =>
      rw [hr] at hg
      have hs : S.strong := hg.2 rfl
      obtain ⟨e1, _, e3⟩ := h ⟨fun q _ => S.P_strong hs q, fun hn => (by cases hn)⟩
      obtain ⟨p', e4, hR⟩ := e3 p rfl
      simp only at e1 e4
      subst e1 e4
      simp only [f32_into, S.f32_none p p' hR hs hr]
      exact ⟨rfl, fun _ => rfl, fun q hq => (by cases hq)⟩
    | some vq =>
      obtain ⟨v, q⟩ := vq
      rw [hr] at hg
      have hq : ¬ S.P q := hg.1 q rfl
      have hp : ¬ S.P p := S.not_past hq (Nat.le_of_lt (read_f32_length H p v q hr))
      obtain ⟨e1, _, e3⟩ := h ⟨fun q0 h0 => (by cases h0; exact hp), fun hn => (by cases hn)⟩
      obtain ⟨p', e4, hR⟩ := e3 p rfl
      simp only at e1 e4
      subst e1 e4
      obtain ⟨q', e5, hR'⟩ := S.f32 p p' v q hR hr hq
      simp only [f32_into, e5]
      exact ⟨rfl, fun hn => (by cases hn), fun q0 h0 => ⟨q', rfl, (by cases h0; exact hR')⟩⟩

theorem CursorSim.eol_step_sim {H : Host F} (S : CursorSim H) {α : Type}
    (x x' : α × Option Buf) (h : S.GoodChain x → S.RelChain x x') :
    S.GoodChain (eol_step x) → S.RelChain (eol_step x) (eol_step x') := by
  obtain ⟨a, o⟩ := x
  obtain ⟨a', o'⟩ := x'
  cases o with
  | none =>
    intro hg
    obtain ⟨e1, e2, _⟩ := h ⟨fun q hq => (by cases hq), fun _ => hg.2 rfl⟩
    simp only at e1
    have e2' := e2 rfl
    simp only at e2'
    subst e1 e2'
    exact ⟨rfl, fun _ => rfl, fun q hq => (by cases hq)⟩
  | some p =>
    intro hg
    simp only [eol_step] at hg ⊢
    have hq : ¬ S.P (consume_eol p) := hg.1 _ rfl
    have hp : ¬ S.P p := S.not_past hq (consume_eol_length p)
    obtain ⟨e1, _, e3⟩ := h ⟨fun q0 h0 => (by cases h0; exact hp), fun hn => (by cases hn)⟩
    obtain ⟨p', e4, hR⟩ := e3 p rfl
    simp only at e1 e4
    subst e1 e4
    simp only [eol_step]
    exact ⟨rfl, fun hn => (by cases hn),
      fun q0 h0 => ⟨_, rfl, (by cases h0; exact S.eol p p' hR hq)⟩⟩

theorem CursorSim.chain_end_sim {H : Host F} (S : CursorSim H) {α : Type} (msg : String)
    (x x' : α × Option Buf) (h : S.GoodChain x → S.RelChain x x') :
    S.GoodStep (chain_end msg x) → S.RelStep (chain_end msg x) (chain_end msg x') := by
  obtain ⟨a, o⟩ := x
  obtain ⟨a', o'⟩ := x'
  cases o with
  | none =>
    intro hg
    simp only [chain_end, CursorSim.GoodStep] at hg
    obtain ⟨e1, e2, _⟩ := h ⟨fun q hq => (by cases hq), fun _ => hg⟩
    simp only at e1
    have e2' := e2 rfl
    simp only at e2'
    subst e1 e2'
    exact ⟨rfl, rfl⟩
  | some p =>
    intro hg
    simp only [chain_end, CursorSim.GoodStep] at hg
    have hp : ¬ S.P p := S.not_past hg (consume_eol_length p)
    obtain ⟨e1, _, e3⟩ := h ⟨fun q0 h0 => (by cases h0; exact hp), fun hn => (by cases hn)⟩
    obtain ⟨p', e4, hR⟩ := e3 p rfl
    simp only at e1 e4
    subst e1 e4
    exact ⟨rfl, S.eol p p' hR hg⟩

theorem CursorSim.andThen_sim {H : Host F} (S : CursorSim H) {α : Type} (s s' : Step α)
    (f : α → Buf → Step α)
    (hf : ∀ a p p', S.R p p' → S.GoodStep (f a p) → S.RelStep (f a p) (f a p'))
    (hl : ∀ a p a' q, f a p = .ok a' q → q.length ≤ p.length)
    (h : S.GoodStep s → S.RelStep s s') :
    S.GoodStep (s.andThen f) → S.RelStep (s.andThen f) (s'.andThen f) := by
  intro hg
  cases s with
  | err a m =>
    simp only [Step.andThen, CursorSim.GoodStep] at hg
    have := h hg
    cases s' with
    | ok a' p' => exact this.elim
    | err a' m' => exact this
  | ok a p =>
    simp only [Step.andThen] at hg ⊢
    have hp : ¬ S.P p := by
      cases hfa : f a p with
      | ok a2 q =>
        rw [hfa] at hg
        exact S.not_past hg (hl a p a2 q hfa)
      | err a2 m =>
        rw [hfa] at hg
        exact S.P_strong hg p
    have := h hp
    cases s' with
    | err a' m' => exact this.elim
    | ok a' p' =>
      obtain ⟨rfl, hR⟩ := this
      exact hf a' p p' hR hg

theorem CursorSim.read_chunk_header_txt_sim {H : Host F} (S : CursorSim H) (p p' : Buf)
    (hR : S.R p p') :
    S.GoodRead (read_chunk_header_txt H p) →
      S.RelRead (read_chunk_header_txt H p) (read_chunk_header_txt H p') := by
  intro hg
  by_cases hs : S.strong
  · have np : ∀ q, ¬ S.P q := S.P_strong hs
    unfold read_chunk_header_txt
    cases e1 : read_line p with
    | none =>
      simp only [S.line_none p p' hR e1]
      exact ⟨fun _ => rfl, fun a q h => (by cases h)⟩
    | some x1 =>
      obtain ⟨l, p1⟩ := x1
      obtain ⟨p1', e1', R1⟩ := S.line p p' l p1 hR e1 (np _)
      simp only [e1']
      cases e2 : read_u32 H p1 with
      | none =>
        simp only [S.u32_none p1 p1' R1 hs e2]
        exact ⟨fun _ => rfl, fun a q h => (by cases h)⟩
      | some x2 =>
        obtain ⟨v2, p2⟩ := x2
        obtain ⟨p2', e2', R2⟩ := S.u32 p1 p1' v2 p2 R1 e2 (np _)
        simp only [e2']
        cases e3 : read_u32 H p2 with
        | none =>
          simp only [S.u32_none p2 p2' R2 hs e3]
          exact ⟨fun _ => rfl, fun a q h => (by cases h)⟩
        | some x3 =>
          obtain ⟨v3, p3⟩ := x3
          obtain ⟨p3', e3', R3⟩ := S.u32 p2 p2' v3 p3 R2 e3 (np _)
          simp only [e3']
          refine ⟨fun h => (by cases h), fun a q h => ?_⟩
          simp only [Option.some.injEq, Prod.mk.injEq] at h
          obtain ⟨rfl, rfl⟩ := h
          exact ⟨_, rfl, S.eol p3 p3' R3 (np _)⟩
  · cases hf : read_chunk_header_txt H p with
    | none => exact absurd (hg.2 hf) hs
    | some x =>
      obtain ⟨id, q⟩ := x
      have hq : ¬ S.P q := hg.1 id q hf
      refine ⟨fun h => (by cases h), fun a q0 h => ?_⟩
      simp only [Option.some.injEq, Prod.mk.injEq] at h
      obtain ⟨rfl, rfl⟩ := h
      unfold read_chunk_header_txt at hf ⊢
      split at hf
      · cases hf
      · next l p1 e1 =>
        split at hf
        · cases hf
        · next v2 p2 e2 =>
          split at hf
          · cases hf
          · next v3 p3 e3 =>
            simp only [Option.some.injEq, Prod.mk.injEq] at hf
            obtain ⟨rfl, rfl⟩ := hf
            have l3 := consume_eol_length p3
            have l2 := read_u32_length _ _ _ _ e3
            have l1 := read_u32_length _ _ _ _ e2
            obtain ⟨p1', e1', R1⟩ := S.line p p' l p1 hR e1 (S.not_past hq (by omega))
            obtain ⟨p2', e2', R2⟩ := S.u32 p1 p1' v2 p2 R1 e2 (S.not_past hq (by omega))
            obtain ⟨p3', e3', R3⟩ := S.u32 p2 p2' v3 p3 R2 e3 (S.not_past hq (by omega))
            simp only [e1', e2', e3']
            exact ⟨_, rfl, S.eol p3 p3' R3 hq⟩

theorem CursorSim.chain3_at {H : Host F} (S : CursorSim H) {α : Type} (s1 s2 s3 : F → α → α)
    (a : α) (p p' : Buf) (hR : S.R p p') (x : α × Option Buf)
    (h1 : f32_into H s3 (f32_into H s2 (f32_into H s1 (a, some p))) = x) :
    S.GoodChain x →
      S.RelChain x (f32_into H s3 (f32_into H s2 (f32_into H s1 (a, some p')))) := by
  subst h1
  exact S.f32_into_sim _ _ _ (S.f32_into_sim _ _ _ (S.f32_into_sim _ _ _
    (S.start_chain a p p' hR)))

theorem CursorSim.relChain_some {H : Host F} (S : CursorSim H) {α : Type} {a : α} {q : Buf}
    {x' : α × Option Buf} (h : S.RelChain (a, some q) x') :
    ∃ q', x' = (a, some q') ∧ S.R q q' := by
  obtain ⟨a', o'⟩ := x'
  obtain ⟨e1, _, e3⟩ := h
  obtain ⟨q', e4, hR⟩ := e3 q rfl
  simp only at e1 e4
  subst e1 e4
  exact ⟨q', rfl, hR⟩

theorem CursorSim.relChain_none {H : Host F} (S : CursorSim H) {α : Type} {a : α}
    {x' : α × Option Buf} (h : S.RelChain (a, none) x') : x' = (a, none) := by
  obtain ⟨a', o'⟩ := x'
  obtain ⟨e1, e2, _⟩ := h
  have e2' := e2 rfl
  simp only at e1 e2'
  subst e1 e2'
  rfl

theorem CursorSim.goodChain_some {H : Host F} (S : CursorSim H) {α : Type} (a : α) {q : Buf}
    (h : ¬ S.P q) : S.GoodChain (a, some q) :=
  ⟨fun q0 h0 => (by cases h0; exact h), fun hn => (by cases hn)⟩

theorem CursorSim.goodChain_none {H : Host F} (S : CursorSim H) {α : Type} (a : α)
    (h : S.strong) : S.GoodChain ((a, none) : α × Option Buf) :=
  ⟨fun q0 h0 => (by cases h0), fun _ => h⟩

theorem CursorSim.read_row_sim {H : Host F} (S : CursorSim H) (p p' : Buf) (hR : S.R p p') :
    S.GoodRead (read_row H p) → S.RelRead (read_row H p) (read_row H p') := by
  intro hg
  by_cases hs : S.strong
  · have np : ∀ q, ¬ S.P q := S.P_strong hs
    unfold read_row
    cases e1 : read_f32 H p with
    | none =>
      simp only [S.f32_none p p' hR hs e1]
      exact ⟨fun _ => rfl, fun a q h => (by cases h)⟩
    | some x1 =>
      obtain ⟨v1, p1⟩ := x1
      obtain ⟨p1', e1', R1⟩ := S.f32 p p' v1 p1 hR e1 (np _)
      simp only [e1']
      cases e2 : read_f32 H p1 with
      | none =>
        simp only [S.f32_none p1 p1' R1 hs e2]
        exact ⟨fun _ => rfl, fun a q h => (by cases h)⟩
      | some x2 =>
        obtain ⟨v2, p2⟩ := x2
        obtain ⟨p2', e2', R2⟩ := S.f32 p1 p1' v2 p2 R1 e2 (np _)
        simp only [e2']
        cases e3 : read_f32 H p2 with
        | none =>
          simp only [S.f32_none p2 p2' R2 hs e3]
          exact ⟨fun _ => rfl, fun a q h => (by cases h)⟩
        | some x3 =>
          obtain ⟨v3, p3⟩ := x3
          obtain ⟨p3', e3', R3⟩ := S.f32 p2 p2' v3 p3 R2 e3 (np _)
          simp only [e3']
          cases e4 : read_f32 H p3 with
          | none =>
            simp only [S.f32_none p3 p3' R3 hs e4]
            exact ⟨fun _ => rfl, fun a q h => (by cases h)⟩
          | some x4 =>
            obtain ⟨v4, p4⟩ := x4
            obtain ⟨p4', e4', R4⟩ := S.f32 p3 p3' v4 p4 R3 e4 (np _)
            simp only [e4']
            refine ⟨fun h => (by cases h), fun a q h => ?_⟩
            simp only [Option.some.injEq, Prod.mk.injEq] at h
            obtain ⟨rfl, rfl⟩ := h
            exact ⟨_, rfl, S.eol p4 p4' R4 (np _)⟩
  · cases hf : read_row H p with
    | none => exact absurd (hg.2 hf) hs
    | some x =>
      obtain ⟨row, q⟩ := x
      have hq : ¬ S.P q := hg.1 row q hf
      refine ⟨fun h => (by cases h), fun a q0 h => ?_⟩
      simp only [Option.some.injEq, Prod.mk.injEq] at h
      obtain ⟨rfl, rfl⟩ := h
      unfold read_row at hf ⊢
      split at hf
      · cases hf
      · next v1 p1 e1 =>
        split at hf
        · cases hf
        · next v2 p2 e2 =>
          split at hf
          · cases hf
          · next v3 p3 e3 =>
            split at hf
            · cases hf
            · next v4 p4 e4 =>
              simp only [Option.some.injEq, Prod.mk.injEq] at hf
              obtain ⟨rfl, rfl⟩ := hf
              have l5 := consume_eol_length p4
              have l4 := read_f32_length _ _ _ _ e4
              have l3 := read_f32_length _ _ _ _ e3
              have l2 := read_f32_length _ _ _ _ e2
              obtain ⟨p1', e1', R1⟩ := S.f32 p p' v1 p1 hR e1 (S.not_past hq (by omega))
              obtain ⟨p2', e2', R2⟩ := S.f32 p1 p1' v2 p2 R1 e2 (S.not_past hq (by omega))
              obtain ⟨p3', e3', R3⟩ := S.f32 p2 p2' v3 p3 R2 e3 (S.not_past hq (by omega))
              obtain ⟨p4', e4', R4⟩ := S.f32 p3 p3' v4 p4 R3 e4 (S.not_past hq (by omega))
              simp only [e1', e2', e3', e4']
              exact ⟨_, rfl, S.eol p4 p4' R4 hq⟩

theorem CursorSim.goodRead_some {H : Host F} (S : CursorSim H) {α : Type} (a : α) {q : Buf}
    (h : ¬ S.P q) : S.GoodRead (some (a, q)) :=
  ⟨fun a0 q0 h0 => (by cases h0; exact h), fun hn => (by cases hn)⟩

theorem CursorSim.goodRead_none {H : Host F} (S : CursorSim H) {α : Type}
    (h : S.strong) : S.GoodRead (none : Option (α × Buf)) :=
  ⟨fun a0 q0 h0 => (by cases h0), fun _ => h⟩

/-- A successful `read_row` of the first run that stays in the part where the
runs correspond, in the second run. -/
theorem CursorSim.read_row_some {H : Host F} (S : CursorSim H) (p p' : Buf) (hR : S.R p p')
    (r : Row F) (q : Buf) (h : read_row H p = some (r, q)) (hq : ¬ S.P q) :
    ∃ q', read_row H p' = some (r, q') ∧ S.R q q' := by
  have := S.read_row_sim p p' hR
  rw [h] at this
  exact (this (S.goodRead_some r hq)).2 r q rfl

theorem CursorSim.read_row_none {H : Host F} (S : CursorSim H) (p p' : Buf) (hR : S.R p p')
    (hs : S.strong) (h : read_row H p = none) : read_row H p' = none := by
  have := S.read_row_sim p p' hR
  rw [h] at this
  exact (this (S.goodRead_none hs)).1 rfl

theorem CursorSim.read_matrix_sim {H : Host F} (S : CursorSim H) (p p' : Buf)
    (hR : S.R p p') :
    S.GoodExc (read_matrix H p) → S.RelExc (read_matrix H p) (read_matrix H p') := by
  intro hg
  by_cases hs : S.strong
  · have np : ∀ q, ¬ S.P q := S.P_strong hs
    unfold read_matrix
    cases e1 : read_row H p with
    | none =>
      simp only [S.read_row_none p p' hR hs e1]
      exact ⟨fun i h => (by cases h; rfl), fun a q h => (by cases h)⟩
    | some x1 =>
      obtain ⟨v1, p1⟩ := x1
      obtain ⟨p1', e1', R1⟩ := S.read_row_some p p' hR v1 p1 e1 (np _)
      simp only [e1']
      cases e2 : read_row H p1 with
      | none =>
        simp only [S.read_row_none p1 p1' R1 hs e2]
        exact ⟨fun i h => (by cases h; rfl), fun a q h => (by cases h)⟩
      | some x2 =>
        obtain ⟨v2, p2⟩ := x2
        obtain ⟨p2', e2', R2⟩ := S.read_row_some p1 p1' R1 v2 p2 e2 (np _)
        simp only [e2']
        cases e3 : read_row H p2 with
        | none =>
          simp only [S.read_row_none p2 p2' R2 hs e3]
          exact ⟨fun i h => (by cases h; rfl), fun a q h => (by cases h)⟩
        | some x3 =>
          obtain ⟨v3, p3⟩ := x3
          obtain ⟨p3', e3', R3⟩ := S.read_row_some p2 p2' R2 v3 p3 e3 (np _)
          simp only [e3']
          refine ⟨fun i h => (by cases h), fun a q h => ?_⟩
          simp only [Except.ok.injEq, Prod.mk.injEq] at h
          obtain ⟨rfl, rfl⟩ := h
          exact ⟨_, rfl, R3⟩
  · cases hf : read_matrix H p with
    | error i => exact absurd (hg.2 i hf) hs
    | ok x =>
      obtain ⟨rows, q⟩ := x
      have hq : ¬ S.P q := hg.1 rows q hf
      refine ⟨fun i h => (by cases h), fun a q0 h => ?_⟩
      simp only [Except.ok.injEq, Prod.mk.injEq] at h
      obtain ⟨rfl, rfl⟩ := h
      unfold read_matrix at hf ⊢
      split at hf
      · cases hf
      · next v1 p1 e1 =>
        split at hf
        · cases hf
        · next v2 p2 e2 =>
          split at hf
          · cases hf
          · next v3 p3 e3 =>
            simp only [Except.ok.injEq, Prod.mk.injEq] at hf
            obtain ⟨rfl, rfl⟩ := hf
            have l3 := read_row_length _ _ _ _ e3
            have l2 := read_row_length _ _ _ _ e2
            obtain ⟨p1', e1', R1⟩ :=
              S.read_row_some p p' hR v1 p1 e1 (S.not_past hq (by omega))
            obtain ⟨p2', e2', R2⟩ :=
              S.read_row_some p1 p1' R1 v2 p2 e2 (S.not_past hq (by omega))
            obtain ⟨p3', e3', R3⟩ := S.read_row_some p2 p2' R2 v3 p3 e3 hq
            simp only [e1', e2', e3']
            exact ⟨_, rfl, R3⟩

theorem CursorSim.read_bbox_sim {H : Host F} (S : CursorSim H) (g : Geometry F) (p p' : Buf)
    (hR : S.R p p') :
    S.GoodChain (read_bbox H g p) → S.RelChain (read_bbox H g p) (read_bbox H g p') := by
  unfold read_bbox
  simp only
  repeat (first | apply S.eol_step_sim | apply S.f32_into_sim)
  exact S.start_chain _ _ _ hR

theorem CursorSim.read_vertices_sim {H : Host F} (S : CursorSim H) (todo : Nat) :
    ∀ (vi : Nat) (c : Contour F) (p p' : Buf), S.R p p' →
      S.GoodStep (read_vertices H todo vi c p) →
      S.RelStep (read_vertices H todo vi c p) (read_vertices H todo vi c p') := by
  induction todo with
  | zero =>
    intro vi c p p' hR _
    exact ⟨rfl, hR⟩
  | succ n ih =>
    intro vi c p p' hR hg
    generalize hr : read_vertices H (n + 1) vi c p = r at hg ⊢
    unfold read_vertices at hr ⊢
    simp only at hr ⊢
    split at hr
    · next c1 h1 =>
      subst hr
      have e1 := S.relChain_none (S.chain3_at _ _ _ _ _ p' hR _ h1 (S.goodChain_none c1 hg))
      simp only [e1]
      exact ⟨rfl, rfl⟩
    · next c1 p1 h1 =>
      split at hr
      · next c2 h2 =>
        subst hr
        have np : ∀ q, ¬ S.P q := S.P_strong hg
        obtain ⟨p1', e1, R1⟩ :=
          S.relChain_some (S.chain3_at _ _ _ _ _ p' hR _ h1 (S.goodChain_some c1 (np _)))
        have e2 := S.relChain_none (S.chain3_at _ _ _ _ _ _ (S.eol p1 p1' R1 (np _)) _ h2
          (S.goodChain_none c2 hg))
        simp only [e1, e2]
        exact ⟨rfl, rfl⟩
      · next c2 p2 h2 =>
        have b1 : p1.length ≤ p.length := by
          refine bounded_elim h1 ?_
          repeat (first | apply eol_step_bounded | apply f32_into_bounded)
          exact start_bounded _ _ _ (Nat.le_refl _)
        have b2 : p2.length ≤ (consume_eol p1).length := by
          refine bounded_elim h2 ?_
          repeat (first | apply eol_step_bounded | apply f32_into_bounded)
          exact start_bounded _ _ _ (Nat.le_refl _)
        have b3 := consume_eol_length p1
        have b4 := consume_eol_length p2
        have np : ∀ q, (consume_eol p2).length ≤ q.length → ¬ S.P q := by
          intro q hl
          cases r with
          | ok c3 q3 =>
            have := read_vertices_length H n _ _ _ _ _ hr
            exact S.not_past hg (by omega)
          | err c3 m => exact S.P_strong hg q
        obtain ⟨p1', e1, R1⟩ := S.relChain_some
          (S.chain3_at _ _ _ _ _ p' hR _ h1 (S.goodChain_some c1 (np _ (by omega))))
        obtain ⟨p2', e2, R2⟩ := S.relChain_some
          (S.chain3_at _ _ _ _ _ _ (S.eol p1 p1' R1 (np _ (by omega))) _ h2
            (S.goodChain_some c2 (np _ (by omega))))
        simp only [e1, e2]
        rw [← hr] at hg ⊢
        exact ih _ _ _ _ (S.eol p2 p2' R2 (np _ (Nat.le_refl _))) hg

theorem CursorSim.read_vertices_at {H : Host F} (S : CursorSim H) (todo vi : Nat)
    (c : Contour F) (p p' : Buf) (hR : S.R p p') (r : Step (Contour F))
    (h : read_vertices H todo vi c p = r) :
    S.GoodStep r → S.RelStep r (read_vertices H todo vi c p') := by
  subst h
  exact S.read_vertices_sim todo vi c p p' hR

theorem CursorSim.relStep_ok {H : Host F} (S : CursorSim H) {α : Type} {a : α} {q : Buf}
    {s' : Step α} (h : S.RelStep (.ok a q) s') : ∃ q', s' = .ok a q' ∧ S.R q q' := by
  cases s' with
  | ok a' q' =>
    obtain ⟨rfl, hR⟩ := h
    exact ⟨q', rfl, hR⟩
  | err a' m => exact h.elim

theorem CursorSim.relStep_err {H : Host F} (S : CursorSim H) {α : Type} {a : α}
    {m : List Char} {s' : Step α} (h : S.RelStep (.err a m) s') : s' = .err a m := by
  cases s' with
  | ok a' q' => exact h.elim
  | err a' m' =>
    obtain ⟨rfl, rfl⟩ := h
    rfl

theorem CursorSim.read_contours_sim {H : Host F} (S : CursorSim H) (todo : Nat) :
    ∀ (poly : Polygon F) (p p' : Buf), S.R p p' →
      S.GoodStep (read_contours H todo poly p) →
      S.RelStep (read_contours H todo poly p) (read_contours H todo poly p') := by
  induction todo with
  | zero =>
    intro poly p p' hR _
    exact ⟨rfl, hR⟩
  | succ n ih =>
    intro poly p p' hR hg
    generalize hr : read_contours H (n + 1) poly p = r at hg ⊢
    unfold read_contours at hr ⊢
    split at hr
    · next h1 =>
      subst hr
      simp only [S.u32_none p p' hR hg h1]
      exact ⟨rfl, rfl⟩
    · next m p1 h1 =>
      simp only at hr
      split at hr
      · next cont msg h2 =>
        subst hr
        have np : ∀ q, ¬ S.P q := S.P_strong hg
        obtain ⟨p1', e1, R1⟩ := S.u32 p p' m p1 hR h1 (np _)
        have g2 := S.read_vertices_at _ _ _ _ _ (S.eol p1 p1' R1 (np _)) _ h2
        have e2 := S.relStep_err (g2 hg)
        simp only [e1, e2]
        exact ⟨rfl, rfl⟩
      · next cont p2 h2 =>
        have b1 := read_u32_length _ _ _ _ h1
        have b2 := consume_eol_length p1
        have b3 := read_vertices_length _ _ _ _ _ _ _ h2
        have np : ∀ q, p2.length ≤ q.length → ¬ S.P q := by
          intro q hl
          cases r with
          | ok c3 q3 =>
            have := read_contours_length H n _ _ _ _ hr
            exact S.not_past hg (by omega)
          | err c3 m => exact S.P_strong hg q
        obtain ⟨p1', e1, R1⟩ := S.u32 p p' m p1 hR h1 (np _ (by omega))
        have g2 := S.read_vertices_at _ _ _ _ _ (S.eol p1 p1' R1 (np _ (by omega))) _ h2
        obtain ⟨p2', e2, R2⟩ := S.relStep_ok (g2 (np _ (Nat.le_refl _)))
        simp only [e1, e2]
        rw [← hr] at hg ⊢
        exact ih _ _ _ R2 hg

theorem CursorSim.read_contours_at {H : Host F} (S : CursorSim H) (todo : Nat)
    (poly : Polygon F) (p p' : Buf) (hR : S.R p p') (r : Step (Polygon F))
    (h : read_contours H todo poly p = r) :
    S.GoodStep r → S.RelStep r (read_contours H todo poly p') := by
  subst h
  exact S.read_contours_sim todo poly p p' hR

theorem CursorSim.read_polygons_sim {H : Host F} (S : CursorSim H) (todo : Nat) :
    ∀ (fg : FacetGroup F) (p p' : Buf), S.R p p' →
      S.GoodStep (read_polygons H todo fg p) →
      S.RelStep (read_polygons H todo fg p) (read_polygons H todo fg p') := by
  induction todo with
  | zero =>
    intro fg p p' hR _
    exact ⟨rfl, hR⟩
  | succ n ih =>
    intro fg p p' hR hg
    generalize hr : read_polygons H (n + 1) fg p = r at hg ⊢
    unfold read_polygons at hr ⊢
    split at hr
    · next h1 =>
      subst hr
      simp only [S.u32_none p p' hR hg h1]
      exact ⟨rfl, rfl⟩
    · next m p1 h1 =>
      split at hr
      · next poly msg h2 =>
        subst hr
        have np : ∀ q, ¬ S.P q := S.P_strong hg
        obtain ⟨p1', e1, R1⟩ := S.u32 p p' m p1 hR h1 (np _)
        have g2 := S.read_contours_at _ _ _ _ (S.eol p1 p1' R1 (np _)) _ h2
        have e2 := S.relStep_err (g2 hg)
        simp only [e1, e2]
        exact ⟨rfl, rfl⟩
      · next poly p2 h2 =>
        have b1 := read_u32_length _ _ _ _ h1
        have b2 := consume_eol_length p1
        have b3 := read_contours_length _ _ _ _ _ _ h2
        have np : ∀ q, p2.length ≤ q.length → ¬ S.P q := by
          intro q hl
          cases r with
          | ok c3 q3 =>
            have := read_polygons_length H n _ _ _ _ hr
            exact S.not_past hg (by omega)
          | err c3 m => exact S.P_strong hg q
        obtain ⟨p1', e1, R1⟩ := S.u32 p p' m p1 hR h1 (np _ (by omega))
        have g2 := S.read_contours_at _ _ _ _ (S.eol p1 p1' R1 (np _ (by omega))) _ h2
        obtain ⟨p2', e2, R2⟩ := S.relStep_ok (g2 (np _ (Nat.le_refl _)))
        simp only [e1, e2]
        rw [← hr] at hg ⊢
        exact ih _ _ _ R2 hg

theorem CursorSim.read_polygons_at {H : Host F} (S : CursorSim H) (todo : Nat)
    (fg : FacetGroup F) (p p' : Buf) (hR : S.R p p') (r : Step (FacetGroup F))
    (h : read_polygons H todo fg p = r) :
    S.GoodStep r → S.RelStep r (read_polygons H todo fg p') := by
  subst h
  exact S.read_polygons_sim todo fg p p' hR

theorem CursorSim.switch_kind_sim {H : Host F} (S : CursorSim H) (kind : Nat)
    (g : Geometry F) (p p' : Buf) (hR : S.R p p') :
    S.GoodStep (switch_kind H kind g p) →
      S.RelStep (switch_kind H kind g p) (switch_kind H kind g p') := by
  unfold switch_kind
  split
  all_goals try simp only
  all_goals try (
    first
    | (apply S.chain_end_sim
       repeat (first | apply S.eol_step_sim | apply S.f32_into_sim)
       exact S.start_chain _ _ _ hR)
    | (apply S.andThen_sim
       · intro a q q' hR2
         apply S.chain_end_sim
         repeat (first | apply S.eol_step_sim | apply S.f32_into_sim)
         exact S.start_chain _ _ _ hR2
       · intro a q
         apply chain_end_le
         repeat (first | apply eol_step_bounded | apply f32_into_bounded)
         exact start_bounded _ _ _ (Nat.le_refl _)
       · apply S.chain_end_sim
         repeat (first | apply S.eol_step_sim | apply S.f32_into_sim)
         exact S.start_chain _ _ _ hR))
  · intro hg
    exact ⟨rfl, rfl⟩
  · cases e1 : read_u32 H p with
    | none =>
      intro hg
      simp only [S.u32_none p p' hR hg e1]
      exact ⟨rfl, rfl⟩
    | some x =>
      obtain ⟨n, p1⟩ := x
      simp only
      cases e2 : read_polygons H n { g.facetGroup with polygons_n := some n, polygons := [] }
          (consume_eol p1) with
      | err fg msg =>
        intro hg
        have np : ∀ q, ¬ S.P q := S.P_strong hg
        obtain ⟨p1', e1', R1⟩ := S.u32 p p' n p1 hR e1 (np _)
        have e2' := S.relStep_err
          (S.read_polygons_at _ _ _ _ (S.eol p1 p1' R1 (np _)) _ e2 hg)
        simp only [e1', e2']
        exact ⟨rfl, rfl⟩
      | ok fg p2 =>
        intro hg
        have hq : ¬ S.P p2 := hg
        have b1 := consume_eol_length p1
        have b2 := read_polygons_length _ _ _ _ _ _ e2
        obtain ⟨p1', e1', R1⟩ := S.u32 p p' n p1 hR e1 (S.not_past hq (by omega))
        obtain ⟨p2', e2', R2⟩ := S.relStep_ok
          (S.read_polygons_at _ _ _ _ (S.eol p1 p1' R1 (S.not_past hq (by omega))) _ e2 hq)
        simp only [e1', e2']
        exact ⟨rfl, R2⟩
  · intro hg
    exact ⟨rfl, rfl⟩

theorem CursorSim.cx_elim {H : Host F} (S : CursorSim H) {c c' : Context F} (h : S.Cx c c') :
    ∃ l', c' = { c with logger := l' } ∧ S.L c.logger l' := by
  obtain ⟨s, l, pa, st⟩ := c
  obtain ⟨s', l', pa', st'⟩ := c'
  obtain ⟨h1, h2, h3, h4⟩ := h
  simp only at h1 h2 h3 h4
  subst h1 h2 h3
  exact ⟨l', rfl, h4⟩

theorem CursorSim.cx_intro {H : Host F} (S : CursorSim H) (c : Context F)
    (l' : List (Nat × List Char)) (h : S.L c.logger l') : S.Cx c { c with logger := l' } :=
  ⟨rfl, rfl, rfl, h⟩

theorem CursorSim.read_matrix_at {H : Host F} (S : CursorSim H) (p p' : Buf)
    (hR : S.R p p') (e : Except Nat ((Row F × Row F × Row F) × Buf))
    (h : read_matrix H p = e) : S.GoodExc e → S.RelExc e (read_matrix H p') := by
  subst h
  exact S.read_matrix_sim p p' hR

theorem CursorSim.read_bbox_at {H : Host F} (S : CursorSim H) (g : Geometry F) (p p' : Buf)
    (hR : S.R p p') (x : Geometry F × Option Buf) (h : read_bbox H g p = x) :
    S.GoodChain x → S.RelChain x (read_bbox H g p') := by
  subst h
  exact S.read_bbox_sim g p p' hR

theorem CursorSim.switch_kind_at {H : Host F} (S : CursorSim H) (kind : Nat) (g : Geometry F)
    (p p' : Buf) (hR : S.R p p') (s : Step (Geometry F)) (h : switch_kind H kind g p = s) :
    S.GoodStep s → S.RelStep s (switch_kind H kind g p') := by
  subst h
  exact S.switch_kind_sim kind g p p' hR

theorem CursorSim.relExc_ok {H : Host F} (S : CursorSim H) {α : Type} {a : α} {q : Buf}
    {e' : Except Nat (α × Buf)} (h : S.RelExc (.ok (a, q)) e') :
    ∃ q', e' = .ok (a, q') ∧ S.R q q' := h.2 a q rfl

theorem CursorSim.relExc_error {H : Host F} (S : CursorSim H) {α : Type} {i : Nat}
    {e' : Except Nat (α × Buf)} (h : S.RelExc (.error i) e') : e' = .error i := h.1 i rfl

theorem CursorSim.goodExc_ok {H : Host F} (S : CursorSim H) {α : Type} (a : α) {q : Buf}
    (h : ¬ S.P q) : S.GoodExc (.ok (a, q) : Except Nat (α × Buf)) :=
  ⟨fun a0 q0 h0 => (by cases h0; exact h), fun i hn => (by cases hn)⟩

theorem CursorSim.goodExc_error {H : Host F} (S : CursorSim H) {α : Type} (i : Nat)
    (h : S.strong) : S.GoodExc (.error i : Except Nat (α × Buf)) :=
  ⟨fun a0 q0 h0 => (by cases h0), fun _ _ => h⟩

theorem CursorSim.parse_prim_txt_sim {H : Host F} (S : CursorSim H) (ctx ctx' : Context F)
    (id : List Char) (p p' : Buf) (hc : S.Cx ctx ctx') (hR : S.R p p') :
    S.GoodRes (parse_prim_txt H ctx id p) →
      S.RelRes (parse_prim_txt H ctx id p) (parse_prim_txt H ctx' id p') := by
  obtain ⟨l', rfl, hl⟩ := S.cx_elim hc
  intro hg
  generalize hr : parse_prim_txt H ctx id p = r at hg ⊢
  unfold parse_prim_txt at hr ⊢
  simp only at hr ⊢
  split at hr
  · next hs =>
    subst hr
    try simp only [hs]
    exact ⟨rfl, ⟨rfl, hs.symm, rfl, hl⟩, fun h => (by cases h)⟩
  · next top rest hs =>
    try simp only [hs]
    split at hr
    · next hk =>
      subst hr
      rw [if_pos hk]
      exact ⟨rfl, ⟨rfl, hs.symm, rfl, hl⟩, fun h => (by cases h)⟩
    · next hk =>
      rw [if_neg hk]
      split at hr
      · next h1 =>
        subst hr
        simp only [S.u32_none p p' hR (hg.2 rfl) h1]
        exact ⟨rfl, ⟨rfl, hs.symm, rfl, hl⟩, fun h => (by cases h)⟩
      · next kind p1 h1 =>
        try simp only at hr
        split at hr
        · next ht =>
          subst hr
          have np : ∀ q, ¬ S.P q := S.P_strong (hg.2 rfl)
          obtain ⟨p1', e1, R1⟩ := S.u32 p p' kind p1 hR h1 (np _)
          simp only [e1, ht]
          exact ⟨rfl, ⟨rfl, hs.symm, rfl, hl⟩, fun h => (by cases h)⟩
        · next t ht =>
          split at hr
          · next i h2 =>
            subst hr
            have hs' : S.strong := hg.2 rfl
            have np : ∀ q, ¬ S.P q := S.P_strong hs'
            obtain ⟨p1', e1, R1⟩ := S.u32 p p' kind p1 hR h1 (np _)
            have e2 := S.relExc_error (S.read_matrix_at _ _ R1 _ h2 (S.goodExc_error i hs'))
            simp only [e1, ht, e2]
            exact ⟨rfl, ⟨rfl, hs.symm, rfl, hl⟩, fun h => (by cases h)⟩
          · next r0 r1 r2 p2 h2 =>
            try simp only at hr
            split at hr
            · next g1 h3 =>
              subst hr
              have hs' : S.strong := hg.2 rfl
              have np : ∀ q, ¬ S.P q := S.P_strong hs'
              obtain ⟨p1', e1, R1⟩ := S.u32 p p' kind p1 hR h1 (np _)
              obtain ⟨p2', e2, R2⟩ :=
                S.relExc_ok (S.read_matrix_at _ _ R1 _ h2 (S.goodExc_ok _ (np _)))
              have e3 := S.relChain_none (S.read_bbox_at _ _ _ R2 _ h3 (S.goodChain_none g1 hs'))
              simp only [e1, ht, e2, e3]
              exact ⟨rfl, ⟨rfl, hs.symm, rfl, hl⟩, fun h => (by cases h)⟩
            · next g1 p3 h3 =>
              try simp only at hr
              split at hr
              · next g2 msg h4 =>
                subst hr
                have hs' : S.strong := hg.2 rfl
                have np : ∀ q, ¬ S.P q := S.P_strong hs'
                obtain ⟨p1', e1, R1⟩ := S.u32 p p' kind p1 hR h1 (np _)
                obtain ⟨p2', e2, R2⟩ :=
                  S.relExc_ok (S.read_matrix_at _ _ R1 _ h2 (S.goodExc_ok _ (np _)))
                obtain ⟨p3', e3, R3⟩ :=
                  S.relChain_some (S.read_bbox_at _ _ _ R2 _ h3 (S.goodChain_some g1 (np _)))
                have e4 := S.relStep_err (S.switch_kind_at _ _ _ _ R3 _ h4 hs')
                simp only [e1, ht, e2, e3, e4]
                exact ⟨rfl, ⟨rfl, hs.symm, rfl, hl⟩, fun h => (by cases h)⟩
              · next g2 p4 h4 =>
                subst hr
                have hq : ¬ S.P p4 := hg.1 rfl
                have b4 := switch_kind_length _ _ _ _ _ _ h4
                have b3 := read_bbox_length H _ _ _ (by rw [h3])
                have b2 := read_matrix_length _ _ _ _ h2
                obtain ⟨p1', e1, R1⟩ := S.u32 p p' kind p1 hR h1 (S.not_past hq (by omega))
                obtain ⟨p2', e2, R2⟩ := S.relExc_ok
                  (S.read_matrix_at _ _ R1 _ h2 (S.goodExc_ok _ (S.not_past hq (by omega))))
                obtain ⟨p3', e3, R3⟩ := S.relChain_some
                  (S.read_bbox_at _ _ _ R2 _ h3 (S.goodChain_some g1 (S.not_past hq (by omega))))
                obtain ⟨p4', e4, R4⟩ := S.relStep_ok (S.switch_kind_at _ _ _ _ R3 _ h4 hq)
                simp only [e1, ht, e2, e3, e4]
                exact ⟨rfl, ⟨rfl, hs.symm, rfl, hl⟩, fun _ => R4⟩

theorem CursorSim.cntb_open_same {H : Host F} (S : CursorSim H) (ctx : Context F)
    (p p' : Buf) (hR : S.R p p') :
    S.GoodRes (cntb_open H ctx p) → S.SameRes (cntb_open H ctx p) (cntb_open H ctx p') := by
  intro hg
  generalize hr : cntb_open H ctx p = r at hg ⊢
  unfold cntb_open at hr ⊢
  split at hr
  · next hs =>
    subst hr
    try simp only [hs]
    exact ⟨rfl, rfl, fun h => (by cases h)⟩
  · next parent rest hs =>
    try simp only [hs] at hr
    try simp only [hs]
    split at hr
    · next hk =>
      subst hr
      rw [if_pos hk]
      exact ⟨rfl, rfl, fun h => (by cases h)⟩
    · next hk =>
      rw [if_neg hk]
      try simp only at hr ⊢
      split at hr
      · next h1 =>
        subst hr
        simp only [S.line_none p p' hR h1]
        exact ⟨rfl, rfl, fun h => (by cases h)⟩
      · next line p1 h1 =>
        split at hr
        · next c2 h2 =>
          subst hr
          have hs' : S.strong := hg.2 rfl
          have np : ∀ q, ¬ S.P q := S.P_strong hs'
          obtain ⟨p1', e1, R1⟩ := S.line p p' line p1 hR h1 (np _)
          have e2 := S.relChain_none (S.chain3_at _ _ _ _ _ _ R1 _ h2 (S.goodChain_none c2 hs'))
          simp only [e1, e2]
          exact ⟨rfl, rfl, fun h => (by cases h)⟩
        · next c2 p2 h2 =>
          have b2 : p2.length ≤ p1.length := by
            refine bounded_elim h2 ?_
            repeat (first | apply eol_step_bounded | apply f32_into_bounded)
            exact start_bounded _ _ _ (Nat.le_refl _)
          have b3 := consume_eol_length p2
          split at hr
          · next h3 =>
            subst hr
            have hs' : S.strong := hg.2 rfl
            have np : ∀ q, ¬ S.P q := S.P_strong hs'
            obtain ⟨p1', e1, R1⟩ := S.line p p' line p1 hR h1 (np _)
            obtain ⟨p2', e2, R2⟩ :=
              S.relChain_some (S.chain3_at _ _ _ _ _ _ R1 _ h2 (S.goodChain_some c2 (np _)))
            have e3 := S.u32_none _ _ (S.eol p2 p2' R2 (np _)) hs' h3
            simp only [e1, e2, e3]
            exact ⟨rfl, rfl, fun h => (by cases h)⟩
          · next m p3 h3 =>
            subst hr
            have hq : ¬ S.P (consume_eol p3) := hg.1 rfl
            have b4 := read_u32_length _ _ _ _ h3
            have b5 := consume_eol_length p3
            obtain ⟨p1', e1, R1⟩ := S.line p p' line p1 hR h1 (S.not_past hq (by omega))
            obtain ⟨p2', e2, R2⟩ := S.relChain_some
              (S.chain3_at _ _ _ _ _ _ R1 _ h2 (S.goodChain_some c2 (S.not_past hq (by omega))))
            obtain ⟨p3', e3, R3⟩ := S.u32 _ _ m p3
              (S.eol p2 p2' R2 (S.not_past hq (by omega))) h3 (S.not_past hq (by omega))
            simp only [e1, e2, e3]
            exact ⟨rfl, rfl, fun _ => S.eol p3 p3' R3 hq⟩

theorem CursorSim.parse_modl_txt_same {H : Host F} (S : CursorSim H) (ctx : Context F)
    (p p' : Buf) (hR : S.R p p') :
    S.GoodRes (parse_modl_txt H ctx p) →
      S.SameRes (parse_modl_txt H ctx p) (parse_modl_txt H ctx p') := by
  intro hg
  generalize hr : parse_modl_txt H ctx p = r at hg ⊢
  unfold parse_modl_txt at hr ⊢
  split at hr
  · next hs =>
    subst hr
    try simp only [hs]
    exact ⟨rfl, rfl, fun h => (by cases h)⟩
  · next top rest hs =>
    try simp only [hs] at hr
    try simp only [hs]
    split at hr
    · next hk =>
      subst hr
      rw [if_pos hk]
      exact ⟨rfl, rfl, fun h => (by cases h)⟩
    · next hk =>
      rw [if_neg hk]
      try simp only at hr ⊢
      split at hr
      · next h1 =>
        subst hr
        simp only [S.line_none p p' hR h1]
        exact ⟨rfl, rfl, fun h => (by cases h)⟩
      · next line p1 h1 =>
        split at hr
        · next h2 =>
          subst hr
          have np : ∀ q, ¬ S.P q := S.P_strong (hg.2 rfl)
          obtain ⟨p1', e1, R1⟩ := S.line p p' line p1 hR h1 (np _)
          simp only [e1, S.line_none p1 p1' R1 h2]
          exact ⟨rfl, rfl, fun h => (by cases h)⟩
        · next line2 p2 h2 =>
          subst hr
          have hq : ¬ S.P p2 := hg.1 rfl
          have b2 := read_line_length _ _ _ h2
          obtain ⟨p1', e1, R1⟩ := S.line p p' line p1 hR h1 (S.not_past hq (by omega))
          obtain ⟨p2', e2, R2⟩ := S.line p1 p1' line2 p2 R1 h2 hq
          simp only [e1, e2]
          exact ⟨rfl, rfl, fun _ => R2⟩

theorem CursorSim.parse_head_txt_same {H : Host F} (S : CursorSim H) (ctx : Context F)
    (p p' : Buf) (hR : S.R p p') :
    S.GoodRes (parse_head_txt H ctx p) →
      S.SameRes (parse_head_txt H ctx p) (parse_head_txt H ctx p') := by
  intro hg
  generalize hr : parse_head_txt H ctx p = r at hg ⊢
  unfold parse_head_txt at hr ⊢
  split at hr
  · next hs =>
    subst hr
    try simp only [hs]
    exact ⟨rfl, rfl, fun h => (by cases h)⟩
  · next hs =>
    try simp only [hs] at hr
    try simp only [hs]
    try simp only at hr ⊢
    split at hr
    · next h1 =>
      subst hr
      simp only [S.line_none p p' hR h1]
      exact ⟨rfl, rfl, fun h => (by cases h)⟩
    · next l1 p1 h1 =>
      split at hr
      · next h2 =>
        subst hr
        have np : ∀ q, ¬ S.P q := S.P_strong (hg.2 rfl)
        obtain ⟨p1', e1, R1⟩ := S.line p p' l1 p1 hR h1 (np _)
        simp only [e1, S.line_none p1 p1' R1 h2]
        exact ⟨rfl, rfl, fun h => (by cases h)⟩
      · next l2 p2 h2 =>
        split at hr
        · next h3 =>
          subst hr
          have np : ∀ q, ¬ S.P q := S.P_strong (hg.2 rfl)
          obtain ⟨p1', e1, R1⟩ := S.line p p' l1 p1 hR h1 (np _)
          obtain ⟨p2', e2, R2⟩ := S.line p1 p1' l2 p2 R1 h2 (np _)
          simp only [e1, e2, S.line_none p2 p2' R2 h3]
          exact ⟨rfl, rfl, fun h => (by cases h)⟩
        · next l3 p3 h3 =>
          split at hr
          · next h4 =>
            subst hr
            have np : ∀ q, ¬ S.P q := S.P_strong (hg.2 rfl)
            obtain ⟨p1', e1, R1⟩ := S.line p p' l1 p1 hR h1 (np _)
            obtain ⟨p2', e2, R2⟩ := S.line p1 p1' l2 p2 R1 h2 (np _)
            obtain ⟨p3', e3, R3⟩ := S.line p2 p2' l3 p3 R2 h3 (np _)
            simp only [e1, e2, e3, S.line_none p3 p3' R3 h4]
            exact ⟨rfl, rfl, fun h => (by cases h)⟩
          · next l4 p4 h4 =>
            subst hr
            have hq : ¬ S.P p4 := hg.1 rfl
            have b4 := read_line_length _ _ _ h4
            have b3 := read_line_length _ _ _ h3
            have b2 := read_line_length _ _ _ h2
            obtain ⟨p1', e1, R1⟩ := S.line p p' l1 p1 hR h1 (S.not_past hq (by omega))
            obtain ⟨p2', e2, R2⟩ := S.line p1 p1' l2 p2 R1 h2 (S.not_past hq (by omega))
            obtain ⟨p3', e3, R3⟩ := S.line p2 p2' l3 p3 R2 h3 (S.not_past hq (by omega))
            obtain ⟨p4', e4, R4⟩ := S.line p3 p3' l4 p4 R3 h4 hq
            simp only [e1, e2, e3, e4]
            exact ⟨rfl, rfl, fun _ => R4⟩

theorem f32_into_relog (H : Host F) (l' : List (Nat × List Char))
    (set : F → Context F → Context F)
    (hset : ∀ v c, set v { c with logger := l' } = { set v c with logger := l' })
    (c : Context F) (o : Option Buf) :
    f32_into H set ({ c with logger := l' }, o)
      = ({ (f32_into H set (c, o)).1 with logger := l' }, (f32_into H set (c, o)).2) := by
  cases o with
  | none => rfl
  | some p =>
    simp only [f32_into]
    cases read_f32 H p with
    | none => rfl
    | some x => simp only [hset]

theorem chain3_relog_at (H : Host F) (l' : List (Nat × List Char))
    (s1 s2 s3 : F → Context F → Context F) (C C' c2 : Context F) (p1 : Buf) (o2 : Option Buf)
    (h2 : f32_into H s3 (f32_into H s2 (f32_into H s1 (C, some p1))) = (c2, o2))
    (hC : C' = { C with logger := l' })
    (h1 : ∀ v c, s1 v { c with logger := l' } = { s1 v c with logger := l' })
    (h2' : ∀ v c, s2 v { c with logger := l' } = { s2 v c with logger := l' })
    (h3 : ∀ v c, s3 v { c with logger := l' } = { s3 v c with logger := l' }) :
    f32_into H s3 (f32_into H s2 (f32_into H s1 (C', some p1)))
      = ({ c2 with logger := l' }, o2) := by
  subst hC
  rw [f32_into_relog H l' s1 h1, f32_into_relog H l' s2 h2', f32_into_relog H l' s3 h3, h2]

theorem inherit_transparency_relog (s : Store F) (l l' : List (Nat × List Char))
    (pa : Option (List Char)) (st : List Nat) (parent g : Nat) :
    inherit_transparency ⟨s, l', pa, st⟩ parent g
      = { inherit_transparency ⟨s, l, pa, st⟩ parent g with logger := l' } := by
  unfold inherit_transparency
  simp only
  split
  · split <;> rfl
  · rfl

/-- The logger is carried through `cntb_open` as it is. -/
theorem cntb_open_relog (H : Host F) (ctx : Context F) (l' : List (Nat × List Char))
    (p : Buf) (r : Res F) (hr : cntb_open H ctx p = r) :
    cntb_open H { ctx with logger := l' } p = ⟨r.ok, { r.ctx with logger := l' }, r.p⟩ := by
  obtain ⟨s, l, pa, st⟩ := ctx
  unfold cntb_open at hr ⊢
  simp only at hr ⊢
  split at hr
  · next hs =>
    subst hr
    rfl
  · next parent rest hs =>
    split at hr
    · next hk =>
      subst hr
      rw [if_pos hk]
      rfl
    · next hk =>
      rw [if_neg hk]
      try simp only at hr ⊢
      split at hr
      · next h1 =>
        subst hr
        try simp only [h1]
        rw [inherit_transparency_relog _ l l']
        rfl
      · next line p1 h1 =>
        try simp only [h1]
        split at hr
        · next c2 h2 =>
          subst hr
          rw [chain3_relog_at H l' _ _ _ _ _ _ _ _ h2
            (by rw [inherit_transparency_relog _ l l']; rfl)
            (fun _ _ => rfl) (fun _ _ => rfl) (fun _ _ => rfl)]
          rfl
        · next c2 p2 h2 =>
          rw [chain3_relog_at H l' _ _ _ _ _ _ _ _ h2
            (by rw [inherit_transparency_relog _ l l']; rfl)
            (fun _ _ => rfl) (fun _ _ => rfl) (fun _ _ => rfl)]
          try simp only
          split at hr
          · next h3 =>
            subst hr
            try simp only [h3]
            rfl
          · next m p3 h3 =>
            subst hr
            try simp only [h3]
            rfl

/-- The logger is carried through `parse_modl_txt` as it is. -/
theorem parse_modl_txt_relog (H : Host F) (ctx : Context F) (l' : List (Nat × List Char))
    (p : Buf) (r : Res F) (hr : parse_modl_txt H ctx p = r) :
    parse_modl_txt H { ctx with logger := l' } p = ⟨r.ok, { r.ctx with logger := l' }, r.p⟩ := by
  obtain ⟨s, l, pa, st⟩ := ctx
  unfold parse_modl_txt at hr ⊢
  simp only at hr ⊢
  split at hr
  · next hs =>
    subst hr
    first | rfl | (simp only [Context.modifyFile, Context.modifyModel, push_back, set_error])
  · next top rest =>
    split at hr
    · next hk =>
      subst hr
      rw [if_pos hk]
      first | rfl | (simp only [Context.modifyFile, Context.modifyModel, push_back, set_error])
    · next hk =>
      rw [if_neg hk]
      have hm : s.kindOf top ≠ some NodeKind.Model := by
        intro e
        rw [e] at hk
        exact hk (by decide)
      simp only [if_neg hm] at hr ⊢
      split at hr
      · next h1 =>
        subst hr
        try simp only [h1]
        first | rfl | (simp only [Context.modifyFile, Context.modifyModel, push_back, set_error])
      · next line p1 h1 =>
        try simp only [h1]
        split at hr
        · next h2 =>
          subst hr
          try simp only [h2]
          first | rfl | (simp only [Context.modifyFile, Context.modifyModel, push_back, set_error])
        · next line2 p2 h2 =>
          subst hr
          try simp only [h2]
          first | rfl | (simp only [Context.modifyFile, Context.modifyModel, push_back, set_error])

/-- The logger is carried through `parse_head_txt` as it is. -/
theorem parse_head_txt_relog (H : Host F) (ctx : Context F) (l' : List (Nat × List Char))
    (p : Buf) (r : Res F) (hr : parse_head_txt H ctx p = r) :
    parse_head_txt H { ctx with logger := l' } p = ⟨r.ok, { r.ctx with logger := l' }, r.p⟩ := by
  obtain ⟨s, l, pa, st⟩ := ctx
  unfold parse_head_txt at hr ⊢
  simp only at hr ⊢
  split at hr
  · next hs =>
    subst hr
    (simp only [Context.modifyFile, push_back, set_error, Option.getD])
  · next hs =>
    split at hr
    · next h1 =>
      subst hr
      try simp only [h1]
      (simp only [Context.modifyFile, push_back, set_error, Option.getD])
    · next l1 p1 h1 =>
      try simp only [h1]
      split at hr
      · next h2 =>
        subst hr
        try simp only [h2]
        (simp only [Context.modifyFile, push_back, set_error, Option.getD])
      · next l2 p2 h2 =>
        try simp only [h2]
        split at hr
        · next h3 =>
          subst hr
          try simp only [h3]
          (simp only [Context.modifyFile, push_back, set_error, Option.getD])
        · next l3 p3 h3 =>
          try simp only [h3]
          split at hr
          · next h4 =>
            subst hr
            try simp only [h4]
            (simp only [Context.modifyFile, push_back, set_error, Option.getD])
          · next l4 p4 h4 =>
            subst hr
            try simp only [h4]
            (simp only [Context.modifyFile, push_back, set_error, Option.getD])

theorem CursorSim.cntb_open_sim {H : Host F} (S : CursorSim H) (ctx ctx' : Context F)
    (p p' : Buf) (hc : S.Cx ctx ctx') (hR : S.R p p') :
    S.GoodRes (cntb_open H ctx p) →
      S.RelRes (cntb_open H ctx p) (cntb_open H ctx' p') := by
  obtain ⟨l', rfl, hl⟩ := S.cx_elim hc
  intro hg
  obtain ⟨e1, e2, e3⟩ := S.cntb_open_same ctx p p' hR hg
  rw [cntb_open_relog H ctx l' p' _ rfl]
  refine ⟨e1, ?_, e3⟩
  simp only [e2]
  refine S.cx_intro _ _ ?_
  rw [(cntb_open_effect H ctx p _ rfl).1]
  exact hl

theorem CursorSim.parse_modl_txt_sim {H : Host F} (S : CursorSim H) (ctx ctx' : Context F)
    (p p' : Buf) (hc : S.Cx ctx ctx') (hR : S.R p p') :
    S.GoodRes (parse_modl_txt H ctx p) →
      S.RelRes (parse_modl_txt H ctx p) (parse_modl_txt H ctx' p') := by
  obtain ⟨l', rfl, hl⟩ := S.cx_elim hc
  intro hg
  obtain ⟨e1, e2, e3⟩ := S.parse_modl_txt_same ctx p p' hR hg
  rw [parse_modl_txt_relog H ctx l' p' _ rfl]
  refine ⟨e1, ?_, e3⟩
  simp only [e2]
  refine S.cx_intro _ _ ?_
  rw [(parse_modl_txt_effect H ctx p _ rfl).1]
  exact hl

theorem CursorSim.parse_head_txt_sim {H : Host F} (S : CursorSim H) (ctx ctx' : Context F)
    (p p' : Buf) (hc : S.Cx ctx ctx') (hR : S.R p p') :
    S.GoodRes (parse_head_txt H ctx p) →
      S.RelRes (parse_head_txt H ctx p) (parse_head_txt H ctx' p') := by
  obtain ⟨l', rfl, hl⟩ := S.cx_elim hc
  intro hg
  obtain ⟨e1, e2, e3⟩ := S.parse_head_txt_same ctx p p' hR hg
  rw [parse_head_txt_relog H ctx l' p' _ rfl]
  refine ⟨e1, ?_, e3⟩
  simp only [e2]
  refine S.cx_intro _ _ ?_
  rw [(parse_head_txt_effect H ctx p _ rfl).1]
  exact hl

theorem CursorSim.cx_set_error {H : Host F} (S : CursorSim H) {c c' : Context F}
    (h : S.Cx c c') (msg : List Char) : S.Cx (set_error c msg) (set_error c' msg) := by
  obtain ⟨l', rfl, hl⟩ := S.cx_elim h
  exact ⟨rfl, rfl, rfl, hl⟩

theorem CursorSim.cx_pop_back {H : Host F} (S : CursorSim H) {c c' : Context F}
    (h : S.Cx c c') : S.Cx (pop_back c) (pop_back c') := by
  obtain ⟨l', rfl, hl⟩ := S.cx_elim h
  exact ⟨rfl, rfl, rfl, hl⟩

theorem CursorSim.cx_pop_if_kind {H : Host F} (S : CursorSim H) {c c' : Context F}
    (h : S.Cx c c') (k : NodeKind) : S.Cx (pop_if_kind c k) (pop_if_kind c' k) := by
  obtain ⟨l', rfl, hl⟩ := S.cx_elim h
  obtain ⟨s, l, pa, st⟩ := c
  unfold pop_if_kind
  simp only
  split
  · split
    · exact ⟨rfl, rfl, rfl, hl⟩
    · exact ⟨rfl, rfl, rfl, hl⟩
  · exact ⟨rfl, rfl, rfl, hl⟩

theorem CursorSim.cx_log {H : Host F} (S : CursorSim H) {c c' : Context F}
    (h : S.Cx c c') (e : Nat × List Char) :
    S.Cx { c with logger := c.logger ++ [e] } { c' with logger := c'.logger ++ [e] } := by
  obtain ⟨h1, h2, h3, h4⟩ := h
  exact ⟨h1, h2, h3, S.L_snoc _ _ e h4⟩

/-- The top-level loop only moves the cursor forward. -/
theorem top_level_length (H : Host F) (fuel : Nat) :
    ∀ (ctx : Context F) (p : Buf) (r : Res F),
      top_level H fuel ctx p = some r → r.ok = true → r.p.length ≤ p.length := by
  induction fuel with
  | zero => intro ctx p r h; simp [top_level] at h
  | succ n ih =>
    intro ctx p r h hok
    cases p with
    | nil =>
      rw [top_level.eq_2] at h
      simp only [Option.some.injEq] at h
      subst h
      exact Nat.le_refl _
    | cons c cs =>
      rw [top_level.eq_3] at h
      split at h
      · simp only [Option.some.injEq] at h; subst h; cases hok
      · next id p1 h1 =>
        have b1 := read_chunk_header_txt_length _ _ _ _ h1
        try simp only at h
        split at h
        · simp only [Option.some.injEq] at h; subst h
          exact Nat.le_of_lt b1
        · split at h
          · try simp only at h
            split at h
            · next ho =>
              have := parse_modl_txt_length H ctx p1 _ rfl ho
              have := ih _ _ _ h hok
              omega
            · next ho =>
              simp only [Option.some.injEq] at h; subst h
              exact absurd hok ho
          · split at h
            · split at h
              · simp at h
              · next r1 hr1 =>
                split at h
                · next ho =>
                  have := (cntb_length H n).1 _ _ _ hr1 ho
                  have := ih _ _ _ h hok
                  omega
                · next ho =>
                  simp only [Option.some.injEq] at h; subst h
                  exact absurd hok ho
            · split at h
              · have := ih _ _ _ h hok
                simp only at this
                omega
              · split at h
                · simp only [Option.some.injEq] at h; subst h; cases hok
                · simp only [Option.some.injEq] at h; subst h; cases hok

theorem CursorSim.goodRes_elim {H : Host F} (S : CursorSim H) {r : Res F} (hg : S.GoodRes r)
    (q : Buf) (hl : r.ok = true → r.p.length ≤ q.length) : ¬ S.P q := by
  cases hok : r.ok with
  | false => exact S.P_strong (hg.2 hok) q
  | true => exact S.not_past (hg.1 hok) (hl hok)

theorem CursorSim.header_some {H : Host F} (S : CursorSim H) (p p' : Buf) (hR : S.R p p')
    (id : List Char) (q : Buf) (h : read_chunk_header_txt H p = some (id, q)) (hq : ¬ S.P q) :
    ∃ q', read_chunk_header_txt H p' = some (id, q') ∧ S.R q q' := by
  have := S.read_chunk_header_txt_sim p p' hR
  rw [h] at this
  exact (this (S.goodRead_some id hq)).2 id q rfl

theorem CursorSim.header_none {H : Host F} (S : CursorSim H) (p p' : Buf) (hR : S.R p p')
    (hs : S.strong) (h : read_chunk_header_txt H p = none) :
    read_chunk_header_txt H p' = none := by
  have := S.read_chunk_header_txt_sim p p' hR
  rw [h] at this
  exact (this (S.goodRead_none hs)).1 rfl

theorem CursorSim.goodRes_of {H : Host F} (S : CursorSim H) {r r1 : Res F} (hg : S.GoodRes r)
    (ho : r1.ok = true) (hl : r.ok = true → r.p.length ≤ r1.p.length) : S.GoodRes r1 :=
  ⟨fun _ => S.goodRes_elim hg _ hl, fun hf => (by rw [ho] at hf; cases hf)⟩

/-- The loop over the children of a group, left with success from a cursor
that is not at the end, has moved the cursor on. -/
theorem cntb_children_shorter (H : Host F) (fuel : Nat) (ctx : Context F) (c : Char)
    (cs : Buf) (r : Res F) (h : cntb_children H fuel ctx (c :: cs) = some r) :
    r.ok = true → r.p.length < (c :: cs).length := by
  intro hok
  cases fuel with
  | zero => simp [cntb_children] at h
  | succ n =>
    rw [cntb_children.eq_3] at h
    split at h
    · simp only [Option.some.injEq] at h; subst h
      cases hok
    · next cid p1 h1 =>
      have b1 := read_chunk_header_txt_length _ _ _ _ h1
      try simp only at h
      split at h
      · simp only [Option.some.injEq] at h; subst h
        exact b1
      · split at h
        · split at h
          · simp at h
          · next r1 hr1 =>
            split at h
            · next ho =>
              have b2 := (cntb_length H n).1 _ _ _ hr1 ho
              have b3 := (cntb_length H n).2 _ _ _ h hok
              omega
            · next ho =>
              simp only [Option.some.injEq] at h; subst h
              exact absurd hok ho
        · split at h
          · try simp only at h
            split at h
            · next ho =>
              have b2 := parse_prim_txt_length H ctx cid p1 _ rfl ho
              have b3 := (cntb_length H n).2 _ _ _ h hok
              omega
            · next ho =>
              simp only [Option.some.injEq] at h; subst h
              exact absurd hok ho
          · simp only [Option.some.injEq] at h; subst h
            cases hok

/-- The top-level loop, left with success from a cursor that is not at the
end, has moved the cursor on. -/
theorem top_level_shorter (H : Host F) (fuel : Nat) (ctx : Context F) (c : Char)
    (cs : Buf) (r : Res F) (h : top_level H fuel ctx (c :: cs) = some r) :
    r.ok = true → r.p.length < (c :: cs).length := by
  intro hok
  cases fuel with
  | zero => simp [top_level] at h
  | succ n =>
    rw [top_level.eq_3] at h
    split at h
    · simp only [Option.some.injEq] at h; subst h
      cases hok
    · next id p1 h1 =>
      have b1 := read_chunk_header_txt_length _ _ _ _ h1
      try simp only at h
      split at h
      · simp only [Option.some.injEq] at h; subst h
        exact b1
      · split at h
        · try simp only at h
          split at h
          · next ho =>
            have b2 := parse_modl_txt_length H ctx p1 _ rfl ho
            have b3 := top_level_length H n _ _ _ h hok
            omega
          · next ho =>
            simp only [Option.some.injEq] at h; subst h
            exact absurd hok ho
        · split at h
          · split at h
            · simp at h
            · next r1 hr1 =>
              split at h
              · next ho =>
                have b2 := (cntb_length H n).1 _ _ _ hr1 ho
                have b3 := top_level_length H n _ _ _ h hok
                omega
              · next ho =>
                simp only [Option.some.injEq] at h; subst h
                exact absurd hok ho
          · split at h
            · have b3 := top_level_length H n _ _ _ h hok
              simp only at b3
              omega
            · split at h
              · simp only [Option.some.injEq] at h; subst h
                cases hok
              · simp only [Option.some.injEq] at h; subst h
                cases hok

/-- The second run is at the end of its buffer and the first is not: the
result of a loop of the first run is not one at which the runs are known to
correspond. -/
theorem CursorSim.past_end {H : Host F} (S : CursorSim H) {c : Char} {cs : Buf} {r : Res F}
    (hR : S.R (c :: cs) []) (hlen : r.ok = true → r.p.length < (c :: cs).length)
    (hg : S.GoodRes r) : False := by
  rcases (S.nil _ _ hR).2 rfl with h | h
  · cases h
  · cases ho : r.ok with
    | true => exact hg.1 ho (h _ (hlen ho))
    | false => exact S.P_strong (hg.2 ho) [] (h [] (by simp))

/-- The loops of the reader on corresponding cursors and contexts: a result of
the first run at which the second run is known to correspond has a
corresponding result in the second run, with the same fuel. -/
theorem CursorSim.loops_sim {H : Host F} (S : CursorSim H) (fuel : Nat) :
    (∀ (ctx ctx' : Context F) (p p' : Buf) (r : Res F), S.Cx ctx ctx' → S.R p p' →
      parse_cntb_txt H fuel ctx p = some r → S.GoodRes r →
      ∃ r', parse_cntb_txt H fuel ctx' p' = some r' ∧ S.RelRes r r') ∧
    (∀ (ctx ctx' : Context F) (p p' : Buf) (r : Res F), S.Cx ctx ctx' → S.R p p' →
      cntb_children H fuel ctx p = some r → S.GoodRes r →
      ∃ r', cntb_children H fuel ctx' p' = some r' ∧ S.RelRes r r') ∧
    (∀ (ctx ctx' : Context F) (p p' : Buf) (r : Res F), S.Cx ctx ctx' → S.R p p' →
      top_level H fuel ctx p = some r → S.GoodRes r →
      ∃ r', top_level H fuel ctx' p' = some r' ∧ S.RelRes r r') := by
  induction fuel with
  | zero =>
    refine ⟨?_, ?_, ?_⟩ <;>
      (intro ctx ctx' p p' r _ _ h; simp [parse_cntb_txt, cntb_children, top_level] at h)
  | succ n ih =>
    obtain ⟨ih1, ih2, ih3⟩ := ih
    refine ⟨?_, ?_, ?_⟩
    · intro ctx ctx' p p' r hc hR h hg
      simp only [parse_cntb_txt] at h ⊢
      split at h
      · next ho =>
        have b := fun hok => (cntb_length H n).2 _ _ _ h hok
        have g1 := S.cntb_open_sim ctx ctx' p p' hc hR (S.goodRes_of hg ho b)
        obtain ⟨e1, c1, R1⟩ := g1
        rw [ho] at e1
        simp only [e1, if_true]
        exact ih2 _ _ _ _ _ c1 (R1 ho) h hg
      · next ho =>
        simp only [Option.some.injEq] at h
        subst h
        obtain ⟨e1, c1, R1⟩ := S.cntb_open_sim ctx ctx' p p' hc hR hg
        simp only [Bool.not_eq_true] at ho
        rw [ho] at e1
        simp only [e1]
        exact ⟨_, rfl, by rw [ho]; exact e1, c1, fun h0 => (by rw [ho] at h0; cases h0)⟩
    · intro ctx ctx' p p' r hc hR h hg
      cases p with
      | nil =>
        have hp' := (S.nil _ _ hR).1 rfl
        subst hp'
        rw [cntb_children.eq_2] at h ⊢
        simp only [Option.some.injEq] at h
        subst h
        exact ⟨_, rfl, rfl, S.cx_pop_back hc, fun _ => hR⟩
      | cons c cs =>
        cases p' with
        | nil => exact (S.past_end hR (cntb_children_shorter H _ _ _ _ _ h) hg).elim
        | cons c' cs' =>
          rw [cntb_children.eq_3] at h ⊢
          split at h
          · next h1 =>
            simp only [Option.some.injEq] at h; subst h
            simp only [S.header_none _ _ hR (hg.2 rfl) h1]
            exact ⟨_, rfl, rfl, S.cx_set_error hc _, fun h0 => (by cases h0)⟩
          · next cid p1 h1 =>
            have b1 := read_chunk_header_txt_length _ _ _ _ h1
            try simp only at h
            split at h
            · next hid =>
              simp only [Option.some.injEq] at h; subst h
              obtain ⟨p1', e1, R1⟩ := S.header_some _ _ hR cid p1 h1 (hg.1 rfl)
              simp only [e1, if_pos hid]
              exact ⟨_, rfl, rfl, S.cx_pop_back hc, fun _ => R1⟩
            · next hid1 =>
              split at h
              · next hid2 =>
                split at h
                · simp at h
                · next r1 hr1 =>
                  split at h
                  · next ho =>
                    have b2 := (cntb_length H n).1 _ _ _ hr1 ho
                    have b3 := fun hok => (cntb_length H n).2 _ _ _ h hok
                    obtain ⟨p1', e1, R1⟩ := S.header_some _ _ hR cid p1 h1
                      (S.goodRes_elim hg _ (fun hok => by have := b3 hok; omega))
                    obtain ⟨r1', e2, o2, c2, R2⟩ := ih1 _ _ _ _ _ hc R1 hr1
                      (S.goodRes_of hg ho b3)
                    rw [ho] at o2
                    simp only [e1, if_neg hid1, if_pos hid2, e2, o2, if_true]
                    exact ih2 _ _ _ _ _ c2 (R2 ho) h hg
                  · next ho =>
                    simp only [Option.some.injEq] at h; subst h
                    simp only [Bool.not_eq_true] at ho
                    have np : ∀ q, ¬ S.P q := S.P_strong (hg.2 ho)
                    obtain ⟨p1', e1, R1⟩ := S.header_some _ _ hR cid p1 h1 (np _)
                    obtain ⟨r1', e2, o2, c2, R2⟩ := ih1 _ _ _ _ _ hc R1 hr1 hg
                    have o2' := o2
                    rw [ho] at o2'
                    simp only [e1, if_neg hid1, if_pos hid2, e2, o2']
                    exact ⟨_, rfl, o2, c2, R2⟩
              · next hid2 =>
                split at h
                · next hid3 =>
                  try simp only at h
                  split at h
                  · next ho =>
                    have b2 := parse_prim_txt_length H ctx cid p1 _ rfl ho
                    have b3 := fun hok => (cntb_length H n).2 _ _ _ h hok
                    obtain ⟨p1', e1, R1⟩ := S.header_some _ _ hR cid p1 h1
                      (S.goodRes_elim hg _ (fun hok => by have := b3 hok; omega))
                    obtain ⟨o2, c2, R2⟩ := S.parse_prim_txt_sim ctx ctx' cid p1 p1' hc R1
                      (S.goodRes_of hg ho b3)
                    rw [ho] at o2
                    simp only [e1, if_neg hid1, if_neg hid2, if_pos hid3, o2, if_true]
                    exact ih2 _ _ _ _ _ c2 (R2 ho) h hg
                  · next ho =>
                    simp only [Option.some.injEq] at h; subst h
                    simp only [Bool.not_eq_true] at ho
                    have np : ∀ q, ¬ S.P q := S.P_strong (hg.2 ho)
                    obtain ⟨p1', e1, R1⟩ := S.header_some _ _ hR cid p1 h1 (np _)
                    obtain ⟨o2, c2, R2⟩ := S.parse_prim_txt_sim ctx ctx' cid p1 p1' hc R1 hg
                    have o2' := o2
                    rw [ho] at o2'
                    simp only [e1, if_neg hid1, if_neg hid2, if_pos hid3, o2']
                    exact ⟨_, rfl, o2, c2, R2⟩
                · next hid3 =>
                  simp only [Option.some.injEq] at h; subst h
                  have np : ∀ q, ¬ S.P q := S.P_strong (hg.2 rfl)
                  obtain ⟨p1', e1, R1⟩ := S.header_some _ _ hR cid p1 h1 (np _)
                  simp only [e1, if_neg hid1, if_neg hid2, if_neg hid3]
                  exact ⟨_, rfl, rfl, S.cx_set_error hc _, fun h0 => (by cases h0)⟩
    · intro ctx ctx' p p' r hc hR h hg
      cases p with
      | nil =>
        have hp' := (S.nil _ _ hR).1 rfl
        subst hp'
        rw [top_level.eq_2] at h ⊢
        simp only [Option.some.injEq] at h
        subst h
        exact ⟨_, rfl, rfl, hc, fun _ => hR⟩
      | cons c cs =>
        cases p' with
        | nil => exact (S.past_end hR (top_level_shorter H _ _ _ _ _ h) hg).elim
        | cons c' cs' =>
          rw [top_level.eq_3] at h ⊢
          split at h
          · next h1 =>
            simp only [Option.some.injEq] at h; subst h
            simp only [S.header_none _ _ hR (hg.2 rfl) h1]
            exact ⟨_, rfl, rfl, S.cx_set_error hc _, fun h0 => (by cases h0)⟩
          · next id p1 h1 =>
            have b1 := read_chunk_header_txt_length _ _ _ _ h1
            try simp only at h
            split at h
            · next hid =>
              simp only [Option.some.injEq] at h; subst h
              obtain ⟨p1', e1, R1⟩ := S.header_some _ _ hR id p1 h1 (hg.1 rfl)
              simp only [e1, if_pos hid]
              exact ⟨_, rfl, rfl, S.cx_pop_if_kind hc _, fun _ => R1⟩
            · next hid1 =>
              split at h
              · next hid2 =>
                try simp only at h
                split at h
                · next ho =>
                  have b2 := parse_modl_txt_length H ctx p1 _ rfl ho
                  have b3 := fun hok => top_level_length H n _ _ _ h hok
                  obtain ⟨p1', e1, R1⟩ := S.header_some _ _ hR id p1 h1
                    (S.goodRes_elim hg _ (fun hok => by have := b3 hok; omega))
                  obtain ⟨o2, c2, R2⟩ := S.parse_modl_txt_sim ctx ctx' p1 p1' hc R1
                    (S.goodRes_of hg ho b3)
                  rw [ho] at o2
                  simp only [e1, if_neg hid1, if_pos hid2, o2, if_true]
                  exact ih3 _ _ _ _ _ c2 (R2 ho) h hg
                · next ho =>
                  simp only [Option.some.injEq] at h; subst h
                  simp only [Bool.not_eq_true] at ho
                  have np : ∀ q, ¬ S.P q := S.P_strong (hg.2 ho)
                  obtain ⟨p1', e1, R1⟩ := S.header_some _ _ hR id p1 h1 (np _)
                  obtain ⟨o2, c2, R2⟩ := S.parse_modl_txt_sim ctx ctx' p1 p1' hc R1 hg
                  have o2' := o2
                  rw [ho] at o2'
                  simp only [e1, if_neg hid1, if_pos hid2, o2']
                  exact ⟨_, rfl, o2, c2, R2⟩
              · next hid2 =>
                split at h
                · next hid3 =>
                  split at h
                  · simp at h
                  · next r1 hr1 =>
                    split at h
                    · next ho =>
                      have b2 := (cntb_length H n).1 _ _ _ hr1 ho
                      have b3 := fun hok => top_level_length H n _ _ _ h hok
                      obtain ⟨p1', e1, R1⟩ := S.header_some _ _ hR id p1 h1
                        (S.goodRes_elim hg _ (fun hok => by have := b3 hok; omega))
                      obtain ⟨r1', e2, o2, c2, R2⟩ := ih1 _ _ _ _ _ hc R1 hr1
                        (S.goodRes_of hg ho b3)
                      rw [ho] at o2
                      simp only [e1, if_neg hid1, if_neg hid2, if_pos hid3, e2, o2, if_true]
                      exact ih3 _ _ _ _ _ c2 (R2 ho) h hg
                    · next ho =>
                      simp only [Option.some.injEq] at h; subst h
                      simp only [Bool.not_eq_true] at ho
                      have np : ∀ q, ¬ S.P q := S.P_strong (hg.2 ho)
                      obtain ⟨p1', e1, R1⟩ := S.header_some _ _ hR id p1 h1 (np _)
                      obtain ⟨r1', e2, o2, c2, R2⟩ := ih1 _ _ _ _ _ hc R1 hr1 hg
                      have o2' := o2
                      rw [ho] at o2'
                      simp only [e1, if_neg hid1, if_neg hid2, if_pos hid3, e2, o2']
                      exact ⟨_, rfl, o2, c2, R2⟩
                · next hid3 =>
                  split at h
                  · next hid4 =>
                    have b3 := fun hok => top_level_length H n _ _ _ h hok
                    obtain ⟨p1', e1, R1⟩ := S.header_some _ _ hR id p1 h1
                      (S.goodRes_elim hg _ (fun hok => by have := b3 hok; omega))
                    simp only [e1, if_neg hid1, if_neg hid2, if_neg hid3, if_pos hid4]
                    exact ih3 _ _ _ _ _ (S.cx_log hc _) R1 h hg
                  · next hid4 =>
                    split at h
                    · next hid5 =>
                      simp only [Option.some.injEq] at h; subst h
                      have np : ∀ q, ¬ S.P q := S.P_strong (hg.2 rfl)
                      obtain ⟨p1', e1, R1⟩ := S.header_some _ _ hR id p1 h1 (np _)
                      simp only [e1, if_neg hid1, if_neg hid2, if_neg hid3, if_neg hid4,
                        if_pos hid5]
                      exact ⟨_, rfl, rfl, S.cx_set_error hc _, fun h0 => (by cases h0)⟩
                    · next hid5 =>
                      simp only [Option.some.injEq] at h; subst h
                      have np : ∀ q, ¬ S.P q := S.P_strong (hg.2 rfl)
                      obtain ⟨p1', e1, R1⟩ := S.header_some _ _ hR id p1 h1 (np _)
                      simp only [e1, if_neg hid1, if_neg hid2, if_neg hid3, if_neg hid4,
                        if_neg hid5]
                      exact ⟨_, rfl, rfl, S.cx_set_error hc _, fun h0 => (by cases h0)⟩

theorem read_f32_eq (H : Host F) (p : Buf) : read_f32 H p = read_tok (tok_f32 H) p := by
  unfold read_f32 read_tok tok_f32
  cases skip_ws p <;> rfl

theorem read_u32_eq (H : Host F) (p : Buf) : read_u32 H p = read_tok (tok_u32 H) p := by
  unfold read_u32 read_tok tok_u32
  cases skip_ws p <;> rfl

theorem isspace_not_digit (c : Char) (h : isspace c = true) : digitVal c = none := by
  simp only [isspace, Bool.or_eq_true, decide_eq_true_eq] at h
  rcases h with ((((h | h) | h) | h) | h) | h <;> (subst h; decide)

theorem scanDigits_stops (w : Buf) :
    ∀ (acc n : Nat) (c c' : Char) (y y' : Buf), digitVal c = none → digitVal c' = none →
      ∃ v m k, k ≤ w.length ∧ m = n + k ∧
        scanDigits acc n (w ++ c :: y) = (v, m, w.drop k ++ c :: y) ∧
        scanDigits acc n (w ++ c' :: y') = (v, m, w.drop k ++ c' :: y') := by
  induction w with
  | nil =>
    intro acc n c c' y y' hc hc'
    refine ⟨acc, n, 0, Nat.le_refl _, rfl, ?_, ?_⟩
    · simp [scanDigits, hc]
    · simp [scanDigits, hc']
  | cons a w ih =>
    intro acc n c c' y y' hc hc'
    cases ha : digitVal a with
    | none =>
      refine ⟨acc, n, 0, Nat.zero_le _, rfl, ?_, ?_⟩
      · simp [scanDigits, ha]
      · simp [scanDigits, ha]
    | some d =>
      obtain ⟨v, m, k, hk, hm, e1, e2⟩ := ih (acc * 10 + d) (n + 1) c c' y y' hc hc'
      refine ⟨v, m, k + 1, by simpa using hk, by omega, ?_, ?_⟩
      · simp only [List.cons_append, scanDigits, ha, List.drop_succ_cons]
        exact e1
      · simp only [List.cons_append, scanDigits, ha, List.drop_succ_cons]
        exact e2

theorem strtoul_digits_stops (M : Nat) (neg : Bool) (w : Buf) (c c' : Char) (y y' : Buf)
    (hc : isspace c = true) (hc' : isspace c' = true) :
    (strtoul_digits M neg (w ++ c :: y) = none ∧ strtoul_digits M neg (w ++ c' :: y') = none) ∨
    ∃ v k, k ≤ w.length ∧
      strtoul_digits M neg (w ++ c :: y) = some (v, w.drop k ++ c :: y) ∧
      strtoul_digits M neg (w ++ c' :: y') = some (v, w.drop k ++ c' :: y') := by
  obtain ⟨v, m, k, hk, _, e1, e2⟩ := scanDigits_stops w 0 0 c c' y y'
    (isspace_not_digit c hc) (isspace_not_digit c' hc')
  unfold strtoul_digits
  rw [e1, e2]
  cases m with
  | zero => exact Or.inl ⟨rfl, rfl⟩
  | succ m' =>
    right
    simp only
    by_cases h1 : v > M
    · exact ⟨M, k, hk, by simp [h1], by simp [h1]⟩
    · cases neg with
      | true => exact ⟨(M + 1 - v) % (M + 1), k, hk, by simp [h1], by simp [h1]⟩
      | false => exact ⟨v, k, hk, by simp [h1], by simp [h1]⟩

theorem strtoul_stops (M : Nat) (b : Char) (w : Buf) (c c' : Char) (y y' : Buf)
    (hc : isspace c = true) (hc' : isspace c' = true) :
    (strtoul M (b :: w ++ c :: y) = none ∧ strtoul M (b :: w ++ c' :: y') = none) ∨
    ∃ v k, k ≤ (b :: w).length ∧
      strtoul M (b :: w ++ c :: y) = some (v, (b :: w).drop k ++ c :: y) ∧
      strtoul M (b :: w ++ c' :: y') = some (v, (b :: w).drop k ++ c' :: y') := by
  by_cases hm : b = '-'
  · subst hm
    rcases strtoul_digits_stops M true w c c' y y' hc hc' with ⟨e1, e2⟩ | ⟨v, k, hk, e1, e2⟩
    · left
      simp only [List.cons_append, strtoul]
      exact ⟨e1, e2⟩
    · right
      refine ⟨v, k + 1, by simpa using hk, ?_, ?_⟩
      · simp only [List.cons_append, strtoul, List.drop_succ_cons]; exact e1
      · simp only [List.cons_append, strtoul, List.drop_succ_cons]; exact e2
  · by_cases hp : b = '+'
    · subst hp
      rcases strtoul_digits_stops M false w c c' y y' hc hc' with ⟨e1, e2⟩ | ⟨v, k, hk, e1, e2⟩
      · left
        simp only [List.cons_append, strtoul]
        exact ⟨e1, e2⟩
      · right
        refine ⟨v, k + 1, by simpa using hk, ?_, ?_⟩
        · simp only [List.cons_append, strtoul, List.drop_succ_cons]; exact e1
        · simp only [List.cons_append, strtoul, List.drop_succ_cons]; exact e2
    · have h0 : ∀ r : Buf, strtoul M (b :: r) = strtoul_digits M false (b :: r) := by
        intro r
        unfold strtoul
        split
        · next heq => simp only [List.cons.injEq] at heq; exact absurd heq.1 hm
        · next heq => simp only [List.cons.injEq] at heq; exact absurd heq.1 hp
        · rfl
      have := strtoul_digits_stops M false (b :: w) c c' y y' hc hc'
      simp only [List.cons_append] at this ⊢
      rw [h0, h0]
      exact this

theorem tok_u32_stops (H : Host F) : StopsAt (tok_u32 H) := by
  intro b w c c' y y' _ hc hc'
  rcases strtoul_stops H.ulongMax b w c c' y y' hc hc' with ⟨e1, e2⟩ | ⟨v, k, hk, e1, e2⟩
  · left
    simp only [tok_u32, e1, e2, and_self]
  · by_cases hv : v > 0xFFFFFFFF
    · left
      simp only [tok_u32, e1, e2, hv, if_true, and_self]
    · right
      exact ⟨v, k, hk, by simp only [tok_u32, e1, hv, if_false],
        by simp only [tok_u32, e2, hv, if_false]⟩

theorem tok_f32_stops (H : Host F) (hl : H.strtof_stops) : StopsAt (tok_f32 H) := by
  intro b w c c' y y' hb hc hc'
  obtain ⟨e, hn⟩ := hl b w c c' y y' hb hc hc'
  cases h1 : H.strtof (b :: w ++ c :: y) with
  | none =>
    left
    rw [h1] at e
    simp only [tok_f32, h1, ← e, and_self]
  | some x =>
    obtain ⟨v, n⟩ := x
    right
    rw [h1] at e
    have hle := hn v n h1
    refine ⟨v, n, hle, ?_, ?_⟩
    · simp only [tok_f32, h1]
      rw [show b :: w ++ c :: y = (b :: w) ++ c :: y by rfl, List.drop_append_of_le_length hle]
    · simp only [tok_f32, ← e]
      rw [show b :: w ++ c' :: y' = (b :: w) ++ c' :: y' by rfl,
        List.drop_append_of_le_length hle]

theorem crlf_eq_nil (p : Buf) : crlf p = [] ↔ p = [] := by
  cases p with
  | nil => simp [crlf]
  | cons c cs =>
    simp only [crlf]
    split <;> simp

theorem crlf_append (w r : Buf) (h : '\n' ∉ w) : crlf (w ++ r) = w ++ crlf r := by
  induction w with
  | nil => rfl
  | cons c cs ih =>
    have hc : c ≠ '\n' := fun e => h (e ▸ List.mem_cons_self _ _)
    have hcs : '\n' ∉ cs := fun e => h (List.mem_cons_of_mem _ e)
    simp only [List.cons_append, crlf, if_neg hc]
    exact congrArg (c :: ·) (ih hcs)

theorem crlf_self (w : Buf) (h : '\n' ∉ w) : crlf w = w := by
  have := crlf_append w [] h
  simpa [crlf] using this

theorem skip_ws_crlf (p : Buf) : skip_ws (crlf p) = crlf (skip_ws p) := by
  induction p with
  | nil => rfl
  | cons c cs ih =>
    by_cases hc : c = '\n'
    · subst hc
      simp only [crlf, if_true, skip_ws]
      rw [if_pos (by decide), if_pos (by decide), if_pos (by decide)]
      exact ih
    · simp only [crlf, if_neg hc, skip_ws]
      by_cases hw : isspace c = true
      · rw [if_pos hw, if_pos hw]
        exact ih
      · rw [if_neg hw, if_neg hw]
        simp only [crlf, if_neg hc]

theorem skip_ws_suffix (p : Buf) : skip_ws p <:+ p := by
  induction p with
  | nil => exact List.suffix_refl _
  | cons c cs ih =>
    simp only [skip_ws]
    split
    · exact ih.trans (List.suffix_cons _ _)
    · exact List.suffix_refl _

theorem skip_ws_head (p : Buf) (b : Char) (rest : Buf) (h : skip_ws p = b :: rest) :
    isspace b = false := by
  induction p with
  | nil => simp [skip_ws] at h
  | cons c cs ih =>
    simp only [skip_ws] at h
    split at h
    · exact ih h
    · next hc =>
      simp only [List.cons.injEq] at h
      rw [← h.1]
      simpa using hc

theorem scanDigits_suffix (p : Buf) : ∀ acc n, (scanDigits acc n p).2.2 <:+ p := by
  induction p with
  | nil => intro acc n; exact List.suffix_refl _
  | cons c cs ih =>
    intro acc n
    unfold scanDigits
    cases h : digitVal c with
    | none => exact List.suffix_refl _
    | some d => exact (ih _ _).trans (List.suffix_cons _ _)

theorem strtoul_digits_suffix (M : Nat) (neg : Bool) (r : Buf) (v : Nat) (ep : Buf)
    (h : strtoul_digits M neg r = some (v, ep)) : ep <:+ r := by
  have hs := scanDigits_suffix r 0 0
  unfold strtoul_digits at h
  split at h
  · cases h
  · next v0 k ep0 heq =>
    rw [heq] at hs
    simp only at hs
    split at h
    · simp only [Option.some.injEq, Prod.mk.injEq] at h; rw [← h.2]; exact hs
    · split at h
      · simp only [Option.some.injEq, Prod.mk.injEq] at h; rw [← h.2]; exact hs
      · simp only [Option.some.injEq, Prod.mk.injEq] at h; rw [← h.2]; exact hs

theorem strtoul_suffix (M : Nat) (p : Buf) (v : Nat) (ep : Buf)
    (h : strtoul M p = some (v, ep)) : ep <:+ p := by
  unfold strtoul at h
  split at h
  · exact (strtoul_digits_suffix _ _ _ _ _ h).trans (List.suffix_cons _ _)
  · exact (strtoul_digits_suffix _ _ _ _ _ h).trans (List.suffix_cons _ _)
  · exact strtoul_digits_suffix _ _ _ _ _ h

theorem tok_u32_suffix (H : Host F) (q : Buf) (v : Nat) (ep : Buf)
    (h : tok_u32 H q = some (v, ep)) : ep <:+ q := by
  unfold tok_u32 at h
  split at h
  · cases h
  · next v0 ep0 heq =>
    split at h
    · cases h
    · simp only [Option.some.injEq, Prod.mk.injEq] at h
      rw [← h.2]
      exact strtoul_suffix _ _ _ _ heq

theorem tok_f32_suffix (H : Host F) (q : Buf) (v : F) (ep : Buf)
    (h : tok_f32 H q = some (v, ep)) : ep <:+ q := by
  unfold tok_f32 at h
  split at h
  · cases h
  · simp only [Option.some.injEq, Prod.mk.injEq] at h
    rw [← h.2]
    exact List.drop_suffix _ _

theorem split_at_newline (r : Buf) (h : '\n' ∈ r) :
    ∃ w y, r = w ++ '\n' :: y ∧ '\n' ∉ w := by
  induction r with
  | nil => cases h
  | cons c cs ih =>
    by_cases hc : c = '\n'
    · exact ⟨[], cs, by rw [hc]; rfl, by simp⟩
    · have : '\n' ∈ cs := by
        rcases List.mem_cons.mp h with e | e
        · exact absurd e.symm hc
        · exact e
      obtain ⟨w, y, e, hw⟩ := ih this
      refine ⟨c :: w, y, by rw [e]; rfl, ?_⟩
      intro hm
      rcases List.mem_cons.mp hm with e' | e'
      · exact hc e'.symm
      · exact hw e'

/-- A reader made of `skip_ws` and a token reader that stops at white space,
on a buffer without `\r` and on the buffer with `\r\n` for every `\n`. -/
theorem read_tok_crlf {V : Type} (rd : Buf → Option (V × Buf)) (hst : StopsAt rd)
    (hsuf : ∀ q v ep, rd q = some (v, ep) → ep <:+ q) (p : Buf) (hp : '\r' ∉ p) :
    (read_tok rd p = none → read_tok rd (crlf p) = none) ∧
    (∀ v q, read_tok rd p = some (v, q) →
      read_tok rd (crlf p) = some (v, crlf q) ∧ '\r' ∉ q) := by
  unfold read_tok
  rw [skip_ws_crlf]
  have hsp := skip_ws_suffix p
  cases hq : skip_ws p with
  | nil => exact ⟨fun _ => rfl, fun v q h => (by cases h)⟩
  | cons b rest =>
    have hb := skip_ws_head p b rest hq
    have hbn : b ≠ '\n' := by
      intro e; rw [e] at hb; exact absurd hb (by decide)
    rw [hq] at hsp
    have hr : ∀ v ep, rd (b :: rest) = some (v, ep) → '\r' ∉ ep := by
      intro v ep h hm
      exact hp ((hsp.subset) ((hsuf _ _ _ h).subset hm))
    simp only [crlf, if_neg hbn]
    by_cases hn : '\n' ∈ rest
    · obtain ⟨w, y, e, hw⟩ := split_at_newline rest hn
      subst e
      rw [crlf_append w _ hw]
      simp only [crlf, if_true]
      rcases hst b w '\n' '\r' y ('\n' :: crlf y) hb (by decide) (by decide) with
        ⟨e1, e2⟩ | ⟨v, k, hk, e1, e2⟩
      · simp only [List.cons_append] at e1 e2
        exact ⟨fun _ => e2, fun v q h => (by rw [e1] at h; cases h)⟩
      · simp only [List.cons_append] at e1 e2
        refine ⟨fun h => (by rw [e1] at h; cases h), fun v0 q h => ?_⟩
        rw [e1] at h
        simp only [Option.some.injEq, Prod.mk.injEq] at h
        obtain ⟨rfl, rfl⟩ := h
        refine ⟨?_, hr _ _ e1⟩
        rw [e2]
        have hd : '\n' ∉ (b :: w).drop k := by
          intro hm
          have := List.mem_of_mem_drop hm
          rcases List.mem_cons.mp this with e' | e'
          · exact hbn e'.symm
          · exact hw e'
        rw [crlf_append _ _ hd]
        simp only [crlf, if_true]
    · rw [crlf_self rest hn]
      refine ⟨fun h => h, fun v q h => ⟨?_, hr _ _ h⟩⟩
      rw [h]
      have hq' : '\n' ∉ q := by
        intro hm
        rcases List.mem_cons.mp ((hsuf _ _ _ h).subset hm) with e' | e'
        · exact hbn e'.symm
        · exact hn e'
      rw [crlf_self q hq']

theorem read_line_crlf (p : Buf) (hp : '\r' ∉ p) (a : List Char) (q : Buf)
    (h : read_line p = some (a, q)) :
    read_line (crlf p) = some (a, crlf q) ∧ '\r' ∉ q := by
  have hl := lineAt_of_read_line p a q h
  cases hl with
  | lf a0 q0 hn hr =>
    refine ⟨?_, fun hm => hp (List.mem_append_right _ (List.mem_cons_of_mem _ hm))⟩
    rw [crlf_append _ _ hn]
    simp only [crlf, if_true]
    exact read_line_of_lineAt _ _ _ (LineAt.crlf a (crlf q) hn)
  | crlf a0 q0 hn =>
    exact absurd (List.mem_append_right _ (List.mem_cons_self _ _)) hp
  | last _ ha hn hr =>
    rw [crlf_self p hn]
    exact ⟨h, by simp⟩
  | last_cr a0 hn =>
    exact absurd (List.mem_append_right _ (List.mem_cons_self _ _)) hp

theorem consume_eol_crlf (p : Buf) (hp : '\r' ∉ p) :
    consume_eol (crlf p) = crlf (consume_eol p) ∧ '\r' ∉ consume_eol p := by
  cases p with
  | nil => exact ⟨rfl, by simp [consume_eol]⟩
  | cons c cs =>
    have hc : c ≠ '\r' := fun e => hp (e ▸ List.mem_cons_self _ _)
    have hcs : '\r' ∉ cs := fun e => hp (List.mem_cons_of_mem _ e)
    by_cases hn : c = '\n'
    · subst hn
      have e1 : consume_eol ('\n' :: cs) = cs := by
        simp [consume_eol, read_line]
      have e2 : consume_eol ('\r' :: '\n' :: crlf cs) = crlf cs := by
        simp [consume_eol, read_line, List.takeWhile, List.dropWhile]
      rw [e1]
      simp only [crlf, if_true]
      exact ⟨e2, hcs⟩
    · have e1 : consume_eol (c :: cs) = c :: cs := by
        simp [consume_eol, hc, hn]
      have e2 : consume_eol (c :: crlf cs) = c :: crlf cs := by
        simp [consume_eol, hc, hn]
      rw [e1]
      simp only [crlf, if_neg hn]
      exact ⟨e2, hp⟩

/-- The two runs of the parser on a buffer without `\r` and on the buffer with
every `\n` replaced by `\r\n` are in simulation: the cursors are related by
`crlf`, nothing is left out, and the loggers are equal. -/
theorem crlf_simulation (H : Host F) (hl : H.strtof_stops) :
    ∃ S : CursorSim H, S.strong ∧ S.L [] [] ∧ (∀ l l', S.L l l' → l = l') ∧
      ∀ p, '\r' ∉ p → S.R p (crlf p) := by
  let S : CursorSim H :=
    { R := fun p p' => p' = crlf p ∧ '\r' ∉ p
      P := fun _ => False
      strong := True
      L := Eq
      P_mono := fun _ _ h _ => h
      P_strong := fun _ _ h => h
      L_snoc := fun _ _ _ h => by rw [h]
      nil := fun p p' h => by
        have e : p = [] ↔ p' = [] := by rw [h.1, crlf_eq_nil]
        exact ⟨e.mp, fun h1 => Or.inl (e.mpr h1)⟩
      line := fun p p' a q h hr _ => by
        obtain ⟨e, hp⟩ := h
        subst e
        obtain ⟨e1, e2⟩ := read_line_crlf p hp a q hr
        exact ⟨_, e1, rfl, e2⟩
      u32_none := fun p p' h _ hr => by
        obtain ⟨e, hp⟩ := h
        subst e
        rw [read_u32_eq] at hr ⊢
        exact (read_tok_crlf _ (tok_u32_stops H) (tok_u32_suffix H) p hp).1 hr
      u32 := fun p p' v q h hr _ => by
        obtain ⟨e, hp⟩ := h
        subst e
        rw [read_u32_eq] at hr
        obtain ⟨e1, e2⟩ := (read_tok_crlf _ (tok_u32_stops H) (tok_u32_suffix H) p hp).2 v q hr
        exact ⟨_, by rw [read_u32_eq]; exact e1, rfl, e2⟩
      f32_none := fun p p' h _ hr => by
        obtain ⟨e, hp⟩ := h
        subst e
        rw [read_f32_eq] at hr ⊢
        exact (read_tok_crlf _ (tok_f32_stops H hl) (tok_f32_suffix H) p hp).1 hr
      f32 := fun p p' v q h hr _ => by
        obtain ⟨e, hp⟩ := h
        subst e
        rw [read_f32_eq] at hr
        obtain ⟨e1, e2⟩ :=
          (read_tok_crlf _ (tok_f32_stops H hl) (tok_f32_suffix H) p hp).2 v q hr
        exact ⟨_, by rw [read_f32_eq]; exact e1, rfl, e2⟩
      eol := fun p p' h _ => by
        obtain ⟨e, hp⟩ := h
        subst e
        exact ⟨(consume_eol_crlf p hp).1, (consume_eol_crlf p hp).2⟩
    }
  exact ⟨S, trivial, rfl, fun _ _ h => h, fun p hp => ⟨rfl, hp⟩⟩

theorem CursorSim.cx_finish {H : Host F} (S : CursorSim H) {c c' : Context F}
    (h : S.Cx c c') : S.Cx (finish c) (finish c') := by
  have h1 := S.cx_pop_if_kind (S.cx_pop_if_kind h NodeKind.Model) NodeKind.File
  unfold finish
  simp only
  generalize pop_if_kind (pop_if_kind c NodeKind.Model) NodeKind.File = d at h1 ⊢
  generalize pop_if_kind (pop_if_kind c' NodeKind.Model) NodeKind.File = d' at h1 ⊢
  obtain ⟨l', rfl, hl⟩ := S.cx_elim h1
  obtain ⟨s, l, pa, st⟩ := d
  simp only
  split
  · exact ⟨rfl, rfl, rfl, hl⟩
  · exact ⟨rfl, rfl, rfl, S.L_snoc _ _ _ hl⟩

/-- The result of the top-level loop does not depend on the fuel, once there
is enough of it. -/
theorem top_level_any_fuel (H : Host F) (f1 f2 : Nat) (ctx : Context F) (p : Buf) (r : Res F)
    (h : top_level H f1 ctx p = some r) (hf : 2 * p.length + 1 ≤ f2) :
    top_level H f2 ctx p = some r := by
  have hs := top_level_total H f2 ctx p hf
  obtain ⟨r2, hr2⟩ := Option.isSome_iff_exists.mp hs
  have e1 := top_level_fuel_le H _ _ (Nat.le_max_left f1 f2) _ _ _ h
  have e2 := top_level_fuel_le H _ _ (Nat.le_max_right f1 f2) _ _ _ hr2
  rw [e1] at e2
  simp only [Option.some.injEq] at e2
  rw [hr2, e2]

/-- Two runs of `parseREV` that correspond, failures included, from the start
of their buffers give corresponding results. -/
theorem CursorSim.parseREV_sim {H : Host F} (S : CursorSim H) (hs : S.strong)
    (hL : S.L [] []) (store : Store F) (path : Option (List Char)) (buf buf' : Buf)
    (hR : S.R buf buf') :
    ∃ r r', parseREV H store path buf = some r ∧ parseREV H store path buf' = some r' ∧
      S.RelRes r r' := by
  have np : ∀ q, ¬ S.P q := S.P_strong hs
  have hc0 : S.Cx ({ store := store, path := path } : Context F) { store := store, path := path } :=
    ⟨rfl, rfl, rfl, hL⟩
  obtain ⟨r, hr⟩ := parseREV_returns H store path buf
  suffices key : ∃ r', parseREV H store path buf' = some r' ∧ S.RelRes r r' by
    obtain ⟨r', h1, h2⟩ := key
    exact ⟨r, r', hr, h1, h2⟩
  unfold parseREV parseREV_fuel at hr ⊢
  simp only at hr ⊢
  split at hr
  · next h0 =>
    simp only [Option.some.injEq] at hr; subst hr
    simp only [S.header_none _ _ hR hs h0]
    exact ⟨_, rfl, rfl, S.cx_set_error hc0 _, fun h => (by cases h)⟩
  · next id p0 h0 =>
    obtain ⟨p0', e0, R0⟩ := S.header_some _ _ hR id p0 h0 (np _)
    simp only [e0]
    split at hr
    · next hid =>
      simp only [Option.some.injEq] at hr; subst hr
      rw [if_pos hid]
      exact ⟨_, rfl, rfl, S.cx_set_error hc0 _, fun h => (by cases h)⟩
    · next hid =>
      rw [if_neg hid]
      have g1 := S.parse_head_txt_sim _ _ p0 p0' hc0 R0
        ⟨fun _ => np _, fun _ => hs⟩
      obtain ⟨o1, c1, R1⟩ := g1
      split at hr
      · next ho =>
        rw [ho] at o1
        simp only [o1, if_true]
        split at hr
        · cases hr
        · next r2 h2 =>
          obtain ⟨r2', e2, o2, c2, R2⟩ := (S.loops_sim _).2.2 _ _ _ _ _ c1 (R1 ho) h2
            ⟨fun _ => np _, fun _ => hs⟩
          have hl1 := read_chunk_header_txt_length _ _ _ _ e0
          have hl2 := parse_head_txt_length H _ p0' _ rfl o1
          have e2' := top_level_any_fuel H _ (2 * buf'.length + 2) _ _ _ e2 (by omega)
          simp only [e2']
          split at hr
          · next ho2 =>
            simp only [Option.some.injEq] at hr; subst hr
            rw [ho2] at o2
            simp only [o2, if_true]
            exact ⟨_, rfl, rfl, S.cx_finish c2, fun _ => R2 ho2⟩
          · next ho2 =>
            simp only [Option.some.injEq] at hr; subst hr
            simp only [Bool.not_eq_true] at ho2
            have o2' := o2
            rw [ho2] at o2'
            simp only [o2']
            exact ⟨_, rfl, o2, c2, R2⟩
      · next ho =>
        simp only [Option.some.injEq] at hr; subst hr
        simp only [Bool.not_eq_true] at ho
        have o1' := o1
        rw [ho] at o1'
        simp only [o1']
        exact ⟨_, rfl, o1, c1, R1⟩

/-- The `strtof` of the host for evaluation stops at white space. -/
theorem sampleHost_stops : sampleHost.strtof_stops := by
  intro b w c c' y y' _ hc hc'
  have hd := isspace_not_digit c hc
  have hd' := isspace_not_digit c' hc'
  show strtof_int (b :: w ++ c :: y) = strtof_int (b :: w ++ c' :: y') ∧
    ∀ v n, strtof_int (b :: w ++ c :: y) = some (v, n) → n ≤ (b :: w).length
  by_cases hm : b = '-'
  · subst hm
    obtain ⟨v, m, k, hk, hmk, e1, e2⟩ := scanDigits_stops w 0 0 c c' y y' hd hd'
    simp only [List.cons_append, strtof_int, e1, e2]
    cases m with
    | zero => exact ⟨rfl, fun v0 n0 h => (by simp at h)⟩
    | succ m' =>
      refine ⟨rfl, fun v0 n0 h => ?_⟩
      simp only [Option.some.injEq, Prod.mk.injEq] at h
      simp only [List.length_cons]
      omega
  · obtain ⟨v, m, k, hk, hmk, e1, e2⟩ := scanDigits_stops (b :: w) 0 0 c c' y y' hd hd'
    have h0 : ∀ r : Buf, strtof_int (b :: r) =
        (match scanDigits 0 0 (b :: r) with
          | (_, 0, _) => none
          | (v, n + 1, _) => some ((v : ℚ), n + 1)) := by
      intro r
      unfold strtof_int
      split
      · next heq => simp only [List.cons.injEq] at heq; exact absurd heq.1 hm
      · rfl
    simp only [List.cons_append] at e1 e2 ⊢
    rw [h0, h0, e1, e2]
    cases m with
    | zero => exact ⟨rfl, fun v0 n0 h => (by simp at h)⟩
    | succ m' =>
      refine ⟨rfl, fun v0 n0 h => ?_⟩
      simp only [Option.some.injEq, Prod.mk.injEq] at h
      simp only [List.length_cons] at hk ⊢
      omega

theorem result_unique (H : Host F) (s : Pos F) (r r2 : Res F) (h : Result H s r)
    (h2 : Result H s r2) : r = r2 := by
  obtain ⟨f1, h1⟩ := h
  obtain ⟨f2, h2⟩ := h2
  have e1 := run_fuel_le H s.level _ _ (Nat.le_max_left f1 f2) _ _ _ h1
  have e2 := run_fuel_le H s.level _ _ (Nat.le_max_right f1 f2) _ _ _ h2
  rw [e1] at e2
  simp only [Option.some.injEq] at e2
  exact e2

theorem result_exists (H : Host F) (s : Pos F) : ∃ r, Result H s r := by
  obtain ⟨l, ctx, p⟩ := s
  cases l with
  | root =>
    obtain ⟨r, hr⟩ := Option.isSome_iff_exists.mp
      (top_level_total H (2 * p.length + 1) ctx p (Nat.le_refl _))
    exact ⟨r, 2 * p.length + 1, hr⟩
  | group =>
    obtain ⟨r, hr⟩ := Option.isSome_iff_exists.mp
      ((cntb_total H (2 * p.length + 1)).2 ctx p (Nat.le_refl _))
    exact ⟨r, 2 * p.length + 1, hr⟩

theorem back_modl (H : Host F) (ctx : Context F) (p p1 : Buf)
    (hh : read_chunk_header_txt H p = some ("MODL".toList, p1))
    (ho : (parse_modl_txt H ctx p1).ok = true) (x : Res F)
    (hx : Result H ⟨.root, (parse_modl_txt H ctx p1).ctx, (parse_modl_txt H ctx p1).p⟩ x) :
    Result H ⟨.root, ctx, p⟩ x := by
  obtain ⟨fuel, hr⟩ := hx
  obtain ⟨c, cs, rfl⟩ := header_ne_nil H _ _ _ hh
  refine ⟨fuel + 1, ?_⟩
  simp only [run] at hr ⊢
  rw [top_level.eq_3]
  simp only [hh, ho, if_true]
  exact hr

theorem back_stray (H : Host F) (ctx : Context F) (p p1 : Buf)
    (hh : read_chunk_header_txt H p = some ("CNTE".toList, p1)) (x : Res F)
    (hx : Result H ⟨.root, { ctx with logger := ctx.logger ++
      [(1, "parseREV: Unexpected CNTE at root level, ignoring.".toList)] }, p1⟩ x) :
    Result H ⟨.root, ctx, p⟩ x := by
  obtain ⟨fuel, hr⟩ := hx
  obtain ⟨c, cs, rfl⟩ := header_ne_nil H _ _ _ hh
  refine ⟨fuel + 1, ?_⟩
  simp only [run] at hr ⊢
  rw [top_level.eq_3]
  simp only [hh, if_true]
  exact hr

theorem back_group_done (H : Host F) (l : Level) (ctx : Context F) (p p1 : Buf) (f1 : Nat)
    (r1 : Res F) (hh : read_chunk_header_txt H p = some ("CNTB".toList, p1))
    (hp : parse_cntb_txt H f1 ctx p1 = some r1) (ho : r1.ok = true) (x : Res F)
    (hx : Result H ⟨l, r1.ctx, r1.p⟩ x) : Result H ⟨l, ctx, p⟩ x := by
  obtain ⟨fuel, hr⟩ := hx
  obtain ⟨c, cs, rfl⟩ := header_ne_nil H _ _ _ hh
  refine ⟨max fuel f1 + 1, ?_⟩
  have hp' := (cntb_fuel_le H f1 (max fuel f1) (Nat.le_max_right _ _)).1 _ _ _ hp
  have hr' := run_fuel_le H l fuel (max fuel f1) (Nat.le_max_left _ _) _ _ _ hr
  cases l with
  | root =>
    simp only [run] at hr' ⊢
    rw [top_level.eq_3]
    simp only [hh, hp', ho, if_true]
    exact hr'
  | group =>
    simp only [run] at hr' ⊢
    rw [cntb_children.eq_3]
    simp only [hh, hp', ho, if_true]
    exact hr'

theorem back_prim (H : Host F) (ctx : Context F) (p p1 : Buf) (id : List Char)
    (hh : read_chunk_header_txt H p = some (id, p1))
    (hid : id = "PRIM".toList ∨ id = "OBST".toList ∨ id = "INSU".toList)
    (ho : (parse_prim_txt H ctx id p1).ok = true) (x : Res F)
    (hx : Result H ⟨.group, (parse_prim_txt H ctx id p1).ctx,
      (parse_prim_txt H ctx id p1).p⟩ x) : Result H ⟨.group, ctx, p⟩ x := by
  obtain ⟨fuel, hr⟩ := hx
  obtain ⟨c, cs, rfl⟩ := header_ne_nil H _ _ _ hh
  refine ⟨fuel + 1, ?_⟩
  simp only [run] at hr ⊢
  rw [cntb_children.eq_3]
  have h1 : id ≠ "CNTE".toList := by rcases hid with h | h | h <;> (rw [h]; decide)
  have h2 : id ≠ "CNTB".toList := by rcases hid with h | h | h <;> (rw [h]; decide)
  simp only [hh]
  rw [if_neg h1, if_neg h2, if_pos hid]
  simp only [ho, if_true]
  exact hr

/-- The result at the head before a group that is entered: the failure of the
loop over the children, or the result of the loop the group is in, run from
where the loop over the children returned. -/
theorem back_enter (H : Host F) (l : Level) (ctx : Context F) (p p1 : Buf)
    (hh : read_chunk_header_txt H p = some ("CNTB".toList, p1))
    (ho : (cntb_open H ctx p1).ok = true) (x y : Res F)
    (hx : Result H ⟨.group, (cntb_open H ctx p1).ctx, (cntb_open H ctx p1).p⟩ x)
    (h1 : x.ok = true → Result H ⟨l, x.ctx, x.p⟩ y) (h0 : x.ok = false → y = x) :
    Result H ⟨l, ctx, p⟩ y := by
  obtain ⟨fuel, hr⟩ := hx
  obtain ⟨c, cs, rfl⟩ := header_ne_nil H _ _ _ hh
  simp only [run] at hr
  have hp : parse_cntb_txt H (fuel + 1) ctx p1 = some x := by
    simp only [parse_cntb_txt, ho, if_true]
    exact hr
  cases hok : x.ok with
  | false =>
    rw [h0 hok]
    refine ⟨fuel + 2, ?_⟩
    cases l with
    | root =>
      simp only [run]
      rw [top_level.eq_3]
      simp [hh, hp, hok]
    | group =>
      simp only [run]
      rw [cntb_children.eq_3]
      simp [hh, hp, hok]
  | true =>
    exact back_group_done H l ctx _ p1 (fuel + 1) x hh hp hok y (h1 hok)

theorem next_length (H : Host F) (t u : Pos F) (hn : Next H t u) :
    u.p.length ≤ t.p.length := by
  cases hn with
  | modl ctx p p1 hh ho =>
    have := read_chunk_header_txt_length _ _ _ _ hh
    have := parse_modl_txt_length H ctx p1 _ rfl ho
    simp only
    omega
  | stray_cnte ctx p p1 hh =>
    have := read_chunk_header_txt_length _ _ _ _ hh
    simp only
    omega
  | group_done l ctx p p1 f1 r1 hh hp ho =>
    have := read_chunk_header_txt_length _ _ _ _ hh
    have := (cntb_length H f1).1 _ _ _ hp ho
    simp only
    omega
  | group_enter l ctx p p1 hh ho =>
    have := read_chunk_header_txt_length _ _ _ _ hh
    have := cntb_open_length H ctx p1 _ rfl ho
    simp only
    omega
  | prim_done ctx p p1 id hh hid ho =>
    have := read_chunk_header_txt_length _ _ _ _ hh
    have := parse_prim_txt_length H ctx id p1 _ rfl ho
    simp only
    omega

theorem reaches_length (H : Host F) (s t : Pos F) (h : Reaches H s t) :
    t.p.length ≤ s.p.length := by
  induction h with
  | refl => exact Nat.le_refl _
  | tail _ hn ih => exact Nat.le_trans (next_length H _ _ hn) ih

/-- One move of the reader in the first run, to a head at which the second run
is known to correspond, is a move of the same kind in the second run. -/
theorem CursorSim.next_sim {H : Host F} (S : CursorSim H) (t u t' : Pos F)
    (hn : Next H t u) (hrel : S.PosRel t t') (hp : ¬ S.P u.p) :
    ∃ u', Next H t' u' ∧ S.PosRel u u' ∧ BackEq H t t' u u' := by
  obtain ⟨l', c', p'⟩ := t'
  cases hn with
  | modl ctx p p1 hh ho =>
    obtain ⟨hl, hc, hR⟩ := hrel
    simp only at hl hc hR hp
    subst hl
    have l1 := parse_modl_txt_length H ctx p1 _ rfl ho
    obtain ⟨p1', hh', R1⟩ := S.header_some p p' hR _ p1 hh (S.not_past hp l1)
    obtain ⟨e1, c1, R2⟩ := S.parse_modl_txt_sim ctx c' p1 p1' hc R1
      ⟨fun _ => hp, fun hf => (by rw [ho] at hf; cases hf)⟩
    rw [ho] at e1
    exact ⟨_, Next.modl c' p' p1' hh' e1, ⟨rfl, c1, R2 ho⟩,
      fun x hx hx' => ⟨x, back_modl H ctx p p1 hh ho x hx,
        back_modl H c' p' p1' hh' e1 x hx'⟩⟩
  | stray_cnte ctx p p1 hh =>
    obtain ⟨hl, hc, hR⟩ := hrel
    simp only at hl hc hR hp
    subst hl
    obtain ⟨p1', hh', R1⟩ := S.header_some p p' hR _ p1 hh hp
    exact ⟨_, Next.stray_cnte c' p' p1' hh', ⟨rfl, S.cx_log hc _, R1⟩,
      fun x hx hx' => ⟨x, back_stray H ctx p p1 hh x hx, back_stray H c' p' p1' hh' x hx'⟩⟩
  | group_done l ctx p p1 f1 r1 hh hpc ho =>
    obtain ⟨hl, hc, hR⟩ := hrel
    simp only at hl hc hR hp
    cases hl
    have l1 := (cntb_length H f1).1 _ _ _ hpc ho
    obtain ⟨p1', hh', R1⟩ := S.header_some p p' hR _ p1 hh (S.not_past hp l1)
    obtain ⟨r1', hpc', e1, c1, R2⟩ := (S.loops_sim f1).1 ctx c' p1 p1' r1 hc R1 hpc
      ⟨fun _ => hp, fun hf => (by rw [ho] at hf; cases hf)⟩
    rw [ho] at e1
    exact ⟨⟨l', r1'.ctx, r1'.p⟩, Next.group_done l' c' p' p1' f1 r1' hh' hpc' e1,
      ⟨rfl, c1, R2 ho⟩,
      fun x hx hx' => ⟨x, back_group_done H l' ctx p p1 f1 r1 hh hpc ho x hx,
        back_group_done H l' c' p' p1' f1 r1' hh' hpc' e1 x hx'⟩⟩
  | group_enter l ctx p p1 hh ho =>
    obtain ⟨hl, hc, hR⟩ := hrel
    simp only at hl hc hR hp
    cases hl
    have l1 := cntb_open_length H ctx p1 _ rfl ho
    obtain ⟨p1', hh', R1⟩ := S.header_some p p' hR _ p1 hh (S.not_past hp l1)
    obtain ⟨e1, c1, R2⟩ := S.cntb_open_sim ctx c' p1 p1' hc R1
      ⟨fun _ => hp, fun hf => (by rw [ho] at hf; cases hf)⟩
    rw [ho] at e1
    refine ⟨_, Next.group_enter l' c' p' p1' hh' e1, ⟨rfl, c1, R2 ho⟩, ?_⟩
    intro x hx hx'
    cases hok : x.ok with
    | false =>
      exact ⟨x, back_enter H l' ctx p p1 hh ho x x hx
          (fun h => (by rw [hok] at h; cases h)) (fun _ => rfl),
        back_enter H l' c' p' p1' hh' e1 x x hx'
          (fun h => (by rw [hok] at h; cases h)) (fun _ => rfl)⟩
    | true =>
      obtain ⟨y, hy⟩ := result_exists H ⟨l', x.ctx, x.p⟩
      exact ⟨y, back_enter H l' ctx p p1 hh ho x y hx (fun _ => hy)
          (fun h => (by rw [hok] at h; cases h)),
        back_enter H l' c' p' p1' hh' e1 x y hx' (fun _ => hy)
          (fun h => (by rw [hok] at h; cases h))⟩
  | prim_done ctx p p1 id hh hid ho =>
    obtain ⟨hl, hc, hR⟩ := hrel
    simp only at hl hc hR hp
    subst hl
    have l1 := parse_prim_txt_length H ctx id p1 _ rfl ho
    obtain ⟨p1', hh', R1⟩ := S.header_some p p' hR _ p1 hh (S.not_past hp l1)
    obtain ⟨e1, c1, R2⟩ := S.parse_prim_txt_sim ctx c' id p1 p1' hc R1
      ⟨fun _ => hp, fun hf => (by rw [ho] at hf; cases hf)⟩
    rw [ho] at e1
    exact ⟨_, Next.prim_done c' p' p1' id hh' hid e1, ⟨rfl, c1, R2 ho⟩,
      fun x hx hx' => ⟨x, back_prim H ctx p p1 id hh hid ho x hx,
        back_prim H c' p' p1' id hh' hid e1 x hx'⟩⟩

/-- The way of the reader in the first run to a head at which the second run
is known to correspond is a way of the reader in the second run. -/
theorem CursorSim.reaches_sim {H : Host F} (S : CursorSim H) (s t : Pos F)
    (h : Reaches H s t) :
    ∀ s', S.PosRel s s' → ¬ S.P t.p →
      ∃ t', Reaches H s' t' ∧ S.PosRel t t' ∧ BackEq H s s' t t' := by
  induction h with
  | refl =>
    intro s' hrel _
    exact ⟨s', Relation.ReflTransGen.refl, hrel, fun r h1 h2 => ⟨r, h1, h2⟩⟩
  | tail _ hn ih =>
    intro s' hrel hp
    obtain ⟨t', ht, hrel', hb⟩ := ih s' hrel (S.not_past hp (next_length H _ _ hn))
    obtain ⟨u', hn', hrel2, hb2⟩ := S.next_sim _ _ t' hn hrel' hp
    refine ⟨u', ht.tail hn', hrel2, ?_⟩
    intro r h1 h2
    obtain ⟨r1, h3, h4⟩ := hb2 r h1 h2
    exact hb r1 h3 h4

/-- A head of the top-level loop is reached by moves of the top-level loop, and
the loop returns at the head the reader came from what it returns there. -/
theorem reaches_root_back (H : Host F) (s t : Pos F) (h : Reaches H s t)
    (ht : t.level = .root) : s.level = .root ∧ ∀ x, Result H t x → Result H s x := by
  induction h with
  | refl => exact ⟨ht, fun _ h => h⟩
  | tail _ hn ih =>
    cases hn with
    | modl ctx p p1 hh ho =>
      obtain ⟨h1, h2⟩ := ih rfl
      exact ⟨h1, fun x hx => h2 x (back_modl H ctx p p1 hh ho x hx)⟩
    | stray_cnte ctx p p1 hh =>
      obtain ⟨h1, h2⟩ := ih rfl
      exact ⟨h1, fun x hx => h2 x (back_stray H ctx p p1 hh x hx)⟩
    | group_done l ctx p p1 f1 r1 hh hpc ho =>
      simp only at ht
      subst ht
      obtain ⟨h1, h2⟩ := ih rfl
      exact ⟨h1, fun x hx => h2 x (back_group_done H _ ctx p p1 f1 r1 hh hpc ho x hx)⟩
    | group_enter l ctx p p1 hh ho => cases ht
    | prim_done ctx p p1 id hh hid ho => cases ht

/-- What `parseREV` returns, from what the top-level loop returns at its first
iteration. -/
theorem parseREV_of_result (H : Host F) (store : Store F) (path : Option (List Char))
    (buf p0 : Buf) (hh : read_chunk_header_txt H buf = some ("HEAD".toList, p0))
    (ho : (parse_head_txt H { store := store, path := path } p0).ok = true) (x : Res F)
    (hx : Result H ⟨.root, (parse_head_txt H { store := store, path := path } p0).ctx,
      (parse_head_txt H { store := store, path := path } p0).p⟩ x) :
    parseREV H store path buf = some (if x.ok then ⟨true, finish x.ctx, x.p⟩ else x) := by
  obtain ⟨f1, h1⟩ := hx
  simp only [run] at h1
  have hlen := read_chunk_header_txt_length _ _ _ _ hh
  have hlen2 := parse_head_txt_length H _ p0 _ rfl ho
  have h2 := top_level_any_fuel H f1 (2 * buf.length + 2) _ _ _ h1 (by omega)
  unfold parseREV parseREV_fuel
  simp only [hh]
  rw [if_neg (by simp)]
  simp only [ho, if_true, h2]
  cases x.ok <;> simp

/-- What `parseREV` returns, from what the top-level loop returns at a head it
comes to. -/
theorem parseREV_of_visits_root (H : Host F) (store : Store F) (path : Option (List Char))
    (buf : Buf) (s : Pos F) (hv : Visits H store path buf s) (hs : s.level = .root)
    (x : Res F) (hx : Result H s x) :
    parseREV H store path buf = some (if x.ok then ⟨true, finish x.ctx, x.p⟩ else x) := by
  obtain ⟨p0, hh, ho, hreach⟩ := hv
  exact parseREV_of_result H store path buf p0 hh ho x
    ((reaches_root_back H _ _ hreach hs).2 x hx)

/-- The way of `parseREV` on the first buffer to a head at which the second
run is known to correspond is a way of `parseREV` on the second buffer, and the
two calls return the same when the loops return the same at the two heads. -/
theorem CursorSim.visits_sim {H : Host F} (S : CursorSim H) (hL : S.L [] [])
    (store : Store F) (path : Option (List Char)) (B B' : Buf) (s : Pos F)
    (hv : Visits H store path B s) (hR : S.R B B') (hp : ¬ S.P s.p) :
    ∃ s', Visits H store path B' s' ∧ S.PosRel s s' ∧
      ((∃ x, Result H s x ∧ Result H s' x) →
        parseREV H store path B' = parseREV H store path B) := by
  obtain ⟨p0, hh, ho, hreach⟩ := hv
  have l1 := reaches_length H _ _ hreach
  simp only at l1
  have l2 := parse_head_txt_length H { store := store, path := path } p0 _ rfl ho
  have np := S.not_past hp l1
  obtain ⟨p0', hh', R1⟩ := S.header_some B B' hR _ p0 hh (S.not_past np l2)
  have hc0 : S.Cx ({ store := store, path := path } : Context F)
      { store := store, path := path } := ⟨rfl, rfl, rfl, hL⟩
  obtain ⟨e1, c1, R2⟩ := S.parse_head_txt_sim _ _ p0 p0' hc0 R1
    ⟨fun _ => np, fun hf => (by rw [ho] at hf; cases hf)⟩
  rw [ho] at e1
  obtain ⟨s', hreach', hrel, hb⟩ := S.reaches_sim _ _ hreach
    ⟨.root, (parse_head_txt H { store := store, path := path } p0').ctx,
      (parse_head_txt H { store := store, path := path } p0').p⟩ ⟨rfl, c1, R2 ho⟩ hp
  refine ⟨s', ⟨p0', hh', e1, hreach'⟩, hrel, ?_⟩
  rintro ⟨x, hx, hx'⟩
  obtain ⟨r0, h3, h4⟩ := hb x hx hx'
  rw [parseREV_of_result H store path B p0 hh ho r0 h3,
    parseREV_of_result H store path B' p0' hh' e1 r0 h4]

theorem read_line_split (w r : Buf) (h : '\n' ∉ w) :
    read_line (w ++ '\n' :: r) =
      some (if w.getLast? = some '\r' then w.dropLast else w, r) := by
  obtain ⟨h1, h2⟩ := takeWhile_line w r h
  have := read_line_of_parts (w ++ '\n' :: r) _ _ (by simp) h1 h2
  rw [this]
  rfl

theorem read_line_tail (u y1 : Buf) (a : List Char) (q : Buf)
    (h : read_line (u ++ '\n' :: y1) = some (a, q)) :
    (∃ u', q = u' ++ '\n' :: y1 ∧
      ∀ y2, read_line (u ++ '\n' :: y2) = some (a, u' ++ '\n' :: y2)) ∨
    (q = y1 ∧ ∀ y2, read_line (u ++ '\n' :: y2) = some (a, y2)) := by
  by_cases hn : '\n' ∈ u
  · obtain ⟨w, y, e, hw⟩ := split_at_newline u hn
    subst e
    left
    have e1 : ∀ z, (w ++ '\n' :: y) ++ '\n' :: z = w ++ '\n' :: (y ++ '\n' :: z) := by
      intro z; simp
    rw [e1, read_line_split w _ hw] at h
    simp only [Option.some.injEq, Prod.mk.injEq] at h
    refine ⟨y, h.2.symm, fun y2 => ?_⟩
    rw [e1, read_line_split w _ hw, h.1]
  · right
    rw [read_line_split u _ hn] at h
    simp only [Option.some.injEq, Prod.mk.injEq] at h
    refine ⟨h.2.symm, fun y2 => ?_⟩
    rw [read_line_split u _ hn, h.1]

theorem consume_eol_cases (p : Buf) :
    (consume_eol p = p ∧ ∀ c r, p = c :: r → c ≠ '\r' ∧ c ≠ '\n') ∨
    (∃ a q, read_line p = some (a, q) ∧ consume_eol p = q ∧
      ∃ c r, p = c :: r ∧ (c = '\r' ∨ c = '\n')) := by
  cases p with
  | nil => left; exact ⟨rfl, fun c r h => (by cases h)⟩
  | cons c cs =>
    by_cases hc : c = '\r' ∨ c = '\n'
    · right
      have hr : ∃ a q, read_line (c :: cs) = some (a, q) := ⟨_, _, rfl⟩
      obtain ⟨a, q, e⟩ := hr
      refine ⟨a, q, e, ?_, c, cs, rfl, hc⟩
      simp only [consume_eol, if_pos hc, e]
    · left
      refine ⟨by simp only [consume_eol, if_neg hc], fun c' r h => ?_⟩
      simp only [List.cons.injEq] at h
      rw [← h.1]
      exact ⟨fun e => hc (Or.inl e), fun e => hc (Or.inr e)⟩

theorem consume_eol_tail (u y1 : Buf) :
    (∃ u', consume_eol (u ++ '\n' :: y1) = u' ++ '\n' :: y1 ∧
      ∀ y2, consume_eol (u ++ '\n' :: y2) = u' ++ '\n' :: y2) ∨
    (consume_eol (u ++ '\n' :: y1) = y1 ∧ ∀ y2, consume_eol (u ++ '\n' :: y2) = y2) := by
  have key : ∀ y, (consume_eol (u ++ '\n' :: y) = u ++ '\n' :: y ∧
      ∃ c r, u = c :: r ∧ c ≠ '\r' ∧ c ≠ '\n') ∨
      (∃ a q, read_line (u ++ '\n' :: y) = some (a, q) ∧
        consume_eol (u ++ '\n' :: y) = q ∧ ∀ c r, u = c :: r → (c = '\r' ∨ c = '\n')) := by
    intro y
    rcases consume_eol_cases (u ++ '\n' :: y) with ⟨e, hc⟩ | ⟨a, q, e1, e2, c, r, e3, hc⟩
    · left
      cases u with
      | nil => exact absurd rfl (hc '\n' y rfl).2
      | cons c r => exact ⟨e, c, r, rfl, hc c _ rfl⟩
    · right
      refine ⟨a, q, e1, e2, fun c' r' hu => ?_⟩
      subst hu
      simp only [List.cons_append, List.cons.injEq] at e3
      rw [e3.1]
      exact hc
  rcases key y1 with ⟨e, c, r, hu, hc⟩ | ⟨a, q, e1, e2, hc⟩
  · left
    refine ⟨u, e, fun y2 => ?_⟩
    rcases key y2 with ⟨e', _⟩ | ⟨_, _, _, _, hc'⟩
    · exact e'
    · rcases hc' c r hu with h | h
      · exact absurd h hc.1
      · exact absurd h hc.2
  · rcases read_line_tail u y1 a q e1 with ⟨u', hq, h2⟩ | ⟨hq, h2⟩
    · left
      refine ⟨u', by rw [e2, hq], fun y2 => ?_⟩
      rcases key y2 with ⟨_, c, r, hu, hc'⟩ | ⟨a', q', e1', e2', _⟩
      · rcases hc c r hu with h | h
        · exact absurd h hc'.1
        · exact absurd h hc'.2
      · rw [e2']
        have := h2 y2
        rw [e1'] at this
        simp only [Option.some.injEq, Prod.mk.injEq] at this
        exact this.2
    · right
      refine ⟨by rw [e2, hq], fun y2 => ?_⟩
      rcases key y2 with ⟨_, c, r, hu, hc'⟩ | ⟨a', q', e1', e2', _⟩
      · rcases hc c r hu with h | h
        · exact absurd h hc'.1
        · exact absurd h hc'.2
      · rw [e2']
        have := h2 y2
        rw [e1'] at this
        simp only [Option.some.injEq, Prod.mk.injEq] at this
        exact this.2

theorem read_tok_space {V : Type} (rd : Buf → Option (V × Buf)) (c : Char) (p : Buf)
    (hc : isspace c = true) : read_tok rd (c :: p) = read_tok rd p := by
  unfold read_tok
  simp only [skip_ws, hc, if_true]

theorem read_tok_length {V : Type} (rd : Buf → Option (V × Buf))
    (hlen : ∀ q v ep, rd q = some (v, ep) → ep.length < q.length) (p : Buf) (v : V) (q : Buf)
    (h : read_tok rd p = some (v, q)) : q.length < p.length := by
  unfold read_tok at h
  have := skip_ws_length p
  split at h
  · cases h
  · next b rest e =>
    rw [e] at this
    have := hlen _ _ _ h
    omega

/-- A reader made of `skip_ws` and a token reader that stops at white space,
before a line break: the token ends before the line break, and is read the
same whatever comes after the line break, or it is read after the line
break. -/
theorem read_tok_tail {V : Type} (rd : Buf → Option (V × Buf)) (hst : StopsAt rd)
    (hlen : ∀ q v ep, rd q = some (v, ep) → ep.length < q.length) (y1 : Buf) (v : V)
    (q : Buf) (u : Buf) (h : read_tok rd (u ++ '\n' :: y1) = some (v, q)) :
    (∃ u', q = u' ++ '\n' :: y1 ∧
      ∀ y2, read_tok rd (u ++ '\n' :: y2) = some (v, u' ++ '\n' :: y2)) ∨
    q.length < y1.length := by
  induction u with
  | nil =>
    right
    rw [List.nil_append, read_tok_space rd '\n' y1 (by decide)] at h
    exact read_tok_length rd hlen _ _ _ h
  | cons c u2 ih =>
    cases hc : isspace c with
    | true =>
      rw [List.cons_append, read_tok_space rd c _ hc] at h
      rcases ih h with ⟨u', e1, e2⟩ | hlt
      · left
        refine ⟨u', e1, fun y2 => ?_⟩
        rw [List.cons_append, read_tok_space rd c _ hc]
        exact e2 y2
      · right; exact hlt
    | false =>
      left
      have hsk : ∀ y, read_tok rd (c :: u2 ++ '\n' :: y) = rd (c :: u2 ++ '\n' :: y) := by
        intro y
        unfold read_tok
        simp only [List.cons_append, skip_ws, hc]
        rfl
      rw [hsk] at h
      have key : ∀ y2, ∃ u', q = u' ++ '\n' :: y1 ∧
          rd (c :: u2 ++ '\n' :: y2) = some (v, u' ++ '\n' :: y2) := by
        intro y2
        rcases hst c u2 '\n' '\n' y1 y2 hc (by decide) (by decide) with
          ⟨e1, _⟩ | ⟨v0, k, _, e1, e2⟩
        · rw [e1] at h; cases h
        · rw [e1] at h
          simp only [Option.some.injEq, Prod.mk.injEq] at h
          obtain ⟨rfl, rfl⟩ := h
          exact ⟨_, rfl, e2⟩
      obtain ⟨u', hq, _⟩ := key y1
      refine ⟨u', hq, fun y2 => ?_⟩
      obtain ⟨u'', hq', e⟩ := key y2
      rw [hsk, e]
      rw [hq] at hq'
      have := List.append_cancel_right hq'
      rw [this]

theorem tok_u32_length (H : Host F) (q : Buf) (v : Nat) (ep : Buf)
    (h : tok_u32 H q = some (v, ep)) : ep.length < q.length := by
  unfold tok_u32 at h
  split at h
  · cases h
  · next v0 ep0 e =>
    split at h
    · cases h
    · simp only [Option.some.injEq, Prod.mk.injEq] at h
      rw [← h.2]
      exact strtoul_length _ _ _ _ e

theorem tok_f32_length (H : Host F) (q : Buf) (v : F) (ep : Buf)
    (h : tok_f32 H q = some (v, ep)) : ep.length < q.length := by
  unfold tok_f32 at h
  split at h
  · cases h
  · next v0 n e =>
    simp only [Option.some.injEq, Prod.mk.injEq] at h
    rw [← h.2]
    have := H.strtof_consumed _ _ _ e
    simp only [List.length_drop]
    omega

/-- The two runs of the parser on two buffers that differ only after a line
break are in simulation as long as the first run has not come to the part
after the line break. -/
theorem tail_simulation (H : Host F) (hl : H.strtof_stops) (y1 y2 : Buf) (bd : Prop)
    (hb : bd → y1 ≠ [] ∧ ∀ c r, y2 = c :: r → c ≠ '\r' ∧ c ≠ '\n') :
    ∃ S : CursorSim H, (∀ p p', S.R p p' ↔ TailR y1 y2 bd p p') ∧
      (∀ q, S.P q ↔ TailP y1 bd q) ∧ S.L [] [] ∧ (∀ l l', S.L l l' → l = l') := by
  have np : ∀ q, ¬ TailP y1 bd q → y1.length ≤ q.length ∧ (q.length ≤ y1.length → bd) := by
    intro q h
    unfold TailP at h
    constructor
    · by_contra hc; exact h (Or.inl (by omega))
    · intro hle
      by_contra hc; exact h (Or.inr ⟨hc, hle⟩)
  have tok : ∀ {V : Type} (rd : Buf → Option (V × Buf)), StopsAt rd →
      (∀ q v ep, rd q = some (v, ep) → ep.length < q.length) →
      ∀ p p' v q, TailR y1 y2 bd p p' → read_tok rd p = some (v, q) → ¬ TailP y1 bd q →
        ∃ q', read_tok rd p' = some (v, q') ∧ TailR y1 y2 bd q q' := by
    intro V rd hst hlen p p' v q hR hr hq
    rcases hR with ⟨u, rfl, rfl⟩ | ⟨_, rfl, rfl⟩
    · rcases read_tok_tail rd hst hlen y1 v q u hr with ⟨u', e1, e2⟩ | hlt
      · exact ⟨_, e2 y2, Or.inl ⟨u', e1, rfl⟩⟩
      · exact absurd (Or.inl hlt) hq
    · exact absurd (Or.inl (read_tok_length rd hlen _ _ _ hr)) hq
  let S : CursorSim H :=
    { R := TailR y1 y2 bd
      P := TailP y1 bd
      strong := False
      L := Eq
      P_mono := fun p q h hle => by
        unfold TailP at h ⊢
        rcases h with h | ⟨h1, h2⟩
        · left; omega
        · right; exact ⟨h1, by omega⟩
      P_strong := fun h => h.elim
      L_snoc := fun _ _ _ h => by rw [h]
      nil := fun p p' h => by
        rcases h with ⟨u, rfl, rfl⟩ | ⟨b, rfl, rfl⟩
        · simp
        · obtain ⟨h1, _⟩ := hb b
          exact ⟨fun e => absurd e h1, fun _ => Or.inr fun q hq => Or.inl hq⟩
      line := fun p p' a q h hr hq => by
        rcases h with ⟨u, rfl, rfl⟩ | ⟨b, rfl, rfl⟩
        · rcases read_line_tail u y1 a q hr with ⟨u', e1, e2⟩ | ⟨e1, e2⟩
          · exact ⟨_, e2 y2, Or.inl ⟨u', e1, rfl⟩⟩
          · refine ⟨_, e2 y2, Or.inr ⟨(np q hq).2 (by rw [e1]), e1, rfl⟩⟩
        · exact absurd (Or.inl (read_line_length _ _ _ hr)) hq
      u32_none := fun _ _ _ h _ => h.elim
      u32 := fun p p' v q h hr hq => by
        rw [read_u32_eq] at hr
        obtain ⟨q', e1, e2⟩ := tok (tok_u32 H) (tok_u32_stops H) (tok_u32_length H)
          p p' v q h hr hq
        exact ⟨q', by rw [read_u32_eq]; exact e1, e2⟩
      f32_none := fun _ _ _ h _ => h.elim
      f32 := fun p p' v q h hr hq => by
        rw [read_f32_eq] at hr
        obtain ⟨q', e1, e2⟩ := tok (tok_f32 H) (tok_f32_stops H hl) (tok_f32_length H)
          p p' v q h hr hq
        exact ⟨q', by rw [read_f32_eq]; exact e1, e2⟩
      eol := fun p p' h hq => by
        rcases h with ⟨u, rfl, rfl⟩ | ⟨b, rfl, rfl⟩
        · rcases consume_eol_tail u y1 with ⟨u', e1, e2⟩ | ⟨e1, e2⟩
          · rw [e1, e2 y2]
            exact Or.inl ⟨u', rfl, rfl⟩
          · rw [e1] at hq ⊢
            rw [e2 y2]
            exact Or.inr ⟨(np _ hq).2 (Nat.le_refl _), rfl, rfl⟩
        · obtain ⟨_, h3⟩ := hb b
          rcases consume_eol_cases p with ⟨e, _⟩ | ⟨a, q, e1, e2, _⟩
          · rw [e]
            rcases consume_eol_cases p' with ⟨e', _⟩ | ⟨_, _, _, _, c, r, e3, hc⟩
            · rw [e']
              exact Or.inr ⟨b, rfl, rfl⟩
            · rcases hc with hc | hc
              · exact absurd hc (h3 c r e3).1
              · exact absurd hc (h3 c r e3).2
          · rw [e2] at hq
            exact absurd (Or.inl (read_line_length _ _ _ e1)) hq
    }
  exact ⟨S, fun _ _ => Iff.rfl, fun _ => Iff.rfl, rfl, fun _ _ h => h⟩

theorem CursorSim.cx_eq {H : Host F} (S : CursorSim H) {c c' : Context F} (h : S.Cx c c')
    (hL : ∀ l l', S.L l l' → l = l') : c' = c := by
  obtain ⟨s, l, pa, st⟩ := c
  obtain ⟨s', l', pa', st'⟩ := c'
  obtain ⟨e1, e2, e3, e4⟩ := h
  have e4' : l = l' := hL _ _ e4
  simp only at e1 e2 e3
  subst e1 e2 e3 e4'
  rfl

/-- A chunk header that is complete before the last line break of the buffer
is read with the same identifier when bytes follow that line break. -/
theorem header_tail_end (H : Host F) (u : Buf) (id : List Char) (q : Buf)
    (h : read_chunk_header_txt H (u ++ ['\n']) = some (id, q)) (y2 : Buf) :
    ∃ q', read_chunk_header_txt H (u ++ '\n' :: y2) = some (id, q') := by
  unfold read_chunk_header_txt at h ⊢
  cases h1 : read_line (u ++ ['\n']) with
  | none => rw [h1] at h; cases h
  | some x1 =>
    obtain ⟨a, p1⟩ := x1
    rw [h1] at h
    simp only at h
    rcases read_line_tail u [] a p1 h1 with ⟨u1, e1, f1⟩ | ⟨e1, _⟩
    · subst e1
      cases h2 : read_u32 H (u1 ++ ['\n']) with
      | none => rw [h2] at h; cases h
      | some x2 =>
        obtain ⟨v1, p2⟩ := x2
        rw [h2] at h
        simp only at h
        rw [read_u32_eq] at h2
        rcases read_tok_tail _ (tok_u32_stops H) (tok_u32_length H) [] v1 p2 u1 h2 with
          ⟨u2, e2, f2⟩ | hlt
        · subst e2
          cases h3 : read_u32 H (u2 ++ ['\n']) with
          | none => rw [h3] at h; cases h
          | some x3 =>
            obtain ⟨v2, p3⟩ := x3
            rw [h3] at h
            simp only [Option.some.injEq, Prod.mk.injEq] at h
            rw [read_u32_eq] at h3
            rcases read_tok_tail _ (tok_u32_stops H) (tok_u32_length H) [] v2 p3 u2 h3 with
              ⟨u3, e3, f3⟩ | hlt
            · rw [f1 y2]
              simp only [read_u32_eq, f2 y2, f3 y2]
              exact ⟨_, by rw [h.1]⟩
            · simp at hlt
        · simp at hlt
    · subst e1
      simp [read_u32, skip_ws] at h

theorem pop_if_kind_suffix (ctx : Context F) (k : NodeKind) :
    (pop_if_kind ctx k).stack <:+ ctx.stack := by
  unfold pop_if_kind
  split
  · next top rest e =>
    split
    · simp only [pop_back, e, List.tail_cons]
      exact List.suffix_cons _ _
    · exact List.suffix_refl _
  · exact List.suffix_refl _

theorem finish_stack (ctx : Context F) :
    (finish ctx).stack = (pop_if_kind (pop_if_kind ctx .Model) .File).stack := by
  unfold finish
  simp only
  split <;> rfl

/-- The top-level loop at an `END:` chunk header: it returns success, with a
Model on top of the stack popped. -/
theorem result_end (H : Host F) (ctx : Context F) (p q : Buf)
    (hh : read_chunk_header_txt H p = some ("END:".toList, q)) :
    Result H ⟨.root, ctx, p⟩ ⟨true, pop_if_kind ctx .Model, q⟩ := by
  obtain ⟨c, cs, rfl⟩ := header_ne_nil H _ _ _ hh
  refine ⟨1, ?_⟩
  simp only [run]
  rw [top_level.eq_3]
  simp only [hh, if_true]

/-- Two runs from the same cursor whose loggers differ by one entry go the
same way. -/
theorem log_simulation (H : Host F) (w : Nat × List Char) :
    ∃ S : CursorSim H, S.strong ∧ (∀ p p', S.R p p' ↔ p' = p) ∧
      (∀ l l', S.L l l' ↔ LogPlus w l l') := by
  let S : CursorSim H :=
    { R := fun p p' => p' = p
      P := fun _ => False
      strong := True
      L := LogPlus w
      P_mono := fun _ _ h _ => h
      P_strong := fun _ _ h => h
      L_snoc := fun l l' e h => by
        obtain ⟨a, b, e1, e2⟩ := h
        exact ⟨a, b ++ [e], by rw [e1]; simp, by rw [e2]; simp⟩
      nil := fun p p' h => by
        have e : p = [] ↔ p' = [] := by rw [h]
        exact ⟨e.mp, fun h1 => Or.inl (e.mpr h1)⟩
      line := fun p p' a q h hr _ => ⟨q, by rw [h]; exact hr, rfl⟩
      u32_none := fun p p' h _ hr => by rw [h]; exact hr
      u32 := fun p p' v q h hr _ => ⟨q, by rw [h]; exact hr, rfl⟩
      f32_none := fun p p' h _ hr => by rw [h]; exact hr
      f32 := fun p p' v q h hr _ => ⟨q, by rw [h]; exact hr, rfl⟩
      eol := fun p p' h _ => by rw [h]
    }
  exact ⟨S, trivial, fun _ _ => Iff.rfl, fun _ _ => Iff.rfl⟩

theorem trim_prefix (s : List Char) :
    to_string_trim s <+: s.dropWhile (fun c : Char => c = ' ' || c = '\t') := by
  unfold to_string_trim
  simp only
  generalize s.dropWhile (fun c : Char => c = ' ' || c = '\t') = x
  have h := List.dropWhile_suffix (fun c : Char => c = ' ' || c = '\t') (l := x.reverse)
  have := List.reverse_prefix.mpr h
  rw [List.reverse_reverse] at this
  exact this

/-- A chunk header whose identifier is read as `CNTE` does not start at a line
break. -/
theorem header_cnte_first (H : Host F) (c : Char) (r q : Buf)
    (h : read_chunk_header_txt H (c :: r) = some ("CNTE".toList, q)) :
    c ≠ '\r' ∧ c ≠ '\n' := by
  unfold read_chunk_header_txt at h
  have hline : ∀ a p1, read_line (c :: r) = some (a, p1) →
      to_string_trim a = "CNTE".toList → c ≠ '\r' ∧ c ≠ '\n' := by
    intro a p1 hr ht
    have hp := trim_prefix a
    rw [ht] at hp
    unfold read_line at hr
    simp only [Option.some.injEq, Prod.mk.injEq] at hr
    obtain ⟨ha, _⟩ := hr
    constructor
    · intro hc
      subst hc
      rw [List.takeWhile_cons_of_pos (by decide)] at ha
      cases ht2 : List.takeWhile (fun c => c != '\n') r with
      | nil =>
        rw [ht2] at ha
        simp at ha
        subst ha
        simp at hp
      | cons d ds =>
        rw [ht2] at ha
        have hd : ∃ t, a = '\r' :: t := by
          split at ha
          · exact ⟨_, by rw [← ha]; rfl⟩
          · exact ⟨_, ha.symm⟩
        obtain ⟨t, rfl⟩ := hd
        rw [List.dropWhile_cons_of_neg (by decide)] at hp
        obtain ⟨z, hz⟩ := hp
        simp at hz
    · intro hc
      subst hc
      rw [List.takeWhile_cons_of_neg (by decide)] at ha
      simp at ha
      subst ha
      simp at hp
  split at h
  · cases h
  · next a p1 e1 =>
    split at h
    · cases h
    · split at h
      · cases h
      · simp only [Option.some.injEq, Prod.mk.injEq] at h
        exact hline a p1 e1 h.1

theorem scanDigits_digits (d : List Char) (rest : Buf)
    (hd : ∀ c ∈ d, '0' ≤ c ∧ c ≤ '9') (hrest : ∀ c r, rest = c :: r → digitVal c = none) :
    ∀ acc n, scanDigits acc n (d ++ rest) =
      (d.foldl (fun acc c => acc * 10 + (c.toNat - '0'.toNat)) acc, n + d.length, rest) := by
  induction d with
  | nil =>
    intro acc n
    cases rest with
    | nil => rfl
    | cons c r => simp [scanDigits, hrest c r rfl]
  | cons c cs ih =>
    intro acc n
    have hc := hd c (List.mem_cons_self _ _)
    have hcs : ∀ c ∈ cs, '0' ≤ c ∧ c ≤ '9' := fun x hx => hd x (List.mem_cons_of_mem _ hx)
    have e : digitVal c = some (c.toNat - '0'.toNat) := by
      unfold digitVal
      rw [if_pos hc]
    simp only [List.cons_append, scanDigits, e, List.foldl_cons, List.length_cons]
    have ih2 := ih hcs (acc * 10 + (c.toNat - '0'.toNat)) (n + 1)
    rw [Nat.add_assoc, Nat.add_comm 1] at ih2
    exact ih2

theorem skip_ws_append (w q : Buf) (hw : ∀ c ∈ w, isspace c = true) :
    skip_ws (w ++ q) = skip_ws q := by
  induction w with
  | nil => rfl
  | cons c cs ih =>
    have hc := hw c (List.mem_cons_self _ _)
    simp only [List.cons_append, skip_ws, hc, if_true]
    exact ih fun x hx => hw x (List.mem_cons_of_mem _ hx)

theorem digit_not_space (c : Char) (hc : '0' ≤ c ∧ c ≤ '9') : isspace c = false := by
  cases h : isspace c with
  | false => rfl
  | true =>
    have := isspace_not_digit c h
    unfold digitVal at this
    rw [if_pos hc] at this
    cases this

/-- `read_u32` at an unsigned decimal value that does not exceed `2^32 - 1`,
after white space: it succeeds and leaves the cursor after the last digit. -/
theorem read_u32_digits (H : Host F) (w d rest : Buf) (hw : ∀ c ∈ w, isspace c = true)
    (hd : IsU32 d) (hrest : ∀ c r, rest = c :: r → digitVal c = none) :
    ∃ v, read_u32 H (w ++ d ++ rest) = some (v, rest) := by
  obtain ⟨hne, hdig, hval⟩ := hd
  cases d with
  | nil => exact absurd rfl hne
  | cons c0 d' =>
    have hc0 := hdig c0 (List.mem_cons_self _ _)
    have hsp := digit_not_space c0 hc0
    have hscan := scanDigits_digits (c0 :: d') rest hdig hrest 0 0
    have hminus : c0 ≠ '-' := by
      intro e; rw [e] at hc0; exact absurd hc0.1 (by decide)
    have hplus : c0 ≠ '+' := by
      intro e; rw [e] at hc0; exact absurd hc0.1 (by decide)
    have hto : strtoul H.ulongMax (c0 :: d' ++ rest) =
        strtoul_digits H.ulongMax false (c0 :: d' ++ rest) := by
      unfold strtoul
      split
      · next r heq =>
        simp only [List.cons_append, List.cons.injEq] at heq
        exact absurd heq.1 hminus
      · next r heq =>
        simp only [List.cons_append, List.cons.injEq] at heq
        exact absurd heq.1 hplus
      · rfl
    have hsk : skip_ws (w ++ (c0 :: d') ++ rest) = c0 :: (d' ++ rest) := by
      rw [List.append_assoc, skip_ws_append w _ hw]
      simp only [List.cons_append, skip_ws, hsp]
      rfl
    unfold read_u32
    rw [hsk]
    simp only
    have hto' : strtoul H.ulongMax (c0 :: (d' ++ rest)) =
        strtoul_digits H.ulongMax false (c0 :: d' ++ rest) := hto
    rw [hto']
    unfold strtoul_digits
    rw [hscan]
    simp only [List.length_cons, Nat.zero_add]
    have hv : decimalValue (c0 :: d') =
        List.foldl (fun acc c => acc * 10 + (c.toNat - '0'.toNat)) 0 (c0 :: d') := rfl
    rw [← hv]
    by_cases hM : decimalValue (c0 :: d') > H.ulongMax
    · refine ⟨H.ulongMax, ?_⟩
      simp only [hM, if_true]
      rw [if_neg (by omega)]
    · refine ⟨decimalValue (c0 :: d'), ?_⟩
      simp only [hM, if_false]
      simp only [Bool.false_eq_true, if_false]
      rw [if_neg (by omega)]

/-- The chunk header over two unsigned decimal values that do not exceed
`2^32 - 1`: the identifier is that of the line, the cursor is left after the
second value and the line break that follows it, and the values have no
part in either. -/
theorem header_ints (H : Host F) (idl w1 d1 w2 d2 rest : Buf) (hid : '\n' ∉ idl)
    (hw1 : ∀ c ∈ w1, isspace c = true) (hw2 : w2 ≠ [] ∧ ∀ c ∈ w2, isspace c = true)
    (hrest : ∀ c r, rest = c :: r → digitVal c = none) (hd1 : IsU32 d1) (hd2 : IsU32 d2) :
    read_chunk_header_txt H (header_text idl w1 d1 w2 d2 rest) =
      some (to_string_trim (if idl.getLast? = some '\r' then idl.dropLast else idl),
        consume_eol rest) := by
  have hr2 : ∀ c r, w2 ++ d2 ++ rest = c :: r → digitVal c = none := by
    intro c r e
    obtain ⟨hne, hsp⟩ := hw2
    cases w2 with
    | nil => exact absurd rfl hne
    | cons x xs =>
      simp only [List.cons_append, List.cons.injEq] at e
      rw [← e.1]
      exact isspace_not_digit x (hsp x (List.mem_cons_self _ _))
  obtain ⟨v1, h1⟩ := read_u32_digits H w1 d1 (w2 ++ d2 ++ rest) hw1 hd1 hr2
  obtain ⟨v2, h2⟩ := read_u32_digits H w2 d2 rest hw2.2 hd2 hrest
  unfold read_chunk_header_txt header_text
  rw [read_line_split idl _ hid]
  simp only [h1, h2]

theorem run_header_eq (H : Host F) (l : Level) (fuel : Nat) (ctx : Context F) (z z' : Buf)
    (x : List Char × Buf) (h : read_chunk_header_txt H z = some x)
    (h' : read_chunk_header_txt H z' = some x) :
    run H l fuel ctx z' = run H l fuel ctx z := by
  obtain ⟨id, q⟩ := x
  obtain ⟨c, cs, rfl⟩ := header_ne_nil H _ _ _ h
  obtain ⟨c', cs', rfl⟩ := header_ne_nil H _ _ _ h'
  cases fuel with
  | zero =>
    cases l <;> rfl
  | succ n =>
    cases l with
    | root =>
      simp only [run]
      rw [top_level.eq_3, top_level.eq_3, h, h']
    | group =>
      simp only [run]
      rw [cntb_children.eq_3, cntb_children.eq_3, h, h']

/-- Two buffers whose first chunk header is read the same, with the same
cursor left, give the same result of `parseREV`. -/
theorem parseREV_header_eq (H : Host F) (store : Store F) (path : Option (List Char))
    (B B' : Buf) (x : List Char × Buf) (h : read_chunk_header_txt H B = some x)
    (h' : read_chunk_header_txt H B' = some x) :
    parseREV H store path B' = parseREV H store path B := by
  obtain ⟨id, q⟩ := x
  by_cases hid : id = "HEAD".toList
  · subst hid
    cases ho : (parse_head_txt H { store := store, path := path } q).ok with
    | true =>
      obtain ⟨r, hr⟩ := result_exists H ⟨.root,
        (parse_head_txt H { store := store, path := path } q).ctx,
        (parse_head_txt H { store := store, path := path } q).p⟩
      rw [parseREV_of_result H store path B q h ho r hr,
        parseREV_of_result H store path B' q h' ho r hr]
    | false =>
      unfold parseREV parseREV_fuel
      simp only [h, h']
      rw [if_neg (by simp)]
      simp [ho]
  · unfold parseREV parseREV_fuel
    simp only [h, h']
    rw [if_pos hid, if_pos hid]

theorem inherit_new_node (H : Host F) (ctx : Context F) (parent : Nat) :
    ∃ t, (inherit_transparency
        { ctx with store := (ctx.store.newNode H (some parent) NodeKind.Group).1 } parent
        (ctx.store.newNode H (some parent) NodeKind.Group).2).store.nodes =
      ctx.store.nodes ++
        [{ kind := NodeKind.Group, parent := some parent, group := { transparency := t } }] := by
  unfold inherit_transparency
  split
  · split
    · next pn _ =>
      refine ⟨pn.group.transparency, ?_⟩
      have := modifyGroup_last
        ({ ctx with store := (ctx.store.newNode H (some parent) NodeKind.Group).1 } : Context F)
        ctx.store.nodes _ (fun d => { d with transparency := pn.group.transparency }) rfl
      exact this
    · exact ⟨_, rfl⟩
  · exact ⟨_, rfl⟩

/-- What `cntb_open` stores of the name line and the translation line: the new
Group node is the last of the arena, its name is the line, and its translation
is the three floats read, each multiplied by the float `0.001f`. -/
theorem cntb_open_translation (H : Host F) (ctx : Context F) (p1 : Buf) (name : List Char)
    (p2 p3 p4 p5 : Buf) (v0 v1 v2 : F) (hname : read_line p1 = some (name, p2))
    (h0 : read_f32 H p2 = some (v0, p3)) (h1 : read_f32 H p3 = some (v1, p4))
    (h2 : read_f32 H p4 = some (v2, p5)) (ho : (cntb_open H ctx p1).ok = true) :
    ∃ g, (cntb_open H ctx p1).ctx.store.nodes = ctx.store.nodes ++ [g] ∧
      g.kind = NodeKind.Group ∧ g.group.name = name ∧
      g.group.translation =
        [some (H.mul_milli v0), some (H.mul_milli v1), some (H.mul_milli v2)] := by
  generalize hr : cntb_open H ctx p1 = r at ho ⊢
  unfold cntb_open at hr
  split at hr
  · subst hr; cases ho
  · next parent rest hs =>
    split at hr
    · subst hr; cases ho
    · obtain ⟨t, ht⟩ := inherit_new_node H ctx parent
      simp only [hname, f32_into, h0, h1, h2] at hr
      have e1 := modifyGroup_last _ _ _ (fun d : GroupData F => { d with name := name }) ht
      have hg : (ctx.store.newNode H (some parent) NodeKind.Group).2 = ctx.store.nodes.length :=
        rfl
      rw [hg] at hr
      have e2 := modifyGroup_last _ _ _
        (fun d : GroupData F => { d with translation := d.translation.set 0 (some v0) }) e1
      have e3 := modifyGroup_last _ _ _
        (fun d : GroupData F => { d with translation := d.translation.set 1 (some v1) }) e2
      have e4 := modifyGroup_last _ _ _
        (fun d : GroupData F => { d with translation := d.translation.set 2 (some v2) }) e3
      have e5 := modifyGroup_last _ _ _ (scale_slot H 0) e4
      have e6 := modifyGroup_last _ _ _ (scale_slot H 1) e5
      have e7 := modifyGroup_last _ _ _ (scale_slot H 2) e6
      split at hr
      · subst hr; cases ho
      · next m p6 hm =>
        have e8 := modifyGroup_last _ _ _
          (fun d : GroupData F => { d with material := some m }) e7
        subst hr
        simp only [push_back]
        exact ⟨_, e8, rfl, rfl, rfl⟩

theorem set_error_nodes (ctx : Context F) (msg : List Char) :
    (set_error ctx msg).store.nodes = ctx.store.nodes := rfl

theorem wrote_nodes (ctx : Context F) (r : Res F) (h : r.Wrote ctx) :
    ctx.store.nodes <+: r.ctx.store.nodes := by
  obtain ⟨c, hc, ⟨_, e⟩ | ⟨_, msg, e⟩⟩ := h
  · rw [e]; exact hc.2.2.2.2.1
  · rw [e]; exact hc.2.2.2.2.1

theorem result_wrote (H : Host F) (s : Pos F) (x : Res F) (h : Result H s x) :
    x.Wrote s.ctx := by
  obtain ⟨l, ctx, p⟩ := s
  obtain ⟨f, hf⟩ := h
  cases l with
  | root => exact (loops_wrote H f).2.2 _ _ _ hf
  | group => exact (loops_wrote H f).2.1 _ _ _ hf

/-- Nodes that are in the arena at a head the reader comes to are in the
arena, as they were, when the loop returns at the head it came from. -/
theorem reaches_back_nodes (H : Host F) (s t : Pos F) (h : Reaches H s t)
    (N : List (Node F)) :
    ∀ x, Result H t x → N <+: x.ctx.store.nodes →
      ∃ y, Result H s y ∧ N <+: y.ctx.store.nodes := by
  induction h with
  | refl => intro x hx hN; exact ⟨x, hx, hN⟩
  | tail _ hn ih =>
    intro x hx hN
    cases hn with
    | modl ctx p p1 hh ho => exact ih x (back_modl H ctx p p1 hh ho x hx) hN
    | stray_cnte ctx p p1 hh => exact ih x (back_stray H ctx p p1 hh x hx) hN
    | group_done l ctx p p1 f1 r1 hh hpc ho =>
      exact ih x (back_group_done H l ctx p p1 f1 r1 hh hpc ho x hx) hN
    | prim_done ctx p p1 id hh hid ho =>
      exact ih x (back_prim H ctx p p1 id hh hid ho x hx) hN
    | group_enter l ctx p p1 hh ho =>
      cases hok : x.ok with
      | false =>
        exact ih x (back_enter H l ctx p p1 hh ho x x hx
          (fun h => (by rw [hok] at h; cases h)) (fun _ => rfl)) hN
      | true =>
        obtain ⟨y, hy⟩ := result_exists H ⟨l, x.ctx, x.p⟩
        have hw := wrote_nodes _ _ (result_wrote H _ y hy)
        exact ih y (back_enter H l ctx p p1 hh ho x y hx (fun _ => hy)
          (fun h => (by rw [hok] at h; cases h))) (hN.trans hw)

/-- Nodes that are in the arena at a head `parseREV` comes to are in the
Store it leaves, as they were. -/
theorem parseREV_keeps_nodes (H : Host F) (store : Store F) (path : Option (List Char))
    (buf : Buf) (s : Pos F) (hv : Visits H store path buf s) :
    ∃ r, parseREV H store path buf = some r ∧ s.ctx.store.nodes <+: r.ctx.store.nodes := by
  obtain ⟨p0, hh, ho, hreach⟩ := hv
  obtain ⟨x, hx⟩ := result_exists H s
  obtain ⟨y, hy, hN⟩ := reaches_back_nodes H _ _ hreach _ x hx
    (wrote_nodes _ _ (result_wrote H s x hx))
  refine ⟨_, parseREV_of_result H store path buf p0 hh ho y hy, ?_⟩
  cases y.ok with
  | false => exact hN
  | true =>
    simp only [if_true, finish_store, Store.updateCounts]
    exact hN

/-- What `parseREV` leaves of the name line and the translation line of a
`CNTB` chunk it comes to and opens: a Group node with the line as its name and,
as its translation, the three floats read, each multiplied by the float
`0.001f`. -/
theorem parseREV_translation (H : Host F) (store : Store F) (path : Option (List Char))
    (buf : Buf) (s : Pos F) (p1 : Buf) (name : List Char) (p2 p3 p4 p5 : Buf) (v0 v1 v2 : F)
    (hv : Visits H store path buf s)
    (hh : read_chunk_header_txt H s.p = some ("CNTB".toList, p1))
    (hname : read_line p1 = some (name, p2))
    (h0 : read_f32 H p2 = some (v0, p3)) (h1 : read_f32 H p3 = some (v1, p4))
    (h2 : read_f32 H p4 = some (v2, p5)) (ho : (cntb_open H s.ctx p1).ok = true) :
    ∃ r g, parseREV H store path buf = some r ∧
      r.ctx.store.nodes[s.ctx.store.nodes.length]? = some g ∧
      g.kind = NodeKind.Group ∧ g.group.name = name ∧
      g.group.translation =
        [some (H.mul_milli v0), some (H.mul_milli v1), some (H.mul_milli v2)] := by
  obtain ⟨g, hg, k1, k2, k3⟩ :=
    cntb_open_translation H s.ctx p1 name p2 p3 p4 p5 v0 v1 v2 hname h0 h1 h2 ho
  have hv2 : Visits H store path buf
      ⟨.group, (cntb_open H s.ctx p1).ctx, (cntb_open H s.ctx p1).p⟩ := by
    obtain ⟨p0, a, b, hreach⟩ := hv
    exact ⟨p0, a, b, hreach.tail (Next.group_enter s.level s.ctx s.p p1 hh ho)⟩
  obtain ⟨r, hr, hN⟩ := parseREV_keeps_nodes H store path buf _ hv2
  refine ⟨r, g, hr, ?_, k1, k2, k3⟩
  simp only [hg] at hN
  exact prefix_index hN _ _ (List.getElem?_concat_length _ _)

/-- The literal `0.001f` is the binary32 value nearest to `1/1000`: it has 24
binary digits and is less than half a unit of its last place away. -/
theorem milli32_nearest :
    2 ^ 23 ≤ 8589935 ∧ 8589935 < 2 ^ 24 ∧ 2 * (8589935 * 1000 - 2 ^ 33) < 1000 ∧
      2 ^ 33 ≤ 8589935 * 1000 := by decide

theorem binary32Host_reads : binary32Host.reads_integers := by
  intro d c rest hne hdig hc
  show strtof_b32 (d ++ c :: rest) = _
  have hrest : ∀ x r, c :: rest = x :: r → digitVal x = none := by
    intro x r e
    simp only [List.cons.injEq] at e
    rw [← e.1]
    exact isspace_not_digit c hc
  have hscan := scanDigits_digits d (c :: rest) hdig hrest 0 0
  cases d with
  | nil => exact absurd rfl hne
  | cons c0 d1 =>
    have hc0 := hdig c0 (List.mem_cons_self _ _)
    have hminus : c0 ≠ '-' := by
      intro e; rw [e] at hc0; exact absurd hc0.1 (by decide)
    unfold strtof_b32
    split
    · next r heq =>
      simp only [List.cons_append, List.cons.injEq] at heq
      exact absurd heq.1 hminus
    · rw [hscan]
      simp only [List.length_cons, Nat.zero_add]
      rfl

/-- `read_f32` at a string of decimal digits after white space and before
white space, on a host whose `strtof` reads integers. -/
theorem read_f32_integer (H : Host Binary32) (hi : H.reads_integers) (w d : List Char)
    (c : Char) (rest : Buf) (hw : ∀ x ∈ w, isspace x = true) (hne : d ≠ [])
    (hdig : ∀ x ∈ d, '0' ≤ x ∧ x ≤ '9') (hc : isspace c = true) :
    read_f32 H (w ++ d ++ c :: rest) =
      some (Binary32.round false (decimalValue d) 0, c :: rest) := by
  have h := hi d c rest hne hdig hc
  cases d with
  | nil => exact absurd rfl hne
  | cons c0 d1 =>
    have hsp := digit_not_space c0 (hdig c0 (List.mem_cons_self _ _))
    have hsk : skip_ws (w ++ (c0 :: d1) ++ c :: rest) = c0 :: (d1 ++ c :: rest) := by
      rw [List.append_assoc, skip_ws_append w _ hw]
      simp only [List.cons_append, skip_ws, hsp]
      rfl
    unfold read_f32
    rw [hsk]
    simp only
    have h2 : H.strtof (c0 :: (d1 ++ c :: rest)) =
        some (Binary32.round false (decimalValue (c0 :: d1)) 0, (c0 :: d1).length) := h
    rw [h2]
    simp only [List.length_cons, List.drop_succ_cons, List.drop_left]

/-- The Geometry that `parse_prim_txt` creates once the kind integer is read
has the type of the chunk identifier, whatever the kind integer is and however
the rest of the chunk is read. -/
theorem parse_prim_txt_type (H : Host F) (ctx : Context F) (id : List Char) (p p1 : Buf)
    (k top : Nat) (rest : List Nat) (t : GeometryType)
    (hs : ctx.stack = top :: rest) (htop : ctx.store.kindOf top = some NodeKind.Group)
    (ht : type_of_id id = some t) (hk : read_u32 H p = some (k, p1)) :
    ∃ gn, (parse_prim_txt H ctx id p).ctx.store.geometries[ctx.store.geometries.length]?
        = some gn ∧ gn.parent = top ∧ gn.geo.type = some t := by
  have key : ∀ (g : Geometry F) (err : Option (List Char)) (q : Buf), g.type = some t →
      ∃ gn, (prim_return { ctx with store := (ctx.store.newGeometry top).1 }
          (ctx.store.newGeometry top).2 g err q).ctx.store.geometries[
            ctx.store.geometries.length]? = some gn ∧ gn.parent = top ∧
        gn.geo.type = some t := by
    intro g err q hg
    refine ⟨⟨top, g⟩, ?_, rfl, hg⟩
    rw [prim_return_geometries, List.getElem?_concat_length]
  unfold parse_prim_txt
  split
  · next h0 => rw [hs] at h0; cases h0
  · next top1 rest1 h0 =>
    rw [hs] at h0
    simp only [List.cons.injEq] at h0
    obtain ⟨e1, e2⟩ := h0
    subst e1 e2
    rw [if_neg (by rw [htop]; simp)]
    simp only [hk, ht]
    split
    · refine key _ _ _ ?_
      rfl
    · next r0 r1 r2 p2 hm =>
      split
      · next g1 hb =>
        have hf := congrArg Prod.fst hb
        rw [read_bbox_frame] at hf
        refine key g1 _ _ ?_
        exact (congrArg Geometry.type hf).symm
      · next g1 p3 hb =>
        have hf := congrArg Prod.fst hb
        rw [read_bbox_frame] at hf
        have h1 : g1.type = some t := (congrArg Geometry.type hf).symm
        split
        · next g2 msg hsw =>
          have hp := switch_kind_preamble H k
            { g1 with bboxWorld := H.transform g1.M_3x4 g1.bboxLocal } p3
          rw [hsw] at hp
          simp only [Step.val, Geometry.preamble, Prod.mk.injEq] at hp
          exact key g2 _ _ (hp.1.trans h1)
        · next g2 p4 hsw =>
          have hp := switch_kind_preamble H k
            { g1 with bboxWorld := H.transform g1.M_3x4 g1.bboxLocal } p3
          rw [hsw] at hp
          simp only [Step.val, Geometry.preamble, Prod.mk.injEq] at hp
          exact key g2 _ _ (hp.1.trans h1)

theorem skip_ws_split (p : Buf) :
    ∃ w, p = w ++ skip_ws p ∧ ∀ c ∈ w, isspace c = true := by
  induction p with
  | nil => exact ⟨[], rfl, by simp⟩
  | cons c cs ih =>
    simp only [skip_ws]
    split
    · next hc =>
      obtain ⟨w, e, hw⟩ := ih
      refine ⟨c :: w, by rw [List.cons_append, ← e], ?_⟩
      intro x hx
      rcases List.mem_cons.mp hx with rfl | h
      · exact hc
      · exact hw x h
    · exact ⟨[], rfl, by simp⟩

theorem digitVal_some (c : Char) (d : Nat) (h : digitVal c = some d) : '0' ≤ c ∧ c ≤ '9' := by
  unfold digitVal at h
  split at h
  · assumption
  · cases h

theorem scanDigits_split (r : Buf) :
    ∃ d rest, r = d ++ rest ∧ (∀ c ∈ d, '0' ≤ c ∧ c ≤ '9') ∧
      (∀ c t, rest = c :: t → digitVal c = none) := by
  induction r with
  | nil => exact ⟨[], [], rfl, by simp, by simp⟩
  | cons c cs ih =>
    cases h : digitVal c with
    | none =>
      refine ⟨[], c :: cs, rfl, by simp, ?_⟩
      intro c' t e
      simp only [List.cons.injEq] at e
      rw [← e.1]; exact h
    | some v =>
      obtain ⟨d, rest, e, hd, hr⟩ := ih
      refine ⟨c :: d, rest, by rw [List.cons_append, ← e], ?_, hr⟩
      intro x hx
      rcases List.mem_cons.mp hx with rfl | hx
      · exact digitVal_some _ _ h
      · exact hd x hx

/-- `strtoul_digits` on digits `d` that no digit follows. -/
theorem strtoul_digits_eq (M : Nat) (neg : Bool) (d rest : Buf)
    (hd : ∀ c ∈ d, '0' ≤ c ∧ c ≤ '9') (hrest : ∀ c r, rest = c :: r → digitVal c = none) :
    strtoul_digits M neg (d ++ rest) =
      if d = [] then none else some (strtoul_value M neg (decimalValue d), rest) := by
  unfold strtoul_digits
  rw [scanDigits_digits d rest hd hrest 0 0]
  cases d with
  | nil => simp
  | cons c cs =>
    rw [if_neg (by simp)]
    simp only [List.length_cons, Nat.zero_add]
    unfold strtoul_value decimalValue
    split_ifs <;> rfl

theorem strtoul_sign (M : Nat) (s d rest : Buf) (hs : s = [] ∨ s = ['+'] ∨ s = ['-'])
    (hne : d ≠ []) (hd : ∀ c ∈ d, '0' ≤ c ∧ c ≤ '9') :
    strtoul M (s ++ (d ++ rest)) = strtoul_digits M (s == ['-']) (d ++ rest) := by
  rcases hs with rfl | rfl | rfl
  · cases d with
    | nil => exact absurd rfl hne
    | cons c0 d' =>
      have hc0 := hd c0 (List.mem_cons_self _ _)
      have hminus : c0 ≠ '-' := by
        intro e; rw [e] at hc0; exact absurd hc0.1 (by decide)
      have hplus : c0 ≠ '+' := by
        intro e; rw [e] at hc0; exact absurd hc0.1 (by decide)
      unfold strtoul
      split
      · next r heq =>
        simp only [List.nil_append, List.cons_append, List.cons.injEq] at heq
        exact absurd heq.1 hminus
      · next r heq =>
        simp only [List.nil_append, List.cons_append, List.cons.injEq] at heq
        exact absurd heq.1 hplus
      · rfl
  · rfl
  · rfl

/-- `strtoul` converts exactly an optional sign and a run of digits, not
empty. -/
theorem strtoul_iff (M : Nat) (q : Buf) (v : Nat) (ep : Buf) :
    strtoul M q = some (v, ep) ↔
      ∃ s d, q = s ++ (d ++ ep) ∧ (s = [] ∨ s = ['+'] ∨ s = ['-']) ∧ d ≠ [] ∧
        (∀ c ∈ d, '0' ≤ c ∧ c ≤ '9') ∧ (∀ c r, ep = c :: r → digitVal c = none) ∧
        v = strtoul_value M (s == ['-']) (decimalValue d) := by
  constructor
  · intro h
    have key : ∀ (neg : Bool) (r : Buf), strtoul_digits M neg r = some (v, ep) →
        ∃ d, r = d ++ ep ∧ d ≠ [] ∧ (∀ c ∈ d, '0' ≤ c ∧ c ≤ '9') ∧
          (∀ c r, ep = c :: r → digitVal c = none) ∧
          v = strtoul_value M neg (decimalValue d) := by
      intro neg r hr
      obtain ⟨d, rest, e, hd, hrest⟩ := scanDigits_split r
      rw [e, strtoul_digits_eq M neg d rest hd hrest] at hr
      split at hr
      · cases hr
      · next hne =>
        simp only [Option.some.injEq, Prod.mk.injEq] at hr
        obtain ⟨e1, e2⟩ := hr
        subst e2
        exact ⟨d, e, hne, hd, hrest, e1.symm⟩
    unfold strtoul at h
    split at h
    · obtain ⟨d, e, h1, h2, h3, h4⟩ := key _ _ h
      exact ⟨['-'], d, by rw [e]; rfl, Or.inr (Or.inr rfl), h1, h2, h3, h4⟩
    · obtain ⟨d, e, h1, h2, h3, h4⟩ := key _ _ h
      exact ⟨['+'], d, by rw [e]; rfl, Or.inr (Or.inl rfl), h1, h2, h3, h4⟩
    · obtain ⟨d, e, h1, h2, h3, h4⟩ := key _ _ h
      exact ⟨[], d, e, Or.inl rfl, h1, h2, h3, h4⟩
  · rintro ⟨s, d, e, hs, hne, hd, hrest, hv⟩
    rw [e, strtoul_sign M s d ep hs hne hd, strtoul_digits_eq M _ d ep hd hrest, if_neg hne, hv]

theorem sign_not_space (s d q : Buf) (hs : s = [] ∨ s = ['+'] ∨ s = ['-'])
    (hne : d ≠ []) (hd : ∀ c ∈ d, '0' ≤ c ∧ c ≤ '9') :
    ∃ c r, s ++ (d ++ q) = c :: r ∧ isspace c = false := by
  rcases hs with rfl | rfl | rfl
  · cases d with
    | nil => exact absurd rfl hne
    | cons c0 d' =>
      exact ⟨c0, d' ++ q, rfl, digit_not_space c0 (hd c0 (List.mem_cons_self _ _))⟩
  · exact ⟨'+', d ++ q, rfl, by decide⟩
  · exact ⟨'-', d ++ q, rfl, by decide⟩

/-- What `read_u32` accepts: white space, an optional sign, digits. -/
theorem read_u32_iff (H : Host F) (p : Buf) (v : Nat) (q : Buf) :
    read_u32 H p = some (v, q) ↔
      ∃ w s d, SignedText H.ulongMax p w s d q ∧
        v = strtoul_value H.ulongMax (s == ['-']) (decimalValue d) := by
  constructor
  · intro h
    obtain ⟨w, e, hw⟩ := skip_ws_split p
    unfold read_u32 at h
    split at h
    · cases h
    · next c cs hq =>
      split at h
      · cases h
      · next v0 ep hst =>
        split at h
        · cases h
        · next hle =>
          simp only [Option.some.injEq, Prod.mk.injEq] at h
          obtain ⟨e1, e2⟩ := h
          subst e1 e2
          obtain ⟨s, d, e3, hs, hne, hd, hrest, hv⟩ := (strtoul_iff _ _ _ _).mp hst
          refine ⟨w, s, d, ⟨?_, hw, hs, hne, hd, hrest, ?_⟩, hv⟩
          · rw [← e3, ← hq]; exact e
          · rw [← hv]; exact Nat.le_of_not_lt hle
  · rintro ⟨w, s, d, ⟨e, hw, hs, hne, hd, hrest, hle⟩, hv⟩
    obtain ⟨c, r, e2, hc⟩ := sign_not_space s d q hs hne hd
    have hsk : skip_ws p = c :: r := by
      rw [e, skip_ws_append w _ hw, e2]
      simp only [skip_ws, hc]
      rfl
    have hst : strtoul H.ulongMax (c :: r) = some (v, q) := by
      rw [← e2]
      exact (strtoul_iff _ _ _ _).mpr ⟨s, d, rfl, hs, hne, hd, hrest, hv⟩
    unfold read_u32
    rw [hsk]
    simp only [hst]
    rw [if_neg (by rw [hv]; exact Nat.not_lt.mpr hle)]

/-- The model `read_u32` is the source function with its reference
parameters: the same success, value and cursor. -/
theorem read_u32_ref_eq (H : Host F) (out : Nat) (p : Buf) :
    (∀ v q, read_u32_ref H out p = (true, v, q) ↔ read_u32 H p = some (v, q)) ∧
    ((read_u32_ref H out p).1 = false ↔ read_u32 H p = none) ∧
    ((read_u32_ref H out p).1 = false → (read_u32_ref H out p).2.1 = out) := by
  unfold read_u32_ref read_u32
  cases hq : skip_ws p with
  | nil => simp
  | cons c cs =>
    simp only
    cases hst : strtoul H.ulongMax (c :: cs) with
    | none => simp
    | some x =>
      obtain ⟨v0, ep⟩ := x
      simp only
      by_cases hle : v0 > 0xFFFFFFFF
      · rw [if_pos hle, if_pos hle]; simp
      · have hm : v0 % 2 ^ 32 = v0 := Nat.mod_eq_of_lt (by omega)
        rw [if_neg hle, if_neg hle, hm]; simp

/-- A group, parsed or not, leaves the logger as it found it. -/
theorem cntb_logger (H : Host F) (fuel : Nat) :
    (∀ (ctx : Context F) (p : Buf) (r : Res F), parse_cntb_txt H fuel ctx p = some r →
        r.ctx.logger = ctx.logger) ∧
    (∀ (ctx : Context F) (p : Buf) (r : Res F), cntb_children H fuel ctx p = some r →
        r.ctx.logger = ctx.logger) := by
  induction fuel with
  | zero => constructor <;> (intro ctx p r h; simp [parse_cntb_txt, cntb_children] at h)
  | succ n ih =>
    obtain ⟨ih1, ih2⟩ := ih
    have hopen : ∀ ctx p, (cntb_open H ctx p).ctx.logger = ctx.logger :=
      fun ctx p => (cntb_open_effect H ctx p _ rfl).1
    constructor
    · intro ctx p r h
      simp only [parse_cntb_txt] at h
      split at h
      · exact (ih2 _ _ _ h).trans (hopen ctx p)
      · simp only [Option.some.injEq] at h
        subst h
        exact hopen ctx p
    · intro ctx p r h
      cases p with
      | nil =>
        rw [cntb_children.eq_2] at h
        simp only [Option.some.injEq] at h
        subst h
        rfl
      | cons c cs =>
        rw [cntb_children.eq_3] at h
        split at h
        · simp only [Option.some.injEq] at h; subst h
          rfl
        · next cid p1 h1 =>
          try simp only at h
          split at h
          · simp only [Option.some.injEq] at h; subst h
            rfl
          · split at h
            · split at h
              · simp at h
              · next r1 hr1 =>
                have g1 := ih1 _ _ _ hr1
                split at h
                · exact (ih2 _ _ _ h).trans g1
                · simp only [Option.some.injEq] at h; subst h
                  exact g1
            · split at h
              · next hid =>
                have s1 := (parse_prim_txt_effect H ctx cid p1 (type_of_id_prim cid hid)).2.1
                try simp only at h
                split at h
                · exact (ih2 _ _ _ h).trans s1
                · simp only [Option.some.injEq] at h; subst h
                  exact s1
              · simp only [Option.some.injEq] at h; subst h
                rfl

theorem RootStack.pop_model {ctx : Context F} (h : RootStack ctx) :
    RootStack (pop_if_kind ctx NodeKind.Model) := by
  obtain ⟨f, hf, hs | ⟨m, hs, hm⟩⟩ := h
  · have e : pop_if_kind ctx NodeKind.Model = ctx := by
      unfold pop_if_kind
      rw [hs]
      simp only
      rw [if_neg (by rw [hf]; simp)]
    rw [e]
    exact ⟨f, hf, Or.inl hs⟩
  · have e : pop_if_kind ctx NodeKind.Model = pop_back ctx := by
      unfold pop_if_kind
      rw [hs]
      simp only
      rw [if_pos hm]
    rw [e]
    exact ⟨f, hf, Or.inl (by simp [pop_back, hs])⟩

theorem RootStack.modl (H : Host F) {ctx : Context F} (h : RootStack ctx) (p : Buf)
    (ho : (parse_modl_txt H ctx p).ok = true) : RootStack (parse_modl_txt H ctx p).ctx := by
  obtain ⟨f, hf, hs | ⟨m, hs, hm⟩⟩ := h
  · obtain ⟨_, _, ⟨hf2, _, _⟩ | ⟨top, _, _, hn, hst⟩⟩ := parse_modl_txt_effect H ctx p _ rfl
    · rw [ho] at hf2; cases hf2
    · have hg := parse_modl_txt_grows H ctx p
      refine ⟨f, hg.kindOf f _ hf, Or.inr ⟨ctx.store.nodes.length, by rw [hst, hs], ?_⟩⟩
      rw [kindOf_eq_shape, hn]
      have hl : ctx.store.nodeShape.length = ctx.store.nodes.length := by
        simp [Store.nodeShape]
      rw [← hl, List.getElem?_concat_length]
      rfl
  · obtain ⟨_, _, ⟨hf2, _, _⟩ | ⟨top, ht, hk, _, _⟩⟩ := parse_modl_txt_effect H ctx p _ rfl
    · rw [ho] at hf2; cases hf2
    · rw [hs] at ht
      simp only [List.head?_cons, Option.some.injEq] at ht
      subst ht
      rw [hm] at hk
      cases hk

theorem RootStack.group (H : Host F) {ctx : Context F} (h : RootStack ctx) (fuel : Nat)
    (p : Buf) (r : Res F) (hr : parse_cntb_txt H fuel ctx p = some r) (ho : r.ok = true) :
    RootStack r.ctx := by
  obtain ⟨hg, hs⟩ := (cntb_grows H fuel).1 ctx p r hr
  obtain ⟨f, hf, h1 | ⟨m, h1, hm⟩⟩ := h
  · exact ⟨f, hg.kindOf f _ hf, Or.inl (by rw [hs ho, h1])⟩
  · exact ⟨f, hg.kindOf f _ hf, Or.inr ⟨m, by rw [hs ho, h1], hg.kindOf m _ hm⟩⟩

/-- The top-level loop, left with success, leaves the File or a Model on the
File on the stack, and has called the logger at stray `CNTE` chunks only. -/
theorem top_level_root_stack (H : Host F) (fuel : Nat) :
    ∀ (ctx : Context F) (p : Buf) (r : Res F), top_level H fuel ctx p = some r →
      RootStack ctx → r.ok = true →
      RootStack r.ctx ∧ ∀ e ∈ r.ctx.logger, e ∈ ctx.logger ∨ e = stray_cnte_warning := by
  induction fuel with
  | zero => intro ctx p r h; simp [top_level] at h
  | succ n ih =>
    intro ctx p r h hi hok
    cases p with
    | nil =>
      rw [top_level.eq_2] at h
      simp only [Option.some.injEq] at h
      subst h
      exact ⟨hi, fun e he => Or.inl he⟩
    | cons c cs =>
      rw [top_level.eq_3] at h
      split at h
      · simp only [Option.some.injEq] at h; subst h
        cases hok
      · next id p1 h1 =>
        try simp only at h
        split at h
        · simp only [Option.some.injEq] at h; subst h
          refine ⟨hi.pop_model, fun e he => Or.inl ?_⟩
          have hl : (pop_if_kind ctx NodeKind.Model).logger = ctx.logger := by
            unfold pop_if_kind
            split
            · split <;> rfl
            · rfl
          exact hl ▸ he
        · split at h
          · try simp only at h
            split at h
            · next ho =>
              obtain ⟨a, b⟩ := ih _ _ _ h (hi.modl H p1 ho) hok
              refine ⟨a, fun e he => ?_⟩
              have hl := (parse_modl_txt_effect H ctx p1 _ rfl).1
              rw [hl] at b
              exact b e he
            · simp only [Option.some.injEq] at h; subst h
              next ho => exact absurd hok ho
          · split at h
            · split at h
              · simp at h
              · next r1 hr1 =>
                split at h
                · next ho =>
                  obtain ⟨a, b⟩ := ih _ _ _ h (hi.group H n p1 r1 hr1 ho) hok
                  refine ⟨a, fun e he => ?_⟩
                  have hl := (cntb_logger H n).1 _ _ _ hr1
                  rw [hl] at b
                  exact b e he
                · next ho =>
                  simp only [Option.some.injEq] at h; subst h
                  exact absurd hok ho
            · split at h
              · have hi2 : RootStack ({ ctx with logger := ctx.logger ++
                    [(1, "parseREV: Unexpected CNTE at root level, ignoring.".toList)] } :
                      Context F) := hi
                obtain ⟨a, b⟩ := ih _ _ _ h hi2 hok
                refine ⟨a, fun e he => ?_⟩
                rcases b e he with hb | hb
                · simp only [List.mem_append, List.mem_singleton] at hb
                  rcases hb with hb | hb
                  · exact Or.inl hb
                  · exact Or.inr hb
                · exact Or.inr hb
              · split at h
                · simp only [Option.some.injEq] at h; subst h
                  cases hok
                · simp only [Option.some.injEq] at h; subst h
                  cases hok

/-- The clean-up of `parseREV` on the stack that the top-level loop leaves:
the stack is emptied and the logger is not called. -/
theorem finish_root_stack (ctx : Context F) (h : RootStack ctx) :
    (finish ctx).stack = [] ∧ (finish ctx).logger = ctx.logger := by
  have h1 := h.pop_model
  have hl : (pop_if_kind ctx NodeKind.Model).logger = ctx.logger := by
    unfold pop_if_kind
    split
    · split <;> rfl
    · rfl
  have hone : ∃ f, (pop_if_kind ctx NodeKind.Model).stack = [f] ∧
      (pop_if_kind ctx NodeKind.Model).store.kindOf f = some NodeKind.File := by
    obtain ⟨f, hf, hs | ⟨m, hs, hm⟩⟩ := h
    · refine ⟨f, ?_, ?_⟩ <;>
      · unfold pop_if_kind
        rw [hs]
        simp only
        rw [if_neg (by rw [hf]; simp)]
        first | exact hs | exact hf
    · refine ⟨f, ?_, ?_⟩ <;>
      · unfold pop_if_kind
        rw [hs]
        simp only
        rw [if_pos hm]
        first | exact hf | simp [pop_back, hs]
  obtain ⟨f, hs, hf⟩ := hone
  have e2 : pop_if_kind (pop_if_kind ctx NodeKind.Model) NodeKind.File
      = pop_back (pop_if_kind ctx NodeKind.Model) := by
    generalize pop_if_kind ctx NodeKind.Model = c1 at hs hf
    unfold pop_if_kind
    rw [hs]
    simp only
    rw [if_pos hf]
  have e3 : (pop_back (pop_if_kind ctx NodeKind.Model)).stack = [] := by
    simp [pop_back, hs]
  unfold finish
  simp only [e2]
  split
  · next h0 => exact ⟨h0, hl⟩
  · next h0 => rw [e3] at h0; cases h0

theorem parseREV_ok_top_level (H : Host F) (store : Store F) (path : Option (List Char))
    (buf : Buf) (r : Res F) (h : parseREV H store path buf = some r) (ho : r.ok = true) :
    ∃ p0 c, read_chunk_header_txt H buf = some ("HEAD".toList, p0) ∧
      (parse_head_txt H { store := store, path := path } p0).ok = true ∧
      Result H ⟨Level.root, (parse_head_txt H { store := store, path := path } p0).ctx,
        (parse_head_txt H { store := store, path := path } p0).p⟩ ⟨true, c, r.p⟩ ∧
      r.ctx = finish c := by
  unfold parseREV parseREV_fuel at h
  try simp only at h
  split at h
  · simp only [Option.some.injEq] at h; subst h
    cases ho
  · next id p0 h0 =>
    split at h
    · simp only [Option.some.injEq] at h; subst h
      cases ho
    · next hid =>
      have hid2 : id = "HEAD".toList := by
        by_contra hne
        exact hid hne
      subst hid2
      split at h
      · next hok =>
        split at h
        · simp at h
        · next r1 hr1 =>
          split at h
          · next ho1 =>
            simp only [Option.some.injEq] at h; subst h
            refine ⟨p0, r1.ctx, h0, hok, ⟨2 * buf.length + 2, ?_⟩, rfl⟩
            simp only [run]
            rw [hr1]
            obtain ⟨a, b, c⟩ := r1
            simp only at ho1
            subst ho1
            rfl
          · next ho1 =>
            simp only [Option.some.injEq] at h; subst h
            exact absurd ho ho1
      · next hok =>
        simp only [Option.some.injEq] at h; subst h
        exact absurd ho hok

/-- On every successful run of `parseREV` the stack is empty at the end. -/
theorem parseREV_stack_empty (H : Host F) (store : Store F) (path : Option (List Char))
    (buf : Buf) (res : Res F) (hres : parseREV H store path buf = some res)
    (hok : res.ok = true) :
    res.ctx.stack = [] ∧ ∃ c, res.ctx = finish c ∧ res.ctx.logger = c.logger := by
  obtain ⟨p0, c, hh, hho, hx, hfin⟩ := parseREV_ok_top_level H store path buf res hres hok
  obtain ⟨fuel, hf⟩ := hx
  simp only [run] at hf
  have hroot : RootStack (parse_head_txt H { store := store, path := path } p0).ctx := by
    obtain ⟨_, _, ⟨hf2, _, _⟩ | ⟨_, hn, hst⟩⟩ :=
      parse_head_txt_effect H { store := store, path := path } p0 _ rfl
    · rw [hho] at hf2; cases hf2
    · refine ⟨store.nodes.length, ?_, Or.inl hst⟩
      rw [kindOf_eq_shape, hn]
      have hl : store.nodeShape.length = store.nodes.length := by
        simp [Store.nodeShape]
      rw [← hl, List.getElem?_concat_length]
      rfl
  obtain ⟨hr2, _⟩ := top_level_root_stack H fuel _ _ _ hf hroot rfl
  obtain ⟨hs, hl⟩ := finish_root_stack c hr2
  exact ⟨by rw [hfin]; exact hs, c, hfin, by rw [hfin]; exact hl⟩

theorem pop_if_kind_fields (c : Context F) (k : NodeKind) :
    (pop_if_kind c k).store = c.store ∧ (pop_if_kind c k).logger = c.logger ∧
    (pop_if_kind c k).path = c.path := by
  unfold pop_if_kind
  split
  · split <;> exact ⟨rfl, rfl, rfl⟩
  · exact ⟨rfl, rfl, rfl⟩

/-- With the stack empty at the end, the clean-up of `parseREV` has not called
the logger. -/
theorem finish_fields (c : Context F) (h : (finish c).stack = []) :
    (finish c).logger = c.logger ∧ (finish c).path = c.path := by
  have h1 := pop_if_kind_fields c NodeKind.Model
  have h2 := pop_if_kind_fields (pop_if_kind c NodeKind.Model) NodeKind.File
  unfold finish at h ⊢
  simp only at h ⊢
  split
  · exact ⟨h2.2.1.trans h1.2.1, h2.2.2.trans h1.2.2⟩
  · next a b hs =>
    split at h
    · next h0 => rw [hs] at h0; cases h0
    · simp only at h
      rw [hs] at h
      cases h

theorem context_ext (a b : Context F) (h1 : a.store = b.store) (h2 : a.logger = b.logger)
    (h3 : a.path = b.path) (h4 : a.stack = b.stack) : a = b := by
  obtain ⟨_, _, _, _⟩ := a
  obtain ⟨_, _, _, _⟩ := b
  simp only at h1 h2 h3 h4
  subst h1 h2 h3 h4
  rfl

/-- The cursor that `parse_head_txt` leaves after four lines. -/
theorem parse_head_txt_lines_p (H : Host F) (ctx : Context F) (p p1 p2 p3 p4 : Buf)
    (a1 a2 a3 a4 : List Char) (hs : ctx.stack = [])
    (h1 : read_line p = some (a1, p1)) (h2 : read_line p1 = some (a2, p2))
    (h3 : read_line p2 = some (a3, p3)) (h4 : read_line p3 = some (a4, p4)) :
    (parse_head_txt H ctx p).p = p4 := by
  unfold parse_head_txt
  rw [hs]
  simp only [h1, h2, h3, h4]

/-- The top-level loop at the end of the buffer returns success. -/
theorem result_nil (H : Host F) (ctx : Context F) :
    Result H ⟨Level.root, ctx, []⟩ ⟨true, ctx, []⟩ :=
  ⟨1, rfl⟩

theorem scanDigits_beyond (beyond : Buf) (hb : ∀ c r, beyond = c :: r → digitVal c = none)
    (r : Buf) : ∀ acc n, scanDigits acc n (r ++ beyond) =
      ((scanDigits acc n r).1, (scanDigits acc n r).2.1, (scanDigits acc n r).2.2 ++ beyond) := by
  induction r with
  | nil =>
    intro acc n
    cases beyond with
    | nil => rfl
    | cons c t => simp [scanDigits, hb c t rfl]
  | cons c cs ih =>
    intro acc n
    cases h : digitVal c with
    | none => simp [scanDigits, h]
    | some d =>
      simp only [List.cons_append, scanDigits, h]
      exact ih _ _

theorem strtoul_digits_beyond (M : Nat) (neg : Bool) (beyond : Buf)
    (hb : ∀ c r, beyond = c :: r → digitVal c = none) (r : Buf) :
    strtoul_digits M neg (r ++ beyond) =
      (strtoul_digits M neg r).map (fun x => (x.1, x.2 ++ beyond)) := by
  unfold strtoul_digits
  rw [scanDigits_beyond beyond hb r 0 0]
  obtain ⟨v, k, ep⟩ := scanDigits 0 0 r
  cases k with
  | zero => rfl
  | succ k =>
    simp only
    split_ifs <;> rfl

/-- Where the byte at `end` is no decimal digit (or nothing is there), the
scan of `strtoul` stays inside the buffer. -/
theorem strtoul_beyond (M : Nat) (beyond : Buf)
    (hb : ∀ c r, beyond = c :: r → digitVal c = none) (c : Char) (cs : Buf) :
    strtoul M (c :: cs ++ beyond) = (strtoul M (c :: cs)).map (fun x => (x.1, x.2 ++ beyond)) := by
  unfold strtoul
  split
  · next r heq =>
    simp only [List.cons_append, List.cons.injEq] at heq
    obtain ⟨e1, e2⟩ := heq
    subst e1 e2
    exact strtoul_digits_beyond M true beyond hb cs
  · next r heq =>
    simp only [List.cons_append, List.cons.injEq] at heq
    obtain ⟨e1, e2⟩ := heq
    subst e1 e2
    exact strtoul_digits_beyond M false beyond hb cs
  · next hm hp =>
    have h1 : c ≠ '-' := fun e => hm (cs ++ beyond) (by rw [e]; rfl)
    have h2 : c ≠ '+' := fun e => hp (cs ++ beyond) (by rw [e]; rfl)
    split
    · next r heq =>
      simp only [List.cons.injEq] at heq
      exact absurd heq.1 h1
    · next r heq =>
      simp only [List.cons.injEq] at heq
      exact absurd heq.1 h2
    · exact strtoul_digits_beyond M false beyond hb (c :: cs)

/-- The reader `read_u32` of this development, whose scan ends at `end`, is
the source function on the memory wherever the byte at `end` is no decimal
digit. -/
theorem read_u32_mem_inside (H : Host F) (inb beyond : Buf)
    (hb : ∀ c r, beyond = c :: r → digitVal c = none) :
    read_u32_mem H inb beyond = (read_u32 H inb).map (fun x => (x.1, x.2 ++ beyond)) := by
  unfold read_u32_mem read_u32
  cases hq : skip_ws inb with
  | nil => rfl
  | cons c cs =>
    simp only
    rw [strtoul_beyond H.ulongMax beyond hb c cs]
    cases strtoul H.ulongMax (c :: cs) with
    | none => rfl
    | some x =>
      obtain ⟨v, ep⟩ := x
      simp only [Option.map_some']
      split_ifs <;> rfl

/-- One move of the reader does not add to the sum of the height of the stack
and the length of what is left of the buffer. -/
theorem next_depth (H : Host F) (s t : Pos F) (h : Next H s t) :
    t.ctx.stack.length + t.p.length ≤ s.ctx.stack.length + s.p.length := by
  cases h with
  | modl ctx p p1 hh ho =>
    have b1 := read_chunk_header_txt_length _ _ _ _ hh
    have b2 := parse_modl_txt_length H ctx p1 _ rfl ho
    obtain ⟨_, _, ⟨hf, _, _⟩ | ⟨_, _, _, _, hs⟩⟩ := parse_modl_txt_effect H ctx p1 _ rfl
    · rw [ho] at hf; cases hf
    · simp only [hs, List.length_cons]
      omega
  | stray_cnte ctx p p1 hh =>
    have b1 := read_chunk_header_txt_length _ _ _ _ hh
    simp only
    omega
  | group_done l ctx p p1 f1 r1 hh hpc ho =>
    have b1 := read_chunk_header_txt_length _ _ _ _ hh
    have b2 := (cntb_length H f1).1 _ _ _ hpc ho
    have b3 := ((cntb_grows H f1).1 _ _ _ hpc).2 ho
    simp only [b3]
    omega
  | group_enter l ctx p p1 hh ho =>
    have b1 := read_chunk_header_txt_length _ _ _ _ hh
    have b2 := cntb_open_length H ctx p1 _ rfl ho
    obtain ⟨_, _, ⟨hf, _, _⟩ | ⟨_, _, _, _, _, _, _, _, _, hs, _⟩⟩ :=
      cntb_open_effect H ctx p1 _ rfl
    · rw [ho] at hf; cases hf
    · simp only [hs ho, List.length_cons]
      omega
  | prim_done ctx p p1 id hh hid ho =>
    have b1 := read_chunk_header_txt_length _ _ _ _ hh
    have b2 := parse_prim_txt_length H ctx id p1 _ rfl ho
    have b3 := (parse_prim_txt_effect H ctx id p1 (type_of_id_prim id hid)).1
    simp only [b3]
    omega

/-- The depth of the recursion of `parse_cntb_txt` is bounded by the length of
the buffer: at every head of an iteration that `parseREV` comes to, the height
of the parent stack and the length of what is left of the buffer together do
not exceed the length of the buffer. -/
theorem visits_depth (H : Host F) (store : Store F) (path : Option (List Char)) (buf : Buf)
    (s : Pos F) (hv : Visits H store path buf s) :
    s.ctx.stack.length + s.p.length ≤ buf.length := by
  obtain ⟨p0, hh, ho, hreach⟩ := hv
  have b1 := read_chunk_header_txt_length _ _ _ _ hh
  have b2 := parse_head_txt_length H { store := store, path := path } p0 _ rfl ho
  have b3 : (parse_head_txt H { store := store, path := path } p0).ctx.stack.length = 1 := by
    obtain ⟨_, _, ⟨hf, _, _⟩ | ⟨_, _, hs⟩⟩ :=
      parse_head_txt_effect H { store := store, path := path } p0 _ rfl
    · rw [ho] at hf; cases hf
    · rw [hs]; rfl
  have key : ∀ a b : Pos F, Reaches H a b →
      b.ctx.stack.length + b.p.length ≤ a.ctx.stack.length + a.p.length := by
    intro a b hab
    induction hab with
    | refl => exact Nat.le_refl _
    | tail _ hn ih => exact (next_depth H _ _ hn).trans ih
  have := key _ _ hreach
  simp only at this
  omega

/-- A first chunk that is no `HEAD`: `parseREV` fails and the message names the
identifier it got. -/
theorem parseREV_expected_head (H : Host F) (store : Store F) (path : Option (List Char))
    (buf : Buf) (id : List Char) (p1 : Buf)
    (hh : read_chunk_header_txt H buf = some (id, p1)) (hne : id ≠ "HEAD".toList) :
    parseREV H store path buf = some ⟨false, set_error { store := store, path := path }
      ("Expected HEAD, got '".toList ++ fmt_s id ++ "'".toList), p1⟩ := by
  unfold parseREV parseREV_fuel
  simp only [hh]
  rw [if_pos hne]

/-- The three writes of the iteration `vi = 1431655765` to an array of
`3 * 1431655766` slots: the first goes to the slot `3 * vi`, the other two to
the slots 0 and 1. -/
theorem set_wrap_slots {α : Type} (l : List α) (a b c : α) (hl : l.length = 4294967298) :
    (((l.set ((3 * 1431655765 + 0) % 4294967296) a).set
        ((3 * 1431655765 + 1) % 4294967296) b).set
        ((3 * 1431655765 + 2) % 4294967296) c)[0]? = some b ∧
    (((l.set ((3 * 1431655765 + 0) % 4294967296) a).set
        ((3 * 1431655765 + 1) % 4294967296) b).set
        ((3 * 1431655765 + 2) % 4294967296) c)[1]? = some c ∧
    (((l.set ((3 * 1431655765 + 0) % 4294967296) a).set
        ((3 * 1431655765 + 1) % 4294967296) b).set
        ((3 * 1431655765 + 2) % 4294967296) c)[3 * 1431655765 + 0]? = some a ∧
    (((l.set ((3 * 1431655765 + 0) % 4294967296) a).set
        ((3 * 1431655765 + 1) % 4294967296) b).set
        ((3 * 1431655765 + 2) % 4294967296) c)[3 * 1431655765 + 1]? = l[3 * 1431655765 + 1]? ∧
    (((l.set ((3 * 1431655765 + 0) % 4294967296) a).set
        ((3 * 1431655765 + 1) % 4294967296) b).set
        ((3 * 1431655765 + 2) % 4294967296) c)[3 * 1431655765 + 2]?
      = l[3 * 1431655765 + 2]? := by
  have m0 : (3 * 1431655765 + 0) % 4294967296 = 4294967295 := by norm_num
  have m1 : (3 * 1431655765 + 1) % 4294967296 = 0 := by norm_num
  have m2 : (3 * 1431655765 + 2) % 4294967296 = 1 := by norm_num
  have n0 : 3 * 1431655765 + 0 = 4294967295 := by norm_num
  have n1 : 3 * 1431655765 + 1 = 4294967296 := by norm_num
  have n2 : 3 * 1431655765 + 2 = 4294967297 := by norm_num
  rw [m0, m1, m2, n0, n1, n2]
  refine ⟨?_, ?_, ?_, ?_, ?_⟩
  · rw [List.getElem?_set_ne (by omega),
      List.getElem?_set_self (by simp only [List.length_set]; omega)]
  · rw [List.getElem?_set_self (by simp only [List.length_set]; omega)]
  · rw [List.getElem?_set_ne (by omega), List.getElem?_set_ne (by omega),
      List.getElem?_set_self (by omega)]
  · rw [List.getElem?_set_ne (by omega), List.getElem?_set_ne (by omega),
      List.getElem?_set_ne (by omega)]
  · rw [List.getElem?_set_ne (by omega), List.getElem?_set_ne (by omega),
      List.getElem?_set_ne (by omega)]

/-- One iteration of the loop over the vertices on a sextuple: the writes it
makes. -/
theorem read_vertices_one (H : Host F) (vi : Nat) (c : Contour F) (p q0 q1 q2 q3 q4 q5 : Buf)
    (v0 v1 v2 v3 v4 v5 : F)
    (e0 : read_f32 H p = some (v0, q0)) (e1 : read_f32 H q0 = some (v1, q1))
    (e2 : read_f32 H q1 = some (v2, q2)) (e3 : read_f32 H (consume_eol q2) = some (v3, q3))
    (e4 : read_f32 H q3 = some (v4, q4)) (e5 : read_f32 H q4 = some (v5, q5)) :
    read_vertices H 1 vi c p = .ok
      { c with
        vertices := ((c.vertices.set ((3 * vi + 0) % 4294967296) (some v0)).set
          ((3 * vi + 1) % 4294967296) (some v1)).set ((3 * vi + 2) % 4294967296) (some v2)
        normals := ((c.normals.set ((3 * vi + 0) % 4294967296) (some v3)).set
          ((3 * vi + 1) % 4294967296) (some v4)).set ((3 * vi + 2) % 4294967296) (some v5) }
      (consume_eol q5) := by
  rw [show (1 : Nat) = 0 + 1 from rfl, read_vertices]
  simp only [f32_into, e0, e1, e2, e3, e4, e5, read_vertices]

/-- The iteration `vi = 1431655765` of the loop over the vertices of a contour
with arrays of `3 * 1431655766` slots: the first float of the position and of
the normal goes to the slot `3 * vi`, the other two go to the slots 0 and 1,
and the slots `3 * vi + 1` and `3 * vi + 2` are as they were. -/
theorem read_vertices_wraps (H : Host F) (c : Contour F) (p q0 q1 q2 q3 q4 q5 : Buf)
    (v0 v1 v2 v3 v4 v5 : F)
    (hv : c.vertices.length = 4294967298) (hn : c.normals.length = 4294967298)
    (e0 : read_f32 H p = some (v0, q0)) (e1 : read_f32 H q0 = some (v1, q1))
    (e2 : read_f32 H q1 = some (v2, q2)) (e3 : read_f32 H (consume_eol q2) = some (v3, q3))
    (e4 : read_f32 H q3 = some (v4, q4)) (e5 : read_f32 H q4 = some (v5, q5)) :
    ∃ c', read_vertices H 1 1431655765 c p = .ok c' (consume_eol q5) ∧
      c'.vertices.length = 3 * 1431655766 ∧
      c'.vertices[3 * 1431655765 + 0]? = some (some v0) ∧
      c'.vertices[3 * 1431655765 + 1]? = c.vertices[3 * 1431655765 + 1]? ∧
      c'.vertices[3 * 1431655765 + 2]? = c.vertices[3 * 1431655765 + 2]? ∧
      c'.vertices[0]? = some (some v1) ∧ c'.vertices[1]? = some (some v2) ∧
      c'.normals[3 * 1431655765 + 0]? = some (some v3) ∧
      c'.normals[3 * 1431655765 + 1]? = c.normals[3 * 1431655765 + 1]? ∧
      c'.normals[0]? = some (some v4) ∧ c'.normals[1]? = some (some v5) := by
  obtain ⟨a0, a1, a2, a3, a4⟩ := set_wrap_slots c.vertices (some v0) (some v1) (some v2) hv
  obtain ⟨b0, b1, b2, b3, b4⟩ := set_wrap_slots c.normals (some v3) (some v4) (some v5) hn
  refine ⟨_, read_vertices_one H 1431655765 c p q0 q1 q2 q3 q4 q5 v0 v1 v2 v3 v4 v5
    e0 e1 e2 e3 e4 e5, ?_, a2, a3, a4, a0, a1, b2, b3, b0, b1⟩
  simp only [List.length_set, hv]

/-- The loop over the vertices for `a + b` iterations is the loop for `a`
iterations followed by the loop for `b`. -/
theorem read_vertices_split (H : Host F) (a b : Nat) :
    ∀ (vi : Nat) (c : Contour F) (p : Buf),
      read_vertices H (a + b) vi c p =
        (read_vertices H a vi c p).andThen (fun c1 p1 => read_vertices H b (vi + a) c1 p1) := by
  induction a with
  | zero =>
    intro vi c p
    simp only [Nat.zero_add, Nat.add_zero, read_vertices, Step.andThen]
  | succ a ih =>
    intro vi c p
    rw [show a + 1 + b = (a + b) + 1 by omega]
    rw [read_vertices, read_vertices]
    simp only
    split
    · rfl
    · split
      · rfl
      · rw [ih, show vi + 1 + a = vi + (a + 1) by omega]

theorem read_sextuples_split (H : Host F) (a : Nat) :
    ∀ (p q : Buf) (fs : List F), read_sextuples H (a + 1) p = some (fs, q) →
      ∃ fs1 q1 six, read_sextuples H a p = some (fs1, q1) ∧
        read_sextuples H 1 q1 = some (six, q) ∧ fs = fs1 ++ six := by
  induction a with
  | zero =>
    intro p q fs h
    exact ⟨[], p, fs, rfl, h, rfl⟩
  | succ a ih =>
    intro p q fs h
    rw [read_sextuples] at h
    split at h
    · cases h
    · next f6 q6 e6 =>
      split at h
      · cases h
      · next rest r er =>
        simp only [Option.some.injEq, Prod.mk.injEq] at h
        obtain ⟨rfl, rfl⟩ := h
        obtain ⟨fs1, q1, six, h1, h2, rfl⟩ := ih q6 r rest er
        refine ⟨f6 ++ fs1, q1, six, ?_, h2, by rw [List.append_assoc]⟩
        rw [read_sextuples]
        simp only [e6, h1]

/-- On every well-formed stream of a contour of 1431655766 vertices the loop
over the vertices succeeds, and the slots 0 and 1 of `vertices` hold the second
and third float of the last position, not the first two floats of the
stream. -/
theorem read_vertices_overflow (H : Host F) (p q : Buf) (fs : List F)
    (h : read_sextuples H 1431655766 p = some (fs, q)) :
    ∃ c, read_vertices H 1431655766 0
        { vertices_n := some 1431655766, vertices := List.replicate (3 * 1431655766) none,
          normals := List.replicate (3 * 1431655766) none } p = .ok c q ∧
      c.vertices[0]? = some (fs[6 * 1431655765 + 1]?) ∧
      c.vertices[1]? = some (fs[6 * 1431655765 + 2]?) := by
  obtain ⟨fs1, q1, six, h1, h2, rfl⟩ := read_sextuples_split H 1431655765 p q fs h
  obtain ⟨v0, v1, v2, v3, v4, v5, q0, r1, r2, r3, r4, r5, rest, e0, e1, e2, e3, e4, e5,
    hrest, rfl⟩ := read_sextuples_step H 0 q1 q six h2
  simp only [read_sextuples, Option.some.injEq, Prod.mk.injEq] at hrest
  obtain ⟨rfl, rfl⟩ := hrest
  obtain ⟨c1, hr1, -, hvl, hnl, hlen, -⟩ := read_vertices_of_stream H 1431655765 0
    { vertices_n := some 1431655766, vertices := List.replicate (3 * 1431655766) none,
      normals := List.replicate (3 * 1431655766) none } p q1 fs1 h1
  have n3 : 3 * 1431655766 = 4294967298 := by norm_num
  have hv : c1.vertices.length = 4294967298 := by
    rw [hvl]
    exact (List.length_replicate _ _).trans n3
  have hn : c1.normals.length = 4294967298 := by
    rw [hnl]
    exact (List.length_replicate _ _).trans n3
  obtain ⟨c, hr, -, -, -, -, k0, k1, -⟩ := read_vertices_wraps H c1 q1 q0 r1 r2 r3 r4 r5
    v0 v1 v2 v3 v4 v5 hv hn e0 e1 e2 e3 e4 e5
  refine ⟨c, ?_, ?_, ?_⟩
  · rw [show (1431655766 : Nat) = 1431655765 + 1 from rfl, read_vertices_split, hr1]
    simp only [Step.andThen, Nat.zero_add]
    rw [hr]
  · rw [k0, List.getElem?_append_right (by omega), hlen]
    simp
  · rw [k1, List.getElem?_append_right (by omega), hlen]
    simp

/-! ## Claims -/

set_option maxRecDepth 100000

/-- C1 (the code at the failing input). On a buffer that ends after the
opening of a group (name, translation, material) and before any `CNTE`,
`parseREV` returns success: no error string is set, the stack is empty at the
end and the Group node is in the Store. The group was closed without a word. -/
theorem unclosed_group_is_accepted :
    (parseREV sampleHost {} none doc_unclosed_group).map
        (fun r => (r.ok, r.ctx.store.errors, r.ctx.stack, r.ctx.store.nodes.map (·.kind)))
      = some (true, [], [], [.File, .Model, .Group]) := by
  decide

/-- C2 (the code at the failing input). On a document with a `HEAD` and two
`MODL` chunks `parseREV` returns failure with the message of the first guard of
`parse_modl_txt`, and the Store holds one Model only: the Model on top of the
stack is not popped, the second `MODL` is rejected. -/
theorem second_model_is_rejected :
    (parseREV sampleHost {} none doc_two_models).map
        (fun r => (r.ok, r.ctx.store.errorString, r.ctx.store.nodes.map (·.kind)))
      = some (false, some "MODL without HEAD/File".toList, [.File, .Model]) := by
  decide

/-- C3 (amended). For every document in which `parseREV`, after the `HEAD`
chunk, comes to a chunk header `PRIM`, `OBST` or `INSU` while the top of the
parent stack is not a Group (directly under a `MODL`, say), the header is one
of the top-level loop, `parseREV` returns failure and the error message is
`Geometry chunk '<id>' outside of any group`. A chunk header `PRIM`, `OBST` or
`INSU` read as the first chunk of the document, where the stack is empty,
makes `parseREV` fail with the message `Expected HEAD, got '<id>'`. Were
`parse_prim_txt` entered with no Group on top of the stack, it would fail with
`PRIM/OBST/INSU outside of a CNTB group`. -/
theorem geometry_outside_group_fails (H : Host F) (store : Store F)
    (path : Option (List Char)) (buf : Buf) (id : List Char) (p1 : Buf)
    (hid : id = "PRIM".toList ∨ id = "OBST".toList ∨ id = "INSU".toList) :
    (∀ s : Pos F, Visits H store path buf s →
      read_chunk_header_txt H s.p = some (id, p1) →
      s.ctx.stack.head?.bind s.ctx.store.kindOf ≠ some NodeKind.Group →
      s.level = Level.root ∧
      ∃ r, parseREV H store path buf = some r ∧ r.ok = false ∧
        r.ctx.store.errorString = some
          ("Geometry chunk '".toList ++ id ++ "' outside of any group".toList)) ∧
    (read_chunk_header_txt H buf = some (id, p1) →
      ∃ r, parseREV H store path buf = some r ∧ r.ok = false ∧
        r.ctx.store.errorString
          = some ("Expected HEAD, got '".toList ++ id ++ "'".toList)) ∧
    (∀ (ctx : Context F) (p : Buf),
      ctx.stack.head?.bind ctx.store.kindOf ≠ some NodeKind.Group →
      (parse_prim_txt H ctx id p).ok = false ∧
      (parse_prim_txt H ctx id p).ctx.store.errorString
        = some "PRIM/OBST/INSU outside of a CNTB group".toList) := by
  have h1 : id ≠ "CNTE".toList := by rcases hid with h | h | h <;> (rw [h]; decide)
  have h2 : id ≠ "CNTB".toList := by rcases hid with h | h | h <;> (rw [h]; decide)
  have h3 : id ≠ "END:".toList := by rcases hid with h | h | h <;> (rw [h]; decide)
  have h4 : id ≠ "MODL".toList := by rcases hid with h | h | h <;> (rw [h]; decide)
  have h5 : id ≠ "HEAD".toList := by rcases hid with h | h | h <;> (rw [h]; decide)
  have hf : fmt_s id = id := by rcases hid with h | h | h <;> (rw [h]; decide)
  refine ⟨?_, ?_, ?_⟩
  · intro s hv hh htop
    have hl : s.level = Level.root := by
      cases hlv : s.level with
      | root => rfl
      | group =>
        obtain ⟨top, rest, hs, hk⟩ := visits_group_top H store path buf s hv hlv
        rw [hs] at htop
        simp only [List.head?_cons, Option.some_bind] at htop
        exact absurd hk htop
    refine ⟨hl, ?_⟩
    obtain ⟨l, ctx, p⟩ := s
    simp only at hh hl
    subst hl
    obtain ⟨c, cs, rfl⟩ := header_ne_nil H _ _ _ hh
    refine ⟨⟨false, set_error ctx
      ("Geometry chunk '".toList ++ fmt_s id ++ "' outside of any group".toList), p1⟩, ?_, rfl, ?_⟩
    · apply parseREV_fail_of_visits H store path buf _ hv 1 _ _ rfl
      simp only [run]
      rw [top_level.eq_3]
      simp only [hh]
      rw [if_neg h3, if_neg h4, if_neg h2, if_neg h1, if_pos hid]
    · simp only [hf]
      apply errorString_set_error
      rcases hid with h | h | h <;> (rw [h]; decide)
  · intro hh
    refine ⟨_, parseREV_expected_head H store path buf id p1 hh h5, rfl, ?_⟩
    simp only [hf]
    apply errorString_set_error
    rcases hid with h | h | h <;> (rw [h]; decide)
  · intro ctx p htop
    rw [parse_prim_txt_not_group H ctx id p htop]
    exact ⟨rfl, errorString_set_error _ _ (by decide)⟩

/-- The amended claim C3 on a `PRIM` directly under a `MODL` and on a `PRIM`
that is the first chunk of the document. -/
theorem geometry_outside_group_fails_witness :
    (Level.root = Level.root ∧
      ∃ r, parseREV sampleHost {} none doc_prim_under_model = some r ∧ r.ok = false ∧
        r.ctx.store.errorString
          = some ("Geometry chunk '".toList ++ "PRIM".toList ++
              "' outside of any group".toList)) ∧
    (∃ r, parseREV sampleHost {} none doc_prim_first = some r ∧ r.ok = false ∧
      r.ctx.store.errorString
        = some ("Expected HEAD, got '".toList ++ "PRIM".toList ++ "'".toList)) := by
  have hv : Visits sampleHost {} none doc_prim_under_model
      ⟨.root,
        (parse_modl_txt sampleHost
          (parse_head_txt sampleHost {} "info\nnote\ndate\nuser\nMODL\n1 1\nproject\nmodel\nPRIM\n1 1\n2\n".toList).ctx
          "project\nmodel\nPRIM\n1 1\n2\n".toList).ctx,
        "PRIM\n1 1\n2\n".toList⟩ :=
    ⟨"info\nnote\ndate\nuser\nMODL\n1 1\nproject\nmodel\nPRIM\n1 1\n2\n".toList, by decide, by decide,
      Relation.ReflTransGen.single
        (Next.modl _ "MODL\n1 1\nproject\nmodel\nPRIM\n1 1\n2\n".toList
          "project\nmodel\nPRIM\n1 1\n2\n".toList (by decide) (by decide))⟩
  exact ⟨(geometry_outside_group_fails sampleHost {} none doc_prim_under_model
      "PRIM".toList "2\n".toList (Or.inl rfl)).1 _ hv (by decide) (by decide),
    (geometry_outside_group_fails sampleHost {} none doc_prim_first
      "PRIM".toList "2\n".toList (Or.inl rfl)).2.1 (by decide)⟩

/-- C3 as stated fails on a `PRIM` chunk header that is the first chunk of the
document: the stack is empty, so its top is not a Group, `parseREV` fails, and
the message is about the missing `HEAD`; it says nothing of a group. -/
theorem geometry_first_chunk_expects_head :
    read_chunk_header_txt sampleHost doc_prim_first = some ("PRIM".toList, "2\n".toList) ∧
    (parseREV sampleHost {} none doc_prim_first).map
        (fun r => (r.ok, r.ctx.store.errorString, r.ctx.stack))
      = some (false, some "Expected HEAD, got 'PRIM'".toList, []) ∧
    ¬ "group".toList <:+: "Expected HEAD, got 'PRIM'".toList := by
  decide

/-- C7. A `PRIM`, `OBST` or `INSU` chunk whose kind integer is 9 makes `parseREV`
return failure, whatever bytes follow the kind integer: for every buffer and
every chunk header that `parseREV` comes to in it (in the loop over the
children of a group, and at top level as well) with one of these three
identifiers and followed by the integer 9, `parseREV` returns `false`. -/
theorem sphere_kind_fails (H : Host F) (store : Store F)
    (path : Option (List Char)) (buf : Buf) (s : Pos F) (id : List Char) (p1 p2 : Buf)
    (hv : Visits H store path buf s)
    (hh : read_chunk_header_txt H s.p = some (id, p1))
    (hid : id = "PRIM".toList ∨ id = "OBST".toList ∨ id = "INSU".toList)
    (hk : read_u32 H p1 = some (9, p2)) :
    ∃ r, parseREV H store path buf = some r ∧ r.ok = false := by
  obtain ⟨r, hr, hok, _⟩ := parseREV_fail_of_prim_fail H store path buf s id p1 hv hh hid
    (parse_prim_txt_sphere H s.ctx id p1 p2 hk)
  exact ⟨r, hr, hok⟩

/-- C10. For every input buffer, whether `parseREV` (on an empty Store)
succeeds or fails, every Geometry it has created in the Store has a Group
node as its parent: none is attached to a File or Model node. -/
theorem geometry_parent_is_group (H : Host F) (path : Option (List Char)) (buf : Buf) :
    ∃ r, parseREV H {} path buf = some r ∧
      ∀ gn ∈ r.ctx.store.geometries, r.ctx.store.kindOf gn.parent = some NodeKind.Group := by
  obtain ⟨r, hr, hs⟩ := parseREV_shape H path buf
  refine ⟨r, hr, fun gn hg => ?_⟩
  obtain ⟨pn, hpn, hk, _⟩ := shape_geometry_parent _ hs gn hg
  simp [Store.kindOf, hpn, hk]

/-- C9. After `parseREV` (on an empty Store) on any input, with success or
failure: every Group whose parent is a Group has the transparency of its
parent; every Geometry has the transparency of the Group it is under; hence
every Group and every Geometry in the subtree of a Group `a` (an outermost
Group in particular) has the transparency of `a`. The Store may create every
node with a transparency of its own (`H.defaultTransparency` of its handle):
what a Group has of its parent it has by the copy in `parse_cntb_txt`. -/
theorem transparency_is_inherited (H : Host F) (path : Option (List Char)) (buf : Buf) :
    ∃ r, parseREV H {} path buf = some r ∧
      (∀ (i ph : Nat) (n pn : Node F), r.ctx.store.nodes[i]? = some n →
        n.kind = NodeKind.Group → n.parent = some ph →
        r.ctx.store.nodes[ph]? = some pn → pn.kind = NodeKind.Group →
        n.group.transparency = pn.group.transparency) ∧
      (∀ gn ∈ r.ctx.store.geometries, ∃ pn, r.ctx.store.nodes[gn.parent]? = some pn ∧
        pn.kind = NodeKind.Group ∧ gn.geo.transparency = some pn.group.transparency) ∧
      (∀ (a i : Nat) (na ni : Node F), r.ctx.store.GroupAncestor a i →
        r.ctx.store.nodes[a]? = some na → r.ctx.store.nodes[i]? = some ni →
        ni.group.transparency = na.group.transparency) ∧
      (∀ (a : Nat) (na : Node F), ∀ gn ∈ r.ctx.store.geometries,
        r.ctx.store.GroupAncestor a gn.parent → r.ctx.store.nodes[a]? = some na →
        gn.geo.transparency = some na.group.transparency) := by
  obtain ⟨r, hr, hs⟩ := parseREV_shape H path buf
  refine ⟨r, hr, ?_, ?_, ?_, ?_⟩
  · intro i ph n pn hn hk hp hpn hpk
    exact shape_group_parent _ hs i ph n pn hn hk hp hpn hpk
  · intro gn hg
    exact shape_geometry_parent _ hs gn hg
  · intro a i na ni ha hna hni
    obtain ⟨na', ni', hna', hni', _, ht⟩ := groupAncestor_transparency _ hs a i ha
    rw [hna] at hna'
    rw [hni] at hni'
    simp only [Option.some.injEq] at hna' hni'
    rw [hna', hni']
    exact ht
  · intro a na gn hg ha hna
    obtain ⟨pn, hpn, _, ht⟩ := shape_geometry_parent _ hs gn hg
    obtain ⟨na', ni', hna', hni', _, ht'⟩ := groupAncestor_transparency _ hs a gn.parent ha
    rw [hna] at hna'
    rw [hpn] at hni'
    simp only [Option.some.injEq] at hna' hni'
    rw [ht, hni', ht', ← hna']

/-- The claim C9 on a document with a group in a group and a Box in the inner
group, on a Store that creates every node with a transparency of its own
(`100 + i` for the node `i`): the outer Group keeps the 102 it was created
with, the inner Group, created with 103, has the 102 of its parent, and so has
the Box. -/
theorem transparency_is_inherited_witness :
    (∃ r, parseREV steppedHost {} none doc_nested = some r ∧
      (∀ (i ph : Nat) (n pn : Node ℚ), r.ctx.store.nodes[i]? = some n →
        n.kind = NodeKind.Group → n.parent = some ph →
        r.ctx.store.nodes[ph]? = some pn → pn.kind = NodeKind.Group →
        n.group.transparency = pn.group.transparency) ∧
      (∀ gn ∈ r.ctx.store.geometries, ∃ pn, r.ctx.store.nodes[gn.parent]? = some pn ∧
        pn.kind = NodeKind.Group ∧ gn.geo.transparency = some pn.group.transparency) ∧
      (∀ (a i : Nat) (na ni : Node ℚ), r.ctx.store.GroupAncestor a i →
        r.ctx.store.nodes[a]? = some na → r.ctx.store.nodes[i]? = some ni →
        ni.group.transparency = na.group.transparency) ∧
      (∀ (a : Nat) (na : Node ℚ), ∀ gn ∈ r.ctx.store.geometries,
        r.ctx.store.GroupAncestor a gn.parent → r.ctx.store.nodes[a]? = some na →
        gn.geo.transparency = some na.group.transparency)) ∧
    (parseREV steppedHost {} none doc_nested).map
        (fun r => (r.ok, r.ctx.store.nodeShape))
      = some (true,
          [(NodeKind.File, none, 100), (NodeKind.Model, some 0, 101),
            (NodeKind.Group, some 1, 102), (NodeKind.Group, some 2, 102)]) ∧
    (parseREV steppedHost {} none doc_nested).map (fun r => r.ctx.store.geoShape)
      = some [(3, some 102)] :=
  ⟨transparency_is_inherited steppedHost none doc_nested, by decide, by decide⟩

/-- The claim C7 on a `PRIM` of kind 9 with matrix, bounding box and payload. -/
theorem sphere_kind_fails_witness :
    ∃ r, parseREV sampleHost {} none doc_sphere = some r ∧ r.ok = false := by
  have hv : Visits sampleHost {} none doc_sphere _ :=
    ⟨"info\nnote\ndate\nuser\nMODL\n1 1\nproject\nmodel\nCNTB\n1 1\ngroup\n0 0 0\n0\nPRIM\n1 1\n9\n1 0 0 0\n0 1 0 0\n0 0 1 0\n0 0 0\n1 1 1\n5\nCNTE\n1 1\nEND:\n1 1\n".toList,
      by decide, by decide,
      (Relation.ReflTransGen.single
        (Next.modl _
          "MODL\n1 1\nproject\nmodel\nCNTB\n1 1\ngroup\n0 0 0\n0\nPRIM\n1 1\n9\n1 0 0 0\n0 1 0 0\n0 0 1 0\n0 0 0\n1 1 1\n5\nCNTE\n1 1\nEND:\n1 1\n".toList
          "project\nmodel\nCNTB\n1 1\ngroup\n0 0 0\n0\nPRIM\n1 1\n9\n1 0 0 0\n0 1 0 0\n0 0 1 0\n0 0 0\n1 1 1\n5\nCNTE\n1 1\nEND:\n1 1\n".toList
          (by decide) (by decide))).tail
        (Next.group_enter Level.root _
          "CNTB\n1 1\ngroup\n0 0 0\n0\nPRIM\n1 1\n9\n1 0 0 0\n0 1 0 0\n0 0 1 0\n0 0 0\n1 1 1\n5\nCNTE\n1 1\nEND:\n1 1\n".toList
          "group\n0 0 0\n0\nPRIM\n1 1\n9\n1 0 0 0\n0 1 0 0\n0 0 1 0\n0 0 0\n1 1 1\n5\nCNTE\n1 1\nEND:\n1 1\n".toList
          (by decide) (by decide))⟩
  exact sphere_kind_fails sampleHost {} none doc_sphere _ "PRIM".toList
    "9\n1 0 0 0\n0 1 0 0\n0 0 1 0\n0 0 0\n1 1 1\n5\nCNTE\n1 1\nEND:\n1 1\n".toList
    "\n1 0 0 0\n0 1 0 0\n0 0 1 0\n0 0 0\n1 1 1\n5\nCNTE\n1 1\nEND:\n1 1\n".toList
    hv (by decide) (Or.inl rfl) (by decide)

/-- C5. For every primitive chunk that `parseREV` comes to in a group (a chunk
header `PRIM`, `OBST` or `INSU` at a head of the loop over the children, the
kind integer after it) whose preamble supplies three matrix rows of four
floats each, the transform stored in the Geometry of the chunk, as `parseREV`
leaves it in the Store, is the transpose of the rows into column-major order:
for every row `r < 3` and column `c < 4`, `M_3x4.data[3 * c + r]` is the `c`-th
float of the `r`-th row read, that is the float `4 * r + c` of the twelve.
This holds whatever follows the matrix, `parseREV` succeeding or not. -/
theorem matrix_is_stored_column_major (H : Host F) (store : Store F)
    (path : Option (List Char)) (buf : Buf) (s : Pos F) (id : List Char) (p1 p2 p3 : Buf)
    (k : Nat) (fs : List F)
    (hv : Visits H store path buf s) (hl : s.level = Level.group)
    (hh : read_chunk_header_txt H s.p = some (id, p1))
    (hid : id = "PRIM".toList ∨ id = "OBST".toList ∨ id = "INSU".toList)
    (hk : read_u32 H p1 = some (k, p2))
    (hm : read_floats H [4, 8, 12] 12 0 [] p2 = some (fs, p3)) :
    ∃ res gn, parseREV H store path buf = some res ∧
      res.ctx.store.geometries[s.ctx.store.geometries.length]? = some gn ∧
      s.ctx.stack.head? = some gn.parent ∧
      ∀ r c, r < 3 → c < 4 → gn.geo.M_3x4[3 * c + r]? = some (fs[4 * r + c]?) := by
  obtain ⟨top, rest, hs, htop⟩ := visits_group_top H store path buf s hv hl
  obtain ⟨gn, hg, hp, hM⟩ := parse_prim_txt_matrix H s.ctx id p1 p2 p3 k top rest fs hs htop
    hid hk hm
  obtain ⟨res, hr, hpre⟩ := parseREV_keeps_prim H store path buf s id p1 hv hl hh hid
  exact ⟨res, gn, hr, prefix_index hpre _ _ hg, by rw [hs, hp]; rfl, hM⟩

/-- C6. For every primitive chunk that `parseREV` comes to in a group with a
well-formed preamble (the kind integer `k`, twelve floats of the matrix on
three lines, six floats of the bounding box on two lines) and `k` one of
1, 2, 3, 4, 5, 6, 7, 8, 10, whose payload floats are there: the decoder reads
exactly `n_k` floats (7, 3, 4, 3, 2, 2, 9, 2, 2) from the stream, the reader
going on at the cursor after them; the Geometry of the chunk, as `parseREV`
leaves it in the Store, has the kind the table names for `k`, and the payload
fields of that kind, in the order of the table, hold the floats as `read_f32`
returned them, in the order read. -/
theorem payload_is_decoded (H : Host F) (store : Store F)
    (path : Option (List Char)) (buf : Buf) (s : Pos F) (id : List Char)
    (p1 p2 p3 p4 p5 : Buf) (k : Nat) (ms bs vs : List F)
    (hv : Visits H store path buf s) (hl : s.level = Level.group)
    (hh : read_chunk_header_txt H s.p = some (id, p1))
    (hid : id = "PRIM".toList ∨ id = "OBST".toList ∨ id = "INSU".toList)
    (hk : read_u32 H p1 = some (k, p2))
    (hm : read_floats H [4, 8, 12] 12 0 [] p2 = some (ms, p3))
    (hb : read_floats H [3, 6] 6 0 [] p3 = some (bs, p4))
    (hkind : k ∈ [1, 2, 3, 4, 5, 6, 7, 8, 10])
    (hp : read_floats H (kind_table_breaks k) (kind_table_count k) 0 [] p4 = some (vs, p5)) :
    Visits H store path buf ⟨Level.group, (parse_prim_txt H s.ctx id p1).ctx, p5⟩ ∧
    vs.length = kind_table_count k ∧
    ∃ res gn, parseREV H store path buf = some res ∧
      res.ctx.store.geometries[s.ctx.store.geometries.length]? = some gn ∧
      s.ctx.stack.head? = some gn.parent ∧
      gn.geo.kind = kind_table_name k ∧
      kind_table_fields k gn.geo = vs.map some := by
  obtain ⟨top, rest, hs, htop⟩ := visits_group_top H store path buf s hv hl
  obtain ⟨hok, hq, hlen, gn, hg, hpar, hkd, hfl⟩ := parse_prim_txt_payload H s.ctx id p1 p2 p3
    p4 p5 k top rest ms bs vs hs htop hid hk hm hb hkind hp
  obtain ⟨res, hr, hpre⟩ := parseREV_keeps_prim H store path buf s id p1 hv hl hh hid
  exact ⟨visits_after_prim H store path buf s id p1 p5 hv hl hh hid hok hq, hlen, res, gn, hr,
    prefix_index hpre _ _ hg, by rw [hs, hpar]; rfl, hkd, hfl⟩

/-- The claim C5 on the document whose Box has the rows `1 0 0 10`, `0 1 0 20`
and `0 0 1 30`: the twelve stored values are the three columns of the identity
and then the translation, and the map they make takes the origin to
`(10, 20, 30)`. -/
theorem matrix_is_stored_column_major_witness :
    (∃ res gn, parseREV sampleHost {} none doc_translation = some res ∧
      res.ctx.store.geometries[0]? = some gn ∧
      some 2 = some gn.parent ∧
      ∀ r c, r < 3 → c < 4 → gn.geo.M_3x4[3 * c + r]?
        = some (([1, 0, 0, 10, 0, 1, 0, 20, 0, 0, 1, 30] : List ℚ)[4 * r + c]?)) ∧
    (parseREV sampleHost {} none doc_translation).map
        (fun res => (res.ok, res.ctx.store.geometries.map (fun gn => (gn.parent, gn.geo.M_3x4))))
      = some (true, [(2, [some 1, some 0, some 0, some 0, some 1, some 0, some 0, some 0,
          some 1, some 10, some 20, some 30])]) ∧
    apply_M_3x4 [1, 0, 0, 0, 1, 0, 0, 0, 1, 10, 20, 30] 0 0 0 = [10, 20, 30] := by
  have hv : Visits sampleHost {} none doc_translation _ :=
    ⟨"info\nnote\ndate\nuser\nMODL\n1 1\nproject\nmodel\nCNTB\n1 1\ngroup\n0 0 0\n0\nPRIM\n1 1\n2\n1 0 0 10\n0 1 0 20\n0 0 1 30\n0 0 0\n1 1 1\n1 1 1\nCNTE\n1 1\nEND:\n1 1\n".toList,
      by decide, by decide,
      (Relation.ReflTransGen.single
        (Next.modl _
          "MODL\n1 1\nproject\nmodel\nCNTB\n1 1\ngroup\n0 0 0\n0\nPRIM\n1 1\n2\n1 0 0 10\n0 1 0 20\n0 0 1 30\n0 0 0\n1 1 1\n1 1 1\nCNTE\n1 1\nEND:\n1 1\n".toList
          "project\nmodel\nCNTB\n1 1\ngroup\n0 0 0\n0\nPRIM\n1 1\n2\n1 0 0 10\n0 1 0 20\n0 0 1 30\n0 0 0\n1 1 1\n1 1 1\nCNTE\n1 1\nEND:\n1 1\n".toList
          (by decide) (by decide))).tail
        (Next.group_enter Level.root _
          "CNTB\n1 1\ngroup\n0 0 0\n0\nPRIM\n1 1\n2\n1 0 0 10\n0 1 0 20\n0 0 1 30\n0 0 0\n1 1 1\n1 1 1\nCNTE\n1 1\nEND:\n1 1\n".toList
          "group\n0 0 0\n0\nPRIM\n1 1\n2\n1 0 0 10\n0 1 0 20\n0 0 1 30\n0 0 0\n1 1 1\n1 1 1\nCNTE\n1 1\nEND:\n1 1\n".toList
          (by decide) (by decide))⟩
  exact ⟨matrix_is_stored_column_major sampleHost {} none doc_translation _ "PRIM".toList
    "2\n1 0 0 10\n0 1 0 20\n0 0 1 30\n0 0 0\n1 1 1\n1 1 1\nCNTE\n1 1\nEND:\n1 1\n".toList
    "\n1 0 0 10\n0 1 0 20\n0 0 1 30\n0 0 0\n1 1 1\n1 1 1\nCNTE\n1 1\nEND:\n1 1\n".toList
    "0 0 0\n1 1 1\n1 1 1\nCNTE\n1 1\nEND:\n1 1\n".toList
    2 [1, 0, 0, 10, 0, 1, 0, 20, 0, 0, 1, 30]
    hv rfl (by decide) (Or.inl rfl) (by decide) (by decide),
    by decide, by norm_num [apply_M_3x4]⟩

/-- The claim C6 on the document with a Snout (kind 7), its nine floats on two
lines: the reader goes on at the `CNTE`, and the floats are in the fields of
the Snout in the order read. -/
theorem payload_is_decoded_witness :
    (Visits sampleHost {} none doc_snout
        ⟨Level.group,
          (parse_prim_txt sampleHost
            (cntb_open sampleHost
              (parse_modl_txt sampleHost
                (parse_head_txt sampleHost {}
                  "info\nnote\ndate\nuser\nMODL\n1 1\nproject\nmodel\nCNTB\n1 1\ngroup\n0 0 0\n0\nPRIM\n1 1\n7\n1 0 0 0\n0 1 0 0\n0 0 1 0\n0 0 0\n1 1 1\n1 2 3 4 5\n6 7 8 9\nCNTE\n1 1\nEND:\n1 1\n".toList).ctx
                "project\nmodel\nCNTB\n1 1\ngroup\n0 0 0\n0\nPRIM\n1 1\n7\n1 0 0 0\n0 1 0 0\n0 0 1 0\n0 0 0\n1 1 1\n1 2 3 4 5\n6 7 8 9\nCNTE\n1 1\nEND:\n1 1\n".toList).ctx
              "group\n0 0 0\n0\nPRIM\n1 1\n7\n1 0 0 0\n0 1 0 0\n0 0 1 0\n0 0 0\n1 1 1\n1 2 3 4 5\n6 7 8 9\nCNTE\n1 1\nEND:\n1 1\n".toList).ctx
            "PRIM".toList
            "7\n1 0 0 0\n0 1 0 0\n0 0 1 0\n0 0 0\n1 1 1\n1 2 3 4 5\n6 7 8 9\nCNTE\n1 1\nEND:\n1 1\n".toList).ctx,
          "CNTE\n1 1\nEND:\n1 1\n".toList⟩ ∧
      ([1, 2, 3, 4, 5, 6, 7, 8, 9] : List ℚ).length = kind_table_count 7 ∧
      ∃ res gn, parseREV sampleHost {} none doc_snout = some res ∧
        res.ctx.store.geometries[0]? = some gn ∧
        some 2 = some gn.parent ∧
        gn.geo.kind = kind_table_name 7 ∧
        kind_table_fields 7 gn.geo = ([1, 2, 3, 4, 5, 6, 7, 8, 9] : List ℚ).map some) ∧
    (parseREV sampleHost {} none doc_snout).map
        (fun res => (res.ok, res.ctx.store.geometries.map
          (fun gn => (gn.parent, gn.geo.kind, gn.geo.snout))))
      = some (true, [(2, some GeometryKind.Snout,
          { radius_b := some 1, radius_t := some 2, height := some 3,
            offset := [some 4, some 5], bshear := [some 6, some 7],
            tshear := [some 8, some 9] })]) := by
  have hv : Visits sampleHost {} none doc_snout _ :=
    ⟨"info\nnote\ndate\nuser\nMODL\n1 1\nproject\nmodel\nCNTB\n1 1\ngroup\n0 0 0\n0\nPRIM\n1 1\n7\n1 0 0 0\n0 1 0 0\n0 0 1 0\n0 0 0\n1 1 1\n1 2 3 4 5\n6 7 8 9\nCNTE\n1 1\nEND:\n1 1\n".toList,
      by decide, by decide,
      (Relation.ReflTransGen.single
        (Next.modl _
          "MODL\n1 1\nproject\nmodel\nCNTB\n1 1\ngroup\n0 0 0\n0\nPRIM\n1 1\n7\n1 0 0 0\n0 1 0 0\n0 0 1 0\n0 0 0\n1 1 1\n1 2 3 4 5\n6 7 8 9\nCNTE\n1 1\nEND:\n1 1\n".toList
          "project\nmodel\nCNTB\n1 1\ngroup\n0 0 0\n0\nPRIM\n1 1\n7\n1 0 0 0\n0 1 0 0\n0 0 1 0\n0 0 0\n1 1 1\n1 2 3 4 5\n6 7 8 9\nCNTE\n1 1\nEND:\n1 1\n".toList
          (by decide) (by decide))).tail
        (Next.group_enter Level.root _
          "CNTB\n1 1\ngroup\n0 0 0\n0\nPRIM\n1 1\n7\n1 0 0 0\n0 1 0 0\n0 0 1 0\n0 0 0\n1 1 1\n1 2 3 4 5\n6 7 8 9\nCNTE\n1 1\nEND:\n1 1\n".toList
          "group\n0 0 0\n0\nPRIM\n1 1\n7\n1 0 0 0\n0 1 0 0\n0 0 1 0\n0 0 0\n1 1 1\n1 2 3 4 5\n6 7 8 9\nCNTE\n1 1\nEND:\n1 1\n".toList
          (by decide) (by decide))⟩
  exact ⟨payload_is_decoded sampleHost {} none doc_snout _ "PRIM".toList
    "7\n1 0 0 0\n0 1 0 0\n0 0 1 0\n0 0 0\n1 1 1\n1 2 3 4 5\n6 7 8 9\nCNTE\n1 1\nEND:\n1 1\n".toList
    "\n1 0 0 0\n0 1 0 0\n0 0 1 0\n0 0 0\n1 1 1\n1 2 3 4 5\n6 7 8 9\nCNTE\n1 1\nEND:\n1 1\n".toList
    "0 0 0\n1 1 1\n1 2 3 4 5\n6 7 8 9\nCNTE\n1 1\nEND:\n1 1\n".toList
    "1 2 3 4 5\n6 7 8 9\nCNTE\n1 1\nEND:\n1 1\n".toList
    "CNTE\n1 1\nEND:\n1 1\n".toList
    7 [1, 0, 0, 0, 0, 1, 0, 0, 0, 0, 1, 0] [0, 0, 0, 1, 1, 1] [1, 2, 3, 4, 5, 6, 7, 8, 9]
    hv rfl (by decide) (Or.inl rfl) (by decide) (by decide) (by decide) (by decide) (by decide),
    by decide⟩

/-- C17. For every input buffer (and every Store given to it), `parseREV`
returns false if and only if an error string was set on the Store during the
call; on a failing call it is set exactly once (one string is added to the log
of the calls of `setErrorString`, the counts are not updated); when `parseREV`
returns true no error string was set and `updateCounts` was called (the counts
are those of the nodes and geometries of the Store). -/
theorem error_string_iff_failure (H : Host F) (store : Store F)
    (path : Option (List Char)) (buf : Buf) :
    ∃ r, parseREV H store path buf = some r ∧
      (r.ok = false ↔ r.ctx.store.errors ≠ store.errors) ∧
      (r.ok = false → (∃ msg, r.ctx.store.errors = store.errors ++ [msg]) ∧
        r.ctx.store.counts = store.counts) ∧
      (r.ok = true → r.ctx.store.errors = store.errors ∧
        r.ctx.store.counts
          = some (r.ctx.store.nodes.length, r.ctx.store.geometries.length)) := by
  obtain ⟨r, hr⟩ := parseREV_returns H store path buf
  obtain ⟨c, ⟨_, _, he, hc, _, _⟩, ⟨ho, e⟩ | ⟨hf, msg, e⟩⟩ := parseREV_wrote H store path buf r hr
  · have hs := finish_store c
    refine ⟨r, hr, ⟨fun h => ?_, fun h => ?_⟩, fun h => ?_, fun _ => ⟨?_, ?_⟩⟩
    · rw [ho] at h; cases h
    · exact absurd (by rw [e, hs]; exact he) h
    · rw [ho] at h; cases h
    · rw [e, hs]; exact he
    · rw [e, hs]; rfl
  · have hs : r.ctx.store.errors = store.errors ++ [msg.take 1023] := by
      rw [e]
      simp only [set_error, Store.setErrorString, he]
    refine ⟨r, hr, ⟨fun _ => ?_, fun _ => hf⟩, fun _ => ⟨⟨_, hs⟩, ?_⟩, fun h => ?_⟩
    · rw [hs]
      intro h
      have := congrArg List.length h
      simp at this
    · rw [e]; exact hc
    · rw [hf] at h; cases h

/-- C11. For every input on which `parseREV`, run on an empty Store, succeeds:
the Store holds exactly one File node (node 0 is a File, and a File node is
node 0), that node has no parent, the parent of every Model node is that File
node, and the parent of every Group node is a Model or a Group. -/
theorem one_file_root (H : Host F) (path : Option (List Char)) (buf : Buf) (r : Res F)
    (h : parseREV H {} path buf = some r) (hok : r.ok = true) :
    (∃ f, r.ctx.store.nodes[0]? = some f ∧ f.kind = NodeKind.File ∧ f.parent = none) ∧
    ∀ (i : Nat) (n : Node F), r.ctx.store.nodes[i]? = some n →
      (n.kind = NodeKind.File → i = 0) ∧
      (n.kind = NodeKind.Model → n.parent = some 0) ∧
      (n.kind = NodeKind.Group → ∃ ph, n.parent = some ph ∧
        (r.ctx.store.kindOf ph = some NodeKind.Model ∨
         r.ctx.store.kindOf ph = some NodeKind.Group)) := by
  obtain ⟨⟨t0, h0⟩, hall⟩ := parseREV_tree H path buf r h hok
  constructor
  · simp only [Store.nodeShape, List.getElem?_map] at h0
    cases hn : r.ctx.store.nodes[0]? with
    | none => rw [hn] at h0; simp at h0
    | some f =>
      rw [hn] at h0
      simp only [Option.map_some', Option.some.injEq, Prod.mk.injEq] at h0
      exact ⟨f, rfl, h0.1, h0.2.1⟩
  · intro i n hn
    have hs : r.ctx.store.nodeShape[i]? = some (n.kind, n.parent, n.group.transparency) := by
      simp [Store.nodeShape, hn]
    obtain ⟨a, b, c⟩ := hall i _ _ _ hs
    refine ⟨a, b, fun hk => ?_⟩
    obtain ⟨p, pk, pp, pt, e1, e2, e3⟩ := c hk
    refine ⟨p, e1, ?_⟩
    rw [kindOf_eq_shape, e2]
    rcases e3 with e | e
    · left; rw [e]; rfl
    · right; rw [e]; rfl

/-- The claim C11 on the document with a Snout in a group, which `parseREV`
accepts: a File, a Model under it, a Group under the Model. -/
theorem one_file_root_witness :
    ∃ r, parseREV sampleHost {} none doc_snout = some r ∧ r.ok = true ∧
      r.ctx.store.nodes.map (fun n => (n.kind, n.parent))
        = [(NodeKind.File, none), (NodeKind.Model, some 0), (NodeKind.Group, some 1)] ∧
      (∃ f, r.ctx.store.nodes[0]? = some f ∧ f.kind = NodeKind.File ∧ f.parent = none) ∧
      ∀ (i : Nat) (n : Node ℚ), r.ctx.store.nodes[i]? = some n →
        (n.kind = NodeKind.File → i = 0) ∧
        (n.kind = NodeKind.Model → n.parent = some 0) ∧
        (n.kind = NodeKind.Group → ∃ ph, n.parent = some ph ∧
          (r.ctx.store.kindOf ph = some NodeKind.Model ∨
           r.ctx.store.kindOf ph = some NodeKind.Group)) := by
  obtain ⟨r, hr⟩ := parseREV_returns sampleHost {} none doc_snout
  have hev : (parseREV sampleHost {} none doc_snout).map
      (fun r => (r.ok, r.ctx.store.nodes.map (fun n => (n.kind, n.parent))))
      = some (true, [(NodeKind.File, none), (NodeKind.Model, some 0),
          (NodeKind.Group, some 1)]) := by decide
  rw [hr] at hev
  simp only [Option.map_some', Option.some.injEq, Prod.mk.injEq] at hev
  exact ⟨r, hr, hev.1, hev.2, one_file_root sampleHost none doc_snout r hr hev.1⟩

/-- C12. For every buffer whose first chunk header carries an identifier other
than `HEAD` (after trimming spaces and tabs), `parseREV` returns failure
without creating any node (the nodes and the geometries of the Store are as
they were); and a chunk header `HEAD` that `parseREV` comes to after the first
chunk, in either loop, also makes `parseREV` fail. -/
theorem head_only_first (H : Host F) (store : Store F) (path : Option (List Char))
    (buf : Buf) :
    (∀ id p0, read_chunk_header_txt H buf = some (id, p0) → id ≠ "HEAD".toList →
      ∃ r, parseREV H store path buf = some r ∧ r.ok = false ∧
        r.ctx.store.nodes = store.nodes ∧ r.ctx.store.geometries = store.geometries) ∧
    (∀ (s : Pos F) p1, Visits H store path buf s →
      read_chunk_header_txt H s.p = some ("HEAD".toList, p1) →
      ∃ r, parseREV H store path buf = some r ∧ r.ok = false) := by
  constructor
  · intro id p0 hh hid
    refine ⟨⟨false, set_error { store := store, path := path }
      ("Expected HEAD, got '".toList ++ fmt_s id ++ "'".toList), p0⟩, ?_, rfl, ?_, ?_⟩
    · unfold parseREV parseREV_fuel
      simp only [hh]
      rw [if_pos hid]
    · exact (errors_set_error _ _).2.2.1
    · exact (errors_set_error _ _).2.2.2
  · intro s p1 hv hh
    exact ⟨_, parseREV_unknown_chunk H store path buf s _ p1 hv hh
      (fun _ => by decide) (fun _ => by decide), rfl⟩

/-- The claim C12 on a document that starts with a `MODL` and on a document
with a second `HEAD`. -/
theorem head_only_first_witness :
    (read_chunk_header_txt sampleHost doc_no_head
        = some ("MODL".toList, "project\nmodel\nEND:\n1 1\n".toList) ∧
      ∃ r, parseREV sampleHost {} none doc_no_head = some r ∧ r.ok = false ∧
        r.ctx.store.nodes = [] ∧ r.ctx.store.geometries = []) ∧
    (Visits sampleHost {} none doc_second_head
        ⟨.root, (parse_head_txt sampleHost {}
            "info\nnote\ndate\nuser\nHEAD\n1 1\ninfo\nnote\ndate\nuser\n".toList).ctx,
          "HEAD\n1 1\ninfo\nnote\ndate\nuser\n".toList⟩ ∧
      ∃ r, parseREV sampleHost {} none doc_second_head = some r ∧ r.ok = false) := by
  have hv : Visits sampleHost {} none doc_second_head
      ⟨.root, (parse_head_txt sampleHost {}
          "info\nnote\ndate\nuser\nHEAD\n1 1\ninfo\nnote\ndate\nuser\n".toList).ctx,
        "HEAD\n1 1\ninfo\nnote\ndate\nuser\n".toList⟩ :=
    ⟨"info\nnote\ndate\nuser\nHEAD\n1 1\ninfo\nnote\ndate\nuser\n".toList, by decide, by decide,
      Relation.ReflTransGen.refl⟩
  exact ⟨⟨by decide, (head_only_first sampleHost {} none doc_no_head).1 _ _
      (by decide : read_chunk_header_txt sampleHost doc_no_head
        = some ("MODL".toList, "project\nmodel\nEND:\n1 1\n".toList)) (by decide)⟩,
    hv, (head_only_first sampleHost {} none doc_second_head).2 _
      "info\nnote\ndate\nuser\n".toList hv (by decide)⟩

/-- C14 (amended). For every chunk header that `parseREV` comes to whose trimmed
identifier is not one of the tokens allowed at that level (at top level
anything outside `END:`, `MODL`, `CNTB`, `CNTE`, `PRIM`, `OBST`, `INSU`; in the
loop over the children of a group anything outside `CNTE`, `CNTB`, `PRIM`, `OBST`,
`INSU`), `parseREV` returns failure and the error message is the text of that
loop with the identifier in quotes, formatted by `%s` into a buffer of 1024
bytes: `Unrecognized chunk '<id>'` at top level, `CNTB: unexpected chunk '<id>'`
in a group. An identifier without a NUL byte and of at most 999 bytes is
contained in the message whole. -/
theorem unknown_chunk_is_rejected (H : Host F) (store : Store F)
    (path : Option (List Char)) (buf : Buf) (s : Pos F) (id : List Char) (p1 : Buf)
    (hv : Visits H store path buf s)
    (hh : read_chunk_header_txt H s.p = some (id, p1))
    (hroot : s.level = Level.root → id ∉ ["END:".toList, "MODL".toList, "CNTB".toList,
      "CNTE".toList, "PRIM".toList, "OBST".toList, "INSU".toList])
    (hgroup : s.level = Level.group → id ∉ ["CNTE".toList, "CNTB".toList, "PRIM".toList,
      "OBST".toList, "INSU".toList]) :
    ∃ r msg, parseREV H store path buf = some r ∧ r.ok = false ∧
      r.ctx.store.errorString = some msg ∧
      msg = (((match s.level with
        | .root => "Unrecognized chunk '".toList
        | .group => "CNTB: unexpected chunk '".toList) ++ fmt_s id ++ "'".toList).take 1023) ∧
      ('\x00' ∉ id → id.length ≤ 999 → id <:+: msg) := by
  refine ⟨_, _, parseREV_unknown_chunk H store path buf s id p1 hv hh hroot hgroup, rfl,
    (errors_set_error _ _).2.1, rfl, ?_⟩
  intro hz hlen
  rw [fmt_s_no_nul id hz]
  apply infix_of_take
  cases s.level
  · simp only [String.toList, List.length_cons, List.length_nil]; omega
  · simp only [String.toList, List.length_cons, List.length_nil]; omega

/-- The claim C14 on a chunk `JUNK` at top level. -/
theorem unknown_chunk_is_rejected_witness :
    Visits sampleHost {} none doc_junk_chunk
        ⟨.root, (parse_head_txt sampleHost {}
            "info\nnote\ndate\nuser\nJUNK\n1 1\n".toList).ctx, "JUNK\n1 1\n".toList⟩ ∧
    ∃ r msg, parseREV sampleHost {} none doc_junk_chunk = some r ∧ r.ok = false ∧
      r.ctx.store.errorString = some msg ∧
      msg = "Unrecognized chunk 'JUNK'".toList ∧ "JUNK".toList <:+: msg := by
  have hv : Visits sampleHost {} none doc_junk_chunk
      ⟨.root, (parse_head_txt sampleHost {}
          "info\nnote\ndate\nuser\nJUNK\n1 1\n".toList).ctx, "JUNK\n1 1\n".toList⟩ :=
    ⟨"info\nnote\ndate\nuser\nJUNK\n1 1\n".toList, by decide, by decide,
      Relation.ReflTransGen.refl⟩
  obtain ⟨r, msg, h1, h2, h3, h4, h5⟩ :=
    unknown_chunk_is_rejected sampleHost {} none doc_junk_chunk _ "JUNK".toList [] hv
      (by decide) (fun _ => by decide) (fun h => by cases h)
  exact ⟨hv, r, msg, h1, h2, h3, h4.trans (by decide), h5 (by decide) (by decide)⟩

/-- C14 fails as stated for an identifier with a NUL byte: the chunk `X\0Y` at
top level is rejected and the message holds only `X`, the bytes that `%s`
prints. -/
theorem unknown_chunk_message_is_cut :
    Visits sampleHost {} none doc_nul_chunk
        ⟨.root, (parse_head_txt sampleHost {}
            "info\nnote\ndate\nuser\nX\x00Y\n1 1\n".toList).ctx, "X\x00Y\n1 1\n".toList⟩ ∧
    read_chunk_header_txt sampleHost "X\x00Y\n1 1\n".toList = some ("X\x00Y".toList, []) ∧
    "X\x00Y".toList ∉ ["END:".toList, "MODL".toList, "CNTB".toList,
      "CNTE".toList, "PRIM".toList, "OBST".toList, "INSU".toList] ∧
    (parseREV sampleHost {} none doc_nul_chunk).map (fun r => (r.ok, r.ctx.store.errorString))
      = some (false, some "Unrecognized chunk 'X'".toList) ∧
    ¬ ("X\x00Y".toList <:+: "Unrecognized chunk 'X'".toList) := by
  refine ⟨⟨"info\nnote\ndate\nuser\nX\x00Y\n1 1\n".toList, by decide, by decide,
      Relation.ReflTransGen.refl⟩, by decide, by decide, by decide, by decide⟩

/-- C13 (amended). For every buffer that begins with a `HEAD` chunk header
followed by at least four lines, the fields `info`, `note`, `date` and `user` of
the File node that `parseREV` creates equal those four lines in that order,
byte for byte (leading and trailing spaces kept): removed are only the
terminating `\n` or `\r\n`, and, of a last line that ends the buffer without a
`\n`, one `\r` at its end; the `encoding` field is the empty string and the
`path` field equals the path argument (empty for a null pointer). This holds
whether `parseREV` then succeeds or fails. If fewer than four lines remain in
the buffer, a last line without `\n` counted, `parseREV` fails. -/
theorem head_lines_are_stored (H : Host F) (store : Store F) (path : Option (List Char))
    (buf p0 : Buf) (hh : read_chunk_header_txt H buf = some ("HEAD".toList, p0)) :
    (∀ a1 a2 a3 a4 p1 p2 p3 p4, LineAt p0 a1 p1 → LineAt p1 a2 p2 → LineAt p2 a3 p3 →
      LineAt p3 a4 p4 →
      ∃ r f, parseREV H store path buf = some r ∧
        r.ctx.store.nodes[store.nodes.length]? = some f ∧ f.kind = NodeKind.File ∧
        f.parent = none ∧ f.file = ⟨a1, a2, a3, a4, [], path.getD []⟩) ∧
    ((¬ ∃ a1 a2 a3 a4 p1 p2 p3 p4, LineAt p0 a1 p1 ∧ LineAt p1 a2 p2 ∧ LineAt p2 a3 p3 ∧
        LineAt p3 a4 p4) →
      ∃ r, parseREV H store path buf = some r ∧ r.ok = false ∧
        r.ctx.store.nodes.length ≤ store.nodes.length + 1) := by
  constructor
  · intro a1 a2 a3 a4 p1 p2 p3 p4 l1 l2 l3 l4
    obtain ⟨ho, hn⟩ := parse_head_txt_lines H { store := store, path := path } p0 p1 p2 p3 p4
      a1 a2 a3 a4 rfl (read_line_of_lineAt _ _ _ l1) (read_line_of_lineAt _ _ _ l2)
      (read_line_of_lineAt _ _ _ l3) (read_line_of_lineAt _ _ _ l4)
    obtain ⟨r, hr, hpre⟩ := parseREV_keeps_head H store path buf p0 hh ho
    rw [hn] at hpre
    exact ⟨r, _, hr, prefix_index hpre store.nodes.length _
      (List.getElem?_concat_length _ _), rfl, rfl, rfl⟩
  · intro hno
    have hf : (parse_head_txt H { store := store, path := path } p0).ok = false := by
      cases hok : (parse_head_txt H { store := store, path := path } p0).ok with
      | false => rfl
      | true =>
        exfalso
        obtain ⟨a1, a2, a3, a4, p1, p2, p3, p4, e1, e2, e3, e4⟩ :=
          parse_head_txt_ok_lines H _ p0 hok
        exact hno ⟨a1, a2, a3, a4, p1, p2, p3, p4, lineAt_of_read_line _ _ _ e1,
          lineAt_of_read_line _ _ _ e2, lineAt_of_read_line _ _ _ e3,
          lineAt_of_read_line _ _ _ e4⟩
    refine ⟨parse_head_txt H { store := store, path := path } p0, ?_, hf, ?_⟩
    · unfold parseREV parseREV_fuel
      simp only [hh]
      rw [if_neg (by simp)]
      simp only [hf]
      simp
    · obtain ⟨_, _, ⟨_, _, hn⟩ | ⟨_, hn, _⟩⟩ :=
        parse_head_txt_effect H { store := store, path := path } p0 _ rfl
      · have := congrArg List.length hn
        simp only [Store.nodeShape, List.length_map] at this
        omega
      · have := congrArg List.length hn
        simp only [Store.nodeShape, List.length_map, List.length_append,
          List.length_singleton] at this
        omega

/-- The claim C13 on a `HEAD` chunk whose lines have blanks at both ends and
end in `\r\n` or `\n`, and on a `HEAD` chunk with two lines only. -/
theorem head_lines_are_stored_witness :
    (∃ r f, parseREV sampleHost {} (some "a.rev".toList) doc_head_blanks = some r ∧
      r.ctx.store.nodes[0]? = some f ∧ f.kind = NodeKind.File ∧ f.parent = none ∧
      f.file = ⟨" info ".toList, "\tnote".toList, "date \r".toList, "user".toList, [],
        "a.rev".toList⟩) ∧
    (∃ r, parseREV sampleHost {} none doc_head_short = some r ∧ r.ok = false ∧
      r.ctx.store.nodes.length ≤ 1) := by
  constructor
  · exact (head_lines_are_stored sampleHost {} (some "a.rev".toList) doc_head_blanks
      " info \r\n\tnote\ndate \r\r\nuser\nMODL\n1 1\nproject\nmodel\n".toList (by decide)).1
      " info ".toList "\tnote".toList "date \r".toList "user".toList
      "\tnote\ndate \r\r\nuser\nMODL\n1 1\nproject\nmodel\n".toList
      "date \r\r\nuser\nMODL\n1 1\nproject\nmodel\n".toList
      "user\nMODL\n1 1\nproject\nmodel\n".toList
      "MODL\n1 1\nproject\nmodel\n".toList
      (LineAt.crlf " info ".toList _ (by decide))
      (LineAt.lf "\tnote".toList _ (by decide) (by decide))
      (LineAt.crlf "date \r".toList _ (by decide))
      (LineAt.lf "user".toList _ (by decide) (by decide))
  · refine (head_lines_are_stored sampleHost {} none doc_head_short
      "info\nnote\n".toList (by decide)).2 ?_
    rintro ⟨a1, a2, a3, a4, p1, p2, p3, p4, l1, l2, l3, _⟩
    have e1 := read_line_of_lineAt _ _ _ l1
    rw [show read_line "info\nnote\n".toList = some ("info".toList, "note\n".toList) by decide]
      at e1
    simp only [Option.some.injEq, Prod.mk.injEq] at e1
    obtain ⟨_, rfl⟩ := e1
    have e2 := read_line_of_lineAt _ _ _ l2
    rw [show read_line "note\n".toList = some ("note".toList, []) by decide] at e2
    simp only [Option.some.injEq, Prod.mk.injEq] at e2
    obtain ⟨_, rfl⟩ := e2
    have e3 := read_line_of_lineAt _ _ _ l3
    simp [read_line] at e3

/-- C13 fails as stated on a fourth line that ends the buffer with a `\r` and
no `\n`: after the header the buffer is `info\nnote\ndate\nuser\r`, `parseREV`
succeeds, so that the bytes `user\r` are the fourth line, and the `user` field
is `user`, without the `\r`, though neither a `\n` nor a `\r\n` ends the line. -/
theorem head_last_line_loses_cr :
    read_chunk_header_txt sampleHost doc_head_cr
      = some ("HEAD".toList, "info\nnote\ndate\nuser\r".toList) ∧
    (parseREV sampleHost {} none doc_head_cr).map
        (fun r => (r.ok, r.ctx.store.nodes.map (fun n => (n.kind, n.file.user))))
      = some (true, [(NodeKind.File, "user".toList)]) ∧
    "user".toList ≠ "user\r".toList := by
  refine ⟨by decide, by decide, by decide⟩

/-- C18. For every buffer `B` that contains no `\r` byte, `parseREV` on the
buffer obtained from `B` by replacing every `\n` with `\r\n` has the same
success/failure result as on `B` and leaves the same context: the same Store
(the node tree with all its strings, numbers, kinds and payloads, the
geometries, the error string and the counts), the same stack and logger. The
`strtof` of the host is taken to stop at white space (`Host.strtof_stops`). -/
theorem crlf_gives_same_tree (H : Host F) (hl : H.strtof_stops) (store : Store F)
    (path : Option (List Char)) (B : Buf) (hB : '\r' ∉ B) :
    ∃ r r', parseREV H store path B = some r ∧
      parseREV H store path (crlf B) = some r' ∧ r'.ok = r.ok ∧ r'.ctx = r.ctx := by
  obtain ⟨S, hs, hn, hL, hR⟩ := crlf_simulation H hl
  obtain ⟨r, r', h1, h2, o, c, _⟩ := S.parseREV_sim hs hn store path B (crlf B) (hR B hB)
  refine ⟨r, r', h1, h2, o, ?_⟩
  obtain ⟨o1, c1, p1⟩ := r
  obtain ⟨o2, c2, p2⟩ := r'
  obtain ⟨s, l, pa, st⟩ := c1
  obtain ⟨s', l', pa', st'⟩ := c2
  obtain ⟨e1, e2, e3, e4⟩ := c
  have e4' : l = l' := hL _ _ e4
  simp only at e1 e2 e3
  subst e1 e2 e3 e4'
  rfl

/-- The claim C18 on the document with a Snout in a group: with `\r\n` line
ends `parseREV` succeeds as it does with `\n` line ends, with the same three
nodes and the same geometry. -/
theorem crlf_gives_same_tree_witness :
    '\r' ∉ doc_snout ∧
    (crlf doc_snout).take 12 = "HEAD\r\n1 1\r\ni".toList ∧
    ∃ r r', parseREV sampleHost {} none doc_snout = some r ∧
      parseREV sampleHost {} none (crlf doc_snout) = some r' ∧ r'.ok = r.ok ∧
      r'.ctx = r.ctx :=
  ⟨by decide, by decide,
    crlf_gives_same_tree sampleHost sampleHost_stops {} none doc_snout (by decide)⟩

/-- C16. Reading an `END:` chunk header at top level terminates parsing with
success: for every buffer `B` that ends with a line break and on which the
top-level loop of `parseREV` comes to a chunk header that is read as `END:`
and is complete at the end of `B`, `parseREV` on `B` and `parseREV` on `B`
followed by any bytes both succeed and leave the same context (the same node
tree, with all the Store), and a Model that was on top of the parent stack at
the header is popped: the stack that is left is a part of what was below it.
The `strtof` of the host is taken to stop at white space. -/
theorem end_chunk_terminates (H : Host F) (hl : H.strtof_stops) (store : Store F)
    (path : Option (List Char)) (B z : Buf) (ctx : Context F)
    (hB : B.getLast? = some '\n')
    (hv : Visits H store path B ⟨.root, ctx, z⟩)
    (hh : read_chunk_header_txt H z = some ("END:".toList, [])) (suffix : Buf) :
    ∃ r r', parseREV H store path B = some r ∧
      parseREV H store path (B ++ suffix) = some r' ∧
      r.ok = true ∧ r'.ok = true ∧ r'.ctx = r.ctx ∧
      ∀ m rest, ctx.stack = m :: rest → ctx.store.kindOf m = some NodeKind.Model →
        r.ctx.stack <:+ rest := by
  obtain ⟨S, hR, hP, hn, hL⟩ := tail_simulation H hl [] suffix False (fun h => h.elim)
  obtain ⟨c, cs, hz⟩ := header_ne_nil H _ _ _ hh
  have hB' : B = B.dropLast ++ ['\n'] := (List.dropLast_append_getLast? _ hB).symm
  have hRB : S.R B (B ++ suffix) := by
    rw [hR]
    left
    refine ⟨B.dropLast, hB', ?_⟩
    nth_rewrite 1 [hB']
    simp
  have hnp : ¬ S.P z := by
    rw [hP, hz]
    unfold TailP
    simp
  obtain ⟨s', hv', hrel, _⟩ := S.visits_sim hn store path B (B ++ suffix) _ hv hRB hnp
  obtain ⟨l', c', p'⟩ := s'
  obtain ⟨e1, e2, e3⟩ := hrel
  simp only at e1 e2 e3
  subst e1
  have ec := S.cx_eq e2 hL
  subst ec
  rw [hR] at e3
  rcases e3 with ⟨u, e4, e5⟩ | ⟨hf, _⟩
  · subst e4 e5
    obtain ⟨q', hh'⟩ := header_tail_end H u _ _ hh suffix
    have r1 := parseREV_of_visits_root H store path B _ hv rfl _ (result_end H c' _ _ hh)
    have r2 := parseREV_of_visits_root H store path (B ++ suffix) _ hv' rfl _
      (result_end H c' _ _ hh')
    simp only [if_true] at r1 r2
    refine ⟨_, _, r1, r2, rfl, rfl, rfl, ?_⟩
    intro m rest hs hk
    simp only
    rw [finish_stack]
    have h1 : (pop_if_kind c' .Model).stack = rest := by
      unfold pop_if_kind
      simp only [hs, hk, if_true, pop_back, List.tail_cons]
    exact ((pop_if_kind_suffix _ _).trans (pop_if_kind_suffix _ _)).trans
      (h1 ▸ List.suffix_refl _)
  · exact hf.elim

/-- The claim C16 on a document of a `HEAD`, a `MODL` and the `END:` chunk,
followed by the bytes `junk`: both calls succeed with the same context, and the
Model that was on top of the stack at the `END:` header is popped. -/
theorem end_chunk_terminates_witness :
    doc_model_end.getLast? = some '\n' ∧
    ∃ r r', parseREV sampleHost {} none doc_model_end = some r ∧
      parseREV sampleHost {} none (doc_model_end ++ "junk".toList) = some r' ∧
      r.ok = true ∧ r'.ok = true ∧ r'.ctx = r.ctx ∧
      ∀ m rest,
        (parse_modl_txt sampleHost
          (parse_head_txt sampleHost {}
            "info\nnote\ndate\nuser\nMODL\n1 1\nproject\nmodel\nEND:\n1 1\n".toList).ctx
          "project\nmodel\nEND:\n1 1\n".toList).ctx.stack = m :: rest →
        (parse_modl_txt sampleHost
          (parse_head_txt sampleHost {}
            "info\nnote\ndate\nuser\nMODL\n1 1\nproject\nmodel\nEND:\n1 1\n".toList).ctx
          "project\nmodel\nEND:\n1 1\n".toList).ctx.store.kindOf m = some NodeKind.Model →
        r.ctx.stack <:+ rest :=
  ⟨by decide,
    end_chunk_terminates sampleHost sampleHost_stops {} none doc_model_end
      "END:\n1 1\n".toList _ (by decide)
      ⟨"info\nnote\ndate\nuser\nMODL\n1 1\nproject\nmodel\nEND:\n1 1\n".toList,
        by decide, by decide,
        Relation.ReflTransGen.single
          (Next.modl _ "MODL\n1 1\nproject\nmodel\nEND:\n1 1\n".toList
            "project\nmodel\nEND:\n1 1\n".toList (by decide) (by decide))⟩
      (by decide) "junk".toList⟩

/-- C15. A `CNTE` chunk header read by the top-level loop of `parseREV` never
causes failure: for every buffer and every chunk header of it that the
top-level loop comes to at the start of a line, the buffer with a complete
`CNTE` chunk header (its identifier line and its line of two integers, read by
`read_chunk_header_txt` as `CNTE` up to the old header) inserted in front of
that header gives the same success/failure result, the same Store (the node
tree, the geometries, the error string) and the same parent stack, and a
logger with one more entry: the warning of the top-level loop. The `strtof` of
the host is taken to stop at white space. -/
theorem stray_cnte_is_tolerated (H : Host F) (hl : H.strtof_stops) (store : Store F)
    (path : Option (List Char)) (pre cnte post : Buf) (ctx : Context F)
    (hpre : pre.getLast? = some '\n') (hpost : post ≠ [])
    (hv : Visits H store path (pre ++ post) ⟨.root, ctx, post⟩)
    (hc : read_chunk_header_txt H (cnte ++ post) = some ("CNTE".toList, post)) :
    ∃ r r', parseREV H store path (pre ++ post) = some r ∧
      parseREV H store path (pre ++ cnte ++ post) = some r' ∧
      r'.ok = r.ok ∧ r'.ctx.store = r.ctx.store ∧ r'.ctx.stack = r.ctx.stack ∧
      LogPlus stray_cnte_warning r.ctx.logger r'.ctx.logger := by
  obtain ⟨c0, r0, hy2⟩ := header_ne_nil H _ _ _ hc
  have hfirst := header_cnte_first H c0 r0 post (hy2 ▸ hc)
  obtain ⟨S, hR, hP, hn, hL⟩ := tail_simulation H hl post (cnte ++ post) True
    (fun _ => ⟨hpost, fun c r e => (by
      rw [hy2] at e
      simp only [List.cons.injEq] at e
      rw [← e.1]
      exact hfirst)⟩)
  have hpre' : pre = pre.dropLast ++ ['\n'] := (List.dropLast_append_getLast? _ hpre).symm
  have hRB : S.R (pre ++ post) (pre ++ cnte ++ post) := by
    rw [hR]
    left
    refine ⟨pre.dropLast, ?_, ?_⟩
    · nth_rewrite 1 [hpre']
      simp
    · nth_rewrite 1 [hpre']
      simp
  have hnp : ¬ S.P post := by
    rw [hP]
    unfold TailP
    simp
  obtain ⟨s', hv', hrel, _⟩ := S.visits_sim hn store path _ _ _ hv hRB hnp
  obtain ⟨l', c', p'⟩ := s'
  obtain ⟨e1, e2, e3⟩ := hrel
  simp only at e1 e2 e3
  subst e1
  have ec := S.cx_eq e2 hL
  subst ec
  rw [hR] at e3
  have ep : p' = cnte ++ post := by
    rcases e3 with ⟨u, e4, _⟩ | ⟨_, _, e5⟩
    · have := congrArg List.length e4
      simp at this
      omega
    · exact e5
  subst ep
  obtain ⟨T, hs, hTR, hTL⟩ := log_simulation H stray_cnte_warning
  obtain ⟨x, f, hx⟩ := result_exists H ⟨.root, c', post⟩
  simp only [run] at hx
  have hcx : T.Cx c' { c' with logger := c'.logger ++ [stray_cnte_warning] } :=
    ⟨rfl, rfl, rfl, (hTL _ _).mpr ⟨c'.logger, [], by simp, rfl⟩⟩
  obtain ⟨x', hx', o, cx, _⟩ := (T.loops_sim f).2.2 _ _ post post x hcx ((hTR _ _).mpr rfl) hx
    ⟨fun _ => T.P_strong hs _, fun _ => hs⟩
  have r1 := parseREV_of_visits_root H store path _ _ hv rfl x ⟨f, hx⟩
  have r2 := parseREV_of_visits_root H store path _ _ hv' rfl x'
    (back_stray H c' _ post hc x' ⟨f, hx'⟩)
  refine ⟨_, _, r1, r2, ?_⟩
  rw [o]
  cases hok : x.ok with
  | false =>
    simp only [Bool.false_eq_true, if_false]
    exact ⟨o, cx.1, cx.2.1, (hTL _ _).mp cx.2.2.2⟩
  | true =>
    simp only [if_true]
    have cf := T.cx_finish cx
    exact ⟨trivial, cf.1, cf.2.1, (hTL _ _).mp cf.2.2.2⟩

/-- The claim C15 on a document with a group, with the lines `CNTE` and `1 1`
inserted between the `MODL` chunk and the `CNTB` chunk. -/
theorem stray_cnte_is_tolerated_witness :
    "HEAD\n1 1\ninfo\nnote\ndate\nuser\nMODL\n1 1\nproject\nmodel\n".toList ++
        "CNTB\n1 1\ngroup\n0 0 0\n0\nCNTE\n1 1\nEND:\n1 1\n".toList = doc_group_end ∧
    "HEAD\n1 1\ninfo\nnote\ndate\nuser\nMODL\n1 1\nproject\nmodel\n".toList ++
        "CNTE\n1 1\n".toList ++
        "CNTB\n1 1\ngroup\n0 0 0\n0\nCNTE\n1 1\nEND:\n1 1\n".toList = doc_group_end_stray ∧
    ∃ r r', parseREV sampleHost {} none
        ("HEAD\n1 1\ninfo\nnote\ndate\nuser\nMODL\n1 1\nproject\nmodel\n".toList ++
          "CNTB\n1 1\ngroup\n0 0 0\n0\nCNTE\n1 1\nEND:\n1 1\n".toList) = some r ∧
      parseREV sampleHost {} none
        ("HEAD\n1 1\ninfo\nnote\ndate\nuser\nMODL\n1 1\nproject\nmodel\n".toList ++
          "CNTE\n1 1\n".toList ++
          "CNTB\n1 1\ngroup\n0 0 0\n0\nCNTE\n1 1\nEND:\n1 1\n".toList) = some r' ∧
      r'.ok = r.ok ∧ r'.ctx.store = r.ctx.store ∧ r'.ctx.stack = r.ctx.stack ∧
      LogPlus stray_cnte_warning r.ctx.logger r'.ctx.logger :=
  ⟨by decide, by decide,
    stray_cnte_is_tolerated sampleHost sampleHost_stops {} none
      "HEAD\n1 1\ninfo\nnote\ndate\nuser\nMODL\n1 1\nproject\nmodel\n".toList
      "CNTE\n1 1\n".toList
      "CNTB\n1 1\ngroup\n0 0 0\n0\nCNTE\n1 1\nEND:\n1 1\n".toList _
      (by decide) (by decide)
      ⟨"info\nnote\ndate\nuser\nMODL\n1 1\nproject\nmodel\nCNTB\n1 1\ngroup\n0 0 0\n0\nCNTE\n1 1\nEND:\n1 1\n".toList,
        by decide, by decide,
        Relation.ReflTransGen.single
          (Next.modl _
            "MODL\n1 1\nproject\nmodel\nCNTB\n1 1\ngroup\n0 0 0\n0\nCNTE\n1 1\nEND:\n1 1\n".toList
            "project\nmodel\nCNTB\n1 1\ngroup\n0 0 0\n0\nCNTE\n1 1\nEND:\n1 1\n".toList
            (by decide) (by decide))⟩
      (by decide)⟩

/-- C20. The two reserved integers of a chunk header never influence the
result: for every buffer and every chunk header in it (the first of the buffer,
or one that `parseREV` comes to in one of its two loops) whose two integers are
unsigned decimal values not exceeding `2^32 - 1`, the buffer with the two
integers replaced by any other two unsigned decimal values not exceeding
`2^32 - 1` gives the same result of `parseREV`: the same success or failure,
the same context with every field of the node tree, the same cursor. The
`strtof` of the host is taken to stop at white space. -/
theorem reserved_integers_unused (H : Host F) (hl : H.strtof_stops) (store : Store F)
    (path : Option (List Char)) (pre idl w1 d1 w2 d2 e1 e2 rest : Buf)
    (hid : '\n' ∉ idl) (hw1 : ∀ c ∈ w1, isspace c = true)
    (hw2 : w2 ≠ [] ∧ ∀ c ∈ w2, isspace c = true)
    (hrest : ∀ c r, rest = c :: r → digitVal c = none)
    (hd1 : IsU32 d1) (hd2 : IsU32 d2) (he1 : IsU32 e1) (he2 : IsU32 e2)
    (hv : pre = [] ∨ ∃ l ctx, Visits H store path (pre ++ header_text idl w1 d1 w2 d2 rest)
      ⟨l, ctx, header_text idl w1 d1 w2 d2 rest⟩) :
    ∃ r, parseREV H store path (pre ++ header_text idl w1 d1 w2 d2 rest) = some r ∧
      parseREV H store path (pre ++ header_text idl w1 e1 w2 e2 rest) = some r := by
  have hd := header_ints H idl w1 d1 w2 d2 rest hid hw1 hw2 hrest hd1 hd2
  have he := header_ints H idl w1 e1 w2 e2 rest hid hw1 hw2 hrest he1 he2
  obtain ⟨r, hr⟩ := parseREV_returns H store path (pre ++ header_text idl w1 d1 w2 d2 rest)
  refine ⟨r, hr, ?_⟩
  rw [← hr]
  rcases hv with rfl | ⟨l, ctx, hv⟩
  · simp only [List.nil_append]
    exact parseREV_header_eq H store path _ _ _ hd he
  · obtain ⟨S, hR, hP, hn, hL⟩ := tail_simulation H hl (w1 ++ d1 ++ (w2 ++ d2 ++ rest))
      (w1 ++ e1 ++ (w2 ++ e2 ++ rest)) False (fun h => h.elim)
    have hRB : S.R (pre ++ header_text idl w1 d1 w2 d2 rest)
        (pre ++ header_text idl w1 e1 w2 e2 rest) := by
      rw [hR]
      left
      exact ⟨pre ++ idl, by simp [header_text], by simp [header_text]⟩
    have hnp : ¬ S.P (header_text idl w1 d1 w2 d2 rest) := by
      rw [hP]
      unfold TailP header_text
      simp only [List.length_append, List.length_cons]
      omega
    obtain ⟨s', hv', hrel, hback⟩ := S.visits_sim hn store path _ _ _ hv hRB hnp
    obtain ⟨l', c', p'⟩ := s'
    obtain ⟨e1', e2', e3'⟩ := hrel
    simp only at e1' e2' e3'
    subst e1'
    have ec := S.cx_eq e2' hL
    subst ec
    rw [hR] at e3'
    have ep : p' = header_text idl w1 e1 w2 e2 rest := by
      rcases e3' with ⟨u, e4, e5⟩ | ⟨hf, _⟩
      · unfold header_text at e4 ⊢
        have hu : idl = u := by
          have e4' : idl ++ ('\n' :: (w1 ++ d1 ++ (w2 ++ d2 ++ rest))) =
              u ++ ('\n' :: (w1 ++ d1 ++ (w2 ++ d2 ++ rest))) := e4
          exact List.append_cancel_right e4'
        rw [hu]
        exact e5
      · exact hf.elim
    subst ep
    apply hback
    obtain ⟨x, f, hx⟩ := result_exists H ⟨l', c', header_text idl w1 d1 w2 d2 rest⟩
    refine ⟨x, ⟨f, hx⟩, f, ?_⟩
    simp only at hx ⊢
    rw [run_header_eq H l' f c' _ _ _ hd he]
    exact hx

/-- The claim C20 on the header of the `CNTE` chunk that closes the group of a
document: its integers `1` and `1` are replaced by `42` and `4294967295`. -/
theorem reserved_integers_unused_witness :
    "HEAD\n1 1\ninfo\nnote\ndate\nuser\nMODL\n1 1\nproject\nmodel\nCNTB\n1 1\ngroup\n0 0 0\n0\n".toList ++
        header_text "CNTE".toList [] "1".toList " ".toList "1".toList "\nEND:\n1 1\n".toList
      = doc_group_end ∧
    IsU32 "42".toList ∧ IsU32 "4294967295".toList ∧
    ∃ r, parseREV sampleHost {} none
        ("HEAD\n1 1\ninfo\nnote\ndate\nuser\nMODL\n1 1\nproject\nmodel\nCNTB\n1 1\ngroup\n0 0 0\n0\n".toList ++
          header_text "CNTE".toList [] "1".toList " ".toList "1".toList
            "\nEND:\n1 1\n".toList) = some r ∧
      parseREV sampleHost {} none
        ("HEAD\n1 1\ninfo\nnote\ndate\nuser\nMODL\n1 1\nproject\nmodel\nCNTB\n1 1\ngroup\n0 0 0\n0\n".toList ++
          header_text "CNTE".toList [] "42".toList " ".toList "4294967295".toList
            "\nEND:\n1 1\n".toList) = some r :=
  ⟨by decide, ⟨by decide, by decide, by decide⟩, ⟨by decide, by decide, by decide⟩,
    reserved_integers_unused sampleHost sampleHost_stops {} none
      "HEAD\n1 1\ninfo\nnote\ndate\nuser\nMODL\n1 1\nproject\nmodel\nCNTB\n1 1\ngroup\n0 0 0\n0\n".toList
      "CNTE".toList [] "1".toList " ".toList "1".toList "42".toList "4294967295".toList
      "\nEND:\n1 1\n".toList
      (by decide) (by decide) ⟨by decide, by decide⟩
      (fun c r e => (by
        simp only [String.toList, List.cons.injEq] at e
        rw [← e.1]
        decide))
      ⟨by decide, by decide, by decide⟩ ⟨by decide, by decide, by decide⟩
      ⟨by decide, by decide, by decide⟩ ⟨by decide, by decide, by decide⟩
      (Or.inr ⟨.group, _,
        "info\nnote\ndate\nuser\nMODL\n1 1\nproject\nmodel\nCNTB\n1 1\ngroup\n0 0 0\n0\nCNTE\n1 1\nEND:\n1 1\n".toList,
        by decide, by decide,
        (Relation.ReflTransGen.single
          (Next.modl _
            "MODL\n1 1\nproject\nmodel\nCNTB\n1 1\ngroup\n0 0 0\n0\nCNTE\n1 1\nEND:\n1 1\n".toList
            "project\nmodel\nCNTB\n1 1\ngroup\n0 0 0\n0\nCNTE\n1 1\nEND:\n1 1\n".toList
            (by decide) (by decide))).tail
          (Next.group_enter Level.root _
            "CNTB\n1 1\ngroup\n0 0 0\n0\nCNTE\n1 1\nEND:\n1 1\n".toList
            "group\n0 0 0\n0\nCNTE\n1 1\nEND:\n1 1\n".toList (by decide) (by decide))⟩)⟩

/-- C19 (amended). For a `CNTB` chunk that `parseREV` comes to and opens and
whose translation line is `1000 2000 3000` (millimetres), the Group node that
`parseREV` leaves in the Store has as its translation the three parsed
components, each multiplied by the float `0.001f` and nothing else applied; on
a target with binary32 floats this is `[1.0, 2.0, 3.0000002384185791015625]`
(the third product, `12582913 * 2^-22`, is not `3.0`). The `strtof` of the host
is taken to convert an integer literal to the float nearest to it and the
product to be the binary32 product. -/
theorem translation_is_scaled (H : Host Binary32) (hi : H.reads_integers)
    (hm : ∀ x, H.mul_milli x = x.mul milli32) (store : Store Binary32)
    (path : Option (List Char)) (buf : Buf) (s : Pos Binary32) (p1 : Buf) (name : List Char)
    (rest : Buf) (hv : Visits H store path buf s)
    (hh : read_chunk_header_txt H s.p = some ("CNTB".toList, p1))
    (hname : read_line p1 = some (name, "1000 2000 3000\n".toList ++ rest))
    (ho : (cntb_open H s.ctx p1).ok = true) :
    ∃ r g, parseREV H store path buf = some r ∧
      r.ctx.store.nodes[s.ctx.store.nodes.length]? = some g ∧
      g.kind = NodeKind.Group ∧ g.group.name = name ∧
      g.group.translation =
        [some ((Binary32.ofNat 1000).mul milli32), some ((Binary32.ofNat 2000).mul milli32),
          some ((Binary32.ofNat 3000).mul milli32)] ∧
      g.group.translation =
        [some (Binary32.ofNat 1), some (Binary32.ofNat 2),
          some (Binary32.finite false 12582913 (-22))] := by
  have h0 : read_f32 H ("1000 2000 3000\n".toList ++ rest) =
      some (Binary32.ofNat 1000, " 2000 3000\n".toList ++ rest) :=
    read_f32_integer H hi [] "1000".toList ' ' ("2000 3000\n".toList ++ rest)
      (by decide) (by decide) (by decide) (by decide)
  have h1 : read_f32 H (" 2000 3000\n".toList ++ rest) =
      some (Binary32.ofNat 2000, " 3000\n".toList ++ rest) :=
    read_f32_integer H hi " ".toList "2000".toList ' ' ("3000\n".toList ++ rest)
      (by decide) (by decide) (by decide) (by decide)
  have h2 : read_f32 H (" 3000\n".toList ++ rest) =
      some (Binary32.ofNat 3000, '\n' :: rest) :=
    read_f32_integer H hi " ".toList "3000".toList '\n' rest
      (by decide) (by decide) (by decide) (by decide)
  obtain ⟨r, g, hr, hg, k1, k2, k3⟩ := parseREV_translation H store path buf s p1 name _ _ _ _
    _ _ _ hv hh hname h0 h1 h2 ho
  refine ⟨r, g, hr, hg, k1, k2, ?_, ?_⟩
  · rw [k3, hm, hm, hm]
  · rw [k3, hm, hm, hm]
    decide

/-- The claim C19 as stated fails on a target with binary32 floats: on a
document with one group whose translation line is `1000 2000 3000`, `parseREV`
succeeds and the stored translation of the group is `[1.0, 2.0,
12582913 * 2^-22]`, whose third component is not the float `3.0`. -/
theorem translation_is_rounded :
    (parseREV binary32Host {} none doc_millimetres).map
        (fun r => (r.ok, (r.ctx.store.nodes[2]?).map (fun g => g.group.translation))) =
      some (true, some [some (Binary32.finite false 1 0), some (Binary32.finite false 1 1),
        some (Binary32.finite false 12582913 (-22))]) ∧
    Binary32.finite false 12582913 (-22) ≠ Binary32.ofNat 3 ∧
    Binary32.ofNat 3 = Binary32.finite false 3 0 := by decide

/-- The amended claim C19 on the document with one group whose translation
line is `1000 2000 3000`, on the host with binary32 floats. -/
theorem translation_is_scaled_witness :
    binary32Host.reads_integers ∧
    ∃ r g, parseREV binary32Host {} none doc_millimetres = some r ∧
      r.ctx.store.nodes[2]? = some g ∧
      g.kind = NodeKind.Group ∧ g.group.name = "group".toList ∧
      g.group.translation =
        [some ((Binary32.ofNat 1000).mul milli32), some ((Binary32.ofNat 2000).mul milli32),
          some ((Binary32.ofNat 3000).mul milli32)] ∧
      g.group.translation =
        [some (Binary32.ofNat 1), some (Binary32.ofNat 2),
          some (Binary32.finite false 12582913 (-22))] :=
  ⟨binary32Host_reads,
    translation_is_scaled binary32Host binary32Host_reads (fun _ => rfl) {} none doc_millimetres
      ⟨.root,
        (parse_modl_txt binary32Host
          (parse_head_txt binary32Host {}
            "info\nnote\ndate\nuser\nMODL\n1 1\nproject\nmodel\nCNTB\n1 1\ngroup\n1000 2000 3000\n0\nCNTE\n1 1\nEND:\n1 1\n".toList).ctx
          "project\nmodel\nCNTB\n1 1\ngroup\n1000 2000 3000\n0\nCNTE\n1 1\nEND:\n1 1\n".toList).ctx,
        "CNTB\n1 1\ngroup\n1000 2000 3000\n0\nCNTE\n1 1\nEND:\n1 1\n".toList⟩
      "group\n1000 2000 3000\n0\nCNTE\n1 1\nEND:\n1 1\n".toList "group".toList
      "0\nCNTE\n1 1\nEND:\n1 1\n".toList
      ⟨"info\nnote\ndate\nuser\nMODL\n1 1\nproject\nmodel\nCNTB\n1 1\ngroup\n1000 2000 3000\n0\nCNTE\n1 1\nEND:\n1 1\n".toList,
        by decide, by decide,
        Relation.ReflTransGen.single
          (Next.modl _
            "MODL\n1 1\nproject\nmodel\nCNTB\n1 1\ngroup\n1000 2000 3000\n0\nCNTE\n1 1\nEND:\n1 1\n".toList
            "project\nmodel\nCNTB\n1 1\ngroup\n1000 2000 3000\n0\nCNTE\n1 1\nEND:\n1 1\n".toList
            (by decide) (by decide))⟩
      (by decide) (by decide) (by decide)⟩

/-- C21. For every primitive chunk that `parseREV` comes to in a group and
whose kind integer is read, the Geometry created for it, as `parseREV` leaves
it in the Store, has the classification tag of the chunk identifier alone:
`PRIM` gives Primitive, `OBST` gives Obstruction, `INSU` gives Insulation,
whatever the kind integer is and whatever follows it (also when the rest of
the chunk fails to parse). -/
theorem classification_follows_identifier (H : Host F) (store : Store F)
    (path : Option (List Char)) (buf : Buf) (s : Pos F) (id : List Char) (p1 p2 : Buf)
    (k : Nat) (hv : Visits H store path buf s) (hl : s.level = Level.group)
    (hh : read_chunk_header_txt H s.p = some (id, p1))
    (hid : id = "PRIM".toList ∨ id = "OBST".toList ∨ id = "INSU".toList)
    (hk : read_u32 H p1 = some (k, p2)) :
    ∃ res gn, parseREV H store path buf = some res ∧
      res.ctx.store.geometries[s.ctx.store.geometries.length]? = some gn ∧
      s.ctx.stack.head? = some gn.parent ∧
      (id = "PRIM".toList → gn.geo.type = some GeometryType.Primitive) ∧
      (id = "OBST".toList → gn.geo.type = some GeometryType.Obstruction) ∧
      (id = "INSU".toList → gn.geo.type = some GeometryType.Insulation) := by
  obtain ⟨top, rest, hs, htop⟩ := visits_group_top H store path buf s hv hl
  obtain ⟨t, ht⟩ := Option.ne_none_iff_exists'.mp (type_of_id_prim id hid)
  obtain ⟨gn, hg, hp, hty⟩ := parse_prim_txt_type H s.ctx id p1 p2 k top rest t hs htop ht hk
  obtain ⟨res, hr, hpre⟩ := parseREV_keeps_prim H store path buf s id p1 hv hl hh hid
  refine ⟨res, gn, hr, prefix_index hpre _ _ hg, by rw [hs, hp]; rfl, ?_, ?_, ?_⟩
  · intro e
    subst e
    rw [hty, ← ht]
    rfl
  · intro e
    subst e
    rw [hty, ← ht]
    rfl
  · intro e
    subst e
    rw [hty, ← ht]
    rfl

/-- The claim C21 on a document with an `OBST` chunk of kind 2 in a group: the
Geometry is an Obstruction (and a Box by its kind integer). -/
theorem classification_follows_identifier_witness :
    (∃ res gn, parseREV sampleHost {} none doc_obstruction = some res ∧
      res.ctx.store.geometries[0]? = some gn ∧
      some 2 = some gn.parent ∧
      ("OBST".toList = "PRIM".toList → gn.geo.type = some GeometryType.Primitive) ∧
      ("OBST".toList = "OBST".toList → gn.geo.type = some GeometryType.Obstruction) ∧
      ("OBST".toList = "INSU".toList → gn.geo.type = some GeometryType.Insulation)) ∧
    (parseREV sampleHost {} none doc_obstruction).map
        (fun res => (res.ok, res.ctx.store.geometries.map
          (fun gn => (gn.geo.type, gn.geo.kind))))
      = some (true, [(some GeometryType.Obstruction, some GeometryKind.Box)]) := by
  have hv : Visits sampleHost {} none doc_obstruction _ :=
    ⟨"info\nnote\ndate\nuser\nMODL\n1 1\nproject\nmodel\nCNTB\n1 1\ngroup\n0 0 0\n0\nOBST\n1 1\n2\n1 0 0 0\n0 1 0 0\n0 0 1 0\n0 0 0\n1 1 1\n1 1 1\nCNTE\n1 1\nEND:\n1 1\n".toList,
      by decide, by decide,
      (Relation.ReflTransGen.single
        (Next.modl _
          "MODL\n1 1\nproject\nmodel\nCNTB\n1 1\ngroup\n0 0 0\n0\nOBST\n1 1\n2\n1 0 0 0\n0 1 0 0\n0 0 1 0\n0 0 0\n1 1 1\n1 1 1\nCNTE\n1 1\nEND:\n1 1\n".toList
          "project\nmodel\nCNTB\n1 1\ngroup\n0 0 0\n0\nOBST\n1 1\n2\n1 0 0 0\n0 1 0 0\n0 0 1 0\n0 0 0\n1 1 1\n1 1 1\nCNTE\n1 1\nEND:\n1 1\n".toList
          (by decide) (by decide))).tail
        (Next.group_enter Level.root _
          "CNTB\n1 1\ngroup\n0 0 0\n0\nOBST\n1 1\n2\n1 0 0 0\n0 1 0 0\n0 0 1 0\n0 0 0\n1 1 1\n1 1 1\nCNTE\n1 1\nEND:\n1 1\n".toList
          "group\n0 0 0\n0\nOBST\n1 1\n2\n1 0 0 0\n0 1 0 0\n0 0 1 0\n0 0 0\n1 1 1\n1 1 1\nCNTE\n1 1\nEND:\n1 1\n".toList
          (by decide) (by decide))⟩
  exact ⟨classification_follows_identifier sampleHost {} none doc_obstruction _ "OBST".toList
    "2\n1 0 0 0\n0 1 0 0\n0 0 1 0\n0 0 0\n1 1 1\n1 1 1\nCNTE\n1 1\nEND:\n1 1\n".toList
    "\n1 0 0 0\n0 1 0 0\n0 0 1 0\n0 0 0\n1 1 1\n1 1 1\nCNTE\n1 1\nEND:\n1 1\n".toList
    2 hv rfl (by decide) (Or.inr (Or.inl rfl)) (by decide),
    by decide⟩

/-- The claim C22 as the spec has it fails: `read_u32` is `strtoul`, which
takes a sign. At ` +5`, with 7 in the output, the call returns true with the
value 5 and the cursor after the digit; `-0` gives 0; and where
`unsigned long` has 32 bits (`ULONG_MAX = 2^32 - 1`), digits of a value above
`2^32 - 1` and `-1` are both accepted with the value `2^32 - 1`. -/
theorem read_u32_takes_sign :
    read_u32_ref sampleHost 7 " +5\n".toList = (true, 5, "\n".toList) ∧
    read_u32_ref sampleHost 7 "-0".toList = (true, 0, []) ∧
    read_u32_ref { sampleHost with ulongMax := 4294967295 } 7 "99999999999 ".toList
      = (true, 4294967295, " ".toList) ∧
    read_u32_ref { sampleHost with ulongMax := 4294967295 } 7 "-1".toList
      = (true, 4294967295, []) := by
  decide

/-- C22, amended. `read_u32` accepts what `strtoul` converts in base 10 to a
value of at most `2^32 - 1`: after skipping white space it succeeds exactly
when the cursor is at an optional sign `+` or `-` followed by a non-empty run
of decimal digits (that no digit follows) for which the `unsigned long` of
`strtoul` (the value of the digits, `ULONG_MAX` when that is larger, negated
modulo `ULONG_MAX + 1` after a `-`) is at most `2^32 - 1`; it then returns
that value and leaves the cursor immediately after the last digit. In every
other case (the next character is neither a digit nor a sign followed by one,
the buffer is exhausted, the `unsigned long` exceeds `2^32 - 1`) it returns
false and the output value is left unchanged. -/
theorem read_u32_accepts (H : Host F) (out : Nat) (p : Buf) :
    (∀ v q, read_u32_ref H out p = (true, v, q) ↔
      ∃ w s d, SignedText H.ulongMax p w s d q ∧
        v = strtoul_value H.ulongMax (s == ['-']) (decimalValue d)) ∧
    ((read_u32_ref H out p).1 = false ↔ ¬ ∃ w s d q, SignedText H.ulongMax p w s d q) ∧
    ((read_u32_ref H out p).1 = false → (read_u32_ref H out p).2.1 = out) ∧
    (∀ v q, read_u32_ref H out p = (true, v, q) ↔ read_u32 H p = some (v, q)) := by
  obtain ⟨h1, h2, h3⟩ := read_u32_ref_eq H out p
  refine ⟨fun v q => (h1 v q).trans (read_u32_iff H p v q), ?_, h3, h1⟩
  rw [h2]
  constructor
  · rintro hn ⟨w, s, d, q, hst⟩
    have := (read_u32_iff H p _ q).mpr ⟨w, s, d, hst, rfl⟩
    rw [hn] at this
    cases this
  · intro hn
    cases hr : read_u32 H p with
    | none => rfl
    | some x =>
      obtain ⟨v, q⟩ := x
      obtain ⟨w, s, d, hst, _⟩ := (read_u32_iff H p v q).mp hr
      exact absurd ⟨w, s, d, q, hst⟩ hn

/-- C23. `parse_cntb_txt` is stack-balanced: whenever it returns success the
parent stack is exactly what it was on entry. Consequently, on every successful
run of `parseREV` the parent stack is the File, or the File with a Model on it,
when the top-level loop ends (written top first: `[f]` or `[m, f]`), it is empty
after the final clean-up pops, and the warning of a stack that is not empty at
the end is never passed to the logger. -/
theorem stack_is_balanced (H : Host F) (store : Store F) (path : Option (List Char))
    (buf : Buf) :
    (∀ fuel ctx p r, parse_cntb_txt H fuel ctx p = some r → r.ok = true →
      r.ctx.stack = ctx.stack) ∧
    ∃ res, parseREV H store path buf = some res ∧
      (res.ok = true →
        ∃ p0 c f, read_chunk_header_txt H buf = some ("HEAD".toList, p0) ∧
          Result H ⟨Level.root, (parse_head_txt H { store := store, path := path } p0).ctx,
            (parse_head_txt H { store := store, path := path } p0).p⟩ ⟨true, c, res.p⟩ ∧
          c.store.kindOf f = some NodeKind.File ∧
          (c.stack = [f] ∨ ∃ m, c.stack = [m, f] ∧ c.store.kindOf m = some NodeKind.Model) ∧
          res.ctx = finish c ∧ res.ctx.stack = [] ∧
          (1, "parseREV: non-empty stack at end (ignored)".toList) ∉ res.ctx.logger) := by
  refine ⟨fun fuel ctx p r hr ho => ((cntb_grows H fuel).1 ctx p r hr).2 ho, ?_⟩
  obtain ⟨res, hres⟩ := parseREV_returns H store path buf
  refine ⟨res, hres, fun hok => ?_⟩
  obtain ⟨p0, c, hh, hho, hx, hfin⟩ := parseREV_ok_top_level H store path buf res hres hok
  obtain ⟨fuel, hf⟩ := hx
  simp only [run] at hf
  have hroot : RootStack (parse_head_txt H { store := store, path := path } p0).ctx := by
    obtain ⟨_, _, ⟨hf2, _, _⟩ | ⟨_, hn, hst⟩⟩ :=
      parse_head_txt_effect H { store := store, path := path } p0 _ rfl
    · rw [hho] at hf2; cases hf2
    · refine ⟨store.nodes.length, ?_, Or.inl hst⟩
      rw [kindOf_eq_shape, hn]
      have hl : store.nodeShape.length = store.nodes.length := by
        simp [Store.nodeShape]
      rw [← hl, List.getElem?_concat_length]
      rfl
  obtain ⟨hr2, hlog⟩ := top_level_root_stack H fuel _ _ _ hf hroot rfl
  obtain ⟨hs, hl⟩ := finish_root_stack c hr2
  obtain ⟨f, hk, hst⟩ := hr2
  refine ⟨p0, c, f, hh, ⟨fuel, hf⟩, hk, hst, hfin, by rw [hfin]; exact hs, ?_⟩
  rw [hfin, hl]
  intro hmem
  have hl0 : (parse_head_txt H { store := store, path := path } p0).ctx.logger = [] :=
    (parse_head_txt_effect H { store := store, path := path } p0 _ rfl).1
  rcases hlog _ hmem with hb | hb
  · rw [hl0] at hb
    cases hb
  · exact absurd hb (by decide)

/-- The claim C23 on the document with a group and the `END:` chunk: the run
succeeds, the top-level loop ends with the File alone on the stack (the `END:`
chunk has popped the Model), and the stack is empty at the end. -/
theorem stack_is_balanced_witness :
    (∀ fuel ctx p r, parse_cntb_txt sampleHost fuel ctx p = some r → r.ok = true →
      r.ctx.stack = ctx.stack) ∧
    ∃ res, parseREV sampleHost {} none doc_group_end = some res ∧ res.ok = true ∧
      res.ctx.stack = [] ∧ res.ctx.logger = [] := by
  obtain ⟨h1, res, hres, h2⟩ := stack_is_balanced sampleHost {} none doc_group_end
  have hd : (parseREV sampleHost {} none doc_group_end).map (fun r => (r.ok, r.ctx.logger))
      = some (true, []) := by decide
  rw [hres] at hd
  simp only [Option.map_some', Option.some.injEq, Prod.mk.injEq] at hd
  obtain ⟨_, _, _, _, _, _, _, _, hs, _⟩ := h2 hd.1
  exact ⟨h1, res, hres, hd.1, hs, hd.2⟩

/-- C24. The `END:` chunk is optional. For every buffer `pre ++ z` on which the
top-level loop of `parseREV` comes to the cursor `z` and reads there an `END:`
chunk header (so that `parseREV` succeeds), where the identifier line starts a
line of the buffer (`pre` ends with a line break), `parseREV` on the prefix
`pre` also succeeds and leaves the same context: the same Store with the node
tree, the geometries and the counts, the same logger and stack. In
particular a buffer that consists of a `HEAD` chunk header and its four lines
only parses successfully, with the File node as the only new node. The
`strtof` of the host is taken to stop at white space. -/
theorem end_chunk_is_optional (H : Host F) (hl : H.strtof_stops) (store : Store F)
    (path : Option (List Char)) :
    (∀ (pre z q : Buf) (ctx : Context F), pre.getLast? = some '\n' →
      Visits H store path (pre ++ z) ⟨Level.root, ctx, z⟩ →
      read_chunk_header_txt H z = some ("END:".toList, q) →
      ∃ r r', parseREV H store path (pre ++ z) = some r ∧
        parseREV H store path pre = some r' ∧
        r.ok = true ∧ r'.ok = true ∧ r'.ctx = r.ctx) ∧
    (∀ (buf p0 p1 p2 p3 : Buf) (a1 a2 a3 a4 : List Char),
      read_chunk_header_txt H buf = some ("HEAD".toList, p0) →
      LineAt p0 a1 p1 → LineAt p1 a2 p2 → LineAt p2 a3 p3 → LineAt p3 a4 [] →
      ∃ r, parseREV H store path buf = some r ∧ r.ok = true ∧
        r.ctx.store.nodes = store.nodes ++
          [{ kind := NodeKind.File, parent := none,
             file := ⟨a1, a2, a3, a4, [], path.getD []⟩,
             group := { transparency := H.defaultTransparency store.nodes.length } }]) := by
  constructor
  · intro pre z q ctx hpre hv hh
    obtain ⟨c0, cs0, hz⟩ := header_ne_nil H _ _ _ hh
    obtain ⟨S, hR, hP, hn, hL⟩ := tail_simulation H hl z [] True
      (fun _ => ⟨by rw [hz]; simp, fun c r e => by cases e⟩)
    have hpre' : pre = pre.dropLast ++ ['\n'] := (List.dropLast_append_getLast? _ hpre).symm
    have hRB : S.R (pre ++ z) pre := by
      rw [hR]
      left
      refine ⟨pre.dropLast, ?_, hpre'⟩
      nth_rewrite 1 [hpre']
      simp
    have hnp : ¬ S.P z := by
      rw [hP]
      unfold TailP
      simp
    obtain ⟨s', hv', hrel, _⟩ := S.visits_sim hn store path (pre ++ z) pre _ hv hRB hnp
    obtain ⟨l', c', p'⟩ := s'
    obtain ⟨e1, e2, e3⟩ := hrel
    simp only at e1 e2 e3
    subst e1
    have ec := S.cx_eq e2 hL
    subst ec
    rw [hR] at e3
    have ep : p' = [] := by
      rcases e3 with ⟨u, e4, _⟩ | ⟨_, _, e5⟩
      · have := congrArg List.length e4
        simp only [List.length_append, List.length_cons] at this
        omega
      · exact e5
    subst ep
    have r1 := parseREV_of_visits_root H store path (pre ++ z) _ hv rfl _
      (result_end H c' _ _ hh)
    have r2 := parseREV_of_visits_root H store path pre _ hv' rfl _ (result_nil H c')
    simp only [if_true] at r1 r2
    refine ⟨_, _, r1, r2, rfl, rfl, ?_⟩
    have s1 := (parseREV_stack_empty H store path _ _ r1 rfl).1
    have s2 := (parseREV_stack_empty H store path _ _ r2 rfl).1
    simp only at s1 s2 ⊢
    have f1 := finish_fields _ s1
    have f2 := finish_fields _ s2
    have k := pop_if_kind_fields c' NodeKind.Model
    refine context_ext _ _ ?_ ?_ ?_ ?_
    · rw [finish_store, finish_store, k.1]
    · rw [f1.1, f2.1, k.2.1]
    · rw [f1.2, f2.2, k.2.2]
    · rw [s1, s2]
  · intro buf p0 p1 p2 p3 a1 a2 a3 a4 hh l1 l2 l3 l4
    have g1 := read_line_of_lineAt _ _ _ l1
    have g2 := read_line_of_lineAt _ _ _ l2
    have g3 := read_line_of_lineAt _ _ _ l3
    have g4 := read_line_of_lineAt _ _ _ l4
    obtain ⟨ho, hn⟩ := parse_head_txt_lines H { store := store, path := path } p0 p1 p2 p3 []
      a1 a2 a3 a4 rfl g1 g2 g3 g4
    have hp := parse_head_txt_lines_p H { store := store, path := path } p0 p1 p2 p3 []
      a1 a2 a3 a4 rfl g1 g2 g3 g4
    have hx : Result H ⟨Level.root, (parse_head_txt H { store := store, path := path } p0).ctx,
        (parse_head_txt H { store := store, path := path } p0).p⟩
        ⟨true, (parse_head_txt H { store := store, path := path } p0).ctx, []⟩ := by
      rw [hp]
      exact result_nil H _
    have r1 := parseREV_of_result H store path buf p0 hh ho _ hx
    simp only [if_true] at r1
    refine ⟨_, r1, rfl, ?_⟩
    simp only
    rw [finish_store]
    exact hn

/-- The claim C24 on the document of a `HEAD`, a `MODL` and the `END:` chunk,
and on the document of a `HEAD` chunk only. -/
theorem end_chunk_is_optional_witness :
    (∃ r r', parseREV sampleHost {} none doc_model_end = some r ∧
      parseREV sampleHost {} none doc_model_no_end = some r' ∧
      r.ok = true ∧ r'.ok = true ∧ r'.ctx = r.ctx) ∧
    (∃ r, parseREV sampleHost {} none doc_head_only = some r ∧ r.ok = true ∧
      r.ctx.store.nodes =
        [{ kind := NodeKind.File, parent := none,
           file := ⟨"info".toList, "note".toList, "date".toList, "user".toList, [], []⟩,
           group := { transparency := 0 } }]) :=
  ⟨(end_chunk_is_optional sampleHost sampleHost_stops {} none).1
      doc_model_no_end "END:\n1 1\n".toList [] _ (by decide)
      ⟨"info\nnote\ndate\nuser\nMODL\n1 1\nproject\nmodel\nEND:\n1 1\n".toList,
        by decide, by decide,
        Relation.ReflTransGen.single
          (Next.modl _ "MODL\n1 1\nproject\nmodel\nEND:\n1 1\n".toList
            "project\nmodel\nEND:\n1 1\n".toList (by decide) (by decide))⟩
      (by decide),
    (end_chunk_is_optional sampleHost sampleHost_stops {} none).2
      doc_head_only "info\nnote\ndate\nuser\n".toList "note\ndate\nuser\n".toList
      "date\nuser\n".toList "user\n".toList "info".toList "note".toList "date".toList
      "user".toList (by decide)
      (LineAt.lf "info".toList _ (by decide) (by decide))
      (LineAt.lf "note".toList _ (by decide) (by decide))
      (LineAt.lf "date".toList _ (by decide) (by decide))
      (LineAt.lf "user".toList _ (by decide) (by decide))⟩

/-- C25 fails on the code where it says that the cursor never passes the end
of the buffer. `parseREV` is called with the first 8 bytes of a memory that
holds `HEAD`, a line break and `1 12`, a line break: the buffer is `HEAD`, a
line break, `1 1`, and the byte at `end` is the digit 2. The header line is
read inside the buffer; the first `read_u32` reads 1 and leaves the cursor
inside the buffer; the second `read_u32` finds the span not empty, and
`strtoul`, which is not given `end`, converts `12`: the value is 12 and the
cursor is left one byte past `end`. A scan that ends at `end` reads 1. -/
theorem cursor_passes_end :
    read_line "HEAD\n1 1".toList = some ("HEAD".toList, "1 1".toList) ∧
    read_u32_mem sampleHost "1 1".toList "2\n".toList = some (1, " 1".toList ++ "2\n".toList) ∧
    read_u32_mem sampleHost " 1".toList "2\n".toList = some (12, "\n".toList) ∧
    "\n".toList.length < "2\n".toList.length ∧
    read_u32 sampleHost " 1".toList = some (1, []) := by
  decide

end RvmParser
